import Mathlib

/-!
Lexical and syntax analyzer of the teaching language (`lexer.go`, `syntax.go`)

A shallow embedding of the two Go source files and the properties of the
specification proved (or refuted) about them.

* Strings are Lean `String`s; a `strings.Builder` is the list of runes written so far.
* Go `int` is `Int` (no input is long enough to overflow 64 bits).
* `map[string]bool` that is only ever set to `true` is the list of its keys.
* A Go method that mutates its receiver and returns `error` becomes a function from the
  receiver to a result that carries the receiver after the call.
* Recursion and loops of the parser are bounded by a `fuel` argument (the depth of calls and
  loop iterations); the loop of the lexer is bounded in the same way.
-/

set_option autoImplicit false

/-! ## Tokens (`lexer.go`, lines 12-44) -/

/-- Kinds of tokens: `TokenType` of `lexer.go`. -/
inductive TokenType
  | Keyword
  | Operator
  | Delimiter
  | Identifier
  | Number
  | EOF
  deriving DecidableEq, Repr

/-- A token: `Token` of `lexer.go` (field `Type` is written `Typ`). -/
structure Token where
  Typ : TokenType
  Lexeme : String
  LineNum : Int
  ColNum : Int
  deriving DecidableEq, Repr

/-! ## Classification of runes and lexemes (`lexer.go`, lines 31-90) -/

/-- What Go's package `unicode` says about the code points above ASCII: the members of
`White_Space`, of the letter categories and of the decimal digit category. The three classes
are pairwise disjoint, as Unicode categories are. -/
structure UnicodeTables where
  space : Char → Bool
  letter : Char → Bool
  digit : Char → Bool
  letter_not_space : ∀ c, letter c = true → space c = false
  digit_not_space : ∀ c, digit c = true → space c = false
  letter_not_digit : ∀ c, letter c = true → digit c = false

/-- Function `unicode.IsSpace`: in ASCII the runes tab, line feed, vertical tab, form feed,
carriage return and space. -/
def unicode.IsSpace (U : UnicodeTables) (c : Char) : Bool :=
  if c.toNat < 128 then (9 ≤ c.toNat ∧ c.toNat ≤ 13) ∨ c.toNat = 32 else U.space c

/-- Function `unicode.IsLetter`: in ASCII the runes `A`-`Z` and `a`-`z`. -/
def unicode.IsLetter (U : UnicodeTables) (c : Char) : Bool :=
  if c.toNat < 128 then (65 ≤ c.toNat ∧ c.toNat ≤ 90) ∨ (97 ≤ c.toNat ∧ c.toNat ≤ 122)
  else U.letter c

/-- Function `unicode.IsDigit`: in ASCII the runes `0`-`9`. -/
def unicode.IsDigit (U : UnicodeTables) (c : Char) : Bool :=
  if c.toNat < 128 then 48 ≤ c.toNat ∧ c.toNat ≤ 57 else U.digit c

/-- The part of Go's tables in Latin-1: the spaces U+0085 and U+00A0, the letters U+00AA,
U+00B5, U+00BA, U+00C0-U+00D6, U+00D8-U+00F6, U+00F8-U+00FF, no digit. -/
def unicode.latin1 : UnicodeTables where
  space c := c.toNat = 133 ∨ c.toNat = 160
  letter c := c.toNat = 170 ∨ c.toNat = 181 ∨ c.toNat = 186 ∨ (192 ≤ c.toNat ∧ c.toNat ≤ 214) ∨
    (216 ≤ c.toNat ∧ c.toNat ≤ 246) ∨ (248 ≤ c.toNat ∧ c.toNat ≤ 255)
  digit _ := false
  letter_not_space c h := by
    simp only [decide_eq_true_eq, decide_eq_false_iff_not] at h ⊢
    omega
  digit_not_space c h := by simp at h
  letter_not_digit c _ := rfl

/-- Width in bytes of the UTF-8 encoding of a rune: the `size` returned by `ReadRune`. -/
def runeSize (c : Char) : Int :=
  if c.toNat < 128 then 1 else if c.toNat < 2048 then 2 else if c.toNat < 65536 then 3 else 4

/-- Regular expressions, as far as the patterns of `isNumber` use them. -/
inductive Regex
  /-- No string. -/
  | none
  /-- The empty string. -/
  | eps
  /-- One rune of a class, given as a list of ranges. -/
  | cls (ranges : List (Char × Char))
  /-- Concatenation. -/
  | seq (a b : Regex)
  /-- Alternative. -/
  | alt (a b : Regex)
  /-- Repetition `*`. -/
  | star (a : Regex)
  deriving DecidableEq, Repr

namespace Regex

/-- One rune. -/
def chr (c : Char) : Regex := cls [(c, c)]

/-- Repetition `+`. -/
def plus (a : Regex) : Regex := seq a (star a)

/-- Option `?`. -/
def opt (a : Regex) : Regex := alt a eps

/-- Whether a rune is in a class. -/
def inClass (ranges : List (Char × Char)) (c : Char) : Bool :=
  ranges.any fun r => r.1.toNat ≤ c.toNat ∧ c.toNat ≤ r.2.toNat

/-- Whether the expression matches the empty string. -/
def nullable : Regex → Bool
  | none => false
  | eps => true
  | cls _ => false
  | seq a b => a.nullable && b.nullable
  | alt a b => a.nullable || b.nullable
  | star _ => true

/-- Derivative: the expression of what may follow the rune `c`. -/
def deriv (c : Char) : Regex → Regex
  | none => none
  | eps => none
  | cls ranges => if inClass ranges c then eps else none
  | seq a b => if a.nullable then alt (seq (a.deriv c) b) (b.deriv c) else seq (a.deriv c) b
  | alt a b => alt (a.deriv c) (b.deriv c)
  | star a => seq (a.deriv c) (star a)

/-- Whether the whole list of runes matches the expression: `regexp.MatchString` for a
pattern anchored by `^` and `$`. -/
def matchString (r : Regex) : List Char → Bool
  | [] => r.nullable
  | c :: s => matchString (r.deriv c) s

/-- Whether a rune is in one of the classes of the expression. -/
def alphabet (r : Regex) (c : Char) : Bool :=
  match r with
  | none => false
  | eps => false
  | cls ranges => inClass ranges c
  | seq a b => a.alphabet c || b.alphabet c
  | alt a b => a.alphabet c || b.alphabet c
  | star a => a.alphabet c

/-- Expressions that visibly match no string. -/
def dead : Regex → Bool
  | none => true
  | eps => false
  | cls _ => false
  | seq a b => a.dead || b.dead
  | alt a b => a.dead && b.dead
  | star _ => false

end Regex

/-- List `keyWords` (lines 32-35). -/
def keyWords : List String :=
  ["or", "and", "not", "program", "var", "begin", "end", "int", "float", "bool", "as", "if",
   "else", "then", "for", "to", "do", "while", "read", "write", "true", "false"]

/-- List `operators` (lines 37-40). -/
def operators : List String :=
  ["NE", "EQ", "LT", "LE", "GT", "GE", "plus", "min", "or", "mult", "div", "and", "~"]

/-- List `delimiters` (lines 42-44). -/
def delimiters : List String :=
  [";", ":", ",", "(", ")", ".", "=", "\x7b", "\x7d", "[", "]"]

/-- The class `\d` of Go regular expressions: the ASCII digits. -/
def reDigit : Regex := .cls [('0', '9')]

/-- The six patterns of `isNumber` (lines 48-55). -/
def isNumber.patterns : List Regex :=
  [ .seq reDigit.plus (Regex.chr 'd').opt,
    .seq reDigit.star (.seq (.chr '.') (.seq reDigit.plus
      (Regex.seq (.chr 'e') (.seq (Regex.cls [('-', '-'), ('+', '+')]).opt reDigit.plus)).opt)),
    .seq reDigit.plus (.seq (.chr 'e') (.seq (Regex.cls [('-', '-'), ('+', '+')]).opt reDigit.plus)),
    .seq (Regex.cls [('0', '1')]).plus (.chr 'b'),
    .seq (Regex.cls [('0', '7')]).plus (.chr 'o'),
    .seq (Regex.cls [('0', '9'), ('a', 'f'), ('A', 'F')]).plus (.chr 'h') ]

/-- Function `isNumber` (lines 47-63). -/
def isNumber (s : String) : Bool :=
  isNumber.patterns.any fun pattern => pattern.matchString s.data

/-- Function `isKeyword` (lines 65-72). -/
def isKeyword (s : String) : Bool :=
  keyWords.any fun kw => s = kw

/-- Function `isOperator` (lines 74-81). -/
def isOperator (s : String) : Bool :=
  operators.any fun op => s = op

/-- Function `isDelimiter` (lines 83-90). -/
def isDelimiter (c : Char) : Bool :=
  delimiters.any fun d => String.singleton c = d

/-! ## The lexer (`lexer.go`, lines 92-260) -/

/-- The errors `Lexer` returns, one constructor per message format, carrying the values
that are formatted into the message. Errors of the reader other than end of input do not
occur: the input is a list of runes. -/
inductive LexError
  /-- Message "lexical error in line, column: malformed number". -/
  | malformedNumber (line col : Int) (lexeme : String)
  /-- Message "unknown operator ... in line, column". -/
  | unknownOperator (lexeme : String) (line col : Int)
  /-- Message "malformed comment: expected `}`". -/
  | unterminatedComment
  /-- Message "unknown character ... in line, column". -/
  | unknownCharacter (ch : Char) (line col : Int)
  deriving DecidableEq, Repr

/-- What `Lexer` returns: the tokens, or the error; `outOfFuel` when the bound on the number
of loop iterations was reached. -/
inductive LexResult
  | tokens (ts : List Token)
  | error (e : LexError)
  | outOfFuel
  deriving DecidableEq, Repr

/-- Values of the variable `state` of `Lexer`. -/
inductive LexerState
  | H
  | ID
  | NUM
  | OP
  deriving DecidableEq, Repr

/-- The local variables of `Lexer`; `bufReader` holds the runes not read yet and `sb` the
runes written to the builder. -/
structure LexerVars where
  tokens : List Token
  lineNum : Int
  colNum : Int
  bufReader : List Char
  sb : List Char
  state : LexerState
  deriving DecidableEq, Repr

/-- Outcome of one iteration of the loop of `Lexer`: go on with new values of the variables,
or leave the function. -/
inductive LexerStep
  | next (v : LexerVars)
  | done (r : LexResult)
  deriving DecidableEq, Repr

/-- The comment loop (lines 153-167): reads up to and including the next `}`; gives the
runes left, the line and the column, or nothing when the input ends first. -/
def Lexer.skipComment : List Char → Int → Int → Option (List Char × Int × Int)
  | [], _, _ => none
  | ch :: rd, lineNum, colNum =>
    if ch = '}' then some (rd, lineNum, colNum)
    else if ch = '\n' then Lexer.skipComment rd (lineNum + 1) 0
    else Lexer.skipComment rd lineNum (colNum + runeSize ch)

/-- End of input (lines 104-129): the lexeme under construction is finished. -/
def Lexer.atEOF (v : LexerVars) : LexResult :=
  match v.state with
  | .ID =>
    let lexeme := String.mk v.sb
    if isKeyword lexeme then
      .tokens (v.tokens ++ [⟨.Keyword, lexeme, v.lineNum, v.colNum - lexeme.length + 1⟩])
    else if isOperator lexeme then
      .tokens (v.tokens ++ [⟨.Operator, lexeme, v.lineNum, v.colNum - lexeme.length + 1⟩])
    else
      .tokens (v.tokens ++ [⟨.Identifier, lexeme, v.lineNum, v.colNum - lexeme.length + 1⟩])
  | .NUM =>
    let lexeme := String.mk v.sb
    if isNumber lexeme then
      .tokens (v.tokens ++ [⟨.Number, lexeme, v.lineNum, v.colNum - lexeme.length + 1⟩])
    else
      .error (.malformedNumber v.lineNum (v.colNum - lexeme.length + 1) lexeme)
  | .OP =>
    let lexeme := String.mk v.sb
    if isOperator lexeme then
      .tokens (v.tokens ++ [⟨.Operator, lexeme, v.lineNum, v.colNum⟩])
    else
      .error (.unknownOperator lexeme v.lineNum v.colNum)
  | .H => .tokens v.tokens

/-- Case `"H"` of the switch (lines 137-176), entered with `colNum` already advanced and
`rd` the runes after `ch`. -/
def Lexer.caseH (U : UnicodeTables) (ch : Char) (rd : List Char) (v : LexerVars) : LexerStep :=
  if unicode.IsSpace U ch then
    if ch = '\n' then .next { v with bufReader := rd, lineNum := v.lineNum + 1, colNum := 0 }
    else .next { v with bufReader := rd }
  else if unicode.IsLetter U ch then
    .next { v with bufReader := rd, sb := v.sb ++ [ch], state := .ID }
  else if unicode.IsDigit U ch then
    .next { v with bufReader := rd, sb := v.sb ++ [ch], state := .NUM }
  else if isDelimiter ch then
    if ch = '{' then
      match Lexer.skipComment rd v.lineNum v.colNum with
      | none => .done (.error .unterminatedComment)
      | some (rd, lineNum, colNum) =>
        .next { v with bufReader := rd, lineNum := lineNum, colNum := colNum }
    else
      .next { v with bufReader := rd,
                     tokens := v.tokens ++ [⟨.Delimiter, String.singleton ch, v.lineNum, v.colNum⟩] }
  else if isOperator (String.singleton ch) then
    .next { v with bufReader := rd, sb := v.sb ++ [ch], state := .OP }
  else
    .done (.error (.unknownCharacter ch v.lineNum v.colNum))

/-- Case `"ID"` of the switch (lines 177-193). -/
def Lexer.caseID (U : UnicodeTables) (ch : Char) (rd : List Char) (v : LexerVars) : LexerStep :=
  if unicode.IsLetter U ch ∨ unicode.IsDigit U ch then
    .next { v with bufReader := rd, sb := v.sb ++ [ch] }
  else
    let lexeme := String.mk v.sb
    let typ : TokenType :=
      if isKeyword lexeme then .Keyword else if isOperator lexeme then .Operator else .Identifier
    .next { v with tokens := v.tokens ++ [⟨typ, lexeme, v.lineNum, v.colNum - lexeme.length⟩],
                   sb := [], state := .H, bufReader := ch :: rd,
                   colNum := v.colNum - runeSize ch }

/-- Case `"NUM"` of the switch (lines 194-214). -/
def Lexer.caseNUM (U : UnicodeTables) (ch : Char) (rd : List Char) (v : LexerVars) : LexerStep :=
  if unicode.IsDigit U ch ∨ ch = '.' ∨ ch = 'e' ∨ ch = 'E' ∨ ch = '+' ∨ ch = '-' ∨
      ch = 'b' ∨ ch = 'o' ∨ ch = 'h' ∨ ch = 'd' ∨
      ('a' ≤ ch ∧ ch ≤ 'f') ∨ ('A' ≤ ch ∧ ch ≤ 'F') then
    .next { v with bufReader := rd, sb := v.sb ++ [ch] }
  else
    let lexeme := String.mk v.sb
    if isNumber lexeme then
      if unicode.IsLetter U ch ∨ unicode.IsDigit U ch then
        .done (.error (.malformedNumber v.lineNum (v.colNum - lexeme.length)
          (lexeme ++ String.singleton ch)))
      else
        .next { v with tokens := v.tokens ++ [⟨.Number, lexeme, v.lineNum, v.colNum - lexeme.length⟩],
                       sb := [], state := .H, bufReader := ch :: rd,
                       colNum := v.colNum - runeSize ch }
    else
      .done (.error (.malformedNumber v.lineNum (v.colNum - lexeme.length) lexeme))

/-- Case `"OP"` of the switch (lines 216-255). -/
def Lexer.caseOP (ch : Char) (rd : List Char) (v : LexerVars) : LexerStep :=
  let size := runeSize ch
  let lexeme := String.mk v.sb
  if isOperator lexeme then
    .next { v with tokens := v.tokens ++ [⟨.Operator, lexeme, v.lineNum, v.colNum - size + 1⟩],
                   sb := [], state := .H, bufReader := ch :: rd, colNum := v.colNum - size }
  else
    match rd with
    | chNext :: rd =>
      let lexeme := String.mk (v.sb ++ [chNext])
      if isOperator lexeme then
        .next { v with bufReader := rd, sb := [], state := .H,
                       tokens := v.tokens ++
                         [⟨.Operator, lexeme, v.lineNum, v.colNum - lexeme.length + 1⟩] }
      else
        let colNum := v.colNum - runeSize chNext
        .next { v with bufReader := chNext :: rd, sb := [ch], state := .H, colNum := colNum,
                       tokens := v.tokens ++
                         [⟨.Operator, String.singleton ch, v.lineNum, colNum - size + 1⟩] }
    | [] =>
      if isOperator lexeme then
        .next { v with bufReader := [], sb := [], state := .H,
                       tokens := v.tokens ++ [⟨.Operator, lexeme, v.lineNum, v.colNum - size + 1⟩] }
      else
        .done (.error (.unknownOperator lexeme v.lineNum (v.colNum - lexeme.length + 1)))

/-- One iteration of the loop of `Lexer` (lines 101-257). -/
def Lexer.iteration (U : UnicodeTables) (v : LexerVars) : LexerStep :=
  match v.bufReader with
  | [] => .done (Lexer.atEOF v)
  | ch :: rd =>
    let v := { v with colNum := v.colNum + runeSize ch }
    match v.state with
    | .H => Lexer.caseH U ch rd v
    | .ID => Lexer.caseID U ch rd v
    | .NUM => Lexer.caseNUM U ch rd v
    | .OP => Lexer.caseOP ch rd v

/-- The loop of `Lexer`, at most `fuel` iterations. -/
def Lexer.loop (U : UnicodeTables) : Nat → LexerVars → LexResult
  | 0, _ => .outOfFuel
  | fuel + 1, v =>
    match Lexer.iteration U v with
    | .next v => Lexer.loop U fuel v
    | .done r => r

/-- The values of the variables when the loop of `Lexer` is entered (lines 94-100). -/
def Lexer.init (reader : List Char) : LexerVars :=
  { tokens := [], lineNum := 1, colNum := 0, bufReader := reader, sb := [], state := .H }

/-- Function `Lexer` (lines 93-260) on the runes of the input. A rune is read at most twice
(once more after `UnreadRune`), so the loop makes at most `2 * length + 1` iterations. -/
def Lexer (U : UnicodeTables) (reader : List Char) : LexResult :=
  Lexer.loop U (2 * reader.length + 2) (Lexer.init reader)

/-! ## The parser (`syntax.go`) -/

/-- Parser state: `Syntax` of `syntax.go`; `vars` lists the keys of the Go map. -/
structure Syntax where
  tokens : List Token
  pos : Nat
  vars : List String
  deriving DecidableEq, Repr

/-- The errors built with `fmt.Errorf` in `syntax.go`, one constructor per message format,
carrying the values that are formatted into the message. -/
inductive SyntaxError
  /-- Message of `matchToken`: expected kind and lexeme, then the token met. -/
  | expected (expectedType : TokenType) (expectedLexeme : String) (got : Token)
  /-- Message "identifier expected" of `parseDeclaration`. -/
  | expectedIdentifier (got : Token)
  /-- Message "variable already declared": lexeme, line, column. -/
  | alreadyDeclared (lexeme : String) (line col : Int)
  /-- Message "',' or ':' expected". -/
  | expectedCommaOrColon (got : Token)
  /-- Message "type 'int', 'float' or 'bool' expected". -/
  | expectedType (got : Token)
  /-- Message "';' expected". -/
  | expectedSemicolon (got : Token)
  /-- Message "';' or 'end' expected". -/
  | expectedSemicolonOrEnd (got : Token)
  /-- Message "unknown operator" of `parseOperation`: lexeme, line, column. -/
  | unknownOperator (lexeme : String) (line col : Int)
  /-- Message "operator expected" of `parseOperation`. -/
  | expectedOperator (got : Token)
  /-- Message "':' or ']' expected in a compound operator". -/
  | expectedColonOrBracket (got : Token)
  /-- Message "identifier expected in an assignment". -/
  | expectedIdentifierInAssignment (got : Token)
  /-- Message "undeclared variable": lexeme, line, column. -/
  | undeclaredVariable (lexeme : String) (line col : Int)
  /-- Message "identifier expected in read". -/
  | expectedIdentifierInRead (got : Token)
  /-- Message "',' or ')' expected". -/
  | expectedCommaOrParen (got : Token)
  /-- Message "factor expected". -/
  | expectedFactor (got : Token)
  deriving DecidableEq, Repr

/-- Result of a parser method: the receiver after the call, with the error if one was
returned; `outOfFuel` when the bound on the depth of calls was reached. -/
inductive Res
  | ok (p : Syntax)
  | fail (e : SyntaxError) (p : Syntax)
  | outOfFuel
  deriving DecidableEq, Repr

namespace Syntax

/-- Method `currentToken` (lines 14-19). -/
def currentToken (p : Syntax) : Token :=
  if h : p.pos < p.tokens.length then p.tokens.get ⟨p.pos, h⟩
  else { Typ := .EOF, Lexeme := "", LineNum := 0, ColNum := 0 }

/-- Method `nextToken` (lines 21-25). -/
def nextToken (p : Syntax) : Syntax :=
  if p.pos < p.tokens.length then { p with pos := p.pos + 1 } else p

/-- Method `matchToken` (lines 27-37). -/
def matchToken (p : Syntax) (expectedType : TokenType) (expectedLexeme : String) : Res :=
  let token := p.currentToken
  if token.Typ = expectedType ∧ token.Lexeme = expectedLexeme then
    .ok p.nextToken
  else
    .fail (.expected expectedType expectedLexeme token) p

end Syntax

/-- Function `isRelationOperator` (lines 468-474). -/
def isRelationOperator (op : String) : Bool :=
  op = "EQ" ∨ op = "NE" ∨ op = "LT" ∨ op = "LE" ∨ op = "GT" ∨ op = "GE"

/-- Function `isAdditionOperator` (lines 497-503). -/
def isAdditionOperator (op : String) : Bool :=
  op = "plus" ∨ op = "min" ∨ op = "or"

/-- Function `isMultiplicationOperator` (lines 526-532). -/
def isMultiplicationOperator (op : String) : Bool :=
  op = "mult" ∨ op = "div" ∨ op = "and"

namespace Syntax

/-- The `for` loop of `parseDeclaration` (lines 95-124): the list of declared names up to and
including the `:`. -/
def parseDeclaration.idents : Nat → Syntax → Res
  | 0, _ => .outOfFuel
  | fuel + 1, p =>
    let token := p.currentToken
    if token.Typ ≠ .Identifier then
      .fail (.expectedIdentifier token) p
    else if token.Lexeme ∈ p.vars then
      .fail (.alreadyDeclared token.Lexeme token.LineNum token.ColNum) p
    else
      let p := ({ p with vars := token.Lexeme :: p.vars } : Syntax).nextToken
      let token := p.currentToken
      if token.Typ = .Delimiter ∧ token.Lexeme = "," then
        parseDeclaration.idents fuel p.nextToken
      else if token.Typ = .Delimiter ∧ token.Lexeme = ":" then
        .ok p.nextToken
      else
        .fail (.expectedCommaOrColon token) p

/-- Method `parseDeclaration` (lines 94-145). -/
def parseDeclaration (fuel : Nat) (p : Syntax) : Res :=
  match parseDeclaration.idents fuel p with
  | .ok p =>
    let token := p.currentToken
    if token.Typ ≠ .Keyword ∨
        (token.Lexeme ≠ "int" ∧ token.Lexeme ≠ "float" ∧ token.Lexeme ≠ "bool") then
      .fail (.expectedType token) p
    else
      let p := p.nextToken
      let token := p.currentToken
      if token.Typ ≠ .Delimiter ∨ token.Lexeme ≠ ";" then
        .fail (.expectedSemicolon token) p
      else
        .ok p.nextToken
  | r => r

mutual

/-- Method `parseExpression` (lines 446-465). -/
def parseExpression : Nat → Syntax → Res
  | 0, _ => .outOfFuel
  | fuel + 1, p =>
    match parseOperand fuel p with
    | .ok p => parseExpression.loop fuel p
    | r => r

/-- The `for` loop of `parseExpression` (lines 455-462). -/
def parseExpression.loop : Nat → Syntax → Res
  | 0, _ => .outOfFuel
  | fuel + 1, p =>
    let token := p.currentToken
    if token.Typ = .Operator ∧ isRelationOperator token.Lexeme = true then
      match parseOperand fuel p.nextToken with
      | .ok p => parseExpression.loop fuel p
      | r => r
    else
      .ok p

/-- Method `parseOperand` (lines 477-494). -/
def parseOperand : Nat → Syntax → Res
  | 0, _ => .outOfFuel
  | fuel + 1, p =>
    match parseTerm fuel p with
    | .ok p => parseOperand.loop fuel p
    | r => r

/-- The `for` loop of `parseOperand` (lines 484-491). -/
def parseOperand.loop : Nat → Syntax → Res
  | 0, _ => .outOfFuel
  | fuel + 1, p =>
    let token := p.currentToken
    if token.Typ = .Operator ∧ isAdditionOperator token.Lexeme = true then
      match parseTerm fuel p.nextToken with
      | .ok p => parseOperand.loop fuel p
      | r => r
    else
      .ok p

/-- Method `parseTerm` (lines 506-523). -/
def parseTerm : Nat → Syntax → Res
  | 0, _ => .outOfFuel
  | fuel + 1, p =>
    match parseFactor fuel p with
    | .ok p => parseTerm.loop fuel p
    | r => r

/-- The `for` loop of `parseTerm` (lines 513-520). -/
def parseTerm.loop : Nat → Syntax → Res
  | 0, _ => .outOfFuel
  | fuel + 1, p =>
    let token := p.currentToken
    if token.Typ = .Operator ∧ isMultiplicationOperator token.Lexeme = true then
      match parseFactor fuel p.nextToken with
      | .ok p => parseTerm.loop fuel p
      | r => r
    else
      .ok p

/-- Method `parseFactor` (lines 535-570). -/
def parseFactor : Nat → Syntax → Res
  | 0, _ => .outOfFuel
  | fuel + 1, p =>
    let token := p.currentToken
    if token.Typ = .Operator ∧ token.Lexeme = "~" then
      parseFactor fuel p.nextToken
    else if token.Typ = .Delimiter ∧ token.Lexeme = "(" then
      match parseExpression fuel p.nextToken with
      | .ok p => p.matchToken .Delimiter ")"
      | r => r
    else if token.Typ = .Identifier then
      if token.Lexeme ∉ p.vars then
        .fail (.undeclaredVariable token.Lexeme token.LineNum token.ColNum) p
      else
        .ok p.nextToken
    else if token.Typ = .Number then
      .ok p.nextToken
    else if token.Typ = .Keyword ∧ (token.Lexeme = "true" ∨ token.Lexeme = "false") then
      .ok p.nextToken
    else
      .fail (.expectedFactor token) p

end

/-- Method `parseAssignment` (lines 242-267). -/
def parseAssignment (fuel : Nat) (p : Syntax) : Res :=
  let token := p.currentToken
  if token.Typ ≠ .Identifier then
    .fail (.expectedIdentifierInAssignment token) p
  else if token.Lexeme ∉ p.vars then
    .fail (.undeclaredVariable token.Lexeme token.LineNum token.ColNum) p
  else
    match p.nextToken.matchToken .Keyword "as" with
    | .ok p => parseExpression fuel p
    | r => r

/-- The `for` loop of `Syntaxead` (lines 379-404): the names of a `read` list up to and
including the `)`. -/
def Syntaxead.idents : Nat → Syntax → Res
  | 0, _ => .outOfFuel
  | fuel + 1, p =>
    let token := p.currentToken
    if token.Typ ≠ .Identifier then
      .fail (.expectedIdentifierInRead token) p
    else if token.Lexeme ∉ p.vars then
      .fail (.undeclaredVariable token.Lexeme token.LineNum token.ColNum) p
    else
      let p := p.nextToken
      let token := p.currentToken
      if token.Typ = .Delimiter ∧ token.Lexeme = "," then
        Syntaxead.idents fuel p.nextToken
      else if token.Typ = .Delimiter ∧ token.Lexeme = ")" then
        .ok p.nextToken
      else
        .fail (.expectedCommaOrParen token) p

/-- Method `Syntaxead` (lines 367-407), the parser of the `read` statement. -/
def Syntaxead (fuel : Nat) (p : Syntax) : Res :=
  match p.matchToken .Keyword "read" with
  | .ok p =>
    match p.matchToken .Delimiter "(" with
    | .ok p => Syntaxead.idents fuel p
    | r => r
  | r => r

/-- The `for` loop of `parseWrite` (lines 422-440): the expressions of a `write` list up to
and including the `)`. -/
def parseWrite.args : Nat → Syntax → Res
  | 0, _ => .outOfFuel
  | fuel + 1, p =>
    match parseExpression fuel p with
    | .ok p =>
      let token := p.currentToken
      if token.Typ = .Delimiter ∧ token.Lexeme = "," then
        parseWrite.args fuel p.nextToken
      else if token.Typ = .Delimiter ∧ token.Lexeme = ")" then
        .ok p.nextToken
      else
        .fail (.expectedCommaOrParen token) p
    | r => r

/-- Method `parseWrite` (lines 410-443). -/
def parseWrite (fuel : Nat) (p : Syntax) : Res :=
  match p.matchToken .Keyword "write" with
  | .ok p =>
    match p.matchToken .Delimiter "(" with
    | .ok p => parseWrite.args fuel p
    | r => r
  | r => r

mutual

/-- Method `parseOperation` (lines 178-209). -/
def parseOperation : Nat → Syntax → Res
  | 0, _ => .outOfFuel
  | fuel + 1, p =>
    let token := p.currentToken
    if token.Typ = .Keyword then
      if token.Lexeme = "if" then parseIf fuel p
      else if token.Lexeme = "for" then parseFor fuel p
      else if token.Lexeme = "while" then parseWhile fuel p
      else if token.Lexeme = "read" then Syntaxead fuel p
      else if token.Lexeme = "write" then parseWrite fuel p
      else if token.Lexeme = "begin" then parseCompositeOperation fuel p
      else .fail (.unknownOperator token.Lexeme token.LineNum token.ColNum) p
    else if token.Typ = .Identifier then
      parseAssignment fuel p
    else if token.Typ = .Delimiter ∧ token.Lexeme = "[" then
      parseCompositeOperation fuel p
    else
      .fail (.expectedOperator token) p

/-- Method `parseCompositeOperation` (lines 212-239). -/
def parseCompositeOperation : Nat → Syntax → Res
  | 0, _ => .outOfFuel
  | fuel + 1, p =>
    match p.matchToken .Delimiter "[" with
    | .ok p => parseCompositeOperation.loop fuel p
    | r => r

/-- The `for` loop of `parseCompositeOperation` (lines 219-236). -/
def parseCompositeOperation.loop : Nat → Syntax → Res
  | 0, _ => .outOfFuel
  | fuel + 1, p =>
    match parseOperation fuel p with
    | .ok p =>
      let token := p.currentToken
      if token.Typ = .Delimiter ∧ (token.Lexeme = ":" ∨ token.Lexeme = ";") then
        parseCompositeOperation.loop fuel p.nextToken
      else if token.Typ = .Delimiter ∧ token.Lexeme = "]" then
        .ok p.nextToken
      else
        .fail (.expectedColonOrBracket token) p
    | r => r

/-- Method `parseIf` (lines 270-302). -/
def parseIf : Nat → Syntax → Res
  | 0, _ => .outOfFuel
  | fuel + 1, p =>
    match p.matchToken .Keyword "if" with
    | .ok p =>
      match parseExpression fuel p with
      | .ok p =>
        match p.matchToken .Keyword "then" with
        | .ok p =>
          match parseOperation fuel p with
          | .ok p =>
            let token := p.currentToken
            if token.Typ = .Keyword ∧ token.Lexeme = "else" then
              parseOperation fuel p.nextToken
            else
              .ok p
          | r => r
        | r => r
      | r => r
    | r => r

/-- Method `parseFor` (lines 305-338). -/
def parseFor : Nat → Syntax → Res
  | 0, _ => .outOfFuel
  | fuel + 1, p =>
    match p.matchToken .Keyword "for" with
    | .ok p =>
      match parseAssignment fuel p with
      | .ok p =>
        match p.matchToken .Keyword "to" with
        | .ok p =>
          match parseExpression fuel p with
          | .ok p =>
            match p.matchToken .Keyword "do" with
            | .ok p => parseOperation fuel p
            | r => r
          | r => r
        | r => r
      | r => r
    | r => r

/-- Method `parseWhile` (lines 341-364). -/
def parseWhile : Nat → Syntax → Res
  | 0, _ => .outOfFuel
  | fuel + 1, p =>
    match p.matchToken .Keyword "while" with
    | .ok p =>
      match parseExpression fuel p with
      | .ok p =>
        match p.matchToken .Keyword "do" with
        | .ok p => parseOperation fuel p
        | r => r
      | r => r
    | r => r

end

/-- Method `parseOperations` (lines 148-175); the method is one `for` loop. -/
def parseOperations : Nat → Syntax → Res
  | 0, _ => .outOfFuel
  | fuel + 1, p =>
    let token := p.currentToken
    if token.Typ = .Keyword ∧ token.Lexeme = "end" then
      .ok p
    else
      match parseOperation fuel p with
      | .ok p =>
        let token := p.currentToken
        if token.Typ = .Delimiter ∧ token.Lexeme = ";" then
          parseOperations fuel p.nextToken
        else if token.Typ = .Keyword ∧ token.Lexeme = "end" then
          .ok p
        else
          .fail (.expectedSemicolonOrEnd token) p
      | r => r

/-- The `for` loop of `ParseProgram` (lines 54-64): declarations up to the keyword `begin`. -/
def ParseProgram.decls : Nat → Syntax → Res
  | 0, _ => .outOfFuel
  | fuel + 1, p =>
    match parseDeclaration fuel p with
    | .ok p =>
      let token := p.currentToken
      if token.Typ = .Keyword ∧ token.Lexeme = "begin" then
        .ok p
      else
        ParseProgram.decls fuel p
    | r => r

/-- Method `ParseProgram` (lines 40-91), with the bound on the depth of calls explicit. -/
def ParseProgram.run (fuel : Nat) (p : Syntax) : Res :=
  match p.matchToken .Keyword "program" with
  | .ok p =>
    match p.matchToken .Keyword "var" with
    | .ok p =>
      match ParseProgram.decls fuel p with
      | .ok p =>
        match p.matchToken .Keyword "begin" with
        | .ok p =>
          match parseOperations fuel p with
          | .ok p =>
            match p.matchToken .Keyword "end" with
            | .ok p => p.matchToken .Delimiter "."
            | r => r
          | r => r
        | r => r
      | r => r
    | r => r
  | r => r

/-- Method `ParseProgram` (lines 40-91). Every call and every loop iteration between two
advances of the cursor is one of at most eight nested ones, so the depth of calls never
exceeds the bound passed here. -/
def ParseProgram (p : Syntax) : Res :=
  ParseProgram.run (8 * p.tokens.length + 16) p

end Syntax

/-- The parser state `main` builds (line 34): cursor 0 and no declared name. -/
def Syntax.fresh (tokens : List Token) : Syntax :=
  { tokens := tokens, pos := 0, vars := [] }

/-! ## The two phases together (`main.go`, lines 22-40) -/

/-- What `main` learns from the two phases: the error of the lexer, or the tokens with the
result of the parser. -/
inductive Analysis
  | lexError (e : LexError)
  | parsed (tokens : List Token) (r : Res)
  | outOfFuel
  deriving DecidableEq, Repr

/-- The calls of `main` (lines 22-40): `Lexer`, then `ParseProgram` on a parser state with
cursor 0; printing is left out. -/
def analyze (U : UnicodeTables) (input : List Char) : Analysis :=
  match Lexer U input with
  | .error e => .lexError e
  | .tokens ts => .parsed ts (Syntax.fresh ts).ParseProgram
  | .outOfFuel => .outOfFuel

/-! ## Running the loop of the lexer without counting iterations -/

/-- Bound on the number of iterations left: two for each rune not read yet, one more while a
lexeme is under construction. -/
def Lexer.measure (v : LexerVars) : Nat :=
  2 * v.bufReader.length + (if v.state = .H then 0 else 1)

/-- The loop of `Lexer` from given values of the variables, with iterations to spare. -/
def Lexer.run (U : UnicodeTables) (v : LexerVars) : LexResult :=
  Lexer.loop U (Lexer.measure v + 1) v

/-! ## The grammar of section 4.2 of the specification -/

/-- The terminal `lexeme` as a token of kind Keyword. -/
def Token.isKw (t : Token) (lexeme : String) : Prop :=
  t.Typ = .Keyword ∧ t.Lexeme = lexeme

/-- The terminal `lexeme` as a token of kind Delimiter. -/
def Token.isDelim (t : Token) (lexeme : String) : Prop :=
  t.Typ = .Delimiter ∧ t.Lexeme = lexeme

/-- The terminal `lexeme` as a token of kind Operator. -/
def Token.isOp (t : Token) (lexeme : String) : Prop :=
  t.Typ = .Operator ∧ t.Lexeme = lexeme

/-- Terminal `Ident`: a token of kind Identifier. -/
def Token.isIdent (t : Token) : Prop :=
  t.Typ = .Identifier

/-- Terminal `Number`: a token of kind Number. -/
def Token.isNum (t : Token) : Prop :=
  t.Typ = .Number

/-- Terminals of `Type := "int" | "float" | "bool"`. -/
def Token.isTypeName (t : Token) : Prop :=
  t.isKw "int" ∨ t.isKw "float" ∨ t.isKw "bool"

/-- Terminals of `RelOp = {EQ, NE, LT, LE, GT, GE}`. -/
def Token.isRelOp (t : Token) : Prop :=
  t.isOp "EQ" ∨ t.isOp "NE" ∨ t.isOp "LT" ∨ t.isOp "LE" ∨ t.isOp "GT" ∨ t.isOp "GE"

/-- Terminals of `AddOp = {plus, min, or}`. -/
def Token.isAddOp (t : Token) : Prop :=
  t.isOp "plus" ∨ t.isOp "min" ∨ t.isOp "or"

/-- Terminals of `MulOp = {mult, div, and}`. -/
def Token.isMulOp (t : Token) : Prop :=
  t.isOp "mult" ∨ t.isOp "div" ∨ t.isOp "and"

/-- Nonterminals of the grammar. Besides those the specification names there is one for each
repetition: `Decls` is `Decl+`, `Idents` is `Ident ("," Ident)*`, `Exprs` is
`Expr ("," Expr)*`, `CompoundRest` is `((":" | ";") Stmt)*`, `ExprRest` is `(RelOp Operand)*`,
`OperandRest` is `(AddOp Term)*` and `TermRest` is `(MulOp Factor)*`. -/
inductive NT
  | Program | Decls | Decl | Idents | Stmts | Stmt | Compound | CompoundRest
  | Assign | If | For | While | Read | Write | Exprs
  | Expr | ExprRest | Operand | OperandRest | Term | TermRest | Factor
  deriving DecidableEq, Repr

/-- Derivability of a list of tokens from a nonterminal of the grammar of section 4.2, one
constructor for each alternative of each production. -/
inductive Derives : NT → List Token → Prop
  | program {kp kv kb ke dot : Token} {decls stmts : List Token} :
      kp.isKw "program" → kv.isKw "var" → Derives .Decls decls → kb.isKw "begin" →
      Derives .Stmts stmts → ke.isKw "end" → dot.isDelim "." →
      Derives .Program (kp :: kv :: decls ++ kb :: stmts ++ [ke, dot])
  | declsOne {d : List Token} : Derives .Decl d → Derives .Decls d
  | declsMore {d ds : List Token} : Derives .Decl d → Derives .Decls ds → Derives .Decls (d ++ ds)
  | decl {ids : List Token} {colon ty semi : Token} :
      Derives .Idents ids → colon.isDelim ":" → ty.isTypeName → semi.isDelim ";" →
      Derives .Decl (ids ++ [colon, ty, semi])
  | identsOne {i : Token} : i.isIdent → Derives .Idents [i]
  | identsMore {i comma : Token} {ids : List Token} :
      i.isIdent → comma.isDelim "," → Derives .Idents ids → Derives .Idents (i :: comma :: ids)
  | stmtsOne {s : List Token} : Derives .Stmt s → Derives .Stmts s
  | stmtsMore {s ss : List Token} {semi : Token} :
      Derives .Stmt s → semi.isDelim ";" → Derives .Stmts ss → Derives .Stmts (s ++ semi :: ss)
  | stmtIf {s : List Token} : Derives .If s → Derives .Stmt s
  | stmtFor {s : List Token} : Derives .For s → Derives .Stmt s
  | stmtWhile {s : List Token} : Derives .While s → Derives .Stmt s
  | stmtRead {s : List Token} : Derives .Read s → Derives .Stmt s
  | stmtWrite {s : List Token} : Derives .Write s → Derives .Stmt s
  | stmtCompound {s : List Token} : Derives .Compound s → Derives .Stmt s
  | stmtAssign {s : List Token} : Derives .Assign s → Derives .Stmt s
  | compound {lb rb : Token} {s r : List Token} :
      lb.isDelim "[" → Derives .Stmt s → Derives .CompoundRest r → rb.isDelim "]" →
      Derives .Compound (lb :: s ++ r ++ [rb])
  | compoundRestNil : Derives .CompoundRest []
  | compoundRestMore {sep : Token} {s r : List Token} :
      sep.isDelim ":" ∨ sep.isDelim ";" → Derives .Stmt s → Derives .CompoundRest r →
      Derives .CompoundRest (sep :: s ++ r)
  | assign {i kas : Token} {e : List Token} :
      i.isIdent → kas.isKw "as" → Derives .Expr e → Derives .Assign (i :: kas :: e)
  | ifThen {kif kthen : Token} {e s : List Token} :
      kif.isKw "if" → Derives .Expr e → kthen.isKw "then" → Derives .Stmt s →
      Derives .If (kif :: e ++ kthen :: s)
  | ifThenElse {kif kthen kelse : Token} {e s s2 : List Token} :
      kif.isKw "if" → Derives .Expr e → kthen.isKw "then" → Derives .Stmt s →
      kelse.isKw "else" → Derives .Stmt s2 →
      Derives .If (kif :: e ++ kthen :: s ++ kelse :: s2)
  | forDo {kfor kto kdo : Token} {a e s : List Token} :
      kfor.isKw "for" → Derives .Assign a → kto.isKw "to" → Derives .Expr e →
      kdo.isKw "do" → Derives .Stmt s →
      Derives .For (kfor :: a ++ kto :: e ++ kdo :: s)
  | whileDo {kwhile kdo : Token} {e s : List Token} :
      kwhile.isKw "while" → Derives .Expr e → kdo.isKw "do" → Derives .Stmt s →
      Derives .While (kwhile :: e ++ kdo :: s)
  | read {kread lp rp : Token} {ids : List Token} :
      kread.isKw "read" → lp.isDelim "(" → Derives .Idents ids → rp.isDelim ")" →
      Derives .Read (kread :: lp :: ids ++ [rp])
  | write {kwrite lp rp : Token} {es : List Token} :
      kwrite.isKw "write" → lp.isDelim "(" → Derives .Exprs es → rp.isDelim ")" →
      Derives .Write (kwrite :: lp :: es ++ [rp])
  | exprsOne {e : List Token} : Derives .Expr e → Derives .Exprs e
  | exprsMore {e es : List Token} {comma : Token} :
      Derives .Expr e → comma.isDelim "," → Derives .Exprs es → Derives .Exprs (e ++ comma :: es)
  | expr {o r : List Token} :
      Derives .Operand o → Derives .ExprRest r → Derives .Expr (o ++ r)
  | exprRestNil : Derives .ExprRest []
  | exprRestMore {op : Token} {o r : List Token} :
      op.isRelOp → Derives .Operand o → Derives .ExprRest r → Derives .ExprRest (op :: o ++ r)
  | operand {t r : List Token} :
      Derives .Term t → Derives .OperandRest r → Derives .Operand (t ++ r)
  | operandRestNil : Derives .OperandRest []
  | operandRestMore {op : Token} {t r : List Token} :
      op.isAddOp → Derives .Term t → Derives .OperandRest r → Derives .OperandRest (op :: t ++ r)
  | term {f r : List Token} :
      Derives .Factor f → Derives .TermRest r → Derives .Term (f ++ r)
  | termRestNil : Derives .TermRest []
  | termRestMore {op : Token} {f r : List Token} :
      op.isMulOp → Derives .Factor f → Derives .TermRest r → Derives .TermRest (op :: f ++ r)
  | factorNot {op : Token} {f : List Token} :
      op.isOp "~" → Derives .Factor f → Derives .Factor (op :: f)
  | factorParen {lp rp : Token} {e : List Token} :
      lp.isDelim "(" → Derives .Expr e → rp.isDelim ")" → Derives .Factor (lp :: e ++ [rp])
  | factorIdent {i : Token} : i.isIdent → Derives .Factor [i]
  | factorNumber {n : Token} : n.isNum → Derives .Factor [n]
  | factorTrue {t : Token} : t.isKw "true" → Derives .Factor [t]
  | factorFalse {t : Token} : t.isKw "false" → Derives .Factor [t]

/-- Every token of kind Identifier in the list has its lexeme among the names `V`. -/
def Used (V : List String) (s : List Token) : Prop :=
  ∀ t ∈ s, t.Typ = .Identifier → t.Lexeme ∈ V

/-- The tokens the parser has not consumed yet. -/
def Syntax.rest (p : Syntax) : List Token :=
  p.tokens.drop p.pos

/-- State `q` is state `p` with the cursor moved over the tokens `s`. -/
def Syntax.Consumed (p : Syntax) (s : List Token) (q : Syntax) : Prop :=
  q.tokens = p.tokens ∧ q.pos = p.pos + s.length ∧ p.rest = s ++ q.rest

/-- What `parseOperations` accepts between `begin` and `end`: the statements of `Stmts`,
where the list may be empty and a `;` may follow the last statement. -/
inductive StmtsRelaxed : List Token → Prop
  | nil : StmtsRelaxed []
  | one {s : List Token} : Derives .Stmt s → StmtsRelaxed s
  | more {s ss : List Token} {semi : Token} :
      Derives .Stmt s → semi.isDelim ";" → StmtsRelaxed ss → StmtsRelaxed (s ++ semi :: ss)

/-- The production `Program` with `StmtsRelaxed` in the place of `Stmts`. -/
def ProgramRelaxed (ts : List Token) : Prop :=
  ∃ (kp kv kb ke dot : Token) (decls stmts : List Token),
    ts = kp :: kv :: decls ++ kb :: stmts ++ [ke, dot] ∧
    kp.isKw "program" ∧ kv.isKw "var" ∧ Derives .Decls decls ∧ kb.isKw "begin" ∧
    StmtsRelaxed stmts ∧ ke.isKw "end" ∧ dot.isDelim "."

/-- The lexemes of the tokens of kind Identifier of a list, in order: what a declaration
section declares. -/
def declaredNames (s : List Token) : List String :=
  (s.filter fun t => t.Typ = .Identifier).map fun t => t.Lexeme

/-! ## Notions used in the proofs -/

/-- State `q` is state `p` after tokens `s` with `D s` were consumed, the declared names
unchanged and every identifier among the tokens declared. -/
def Parsed (D : List Token → Prop) (p q : Syntax) : Prop :=
  ∃ s, p.Consumed s q ∧ q.vars = p.vars ∧ D s ∧ Used p.vars s

/-- State `q` is state `p` after the tokens `s` with `D s` were consumed and their identifiers
declared. -/
def Declared (D : List Token → Prop) (p q : Syntax) : Prop :=
  ∃ s, p.Consumed s q ∧ q.vars = (declaredNames s).reverse ++ p.vars ∧ D s

/-- A list derivable from a nonterminal is at least this long. -/
def minLength : NT → Nat
  | .Program => 10
  | .Decls => 4
  | .Decl => 4
  | .CompoundRest => 0
  | .ExprRest => 0
  | .OperandRest => 0
  | .TermRest => 0
  | _ => 1

/-- The tokens of `program var x: int; begin end.`, as `Lexer` gives them. -/
def emptyBody : List Token :=
  [⟨.Keyword, "program", 1, 1⟩, ⟨.Keyword, "var", 1, 9⟩, ⟨.Identifier, "x", 1, 13⟩,
   ⟨.Delimiter, ":", 1, 14⟩, ⟨.Keyword, "int", 1, 16⟩, ⟨.Delimiter, ";", 1, 19⟩,
   ⟨.Keyword, "begin", 1, 21⟩, ⟨.Keyword, "end", 1, 27⟩, ⟨.Delimiter, ".", 1, 30⟩]

/-- The tokens of `program var x: int; begin y as 1 end.`, as `Lexer` gives them. -/
def undeclaredY : List Token :=
  [⟨.Keyword, "program", 1, 1⟩, ⟨.Keyword, "var", 1, 9⟩, ⟨.Identifier, "x", 1, 13⟩,
   ⟨.Delimiter, ":", 1, 14⟩, ⟨.Keyword, "int", 1, 16⟩, ⟨.Delimiter, ";", 1, 19⟩,
   ⟨.Keyword, "begin", 1, 21⟩, ⟨.Identifier, "y", 1, 27⟩, ⟨.Keyword, "as", 1, 29⟩,
   ⟨.Number, "1", 1, 32⟩, ⟨.Keyword, "end", 1, 34⟩, ⟨.Delimiter, ".", 1, 37⟩]

/-- The tokens of `program var x: int; begin x as x or x end.`, as `Lexer` gives them. -/
def orProgram : List Token :=
  [⟨.Keyword, "program", 1, 1⟩, ⟨.Keyword, "var", 1, 9⟩, ⟨.Identifier, "x", 1, 13⟩,
   ⟨.Delimiter, ":", 1, 14⟩, ⟨.Keyword, "int", 1, 16⟩, ⟨.Delimiter, ";", 1, 19⟩,
   ⟨.Keyword, "begin", 1, 21⟩, ⟨.Identifier, "x", 1, 27⟩, ⟨.Keyword, "as", 1, 29⟩,
   ⟨.Identifier, "x", 1, 32⟩, ⟨.Keyword, "or", 1, 34⟩, ⟨.Identifier, "x", 1, 37⟩,
   ⟨.Keyword, "end", 1, 39⟩, ⟨.Delimiter, ".", 1, 42⟩]

/-- The tokens of `program var x: int; begin x as x and x end.`, as `Lexer` gives them. -/
def andProgram : List Token :=
  [⟨.Keyword, "program", 1, 1⟩, ⟨.Keyword, "var", 1, 9⟩, ⟨.Identifier, "x", 1, 13⟩,
   ⟨.Delimiter, ":", 1, 14⟩, ⟨.Keyword, "int", 1, 16⟩, ⟨.Delimiter, ";", 1, 19⟩,
   ⟨.Keyword, "begin", 1, 21⟩, ⟨.Identifier, "x", 1, 27⟩, ⟨.Keyword, "as", 1, 29⟩,
   ⟨.Identifier, "x", 1, 32⟩, ⟨.Keyword, "and", 1, 34⟩, ⟨.Identifier, "x", 1, 38⟩,
   ⟨.Keyword, "end", 1, 40⟩, ⟨.Delimiter, ".", 1, 43⟩]

/-- The tokens of `program var x: int; {note} begin x as 1 end.`, as `Lexer` gives them. -/
def commentProgram : List Token :=
  [⟨.Keyword, "program", 1, 1⟩, ⟨.Keyword, "var", 1, 9⟩, ⟨.Identifier, "x", 1, 13⟩,
   ⟨.Delimiter, ":", 1, 14⟩, ⟨.Keyword, "int", 1, 16⟩, ⟨.Delimiter, ";", 1, 19⟩,
   ⟨.Keyword, "begin", 1, 27⟩, ⟨.Identifier, "x", 1, 33⟩, ⟨.Keyword, "as", 1, 35⟩,
   ⟨.Number, "1", 1, 38⟩, ⟨.Keyword, "end", 1, 40⟩, ⟨.Delimiter, ".", 1, 43⟩]

/-- The tokens of `program var x: int;  begin x as 1 end.`, the program above with a space
in the place of the comment, as `Lexer` gives them. -/
def spaceProgram : List Token :=
  [⟨.Keyword, "program", 1, 1⟩, ⟨.Keyword, "var", 1, 9⟩, ⟨.Identifier, "x", 1, 13⟩,
   ⟨.Delimiter, ":", 1, 14⟩, ⟨.Keyword, "int", 1, 16⟩, ⟨.Delimiter, ";", 1, 19⟩,
   ⟨.Keyword, "begin", 1, 22⟩, ⟨.Identifier, "x", 1, 28⟩, ⟨.Keyword, "as", 1, 30⟩,
   ⟨.Number, "1", 1, 33⟩, ⟨.Keyword, "end", 1, 35⟩, ⟨.Delimiter, ".", 1, 38⟩]


/-- The tokens of `program var x, y: int; begin read(x); y as x plus 1 end.`, as `Lexer`
gives them. -/
def readPlus : List Token :=
  [⟨.Keyword, "program", 1, 1⟩, ⟨.Keyword, "var", 1, 9⟩, ⟨.Identifier, "x", 1, 13⟩,
   ⟨.Delimiter, ",", 1, 14⟩, ⟨.Identifier, "y", 1, 16⟩, ⟨.Delimiter, ":", 1, 17⟩,
   ⟨.Keyword, "int", 1, 19⟩, ⟨.Delimiter, ";", 1, 22⟩, ⟨.Keyword, "begin", 1, 24⟩,
   ⟨.Keyword, "read", 1, 30⟩, ⟨.Delimiter, "(", 1, 34⟩, ⟨.Identifier, "x", 1, 35⟩,
   ⟨.Delimiter, ")", 1, 36⟩, ⟨.Delimiter, ";", 1, 37⟩, ⟨.Identifier, "y", 1, 39⟩,
   ⟨.Keyword, "as", 1, 41⟩, ⟨.Identifier, "x", 1, 44⟩, ⟨.Operator, "plus", 1, 46⟩,
   ⟨.Number, "1", 1, 51⟩, ⟨.Keyword, "end", 1, 53⟩, ⟨.Delimiter, ".", 1, 56⟩]

/-! ## Forgetting lines and columns -/

/-- The token with its line and column forgotten: its kind and lexeme. -/
def Token.erase (t : Token) : Token :=
  { t with LineNum := 0, ColNum := 0 }

/-- The error of the lexer with its line and column forgotten. -/
def LexError.erase : LexError → LexError
  | .malformedNumber _ _ lexeme => .malformedNumber 0 0 lexeme
  | .unknownOperator lexeme _ _ => .unknownOperator lexeme 0 0
  | .unterminatedComment => .unterminatedComment
  | .unknownCharacter ch _ _ => .unknownCharacter ch 0 0

/-- The result of the lexer with all lines and columns forgotten. -/
def LexResult.erase : LexResult → LexResult
  | .tokens ts => .tokens (ts.map Token.erase)
  | .error e => .error e.erase
  | .outOfFuel => .outOfFuel

/-- The error of the parser with all lines and columns forgotten. -/
def SyntaxError.erase : SyntaxError → SyntaxError
  | .expected ty lx got => .expected ty lx got.erase
  | .expectedIdentifier got => .expectedIdentifier got.erase
  | .alreadyDeclared lexeme _ _ => .alreadyDeclared lexeme 0 0
  | .expectedCommaOrColon got => .expectedCommaOrColon got.erase
  | .expectedType got => .expectedType got.erase
  | .expectedSemicolon got => .expectedSemicolon got.erase
  | .expectedSemicolonOrEnd got => .expectedSemicolonOrEnd got.erase
  | .unknownOperator lexeme _ _ => .unknownOperator lexeme 0 0
  | .expectedOperator got => .expectedOperator got.erase
  | .expectedColonOrBracket got => .expectedColonOrBracket got.erase
  | .expectedIdentifierInAssignment got => .expectedIdentifierInAssignment got.erase
  | .undeclaredVariable lexeme _ _ => .undeclaredVariable lexeme 0 0
  | .expectedIdentifierInRead got => .expectedIdentifierInRead got.erase
  | .expectedCommaOrParen got => .expectedCommaOrParen got.erase
  | .expectedFactor got => .expectedFactor got.erase

/-- The parser state with the lines and columns of its tokens forgotten. -/
def Syntax.erase (p : Syntax) : Syntax :=
  { p with tokens := p.tokens.map Token.erase }

/-- The result of a parser method with all lines and columns forgotten: success or failure,
the cursor, the declared names, the kind of the error and the kind and lexeme of each token. -/
def Res.erase : Res → Res
  | .ok p => .ok p.erase
  | .fail e p => .fail e.erase p.erase
  | .outOfFuel => .outOfFuel

/-- Two values of the variables of `Lexer` that differ only in lines and columns. -/
def LexerVars.Sim (v w : LexerVars) : Prop :=
  v.state = w.state ∧ v.sb = w.sb ∧ v.bufReader = w.bufReader ∧
    v.tokens.map Token.erase = w.tokens.map Token.erase

/-- The variables of `Lexer` with more input behind the runes not read yet. -/
def LexerVars.append (v : LexerVars) (more : List Char) : LexerVars :=
  { v with bufReader := v.bufReader ++ more }

/-- What one iteration gives from two values of the variables that differ only in lines and
columns differs only in lines and columns. -/
def LexerStep.Sim : LexerStep → LexerStep → Prop
  | .next v, .next w => v.Sim w
  | .done r, .done r' => r.erase = r'.erase
  | _, _ => False

/-! ## Notions used for completeness -/

/-- The parser state with the cursor moved `n` tokens on. -/
def Syntax.advance (p : Syntax) (n : Nat) : Syntax :=
  { p with pos := p.pos + n }

/-- What may stand behind the tokens of an expression nonterminal so that its loop stops:
no operator of the level of the nonterminal or of a higher level. -/
def Follow : NT → List Token → Prop
  | .Term, rest => ∀ t ∈ rest.head?, ¬ t.isMulOp
  | .TermRest, rest => ∀ t ∈ rest.head?, ¬ t.isMulOp
  | .Operand, rest => ∀ t ∈ rest.head?, ¬ t.isMulOp ∧ ¬ t.isAddOp
  | .OperandRest, rest => ∀ t ∈ rest.head?, ¬ t.isMulOp ∧ ¬ t.isAddOp
  | .Expr, rest => ∀ t ∈ rest.head?, ¬ t.isMulOp ∧ ¬ t.isAddOp ∧ ¬ t.isRelOp
  | .ExprRest, rest => ∀ t ∈ rest.head?, ¬ t.isMulOp ∧ ¬ t.isAddOp ∧ ¬ t.isRelOp
  | _, _ => True

/-- Depth of calls that is enough to parse `n` tokens as the expression nonterminal. -/
def exprFuel : NT → Nat → Nat
  | .Factor, n => 8 * n + 1
  | .TermRest, n => 8 * n + 2
  | .Term, n => 8 * n + 3
  | .OperandRest, n => 8 * n + 4
  | .Operand, n => 8 * n + 5
  | .ExprRest, n => 8 * n + 6
  | .Expr, n => 8 * n + 7
  | _, _ => 0

/-- The method, or the loop of a method, that parses an expression nonterminal. -/
def exprParser : NT → Option (Nat → Syntax → Res)
  | .Factor => some Syntax.parseFactor
  | .TermRest => some Syntax.parseTerm.loop
  | .Term => some Syntax.parseTerm
  | .OperandRest => some Syntax.parseOperand.loop
  | .Operand => some Syntax.parseOperand
  | .ExprRest => some Syntax.parseExpression.loop
  | .Expr => some Syntax.parseExpression
  | _ => none

/-- Completeness of the parser of an expression nonterminal on the tokens `s`: wherever `s`
stands in the token list, with its identifiers declared, no operator that would prolong it
behind and enough depth, the parser succeeds and moves the cursor over exactly `s`. -/
def ExprComplete (N : NT) (s : List Token) : Prop :=
  ∀ parse ∈ exprParser N, ∀ (p : Syntax) (rest : List Token) (fuel : Nat),
    p.rest = s ++ rest → Used p.vars s → Follow N rest → exprFuel N s.length ≤ fuel →
    parse fuel p = .ok (p.advance s.length)

/-- What the grammar of statements with the `else` bound to the nearest `if` derives: a
statement, open when an `else` right behind it would belong to it, or the rest
`((":" | ";") Stmt)*` of a compound statement. -/
inductive NearestKind
  | stmt (isOpen : Bool)
  | rest
  deriving DecidableEq, Repr

/-- The statements of the grammar of section 4.2 with every `else` bound to the nearest `if`
that has none yet: of the derivations of a statement the one the parser follows. The
`then` branch of an `if` with `else` is not open. -/
inductive Nearest : NearestKind → List Token → Prop
  | assign {s : List Token} : Derives .Assign s → Nearest (.stmt false) s
  | read {s : List Token} : Derives .Read s → Nearest (.stmt false) s
  | write {s : List Token} : Derives .Write s → Nearest (.stmt false) s
  | compound {lb rb : Token} {s r : List Token} {b : Bool} :
      lb.isDelim "[" → Nearest (.stmt b) s → Nearest .rest r → rb.isDelim "]" →
      Nearest (.stmt false) (lb :: s ++ r ++ [rb])
  | restNil : Nearest .rest []
  | restMore {sep : Token} {s r : List Token} {b : Bool} :
      sep.isDelim ":" ∨ sep.isDelim ";" → Nearest (.stmt b) s → Nearest .rest r →
      Nearest .rest (sep :: s ++ r)
  | ifThen {kif kthen : Token} {e s : List Token} {b : Bool} :
      kif.isKw "if" → Derives .Expr e → kthen.isKw "then" → Nearest (.stmt b) s →
      Nearest (.stmt true) (kif :: e ++ kthen :: s)
  | ifThenElse {kif kthen kelse : Token} {e s s2 : List Token} {b : Bool} :
      kif.isKw "if" → Derives .Expr e → kthen.isKw "then" → Nearest (.stmt false) s →
      kelse.isKw "else" → Nearest (.stmt b) s2 →
      Nearest (.stmt b) (kif :: e ++ kthen :: s ++ kelse :: s2)
  | forDo {kfor kto kdo : Token} {a e s : List Token} {b : Bool} :
      kfor.isKw "for" → Derives .Assign a → kto.isKw "to" → Derives .Expr e →
      kdo.isKw "do" → Nearest (.stmt b) s →
      Nearest (.stmt b) (kfor :: a ++ kto :: e ++ kdo :: s)
  | whileDo {kwhile kdo : Token} {e s : List Token} {b : Bool} :
      kwhile.isKw "while" → Derives .Expr e → kdo.isKw "do" → Nearest (.stmt b) s →
      Nearest (.stmt b) (kwhile :: e ++ kdo :: s)

/-- What the derivation of a statement nonterminal gives in the grammar with the nearest
`if`: the same tokens. -/
def NearestOf : NT → List Token → Prop
  | .Stmt, s => ∃ b, Nearest (.stmt b) s
  | .If, s => ∃ b, Nearest (.stmt b) s
  | .For, s => ∃ b, Nearest (.stmt b) s
  | .While, s => ∃ b, Nearest (.stmt b) s
  | .Compound, s => ∃ b, Nearest (.stmt b) s
  | .CompoundRest, s => Nearest .rest s
  | _, _ => True

/-- Completeness of `parseOperation` on a statement, and of the loop of
`parseCompositeOperation` on the rest of a compound statement after its first statement. -/
def OperationComplete : NearestKind → List Token → Prop
  | .stmt b, s => ∀ (p : Syntax) (rest : List Token) (fuel : Nat),
      p.rest = s ++ rest → Used p.vars s →
      (∀ t ∈ rest.head?, t.Typ ≠ .Operator ∧ (b = true → ¬ t.isKw "else")) →
      8 * s.length + 10 ≤ fuel →
      Syntax.parseOperation fuel p = .ok (p.advance s.length)
  | .rest, s => ∀ (p0 p : Syntax) (rb : Token) (rest : List Token) (fuel : Nat),
      Syntax.parseOperation fuel p0 = .ok p → p.rest = s ++ rb :: rest → rb.isDelim "]" →
      Used p.vars s → 8 * s.length + 10 ≤ fuel →
      Syntax.parseCompositeOperation.loop (fuel + 1) p0 = .ok (p.advance (s.length + 1))

/-- The first token of a statement is not the keyword `end`. -/
def StartsStmt : NT → List Token → Prop
  | .Stmt, s => ∃ t r, s = t :: r ∧ ¬ t.isKw "end"
  | .If, s => ∃ t r, s = t :: r ∧ ¬ t.isKw "end"
  | .For, s => ∃ t r, s = t :: r ∧ ¬ t.isKw "end"
  | .While, s => ∃ t r, s = t :: r ∧ ¬ t.isKw "end"
  | .Read, s => ∃ t r, s = t :: r ∧ ¬ t.isKw "end"
  | .Write, s => ∃ t r, s = t :: r ∧ ¬ t.isKw "end"
  | .Compound, s => ∃ t r, s = t :: r ∧ ¬ t.isKw "end"
  | .Assign, s => ∃ t r, s = t :: r ∧ ¬ t.isKw "end"
  | _, _ => True

/-- The tokens of a declaration section: the first is an identifier and none is the keyword
`begin`. -/
def InDecls : NT → List Token → Prop
  | .Decls, s => (∃ t r, s = t :: r ∧ t.isIdent) ∧ ∀ t ∈ s, ¬ t.isKw "begin"
  | .Decl, s => (∃ t r, s = t :: r ∧ t.isIdent) ∧ ∀ t ∈ s, ¬ t.isKw "begin"
  | .Idents, s => (∃ t r, s = t :: r ∧ t.isIdent) ∧ ∀ t ∈ s, ¬ t.isKw "begin"
  | _, _ => True

/-- The tokens before the first keyword `begin`: the declaration section, with `program` and
`var` in front. -/
def declSection (ts : List Token) : List Token :=
  ts.takeWhile fun t => ¬ (t.Typ = .Keyword ∧ t.Lexeme = "begin")

/-- The tokens from the first keyword `begin` on: the statements. -/
def bodySection (ts : List Token) : List Token :=
  ts.dropWhile fun t => ¬ (t.Typ = .Keyword ∧ t.Lexeme = "begin")

/-! ## The part of a declaration section in front of a token -/

/-- A started list of names, `(Ident ",")*`: what stands in a declaration in front of one
of its names. -/
inductive IdentCommas : List Token → Prop
  | nil : IdentCommas []
  | cons {i comma : Token} {ics : List Token} :
      i.isIdent → comma.isDelim "," → IdentCommas ics → IdentCommas (i :: comma :: ics)

/-- What stands in a declaration section in front of a name that is being declared: whole
declarations, then a started list of names. -/
inductive DeclPrefix : List Token → Prop
  | idents {ics : List Token} : IdentCommas ics → DeclPrefix ics
  | decl {d pre : List Token} : Derives .Decl d → DeclPrefix pre → DeclPrefix (d ++ pre)

/-- The tokens of `program var x: int; x: int; begin end.`, as `Lexer` gives them. -/
def declaredTwice : List Token :=
  [⟨.Keyword, "program", 1, 1⟩, ⟨.Keyword, "var", 1, 9⟩, ⟨.Identifier, "x", 1, 13⟩,
   ⟨.Delimiter, ":", 1, 14⟩, ⟨.Keyword, "int", 1, 16⟩, ⟨.Delimiter, ";", 1, 19⟩,
   ⟨.Identifier, "x", 1, 21⟩, ⟨.Delimiter, ":", 1, 22⟩, ⟨.Keyword, "int", 1, 24⟩,
   ⟨.Delimiter, ";", 1, 27⟩, ⟨.Keyword, "begin", 1, 29⟩, ⟨.Keyword, "end", 1, 35⟩,
   ⟨.Delimiter, ".", 1, 38⟩]

/-- The tokens of `program var x: int; begin x as 1; write(x) end.`, as `Lexer` gives
them. -/
def assignWrite : List Token :=
  [⟨.Keyword, "program", 1, 1⟩, ⟨.Keyword, "var", 1, 9⟩, ⟨.Identifier, "x", 1, 13⟩,
   ⟨.Delimiter, ":", 1, 14⟩, ⟨.Keyword, "int", 1, 16⟩, ⟨.Delimiter, ";", 1, 19⟩,
   ⟨.Keyword, "begin", 1, 21⟩, ⟨.Identifier, "x", 1, 27⟩, ⟨.Keyword, "as", 1, 29⟩,
   ⟨.Number, "1", 1, 32⟩, ⟨.Delimiter, ";", 1, 33⟩, ⟨.Keyword, "write", 1, 35⟩,
   ⟨.Delimiter, "(", 1, 40⟩, ⟨.Identifier, "x", 1, 41⟩, ⟨.Delimiter, ")", 1, 42⟩,
   ⟨.Keyword, "end", 1, 44⟩, ⟨.Delimiter, ".", 1, 47⟩]

/-- The tokens of `[ x as 1 ; [ x as 2 ] ]`, as `Lexer` gives them. -/
def nestedCompound : List Token :=
  [⟨.Delimiter, "[", 1, 1⟩, ⟨.Identifier, "x", 1, 3⟩, ⟨.Keyword, "as", 1, 5⟩,
   ⟨.Number, "1", 1, 8⟩, ⟨.Delimiter, ";", 1, 10⟩, ⟨.Delimiter, "[", 1, 12⟩,
   ⟨.Identifier, "x", 1, 14⟩, ⟨.Keyword, "as", 1, 16⟩, ⟨.Number, "2", 1, 19⟩,
   ⟨.Delimiter, "]", 1, 21⟩, ⟨.Delimiter, "]", 1, 23⟩]

/-! ## What a call leaves of the parser state -/

/-- The parser state after a call, on success and on failure. -/
def Res.state : Res → Option Syntax
  | .ok p => some p
  | .fail _ p => some p
  | .outOfFuel => none

/-- From state `p` to state `q` the token list and the declared names are the same and the
cursor has not moved back nor beyond the end of the tokens. -/
def Syntax.Frame (p q : Syntax) : Prop :=
  q.tokens = p.tokens ∧ q.vars = p.vars ∧ p.pos ≤ q.pos ∧ q.pos ≤ max p.pos p.tokens.length

/-- From state `p` to state `q` the token list is the same, names were only added to the
declared ones, and the cursor has not moved back nor beyond the end of the tokens. -/
def Syntax.Grows (p q : Syntax) : Prop :=
  q.tokens = p.tokens ∧ (∃ added, q.vars = added ++ p.vars) ∧ p.pos ≤ q.pos ∧
    q.pos ≤ max p.pos p.tokens.length

/-- The state that a call from `p` leaves, if it leaves one, is related to `p` by `R`. -/
def Res.Keeps (R : Syntax → Syntax → Prop) (p : Syntax) (r : Res) : Prop :=
  ∀ q, r.state = some q → R p q

/-- The operation `f` leaves the declared names as they were, on success and on failure. -/
def Syntax.KeepsVars (f : Syntax → Res) : Prop :=
  ∀ p q, (f p).state = some q → q.vars = p.vars

/-- The operation `f`, started with the cursor within `0 .. len(tokens)`, leaves the cursor
at or behind where it was and within `0 .. len(tokens)`, and leaves the token list as it
was, on success and on failure. -/
def Syntax.CursorInvariant (f : Syntax → Res) : Prop :=
  ∀ p q, p.pos ≤ p.tokens.length → (f p).state = some q →
    p.pos ≤ q.pos ∧ q.pos ≤ q.tokens.length ∧ q.tokens = p.tokens

/-! ## What the tokens say about the input -/

/-- Number of newline runes in a list of runes. -/
def newlines (s : List Char) : Int :=
  ((s.count '\n' : Nat) : Int)

/-- What stands between two lexemes: whitespace and comments, each comment from a `{` to the
next `}`. -/
inductive Gap (U : UnicodeTables) : List Char → Prop
  | nil : Gap U []
  | space {c : Char} {g : List Char} : unicode.IsSpace U c = true → Gap U g → Gap U (c :: g)
  | comment {c g : List Char} : '}' ∉ c → Gap U g → Gap U ('{' :: (c ++ '}' :: g))

/-- The kind of a token fits its lexeme: a keyword, an operator, one delimiter rune other
than `{`, a number that starts with a digit and that `isNumber` accepts, or a word of letters
and digits that starts with a letter and is neither a keyword nor an operator. -/
def Lexical (U : UnicodeTables) (t : Token) : Prop :=
  match t.Typ with
  | .Keyword => t.Lexeme ∈ keyWords
  | .Operator => t.Lexeme ∈ operators
  | .Delimiter => ∃ c, t.Lexeme = String.singleton c ∧ isDelimiter c = true ∧ c ≠ '{'
  | .Number => (∃ d rest, t.Lexeme.data = d :: rest ∧ unicode.IsDigit U d = true) ∧
      isNumber t.Lexeme = true
  | .Identifier =>
      (∃ c rest, t.Lexeme.data = c :: rest ∧ unicode.IsLetter U c = true ∧
        ∀ x ∈ rest, unicode.IsLetter U x = true ∨ unicode.IsDigit U x = true) ∧
      t.Lexeme ∉ keyWords ∧ t.Lexeme ∉ operators
  | .EOF => False

/-- The input, read from line `n` on, is the lexemes of the tokens in order with a gap in
front of each and behind the last; every token fits its lexeme, and its line is `n` plus the
number of newlines in front of its lexeme. -/
inductive Scanned (U : UnicodeTables) : Int → List Char → List Token → Prop
  | nil {n : Int} {g : List Char} : Gap U g → Scanned U n g []
  | cons {n : Int} {g rest : List Char} {t : Token} {ts : List Token} :
      Gap U g → Lexical U t → t.LineNum = n + newlines g →
      Scanned U (n + newlines (g ++ t.Lexeme.data)) rest ts →
      Scanned U n (g ++ t.Lexeme.data ++ rest) (t :: ts)

/-- The input without its whitespace and its comments; the flag says whether the runes are
inside a comment. -/
def strip (U : UnicodeTables) : Bool → List Char → List Char
  | _, [] => []
  | true, c :: s => if c = '}' then strip U false s else strip U true s
  | false, c :: s =>
    if c = '{' then strip U true s
    else if unicode.IsSpace U c then strip U false s
    else c :: strip U false s

/-- The lexemes of the tokens, one behind the other. -/
def lexemes : List Token → List Char
  | [] => []
  | t :: ts => t.Lexeme.data ++ lexemes ts

/-- What the builder of `Lexer` holds in each state. -/
def Lexer.Pending (U : UnicodeTables) : LexerState → List Char → Prop
  | .H, sb => sb = []
  | .ID, sb => ∃ c rest, sb = c :: rest ∧ unicode.IsLetter U c = true ∧
      ∀ x ∈ rest, unicode.IsLetter U x = true ∨ unicode.IsDigit U x = true
  | .NUM, sb => (∃ d rest, sb = d :: rest ∧ unicode.IsDigit U d = true) ∧ ∀ x ∈ sb, x ≠ '\n'
  | .OP, sb => sb = ['~']

/-- What holds of the variables of `Lexer` at the start of every iteration: the input is what
the tokens cover (`pre`), a gap, the runes in the builder and the runes not read yet. -/
def Lexer.Inv (U : UnicodeTables) (input : List Char) (v : LexerVars) : Prop :=
  ∃ pre g, input = pre ++ g ++ v.sb ++ v.bufReader ∧
    (∀ rest ts, Scanned U (1 + newlines pre) rest ts →
      Scanned U 1 (pre ++ rest) (v.tokens ++ ts)) ∧
    Gap U g ∧ v.lineNum = 1 + newlines (pre ++ g) ∧ Lexer.Pending U v.state v.sb

/-- The tokens of the three lines `x {a`, `b}` and ` as 12;`, as `Lexer` gives them. -/
def threeLines : List Token :=
  [⟨.Identifier, "x", 1, 1⟩, ⟨.Keyword, "as", 3, 2⟩, ⟨.Number, "12", 3, 5⟩,
   ⟨.Delimiter, ";", 3, 7⟩]

/-! ## The values that the variables of `Lexer` take -/

/-- The values of the variables of `Lexer` at the start of the iterations of its loop on an
input. -/
inductive Lexer.Reachable (U : UnicodeTables) (input : List Char) : LexerVars → Prop
  | init : Lexer.Reachable U input (Lexer.init input)
  | step {v w : LexerVars} :
      Lexer.Reachable U input v → Lexer.iteration U v = .next w → Lexer.Reachable U input w

/-! ## The bound on the depth of calls -/

/-- Number of tokens at and behind the cursor. -/
def Syntax.remaining (p : Syntax) : Nat :=
  p.tokens.length - p.pos

/-- Result `r`, unless the bound on the depth of calls was reached, is also the result
`r2`. -/
def Res.StableTo (r r2 : Res) : Prop :=
  r ≠ .outOfFuel → r2 = r

/-- The method `f` returns, with success or with an error, whenever the bound on the depth of
calls is at least eight for each token at and behind the cursor, and five. -/
def Syntax.Terminates (f : Nat → Syntax → Res) : Prop :=
  ∀ fuel p, 8 * p.remaining + 5 ≤ fuel → f fuel p ≠ .outOfFuel

/-- The operation `f`, when it succeeds, leaves the cursor strictly behind where it was. -/
def Syntax.Advances (f : Syntax → Res) : Prop :=
  ∀ p q, f p = .ok q → p.pos < q.pos

/-- The tokens of `program var x`, an input that ends inside a declaration, as `Lexer` gives
them. -/
def cutShort : List Token :=
  [⟨.Keyword, "program", 1, 1⟩, ⟨.Keyword, "var", 1, 9⟩, ⟨.Identifier, "x", 1, 13⟩]

/-! ## The calls that `ParseProgram` makes -/

/-- The methods on the way from `ParseProgram` to an identifier in a statement, the `for`
loops of the methods included. -/
inductive Method
  | ParseProgram
  | parseOperations
  | parseOperation
  | parseCompositeOperation
  | parseCompositeOperationLoop
  | parseIf
  | parseFor
  | parseWhile
  | Syntaxead
  | SyntaxeadIdents
  | parseWrite
  | parseWriteArgs
  | parseAssignment
  | parseExpression
  | parseExpressionLoop
  | parseOperand
  | parseOperandLoop
  | parseTerm
  | parseTermLoop
  | parseFactor
  deriving DecidableEq, Repr

/-- The function of the model that a method is. -/
def Method.run : Method → Nat → Syntax → Res
  | .ParseProgram => Syntax.ParseProgram.run
  | .parseOperations => Syntax.parseOperations
  | .parseOperation => Syntax.parseOperation
  | .parseCompositeOperation => Syntax.parseCompositeOperation
  | .parseCompositeOperationLoop => Syntax.parseCompositeOperation.loop
  | .parseIf => Syntax.parseIf
  | .parseFor => Syntax.parseFor
  | .parseWhile => Syntax.parseWhile
  | .Syntaxead => Syntax.Syntaxead
  | .SyntaxeadIdents => Syntax.Syntaxead.idents
  | .parseWrite => Syntax.parseWrite
  | .parseWriteArgs => Syntax.parseWrite.args
  | .parseAssignment => Syntax.parseAssignment
  | .parseExpression => Syntax.parseExpression
  | .parseExpressionLoop => Syntax.parseExpression.loop
  | .parseOperand => Syntax.parseOperand
  | .parseOperandLoop => Syntax.parseOperand.loop
  | .parseTerm => Syntax.parseTerm
  | .parseTermLoop => Syntax.parseTerm.loop
  | .parseFactor => Syntax.parseFactor

namespace Syntax

/-- The call sites of `syntax.go`: `Calls m n p m2 n2 p2` says that method `m`, called in
state `p` with bound `n`, calls method `m2` in state `p2` with bound `n2` (or, for a loop,
starts the next iteration). Each constructor is one call site, with what has to have happened
in the caller before it. -/
inductive Calls : Method → Nat → Syntax → Method → Nat → Syntax → Prop
  /-- Line 73: `parseOperations`, after `program`, `var`, the declarations and `begin`. -/
  | program {n : Nat} {p p1 p2 p3 p4 : Syntax} :
      p.matchToken .Keyword "program" = .ok p1 → p1.matchToken .Keyword "var" = .ok p2 →
      ParseProgram.decls n p2 = .ok p3 → p3.matchToken .Keyword "begin" = .ok p4 →
      Calls .ParseProgram n p .parseOperations n p4
  /-- Line 156: `parseOperation`, when the current token is not `end`. -/
  | operations {n : Nat} {p : Syntax} :
      ¬ (p.currentToken.Typ = .Keyword ∧ p.currentToken.Lexeme = "end") →
      Calls .parseOperations (n + 1) p .parseOperation n p
  /-- Lines 163-164: the next iteration behind a `;`. -/
  | operationsNext {n : Nat} {p p1 : Syntax} :
      ¬ (p.currentToken.Typ = .Keyword ∧ p.currentToken.Lexeme = "end") →
      parseOperation n p = .ok p1 →
      p1.currentToken.Typ = .Delimiter ∧ p1.currentToken.Lexeme = ";" →
      Calls .parseOperations (n + 1) p .parseOperations n p1.nextToken
  /-- Line 183. -/
  | operationIf {n : Nat} {p : Syntax} :
      p.currentToken.Typ = .Keyword → p.currentToken.Lexeme = "if" →
      Calls .parseOperation (n + 1) p .parseIf n p
  /-- Line 185. -/
  | operationFor {n : Nat} {p : Syntax} :
      p.currentToken.Typ = .Keyword → p.currentToken.Lexeme = "for" →
      Calls .parseOperation (n + 1) p .parseFor n p
  /-- Line 187. -/
  | operationWhile {n : Nat} {p : Syntax} :
      p.currentToken.Typ = .Keyword → p.currentToken.Lexeme = "while" →
      Calls .parseOperation (n + 1) p .parseWhile n p
  /-- Line 189. -/
  | operationRead {n : Nat} {p : Syntax} :
      p.currentToken.Typ = .Keyword → p.currentToken.Lexeme = "read" →
      Calls .parseOperation (n + 1) p .Syntaxead n p
  /-- Line 191. -/
  | operationWrite {n : Nat} {p : Syntax} :
      p.currentToken.Typ = .Keyword → p.currentToken.Lexeme = "write" →
      Calls .parseOperation (n + 1) p .parseWrite n p
  /-- Line 193. -/
  | operationBegin {n : Nat} {p : Syntax} :
      p.currentToken.Typ = .Keyword → p.currentToken.Lexeme = "begin" →
      Calls .parseOperation (n + 1) p .parseCompositeOperation n p
  /-- Line 200. -/
  | operationAssign {n : Nat} {p : Syntax} :
      p.currentToken.Typ = .Identifier →
      Calls .parseOperation (n + 1) p .parseAssignment n p
  /-- Line 203. -/
  | operationBracket {n : Nat} {p : Syntax} :
      p.currentToken.Typ = .Delimiter → p.currentToken.Lexeme = "[" →
      Calls .parseOperation (n + 1) p .parseCompositeOperation n p
  /-- Line 219: the loop, behind the `[`. -/
  | composite {n : Nat} {p p1 : Syntax} :
      p.matchToken .Delimiter "[" = .ok p1 →
      Calls .parseCompositeOperation (n + 1) p .parseCompositeOperationLoop n p1
  /-- Line 220. -/
  | compositeStmt {n : Nat} {p : Syntax} :
      Calls .parseCompositeOperationLoop (n + 1) p .parseOperation n p
  /-- Lines 226-227: the next iteration behind a `:` or `;`. -/
  | compositeNext {n : Nat} {p p1 : Syntax} :
      parseOperation n p = .ok p1 →
      p1.currentToken.Typ = .Delimiter ∧
        (p1.currentToken.Lexeme = ":" ∨ p1.currentToken.Lexeme = ";") →
      Calls .parseCompositeOperationLoop (n + 1) p .parseCompositeOperationLoop n p1.nextToken
  /-- Line 261: the expression, behind the declared identifier and `as`. -/
  | assign {n : Nat} {p p1 : Syntax} :
      p.currentToken.Typ = .Identifier → p.currentToken.Lexeme ∈ p.vars →
      p.nextToken.matchToken .Keyword "as" = .ok p1 →
      Calls .parseAssignment n p .parseExpression n p1
  /-- Line 277. -/
  | ifCond {n : Nat} {p p1 : Syntax} :
      p.matchToken .Keyword "if" = .ok p1 →
      Calls .parseIf (n + 1) p .parseExpression n p1
  /-- Line 287. -/
  | ifThen {n : Nat} {p p1 p2 p3 : Syntax} :
      p.matchToken .Keyword "if" = .ok p1 → parseExpression n p1 = .ok p2 →
      p2.matchToken .Keyword "then" = .ok p3 →
      Calls .parseIf (n + 1) p .parseOperation n p3
  /-- Line 295. -/
  | ifElse {n : Nat} {p p1 p2 p3 p4 : Syntax} :
      p.matchToken .Keyword "if" = .ok p1 → parseExpression n p1 = .ok p2 →
      p2.matchToken .Keyword "then" = .ok p3 → parseOperation n p3 = .ok p4 →
      p4.currentToken.Typ = .Keyword ∧ p4.currentToken.Lexeme = "else" →
      Calls .parseIf (n + 1) p .parseOperation n p4.nextToken
  /-- Line 312. -/
  | forInit {n : Nat} {p p1 : Syntax} :
      p.matchToken .Keyword "for" = .ok p1 →
      Calls .parseFor (n + 1) p .parseAssignment n p1
  /-- Line 322. -/
  | forLimit {n : Nat} {p p1 p2 p3 : Syntax} :
      p.matchToken .Keyword "for" = .ok p1 → parseAssignment n p1 = .ok p2 →
      p2.matchToken .Keyword "to" = .ok p3 →
      Calls .parseFor (n + 1) p .parseExpression n p3
  /-- Line 332. -/
  | forBody {n : Nat} {p p1 p2 p3 p4 p5 : Syntax} :
      p.matchToken .Keyword "for" = .ok p1 → parseAssignment n p1 = .ok p2 →
      p2.matchToken .Keyword "to" = .ok p3 → parseExpression n p3 = .ok p4 →
      p4.matchToken .Keyword "do" = .ok p5 →
      Calls .parseFor (n + 1) p .parseOperation n p5
  /-- Line 348. -/
  | whileCond {n : Nat} {p p1 : Syntax} :
      p.matchToken .Keyword "while" = .ok p1 →
      Calls .parseWhile (n + 1) p .parseExpression n p1
  /-- Line 358. -/
  | whileBody {n : Nat} {p p1 p2 p3 : Syntax} :
      p.matchToken .Keyword "while" = .ok p1 → parseExpression n p1 = .ok p2 →
      p2.matchToken .Keyword "do" = .ok p3 →
      Calls .parseWhile (n + 1) p .parseOperation n p3
  /-- Line 379: the loop, behind `read` and `(`. -/
  | read {n : Nat} {p p1 p2 : Syntax} :
      p.matchToken .Keyword "read" = .ok p1 → p1.matchToken .Delimiter "(" = .ok p2 →
      Calls .Syntaxead n p .SyntaxeadIdents n p2
  /-- Lines 394-395: the next iteration, behind a declared identifier and a `,`. -/
  | readNext {n : Nat} {p : Syntax} :
      p.currentToken.Typ = .Identifier → p.currentToken.Lexeme ∈ p.vars →
      p.nextToken.currentToken.Typ = .Delimiter ∧ p.nextToken.currentToken.Lexeme = "," →
      Calls .SyntaxeadIdents (n + 1) p .SyntaxeadIdents n p.nextToken.nextToken
  /-- Line 422: the loop, behind `write` and `(`. -/
  | write {n : Nat} {p p1 p2 : Syntax} :
      p.matchToken .Keyword "write" = .ok p1 → p1.matchToken .Delimiter "(" = .ok p2 →
      Calls .parseWrite n p .parseWriteArgs n p2
  /-- Line 423. -/
  | writeArg {n : Nat} {p : Syntax} :
      Calls .parseWriteArgs (n + 1) p .parseExpression n p
  /-- Lines 430-431: the next iteration behind a `,`. -/
  | writeNext {n : Nat} {p p1 : Syntax} :
      parseExpression n p = .ok p1 →
      p1.currentToken.Typ = .Delimiter ∧ p1.currentToken.Lexeme = "," →
      Calls .parseWriteArgs (n + 1) p .parseWriteArgs n p1.nextToken
  /-- Line 449. -/
  | expression {n : Nat} {p : Syntax} :
      Calls .parseExpression (n + 1) p .parseOperand n p
  /-- Line 455: the loop, behind the first operand. -/
  | expressionRest {n : Nat} {p p1 : Syntax} :
      parseOperand n p = .ok p1 →
      Calls .parseExpression (n + 1) p .parseExpressionLoop n p1
  /-- Line 457. -/
  | expressionLoop {n : Nat} {p : Syntax} :
      p.currentToken.Typ = .Operator ∧ isRelationOperator p.currentToken.Lexeme = true →
      Calls .parseExpressionLoop (n + 1) p .parseOperand n p.nextToken
  /-- Line 455: the next iteration. -/
  | expressionNext {n : Nat} {p p1 : Syntax} :
      p.currentToken.Typ = .Operator ∧ isRelationOperator p.currentToken.Lexeme = true →
      parseOperand n p.nextToken = .ok p1 →
      Calls .parseExpressionLoop (n + 1) p .parseExpressionLoop n p1
  /-- Line 478. -/
  | operand {n : Nat} {p : Syntax} :
      Calls .parseOperand (n + 1) p .parseTerm n p
  /-- Line 484: the loop, behind the first term. -/
  | operandRest {n : Nat} {p p1 : Syntax} :
      parseTerm n p = .ok p1 →
      Calls .parseOperand (n + 1) p .parseOperandLoop n p1
  /-- Line 486. -/
  | operandLoop {n : Nat} {p : Syntax} :
      p.currentToken.Typ = .Operator ∧ isAdditionOperator p.currentToken.Lexeme = true →
      Calls .parseOperandLoop (n + 1) p .parseTerm n p.nextToken
  /-- Line 484: the next iteration. -/
  | operandNext {n : Nat} {p p1 : Syntax} :
      p.currentToken.Typ = .Operator ∧ isAdditionOperator p.currentToken.Lexeme = true →
      parseTerm n p.nextToken = .ok p1 →
      Calls .parseOperandLoop (n + 1) p .parseOperandLoop n p1
  /-- Line 507. -/
  | term {n : Nat} {p : Syntax} :
      Calls .parseTerm (n + 1) p .parseFactor n p
  /-- Line 513: the loop, behind the first factor. -/
  | termRest {n : Nat} {p p1 : Syntax} :
      parseFactor n p = .ok p1 →
      Calls .parseTerm (n + 1) p .parseTermLoop n p1
  /-- Line 515. -/
  | termLoop {n : Nat} {p : Syntax} :
      p.currentToken.Typ = .Operator ∧ isMultiplicationOperator p.currentToken.Lexeme = true →
      Calls .parseTermLoop (n + 1) p .parseFactor n p.nextToken
  /-- Line 513: the next iteration. -/
  | termNext {n : Nat} {p p1 : Syntax} :
      p.currentToken.Typ = .Operator ∧ isMultiplicationOperator p.currentToken.Lexeme = true →
      parseFactor n p.nextToken = .ok p1 →
      Calls .parseTermLoop (n + 1) p .parseTermLoop n p1
  /-- Line 540: behind a `~`. -/
  | factorNot {n : Nat} {p : Syntax} :
      p.currentToken.Typ = .Operator ∧ p.currentToken.Lexeme = "~" →
      Calls .parseFactor (n + 1) p .parseFactor n p.nextToken
  /-- Line 543: behind a `(`. -/
  | factorParen {n : Nat} {p : Syntax} :
      p.currentToken.Typ = .Delimiter ∧ p.currentToken.Lexeme = "(" →
      Calls .parseFactor (n + 1) p .parseExpression n p.nextToken

/-- The calls made in the course of `ParseProgram` on the fresh state for the tokens `ts`:
the call of `ParseProgram` itself and every call that a call already made makes. -/
inductive Reached (ts : List Token) : Method → Nat → Syntax → Prop
  | start : Reached ts .ParseProgram (8 * ts.length + 16) (Syntax.fresh ts)
  | call {m m2 : Method} {n n2 : Nat} {p p2 : Syntax} :
      Reached ts m n p → Calls m n p m2 n2 p2 → Reached ts m2 n2 p2

end Syntax

/-! ## The loop of the lexer ends -/

theorem Lexer.skipComment_length (rd : List Char) (l c : Int) (rd' : List Char) (l' c' : Int)
    (h : Lexer.skipComment rd l c = some (rd', l', c')) : rd'.length < rd.length := by
  induction rd generalizing l c with
  | nil => simp [Lexer.skipComment] at h
  | cons ch rd ih =>
    simp only [Lexer.skipComment] at h
    split_ifs at h with h1 h2
    · simp at h; obtain ⟨rfl, -, -⟩ := h; simp
    · have := ih _ _ h; simp; omega
    · have := ih _ _ h; simp; omega

theorem Lexer.measure_decreases (U : UnicodeTables) (v v' : LexerVars)
    (h : Lexer.iteration U v = .next v') : Lexer.measure v' < Lexer.measure v := by
  obtain ⟨tokens, lineNum, colNum, bufReader, sb, state⟩ := v
  cases bufReader with
  | nil => simp [Lexer.iteration] at h
  | cons ch rd =>
    cases state with
    | H =>
      simp only [Lexer.iteration, Lexer.caseH] at h
      split_ifs at h
      all_goals first
        | (simp only [LexerStep.next.injEq] at h; subst h; simp [Lexer.measure]; done)
        | (simp only [LexerStep.next.injEq] at h; subst h; simp [Lexer.measure]; omega)
        | skip
      · split at h
        · simp at h
        · rename_i rd1 l1 c1 hsk
          simp only [LexerStep.next.injEq] at h; subst h
          have := Lexer.skipComment_length _ _ _ _ _ _ hsk
          simp [Lexer.measure]; omega
    | ID =>
      simp only [Lexer.iteration, Lexer.caseID] at h
      split_ifs at h
      all_goals first
        | (simp only [LexerStep.next.injEq] at h; subst h; simp [Lexer.measure]; done)
        | (simp only [LexerStep.next.injEq] at h; subst h; simp [Lexer.measure]; omega)
        | skip
    | NUM =>
      simp only [Lexer.iteration, Lexer.caseNUM] at h
      split_ifs at h
      all_goals first
        | (simp only [LexerStep.next.injEq] at h; subst h; simp [Lexer.measure]; done)
        | (simp only [LexerStep.next.injEq] at h; subst h; simp [Lexer.measure]; omega)
        | (simp at h; done)
        | skip
    | OP =>
      simp only [Lexer.iteration, Lexer.caseOP] at h
      split_ifs at h
      · simp only [LexerStep.next.injEq] at h; subst h; simp [Lexer.measure]
      · split at h
        · split_ifs at h
          all_goals (simp only [LexerStep.next.injEq] at h; subst h; simp [Lexer.measure]; try omega)
        · simp at h

/-- With more iterations allowed than the measure, the result of the loop does not depend
on the number allowed. -/
theorem Lexer.loop_eq_run (U : UnicodeTables) (n : Nat) (v : LexerVars)
    (h : Lexer.measure v < n) : Lexer.loop U n v = Lexer.run U v := by
  induction n using Nat.strong_induction_on generalizing v with
  | _ n ih =>
    obtain ⟨m, rfl⟩ : ∃ m, n = m + 1 := ⟨n - 1, by omega⟩
    unfold Lexer.run
    simp only [Lexer.loop]
    cases hit : Lexer.iteration U v with
    | done r => rfl
    | next v' =>
      have hd := Lexer.measure_decreases U v v' hit
      simp only
      rw [ih m (by omega) v' (by omega), ih (Lexer.measure v) (by omega) v' hd]

theorem Lexer.run_next (U : UnicodeTables) (v v' : LexerVars)
    (h : Lexer.iteration U v = .next v') : Lexer.run U v = Lexer.run U v' := by
  have hd := Lexer.measure_decreases U v v' h
  conv_lhs => unfold Lexer.run
  simp only [Lexer.loop, h]
  exact Lexer.loop_eq_run U _ _ hd

theorem Lexer.run_done (U : UnicodeTables) (v : LexerVars) (r : LexResult)
    (h : Lexer.iteration U v = .done r) : Lexer.run U v = r := by
  unfold Lexer.run
  simp only [Lexer.loop, h]

theorem Lexer_eq_run (U : UnicodeTables) (reader : List Char) :
    Lexer U reader = Lexer.run U (Lexer.init reader) := by
  unfold Lexer
  apply Lexer.loop_eq_run
  simp [Lexer.measure, Lexer.init]

/-- Induction along the iterations of the loop. -/
theorem Lexer.run_induction (U : UnicodeTables) (P : LexerVars → Prop)
    (step : ∀ v, (∀ v', Lexer.iteration U v = .next v' → P v') → P v) (v : LexerVars) : P v := by
  generalize hn : Lexer.measure v = n
  induction n using Nat.strong_induction_on generalizing v with
  | _ n ih =>
    apply step
    intro v' hv'
    have hd := Lexer.measure_decreases U v v' hv'
    exact ih (Lexer.measure v') (by omega) v' rfl


/-! ## Classes of runes -/

theorem unicode.IsLetter_not_IsSpace (U : UnicodeTables) (c : Char)
    (h : unicode.IsLetter U c = true) : unicode.IsSpace U c = false := by
  unfold unicode.IsLetter at h
  unfold unicode.IsSpace
  split_ifs at h ⊢ with h1
  · simp only [decide_eq_true_eq, decide_eq_false_iff_not] at h ⊢
    omega
  · exact U.letter_not_space c h

theorem unicode.IsDigit_not_IsSpace (U : UnicodeTables) (c : Char)
    (h : unicode.IsDigit U c = true) : unicode.IsSpace U c = false := by
  unfold unicode.IsDigit at h
  unfold unicode.IsSpace
  split_ifs at h ⊢ with h1
  · simp only [decide_eq_true_eq, decide_eq_false_iff_not] at h ⊢
    omega
  · exact U.digit_not_space c h

theorem unicode.IsLetter_not_IsDigit (U : UnicodeTables) (c : Char)
    (h : unicode.IsLetter U c = true) : unicode.IsDigit U c = false := by
  unfold unicode.IsLetter at h
  unfold unicode.IsDigit
  split_ifs at h ⊢ with h1
  · simp only [decide_eq_true_eq, decide_eq_false_iff_not] at h ⊢
    omega
  · exact U.letter_not_digit c h

/-! ## Words (claim C8) -/

/-- Case `"ID"` adds letters and digits to the lexeme up to the end of the input. -/
theorem Lexer.run_ID_word (U : UnicodeTables) (rest : List Char)
    (hrest : ∀ x ∈ rest, unicode.IsLetter U x = true ∨ unicode.IsDigit U x = true)
    (tokens : List Token) (lineNum colNum : Int) (sb : List Char) :
    Lexer.run U ⟨tokens, lineNum, colNum, rest, sb, .ID⟩ =
      Lexer.atEOF ⟨tokens, lineNum, colNum + (rest.map runeSize).sum, [], sb ++ rest, .ID⟩ := by
  induction rest generalizing colNum sb with
  | nil =>
    simp only [List.map_nil, List.sum_nil, add_zero, List.append_nil]
    exact Lexer.run_done U _ _ rfl
  | cons x rest ih =>
    have hx := hrest x (List.mem_cons_self _ _)
    rw [Lexer.run_next U _ ⟨tokens, lineNum, colNum + runeSize x, rest, sb ++ [x], .ID⟩]
    · rw [ih (fun y hy => hrest y (List.mem_cons_of_mem _ hy))]
      simp [add_assoc]
    · simp only [Lexer.iteration, Lexer.caseID]
      rw [if_pos (by simpa using hx)]

/-- C8: a non-empty word of letters and digits that starts with a letter and ends at the end
of the input lexes as exactly one token with the word as lexeme, of kind Keyword when the
word is a keyword, otherwise Operator when it is in the operator list, otherwise Identifier
(line 1; the column is counted from the widths in bytes of the runes). -/
theorem Lexer_word (U : UnicodeTables) (c : Char) (rest : List Char)
    (hc : unicode.IsLetter U c = true)
    (hrest : ∀ x ∈ rest, unicode.IsLetter U x = true ∨ unicode.IsDigit U x = true) :
    Lexer U (c :: rest) = .tokens [⟨
      if isKeyword (String.mk (c :: rest)) then .Keyword
      else if isOperator (String.mk (c :: rest)) then .Operator else .Identifier,
      String.mk (c :: rest), 1,
      ((c :: rest).map runeSize).sum - (c :: rest).length + 1⟩] := by
  rw [Lexer_eq_run, Lexer.run_next U _ ⟨[], 1, runeSize c, rest, [c], .ID⟩]
  · rw [Lexer.run_ID_word U rest hrest]
    simp only [Lexer.atEOF, List.nil_append, List.singleton_append, List.map_cons, List.sum_cons,
      String.length]
    split_ifs <;> rfl
  · simp only [Lexer.iteration, Lexer.init, Lexer.caseH]
    rw [if_neg (by simp [unicode.IsLetter_not_IsSpace U c hc]), if_pos hc]
    simp

/-- C8 at `LE` and at `L`: one Operator token, and one Identifier token. -/
theorem Lexer_word_witness :
    Lexer unicode.latin1 ['L', 'E'] = .tokens [⟨.Operator, "LE", 1, 1⟩] ∧
    Lexer unicode.latin1 ['L'] = .tokens [⟨.Identifier, "L", 1, 1⟩] :=
  ⟨Lexer_word unicode.latin1 'L' ['E'] (by decide) (by decide),
   Lexer_word unicode.latin1 'L' [] (by decide) (by decide)⟩

/-! ## Numeric literals (claims C6 and C7) -/

theorem Char.eq_of_toNat_eq (c d : Char) (h : c.toNat = d.toNat) : c = d := by
  apply Char.ext
  apply UInt32.ext
  simpa [Char.toNat] using h

theorem Char.le_iff_toNat_le (a b : Char) : a ≤ b ↔ a.toNat ≤ b.toNat := by
  rw [Char.le_def, UInt32.le_def]
  simp [Char.toNat, BitVec.le_def, UInt32.toNat]

namespace Regex

theorem dead_not_nullable (r : Regex) (h : r.dead = true) : r.nullable = false := by
  induction r with
  | none => rfl
  | eps => simp [dead] at h
  | cls _ => rfl
  | seq a b iha ihb =>
    simp only [dead, Bool.or_eq_true] at h
    simp only [nullable, Bool.and_eq_false_imp]
    rcases h with h | h
    · intro h'; rw [iha h] at h'; cases h'
    · intro _; exact ihb h
  | alt a b iha ihb =>
    simp only [dead, Bool.and_eq_true] at h
    simp [nullable, iha h.1, ihb h.2]
  | star a _ => simp [dead] at h

theorem dead_deriv (c : Char) (r : Regex) (h : r.dead = true) : (r.deriv c).dead = true := by
  induction r with
  | none => rfl
  | eps => simp [dead] at h
  | cls _ => simp [dead] at h
  | seq a b iha ihb =>
    simp only [dead, Bool.or_eq_true] at h
    simp only [deriv]
    split_ifs with hn
    · rcases h with h | h
      · rw [dead_not_nullable a h] at hn; cases hn
      · simp [dead, h, ihb h]
    · rcases h with h | h
      · simp [dead, iha h]
      · simp [dead, h]
  | alt a b iha ihb =>
    simp only [dead, Bool.and_eq_true] at h
    simp [deriv, dead, iha h.1, ihb h.2]
  | star a _ => simp [dead] at h

theorem dead_not_matchString (r : Regex) (s : List Char) (h : r.dead = true) :
    r.matchString s = false := by
  induction s generalizing r with
  | nil => exact dead_not_nullable r h
  | cons c s ih => exact ih _ (dead_deriv c r h)

theorem deriv_dead_of_not_alphabet (c : Char) (r : Regex) (h : r.alphabet c = false) :
    (r.deriv c).dead = true := by
  induction r with
  | none => rfl
  | eps => rfl
  | cls ranges =>
    simp only [alphabet] at h
    simp [deriv, h, dead]
  | seq a b iha ihb =>
    simp only [alphabet, Bool.or_eq_false_iff] at h
    simp only [deriv]
    split_ifs <;> simp [dead, iha h.1, ihb h.2]
  | alt a b iha ihb =>
    simp only [alphabet, Bool.or_eq_false_iff] at h
    simp [deriv, dead, iha h.1, ihb h.2]
  | star a ih =>
    simp only [alphabet] at h
    simp [deriv, dead, ih h]

theorem alphabet_deriv (c x : Char) (r : Regex) (h : (r.deriv c).alphabet x = true) :
    r.alphabet x = true := by
  induction r with
  | none => simp [deriv, alphabet] at h
  | eps => simp [deriv, alphabet] at h
  | cls ranges =>
    simp only [deriv] at h
    split_ifs at h <;> simp [alphabet] at h
  | seq a b iha ihb =>
    simp only [deriv] at h
    split_ifs at h
    · simp only [alphabet, Bool.or_eq_true] at h ⊢
      rcases h with (h | h) | h
      · exact Or.inl (iha h)
      · exact Or.inr h
      · exact Or.inr (ihb h)
    · simp only [alphabet, Bool.or_eq_true] at h ⊢
      rcases h with h | h
      · exact Or.inl (iha h)
      · exact Or.inr h
  | alt a b iha ihb =>
    simp only [deriv, alphabet, Bool.or_eq_true] at h ⊢
    rcases h with h | h
    · exact Or.inl (iha h)
    · exact Or.inr (ihb h)
  | star a ih =>
    simp only [deriv, alphabet, Bool.or_eq_true] at h ⊢
    rcases h with h | h
    · exact ih h
    · exact h

/-- A matched string is made of runes of the classes of the expression. -/
theorem alphabet_of_matchString (r : Regex) (s : List Char) (h : r.matchString s = true) :
    ∀ x ∈ s, r.alphabet x = true := by
  induction s generalizing r with
  | nil => simp
  | cons c s ih =>
    simp only [matchString] at h
    intro x hx
    rcases List.mem_cons.mp hx with rfl | hx
    · by_contra hc
      rw [dead_not_matchString _ s (deriv_dead_of_not_alphabet x r (by simpa using hc))] at h
      cases h
    · exact alphabet_deriv c x r (ih _ h x hx)

end Regex

/-- The runes that case `"NUM"` of the lexer adds to the lexeme. -/
theorem isNumber_runes (s : String) (h : isNumber s = true) (x : Char) (hx : x ∈ s.data) :
    (48 ≤ x.toNat ∧ x.toNat ≤ 57) ∨ x = '.' ∨ x = 'e' ∨ x = '+' ∨ x = '-' ∨
      x = 'b' ∨ x = 'o' ∨ x = 'h' ∨ x = 'd' ∨ ('a' ≤ x ∧ x ≤ 'f') ∨ ('A' ≤ x ∧ x ≤ 'F') := by
  simp only [isNumber, List.any_eq_true] at h
  obtain ⟨pattern, hp, hm⟩ := h
  have ha := Regex.alphabet_of_matchString pattern s.data hm x hx
  have e1 : x = '.' ↔ x.toNat = 46 := ⟨fun h => by rw [h]; rfl, fun h => Char.eq_of_toNat_eq _ _ h⟩
  have e2 : x = 'e' ↔ x.toNat = 101 := ⟨fun h => by rw [h]; rfl, fun h => Char.eq_of_toNat_eq _ _ h⟩
  have e3 : x = '+' ↔ x.toNat = 43 := ⟨fun h => by rw [h]; rfl, fun h => Char.eq_of_toNat_eq _ _ h⟩
  have e4 : x = '-' ↔ x.toNat = 45 := ⟨fun h => by rw [h]; rfl, fun h => Char.eq_of_toNat_eq _ _ h⟩
  have e5 : x = 'b' ↔ x.toNat = 98 := ⟨fun h => by rw [h]; rfl, fun h => Char.eq_of_toNat_eq _ _ h⟩
  have e6 : x = 'o' ↔ x.toNat = 111 := ⟨fun h => by rw [h]; rfl, fun h => Char.eq_of_toNat_eq _ _ h⟩
  have e7 : x = 'h' ↔ x.toNat = 104 := ⟨fun h => by rw [h]; rfl, fun h => Char.eq_of_toNat_eq _ _ h⟩
  have e8 : x = 'd' ↔ x.toNat = 100 := ⟨fun h => by rw [h]; rfl, fun h => Char.eq_of_toNat_eq _ _ h⟩
  rw [e1, e2, e3, e4, e5, e6, e7, e8]
  have n1 : 'a'.toNat = 97 := rfl
  have n2 : 'f'.toNat = 102 := rfl
  have n3 : 'A'.toNat = 65 := rfl
  have n4 : 'F'.toNat = 70 := rfl
  simp only [Char.le_iff_toNat_le, n1, n2, n3, n4]
  simp only [isNumber.patterns, List.mem_cons, List.mem_singleton, List.not_mem_nil, or_false] at hp
  rcases hp with rfl | rfl | rfl | rfl | rfl | rfl <;>
  · simp [Regex.alphabet, Regex.plus, Regex.opt, Regex.chr, Regex.inClass, reDigit] at ha
    omega

theorem Char.eq_iff_toNat_eq (c d : Char) : c = d ↔ c.toNat = d.toNat :=
  ⟨fun h => by rw [h], Char.eq_of_toNat_eq c d⟩

theorem isNumber_ascii (s : String) (h : isNumber s = true) (x : Char) (hx : x ∈ s.data) :
    x.toNat < 128 := by
  have := isNumber_runes s h x hx
  have n1 : 'a'.toNat = 97 := rfl
  have n2 : 'f'.toNat = 102 := rfl
  have n3 : 'A'.toNat = 65 := rfl
  have n4 : 'F'.toNat = 70 := rfl
  simp only [Char.le_iff_toNat_le, n1, n2, n3, n4] at this
  rcases this with h | rfl | rfl | rfl | rfl | rfl | rfl | rfl | rfl | h | h <;>
    first | omega | decide

theorem Lexer.run_nil (U : UnicodeTables) (v : LexerVars) (h : v.bufReader = []) :
    Lexer.run U v = Lexer.atEOF v := by
  apply Lexer.run_done
  simp [Lexer.iteration, h]

/-- Case `"NUM"` adds to the lexeme every rune that a numeric literal may hold. -/
theorem Lexer.run_NUM_literal (U : UnicodeTables) (lit tail : List Char)
    (hlit : ∀ x ∈ lit, (48 ≤ x.toNat ∧ x.toNat ≤ 57) ∨ x = '.' ∨ x = 'e' ∨ x = '+' ∨ x = '-' ∨
      x = 'b' ∨ x = 'o' ∨ x = 'h' ∨ x = 'd' ∨ ('a' ≤ x ∧ x ≤ 'f') ∨ ('A' ≤ x ∧ x ≤ 'F'))
    (tokens : List Token) (lineNum colNum : Int) (sb : List Char) :
    Lexer.run U ⟨tokens, lineNum, colNum, lit ++ tail, sb, .NUM⟩ =
      Lexer.run U ⟨tokens, lineNum, colNum + (lit.map runeSize).sum, tail, sb ++ lit, .NUM⟩ := by
  induction lit generalizing colNum sb with
  | nil => simp
  | cons x lit ih =>
    have hx := hlit x (List.mem_cons_self _ _)
    rw [List.cons_append, Lexer.run_next U _ ⟨tokens, lineNum, colNum + runeSize x, lit ++ tail, sb ++ [x], .NUM⟩]
    · rw [ih (fun y hy => hlit y (List.mem_cons_of_mem _ hy))]
      simp [add_assoc]
    · simp only [Lexer.iteration, Lexer.caseNUM]
      rw [if_pos]
      rcases hx with h | h | h | h | h | h | h | h | h | h | h
      · left
        have : x.toNat < 128 := by omega
        simp [unicode.IsDigit, this, h]
      all_goals simp [h]

/-- In state `"H"` white space up to the end of the input adds no token. -/
theorem Lexer.run_H_spaces (U : UnicodeTables) (ws : List Char)
    (hws : ∀ w ∈ ws, unicode.IsSpace U w = true)
    (tokens : List Token) (lineNum colNum : Int) (sb : List Char) :
    Lexer.run U ⟨tokens, lineNum, colNum, ws, sb, .H⟩ = .tokens tokens := by
  induction ws generalizing lineNum colNum with
  | nil => exact Lexer.run_done U _ _ rfl
  | cons w ws ih =>
    have hw := hws w (List.mem_cons_self _ _)
    have ih' := ih (fun y hy => hws y (List.mem_cons_of_mem _ hy))
    by_cases hn : w = '\n'
    · subst hn
      rw [Lexer.run_next U _ ⟨tokens, lineNum + 1, 0, ws, sb, .H⟩]
      · exact ih' _ _
      · simp [Lexer.iteration, Lexer.caseH, hw]
    · rw [Lexer.run_next U _ ⟨tokens, lineNum, colNum + runeSize w, ws, sb, .H⟩]
      · exact ih' _ _
      · simp [Lexer.iteration, Lexer.caseH, hw, hn]

/-- C6: a string that starts with a digit and is accepted by `isNumber`, alone or followed by
white space, lexes as exactly one token, of kind Number, with the string as lexeme. -/
theorem Lexer_number (U : UnicodeTables) (d : Char) (rest ws : List Char)
    (hd : unicode.IsDigit U d = true) (hnum : isNumber (String.mk (d :: rest)) = true)
    (hws : ∀ w ∈ ws, unicode.IsSpace U w = true) :
    Lexer U (d :: rest ++ ws) =
      .tokens [⟨.Number, String.mk (d :: rest), 1,
        match ws with
        | [] => 1
        | w :: _ => runeSize w⟩] := by
  have hrunes := isNumber_runes _ hnum
  have hascii := isNumber_ascii _ hnum
  simp only at hrunes hascii
  have hsize : ∀ l : List Char, (∀ x ∈ l, x.toNat < 128) → (l.map runeSize).sum = l.length := by
    intro l hl
    induction l with
    | nil => rfl
    | cons x l ih =>
      have := hl x (List.mem_cons_self _ _)
      simp [runeSize, this, ih (fun y hy => hl y (List.mem_cons_of_mem _ hy))]
      omega
  have hdl : unicode.IsLetter U d = false := by
    cases h : unicode.IsLetter U d with
    | false => rfl
    | true => rw [unicode.IsLetter_not_IsDigit U d h] at hd; cases hd
  rw [Lexer_eq_run, List.cons_append,
    Lexer.run_next U _ ⟨[], 1, runeSize d, rest ++ ws, [d], .NUM⟩]
  · rw [Lexer.run_NUM_literal U rest ws (fun x hx => hrunes x (List.mem_cons_of_mem _ hx))]
    have hcol : runeSize d + (rest.map runeSize).sum = ((d :: rest).length : Int) := by
      rw [← hsize (d :: rest) hascii]; simp
    rw [hcol]
    cases ws with
    | nil =>
      rw [Lexer.run_nil U _ rfl]
      simp [Lexer.atEOF, hnum, String.length]
    | cons w ws =>
      have hw := hws w (List.mem_cons_self _ _)
      rw [Lexer.run_next U _ ⟨[⟨.Number, String.mk (d :: rest), 1, runeSize w⟩], 1,
        ((d :: rest).length : Int), w :: ws, [], .H⟩]
      · exact Lexer.run_H_spaces U (w :: ws) hws _ _ _ _
      · have hwd : unicode.IsDigit U w = false := by
          cases h : unicode.IsDigit U w with
          | false => rfl
          | true => rw [unicode.IsDigit_not_IsSpace U w h] at hw; cases hw
        have hwl : unicode.IsLetter U w = false := by
          cases h : unicode.IsLetter U w with
          | false => rfl
          | true => rw [unicode.IsLetter_not_IsSpace U w h] at hw; cases hw
        simp only [Lexer.iteration, Lexer.caseNUM, List.singleton_append]
        rw [if_neg, if_pos hnum, if_neg]
        · simp [String.length]
        · simp [hwd, hwl]
        · simp only [Char.eq_iff_toNat_eq, Char.le_iff_toNat_le, Char.reduceToNat, hwd,
            Bool.false_eq_true, false_or]
          unfold unicode.IsSpace at hw
          split_ifs at hw with h1
          · simp only [decide_eq_true_eq] at hw
            omega
          · omega
  · simp [Lexer.iteration, Lexer.init, Lexer.caseH, hd, hdl, unicode.IsDigit_not_IsSpace U d hd]

/-- C6 at `1.5e-3` followed by a space and a line feed. -/
theorem Lexer_number_witness :
    Lexer unicode.latin1 ['1', '.', '5', 'e', '-', '3', ' ', '\n'] =
      .tokens [⟨.Number, "1.5e-3", 1, 1⟩] :=
  Lexer_number unicode.latin1 '1' ['.', '5', 'e', '-', '3'] [' ', '\n'] (by decide) (by decide)
    (by decide)

/-- C7: a digit-started string accepted by `isNumber` and directly followed by a letter that
case `"NUM"` does not add to the lexeme (none of `a`-`f`, `A`-`F`, `h`, `o`) makes `Lexer`
fail with the malformed-number error, whatever follows. -/
theorem Lexer_number_letter (U : UnicodeTables) (d : Char) (rest : List Char) (c : Char)
    (r : List Char) (hd : unicode.IsDigit U d = true)
    (hnum : isNumber (String.mk (d :: rest)) = true) (hc : unicode.IsLetter U c = true)
    (hacc : ¬ (('a' ≤ c ∧ c ≤ 'f') ∨ ('A' ≤ c ∧ c ≤ 'F') ∨ c = 'h' ∨ c = 'o')) :
    Lexer U (d :: rest ++ c :: r) =
      .error (.malformedNumber 1 (runeSize c) (String.mk (d :: rest ++ [c]))) := by
  have hrunes := isNumber_runes _ hnum
  have hascii := isNumber_ascii _ hnum
  simp only at hrunes hascii
  have hsize : ∀ l : List Char, (∀ x ∈ l, x.toNat < 128) → (l.map runeSize).sum = l.length := by
    intro l hl
    induction l with
    | nil => rfl
    | cons x l ih =>
      have := hl x (List.mem_cons_self _ _)
      simp [runeSize, this, ih (fun y hy => hl y (List.mem_cons_of_mem _ hy))]
      omega
  have hdl : unicode.IsLetter U d = false := by
    cases h : unicode.IsLetter U d with
    | false => rfl
    | true => rw [unicode.IsLetter_not_IsDigit U d h] at hd; cases hd
  rw [Lexer_eq_run, List.cons_append,
    Lexer.run_next U _ ⟨[], 1, runeSize d, rest ++ c :: r, [d], .NUM⟩]
  · rw [Lexer.run_NUM_literal U rest (c :: r) (fun x hx => hrunes x (List.mem_cons_of_mem _ hx))]
    have hcol : runeSize d + (rest.map runeSize).sum = ((d :: rest).length : Int) := by
      rw [← hsize (d :: rest) hascii]; simp
    rw [hcol]
    apply Lexer.run_done
    simp only [Lexer.iteration, Lexer.caseNUM, List.singleton_append]
    rw [if_neg, if_pos hnum, if_pos (Or.inl hc)]
    · simp [String.length, String.ext_iff, String.singleton]
    · have hcd := unicode.IsLetter_not_IsDigit U c hc
      simp only [Char.eq_iff_toNat_eq, Char.le_iff_toNat_le, Char.reduceToNat, hcd,
        Bool.false_eq_true, false_or] at hacc ⊢
      unfold unicode.IsLetter at hc
      split_ifs at hc with h1
      · simp only [decide_eq_true_eq] at hc
        omega
      · omega
  · simp [Lexer.iteration, Lexer.init, Lexer.caseH, hd, hdl, unicode.IsDigit_not_IsSpace U d hd]

/-- C7 at `12g`. -/
theorem Lexer_number_letter_witness :
    Lexer unicode.latin1 ['1', '2', 'g'] = .error (.malformedNumber 1 1 "12g") :=
  Lexer_number_letter unicode.latin1 '1' ['2'] 'g' [] (by decide) (by decide) (by decide)
    (by decide)

/-! ## The cursor of the parser -/

namespace Syntax

theorem Consumed.refl (p : Syntax) : p.Consumed [] p := by
  simp [Consumed]

theorem Consumed.trans {p q r : Syntax} {s s' : List Token} (h1 : p.Consumed s q)
    (h2 : q.Consumed s' r) : p.Consumed (s ++ s') r := by
  obtain ⟨a1, b1, c1⟩ := h1
  obtain ⟨a2, b2, c2⟩ := h2
  refine ⟨by rw [a2, a1], by rw [b2, b1]; simp [add_assoc], by rw [c1, c2]; simp⟩

theorem currentToken_of_rest {p : Syntax} {t : Token} {r : List Token} (h : p.rest = t :: r) :
    p.currentToken = t := by
  unfold rest at h
  unfold currentToken
  have hlt : p.pos < p.tokens.length := by
    by_contra hc
    rw [List.drop_of_length_le (by omega)] at h
    cases h
  rw [dif_pos hlt]
  rw [List.drop_eq_getElem_cons hlt] at h
  simp only [List.cons.injEq] at h
  simp [h.1]

theorem nextToken_of_rest {p : Syntax} {t : Token} {r : List Token} (h : p.rest = t :: r) :
    p.nextToken = { p with pos := p.pos + 1 } ∧ p.nextToken.rest = r := by
  unfold rest at h
  have hlt : p.pos < p.tokens.length := by
    by_contra hc
    rw [List.drop_of_length_le (by omega)] at h
    cases h
  rw [List.drop_eq_getElem_cons hlt] at h
  simp only [List.cons.injEq] at h
  simp [nextToken, hlt, rest, h.2]

theorem currentToken_of_rest_nil {p : Syntax} (h : p.rest = []) :
    p.currentToken = { Typ := .EOF, Lexeme := "", LineNum := 0, ColNum := 0 } := by
  unfold rest at h
  unfold currentToken
  rw [dif_neg]
  simpa using h

/-- When the current token is not the end marker, `nextToken` moves the cursor over it. -/
theorem nextToken_consumed (p : Syntax) (h : p.currentToken.Typ ≠ .EOF) :
    p.Consumed [p.currentToken] p.nextToken ∧ p.nextToken.vars = p.vars := by
  cases hr : p.rest with
  | nil => rw [currentToken_of_rest_nil hr] at h; exact absurd rfl h
  | cons t r =>
    obtain ⟨h1, h2⟩ := nextToken_of_rest hr
    rw [currentToken_of_rest hr]
    refine ⟨⟨by rw [h1], by rw [h1]; rfl, by rw [hr, h2]; rfl⟩, by rw [h1]⟩

theorem matchToken_ok {p q : Syntax} {ty : TokenType} {lx : String} (hty : ty ≠ .EOF)
    (h : p.matchToken ty lx = .ok q) :
    ∃ t, t.Typ = ty ∧ t.Lexeme = lx ∧ p.Consumed [t] q ∧ q.vars = p.vars := by
  unfold matchToken at h
  simp only at h
  split_ifs at h with hc
  simp only [Res.ok.injEq] at h
  subst h
  have := nextToken_consumed p (by rw [hc.1]; exact hty)
  exact ⟨p.currentToken, hc.1, hc.2, this.1, this.2⟩

end Syntax

theorem Used.nil (V : List String) : Used V [] := by
  simp [Used]

theorem Used_cons (V : List String) (t : Token) (s : List Token) :
    Used V (t :: s) ↔ (t.Typ = .Identifier → t.Lexeme ∈ V) ∧ Used V s := by
  simp [Used]

theorem Used_append (V : List String) (s s' : List Token) :
    Used V (s ++ s') ↔ Used V s ∧ Used V s' := by
  simp only [Used, List.mem_append]
  constructor
  · intro h; exact ⟨fun t ht => h t (Or.inl ht), fun t ht => h t (Or.inr ht)⟩
  · rintro ⟨h1, h2⟩ t (ht | ht)
    · exact h1 t ht
    · exact h2 t ht

/-! ## What a successful call of a parser method has consumed -/

theorem isRelationOperator_iff (t : Token) :
    (t.Typ = .Operator ∧ isRelationOperator t.Lexeme = true) ↔ t.isRelOp := by
  simp only [isRelationOperator, Token.isRelOp, Token.isOp, decide_eq_true_eq]
  tauto

theorem isAdditionOperator_iff (t : Token) :
    (t.Typ = .Operator ∧ isAdditionOperator t.Lexeme = true) ↔ t.isAddOp := by
  simp only [isAdditionOperator, Token.isAddOp, Token.isOp, decide_eq_true_eq]
  tauto

theorem isMultiplicationOperator_iff (t : Token) :
    (t.Typ = .Operator ∧ isMultiplicationOperator t.Lexeme = true) ↔ t.isMulOp := by
  simp only [isMultiplicationOperator, Token.isMulOp, Token.isOp, decide_eq_true_eq]
  tauto

theorem Parsed.empty {D : List Token → Prop} (p : Syntax) (h : D []) : Parsed D p p :=
  ⟨[], Syntax.Consumed.refl p, rfl, h, Used.nil _⟩

theorem Parsed.mono {D D' : List Token → Prop} {p q : Syntax} (h : Parsed D p q)
    (hd : ∀ s, D s → D' s) : Parsed D' p q := by
  obtain ⟨s, c, v, d, u⟩ := h
  exact ⟨s, c, v, hd s d, u⟩

theorem Parsed.seq {D1 D2 D : List Token → Prop} {p q r : Syntax} (h1 : Parsed D1 p q)
    (h2 : Parsed D2 q r) (hd : ∀ s s', D1 s → D2 s' → D (s ++ s')) : Parsed D p r := by
  obtain ⟨s1, c1, v1, d1, u1⟩ := h1
  obtain ⟨s2, c2, v2, d2, u2⟩ := h2
  refine ⟨s1 ++ s2, c1.trans c2, by rw [v2, v1], hd _ _ d1 d2, ?_⟩
  rw [Used_append]
  rw [v1] at u2
  exact ⟨u1, u2⟩

/-- Moving over a current token that is not an undeclared identifier. -/
theorem Parsed.next {p : Syntax} (hne : p.currentToken.Typ ≠ .EOF)
    (hu : p.currentToken.Typ = .Identifier → p.currentToken.Lexeme ∈ p.vars) :
    Parsed (fun s => s = [p.currentToken]) p p.nextToken := by
  obtain ⟨hc, hv⟩ := Syntax.nextToken_consumed p hne
  refine ⟨[p.currentToken], hc, hv, rfl, ?_⟩
  rw [Used_cons]
  exact ⟨hu, Used.nil _⟩

theorem Parsed.ofMatch {p q : Syntax} {ty : TokenType} {lx : String}
    (hty : ty = .Keyword ∨ ty = .Delimiter) (h : p.matchToken ty lx = .ok q) :
    Parsed (fun s => ∃ t, s = [t] ∧ t.Typ = ty ∧ t.Lexeme = lx) p q := by
  obtain ⟨t, ht1, ht2, ct, vt⟩ := Syntax.matchToken_ok (by rcases hty with h | h <;> rw [h] <;> decide) h
  refine ⟨[t], ct, vt, ⟨t, rfl, ht1, ht2⟩, ?_⟩
  rw [Used_cons]
  exact ⟨(fun h => by rw [ht1] at h; rcases hty with h' | h' <;> rw [h'] at h <;> cases h),
    Used.nil _⟩

namespace Syntax

theorem expression_sound (fuel : Nat) :
    (∀ p q, parseExpression fuel p = .ok q → Parsed (Derives .Expr) p q) ∧
    (∀ p q, parseExpression.loop fuel p = .ok q → Parsed (Derives .ExprRest) p q) ∧
    (∀ p q, parseOperand fuel p = .ok q → Parsed (Derives .Operand) p q) ∧
    (∀ p q, parseOperand.loop fuel p = .ok q → Parsed (Derives .OperandRest) p q) ∧
    (∀ p q, parseTerm fuel p = .ok q → Parsed (Derives .Term) p q) ∧
    (∀ p q, parseTerm.loop fuel p = .ok q → Parsed (Derives .TermRest) p q) ∧
    (∀ p q, parseFactor fuel p = .ok q → Parsed (Derives .Factor) p q) := by
  induction fuel with
  | zero =>
    refine ⟨?_, ?_, ?_, ?_, ?_, ?_, ?_⟩ <;> intro p q h
    · simp [parseExpression] at h
    · simp [parseExpression.loop] at h
    · simp [parseOperand] at h
    · simp [parseOperand.loop] at h
    · simp [parseTerm] at h
    · simp [parseTerm.loop] at h
    · simp [parseFactor] at h
  | succ fuel ih =>
    obtain ⟨ihE, ihEL, ihO, ihOL, ihT, ihTL, ihF⟩ := ih
    have hop : ∀ p : Syntax, p.currentToken.Typ = .Operator →
        Parsed (fun s => s = [p.currentToken]) p p.nextToken := fun p h =>
      Parsed.next (by rw [h]; decide) (fun h' => by rw [h] at h'; cases h')
    refine ⟨?_, ?_, ?_, ?_, ?_, ?_, ?_⟩ <;> intro p q h
    · simp only [parseExpression] at h
      split at h
      · rename_i p1 h1
        exact (ihO _ _ h1).seq (ihEL _ _ h) (fun _ _ => Derives.expr)
      · rename_i hneg; exact absurd h (hneg _)
    · simp only [parseExpression.loop] at h
      split_ifs at h with hc
      · split at h
        · rename_i p1 h1
          refine ((hop p hc.1).seq (ihO _ _ h1) (fun _ _ h1 h2 => ?_)
  : Parsed (fun s => ∃ o, s = p.currentToken :: o ∧ Derives .Operand o) _ _).seq (ihEL _ _ h) ?_
          · exact ⟨_, by rw [h1]; rfl, h2⟩
          · rintro _ _ ⟨o, rfl, ho⟩ hr
            exact Derives.exprRestMore ((isRelationOperator_iff _).mp hc) ho hr
        · rename_i hneg; exact absurd h (hneg _)
      · simp only [Res.ok.injEq] at h
        subst h
        exact Parsed.empty _ Derives.exprRestNil
    · simp only [parseOperand] at h
      split at h
      · rename_i p1 h1
        exact (ihT _ _ h1).seq (ihOL _ _ h) (fun _ _ => Derives.operand)
      · rename_i hneg; exact absurd h (hneg _)
    · simp only [parseOperand.loop] at h
      split_ifs at h with hc
      · split at h
        · rename_i p1 h1
          refine ((hop p hc.1).seq (ihT _ _ h1) (fun _ _ h1 h2 => ?_)
  : Parsed (fun s => ∃ o, s = p.currentToken :: o ∧ Derives .Term o) _ _).seq (ihOL _ _ h) ?_
          · exact ⟨_, by rw [h1]; rfl, h2⟩
          · rintro _ _ ⟨o, rfl, ho⟩ hr
            exact Derives.operandRestMore ((isAdditionOperator_iff _).mp hc) ho hr
        · rename_i hneg; exact absurd h (hneg _)
      · simp only [Res.ok.injEq] at h
        subst h
        exact Parsed.empty _ Derives.operandRestNil
    · simp only [parseTerm] at h
      split at h
      · rename_i p1 h1
        exact (ihF _ _ h1).seq (ihTL _ _ h) (fun _ _ => Derives.term)
      · rename_i hneg; exact absurd h (hneg _)
    · simp only [parseTerm.loop] at h
      split_ifs at h with hc
      · split at h
        · rename_i p1 h1
          refine ((hop p hc.1).seq (ihF _ _ h1) (fun _ _ h1 h2 => ?_)
  : Parsed (fun s => ∃ o, s = p.currentToken :: o ∧ Derives .Factor o) _ _).seq (ihTL _ _ h) ?_
          · exact ⟨_, by rw [h1]; rfl, h2⟩
          · rintro _ _ ⟨o, rfl, ho⟩ hr
            exact Derives.termRestMore ((isMultiplicationOperator_iff _).mp hc) ho hr
        · rename_i hneg; exact absurd h (hneg _)
      · simp only [Res.ok.injEq] at h
        subst h
        exact Parsed.empty _ Derives.termRestNil
    · simp only [parseFactor] at h
      split_ifs at h with h1 h2 h3 h4 h5 h6
      · -- `~` Factor
        refine (hop p h1.1).seq (ihF _ _ h) ?_
        rintro _ _ rfl hf
        exact Derives.factorNot h1 hf
      · -- `(` Expr `)`
        split at h
        · rename_i p1 hp1
          have hlp : Parsed (fun s => s = [p.currentToken]) p p.nextToken :=
            Parsed.next (by rw [h2.1]; decide) (fun h' => by rw [h2.1] at h'; cases h')
          refine (hlp.seq (ihE _ _ hp1) (fun _ _ h1 h2 => ?_)
  : Parsed (fun s => ∃ e, s = p.currentToken :: e ∧ Derives .Expr e) _ _).seq
            (Parsed.ofMatch (Or.inr rfl) h) ?_
          · exact ⟨_, by rw [h1]; rfl, h2⟩
          · rintro _ _ ⟨e, rfl, he⟩ ⟨t, rfl, ht⟩
            exact Derives.factorParen h2 he ht
        · rename_i hneg; exact absurd h (hneg _)
      · -- Ident
        simp only [Res.ok.injEq] at h
        subst h
        exact (Parsed.next (by rw [h3]; decide) (fun _ => by simpa using h4)).mono
          (fun s hs => by rw [hs]; exact Derives.factorIdent h3)
      · -- Number
        simp only [Res.ok.injEq] at h
        subst h
        exact (Parsed.next (by rw [h5]; decide) (fun h => by rw [h5] at h; cases h)).mono
          (fun s hs => by rw [hs]; exact Derives.factorNumber h5)
      · -- `true`, `false`
        simp only [Res.ok.injEq] at h
        subst h
        refine (Parsed.next (by rw [h6.1]; decide) (fun h => by rw [h6.1] at h; cases h)).mono
          (fun s hs => ?_)
        rw [hs]
        rcases h6.2 with ht | hf
        · exact Derives.factorTrue ⟨h6.1, ht⟩
        · exact Derives.factorFalse ⟨h6.1, hf⟩

end Syntax

namespace Syntax

theorem parseAssignment_sound (fuel : Nat) (p q : Syntax) (h : parseAssignment fuel p = .ok q) :
    Parsed (Derives .Assign) p q := by
  simp only [parseAssignment] at h
  split_ifs at h with h1 h2
  split at h
  · rename_i p1 hp1
    simp only [ne_eq, Decidable.not_not] at h1 h2
    have hid : Parsed (fun s => s = [p.currentToken]) p p.nextToken :=
      Parsed.next (by rw [h1]; decide) (fun _ => h2)
    refine (hid.seq (Parsed.ofMatch (Or.inl rfl) hp1) (fun _ _ h1 h2 => ?_)
  : Parsed (fun s => ∃ t, s = [p.currentToken, t] ∧ t.isKw "as") _ _).seq
      ((expression_sound fuel).1 _ _ h) ?_
    · obtain ⟨t, rfl, ht⟩ := h2
      exact ⟨t, by rw [h1]; rfl, ht⟩
    · rintro _ _ ⟨t, rfl, ht⟩ he
      exact Derives.assign h1 ht he
  · rename_i hneg; exact absurd h (hneg _)

theorem Syntaxead_idents_sound (fuel : Nat) (p q : Syntax)
    (h : Syntaxead.idents fuel p = .ok q) :
    Parsed (fun s => ∃ ids rp, s = ids ++ [rp] ∧ Derives .Idents ids ∧ rp.isDelim ")") p q := by
  induction fuel generalizing p with
  | zero => simp [Syntaxead.idents] at h
  | succ fuel ih =>
    simp only [Syntaxead.idents] at h
    split_ifs at h with h1 h2 h3 h4
    all_goals simp only [ne_eq, Decidable.not_not] at h1 h2
    all_goals have hid : Parsed (fun s => s = [p.currentToken]) p p.nextToken :=
      Parsed.next (by rw [h1]; decide) (fun _ => h2)
    · have hcomma : Parsed (fun s => s = [p.nextToken.currentToken]) p.nextToken
          p.nextToken.nextToken :=
        Parsed.next (by rw [h3.1]; decide) (fun h' => by rw [h3.1] at h'; cases h')
      refine (hid.seq hcomma (fun _ _ h1 h2 => ?_)
  : Parsed (fun s => s = [p.currentToken, p.nextToken.currentToken]) _ _).seq (ih _ h) ?_
      · rw [h1, h2]; rfl
      · rintro _ _ rfl ⟨ids, rp, rfl, hids, hrp⟩
        exact ⟨_ :: _ :: ids, rp, rfl, Derives.identsMore h1 h3 hids, hrp⟩
    · simp only [Res.ok.injEq] at h
      subst h
      have hrp : Parsed (fun s => s = [p.nextToken.currentToken]) p.nextToken
          p.nextToken.nextToken :=
        Parsed.next (by rw [h4.1]; decide) (fun h' => by rw [h4.1] at h'; cases h')
      refine hid.seq hrp ?_
      rintro _ _ rfl rfl
      exact ⟨[_], _, rfl, Derives.identsOne h1, h4⟩

theorem Syntaxead_sound (fuel : Nat) (p q : Syntax) (h : Syntaxead fuel p = .ok q) :
    Parsed (Derives .Read) p q := by
  simp only [Syntaxead] at h
  split at h
  · rename_i p1 hp1
    split at h
    · rename_i p2 hp2
      refine ((Parsed.ofMatch (Or.inl rfl) hp1).seq (Parsed.ofMatch (Or.inr rfl) hp2)
        (fun _ _ h1 h2 => ?_)
  : Parsed (fun s => ∃ t t', s = [t, t'] ∧ t.isKw "read" ∧ t'.isDelim "(") _ _).seq (Syntaxead_idents_sound fuel _ _ h) ?_
      · obtain ⟨t, rfl, ht⟩ := h1
        obtain ⟨t', rfl, ht'⟩ := h2
        exact ⟨t, t', rfl, ht, ht'⟩
      · rintro _ _ ⟨t, t', rfl, ht, ht'⟩ ⟨ids, rp, rfl, hids, hrp⟩
        exact Derives.read ht ht' hids hrp
    · rename_i hneg; exact absurd h (hneg _)
  · rename_i hneg; exact absurd h (hneg _)

theorem parseWrite_args_sound (fuel : Nat) (p q : Syntax)
    (h : parseWrite.args fuel p = .ok q) :
    Parsed (fun s => ∃ es rp, s = es ++ [rp] ∧ Derives .Exprs es ∧ rp.isDelim ")") p q := by
  induction fuel generalizing p with
  | zero => simp [parseWrite.args] at h
  | succ fuel ih =>
    simp only [parseWrite.args] at h
    split at h
    · rename_i p1 hp1
      have he := (expression_sound fuel).1 _ _ hp1
      split_ifs at h with h3 h4
      · have hcomma : Parsed (fun s => s = [p1.currentToken]) p1 p1.nextToken :=
          Parsed.next (by rw [h3.1]; decide) (fun h' => by rw [h3.1] at h'; cases h')
        refine (he.seq hcomma (fun _ _ h1 h2 => ?_)
  : Parsed (fun s => ∃ e, s = e ++ [p1.currentToken] ∧ Derives .Expr e) _ _).seq (ih _ h) ?_
        · exact ⟨_, by rw [h2], h1⟩
        · rintro _ _ ⟨e, rfl, he⟩ ⟨es, rp, rfl, hes, hrp⟩
          refine ⟨e ++ p1.currentToken :: es, rp, by simp, Derives.exprsMore he h3 hes, hrp⟩
      · simp only [Res.ok.injEq] at h
        subst h
        have hrp : Parsed (fun s => s = [p1.currentToken]) p1 p1.nextToken :=
          Parsed.next (by rw [h4.1]; decide) (fun h' => by rw [h4.1] at h'; cases h')
        refine he.seq hrp ?_
        rintro _ _ he rfl
        exact ⟨_, _, rfl, Derives.exprsOne he, h4⟩
    · rename_i hneg; exact absurd h (hneg _)

theorem parseWrite_sound (fuel : Nat) (p q : Syntax) (h : parseWrite fuel p = .ok q) :
    Parsed (Derives .Write) p q := by
  simp only [parseWrite] at h
  split at h
  · rename_i p1 hp1
    split at h
    · rename_i p2 hp2
      refine ((Parsed.ofMatch (Or.inl rfl) hp1).seq (Parsed.ofMatch (Or.inr rfl) hp2)
        (fun _ _ h1 h2 => ?_)
  : Parsed (fun s => ∃ t t', s = [t, t'] ∧ t.isKw "write" ∧ t'.isDelim "(") _ _).seq (parseWrite_args_sound fuel _ _ h) ?_
      · obtain ⟨t, rfl, ht⟩ := h1
        obtain ⟨t', rfl, ht'⟩ := h2
        exact ⟨t, t', rfl, ht, ht'⟩
      · rintro _ _ ⟨t, t', rfl, ht, ht'⟩ ⟨es, rp, rfl, hes, hrp⟩
        exact Derives.write ht ht' hes hrp
    · rename_i hneg; exact absurd h (hneg _)
  · rename_i hneg; exact absurd h (hneg _)

end Syntax

namespace Syntax

theorem operation_sound (fuel : Nat) :
    (∀ p q, parseOperation fuel p = .ok q → Parsed (Derives .Stmt) p q) ∧
    (∀ p q, parseCompositeOperation fuel p = .ok q → Parsed (Derives .Compound) p q) ∧
    (∀ p q, parseCompositeOperation.loop fuel p = .ok q →
      Parsed (fun s => ∃ s1 r rb, s = s1 ++ r ++ [rb] ∧ Derives .Stmt s1 ∧
        Derives .CompoundRest r ∧ rb.isDelim "]") p q) ∧
    (∀ p q, parseIf fuel p = .ok q → Parsed (Derives .If) p q) ∧
    (∀ p q, parseFor fuel p = .ok q → Parsed (Derives .For) p q) ∧
    (∀ p q, parseWhile fuel p = .ok q → Parsed (Derives .While) p q) := by
  induction fuel with
  | zero =>
    refine ⟨?_, ?_, ?_, ?_, ?_, ?_⟩ <;> intro p q h
    · simp [parseOperation] at h
    · simp [parseCompositeOperation] at h
    · simp [parseCompositeOperation.loop] at h
    · simp [parseIf] at h
    · simp [parseFor] at h
    · simp [parseWhile] at h
  | succ fuel ih =>
    obtain ⟨ihS, ihC, ihCL, ihI, ihF, ihW⟩ := ih
    have hE := (expression_sound fuel).1
    refine ⟨?_, ?_, ?_, ?_, ?_, ?_⟩ <;> intro p q h
    · -- parseOperation
      simp only [parseOperation] at h
      split_ifs at h
      · exact (ihI _ _ h).mono fun _ => Derives.stmtIf
      · exact (ihF _ _ h).mono fun _ => Derives.stmtFor
      · exact (ihW _ _ h).mono fun _ => Derives.stmtWhile
      · exact (Syntaxead_sound _ _ _ h).mono fun _ => Derives.stmtRead
      · exact (parseWrite_sound _ _ _ h).mono fun _ => Derives.stmtWrite
      · exact (ihC _ _ h).mono fun _ => Derives.stmtCompound
      · exact (parseAssignment_sound _ _ _ h).mono fun _ => Derives.stmtAssign
      · exact (ihC _ _ h).mono fun _ => Derives.stmtCompound
    · -- parseCompositeOperation
      simp only [parseCompositeOperation] at h
      split at h
      · rename_i p1 hp1
        refine (Parsed.ofMatch (Or.inr rfl) hp1).seq (ihCL _ _ h) ?_
        rintro _ _ ⟨lb, rfl, hlb⟩ ⟨s1, r, rb, rfl, hs1, hr, hrb⟩
        have := Derives.compound hlb hs1 hr hrb
        simpa using this
      · rename_i hneg; exact absurd h (hneg _)
    · -- the loop of parseCompositeOperation
      simp only [parseCompositeOperation.loop] at h
      split at h
      · rename_i p1 hp1
        have hs := ihS _ _ hp1
        split_ifs at h with h3 h4
        · have hsep : Parsed (fun s => s = [p1.currentToken]) p1 p1.nextToken :=
            Parsed.next (by rw [h3.1]; decide) (fun h' => by rw [h3.1] at h'; cases h')
          refine (hs.seq hsep (fun _ _ h1 h2 => ?_)
  : Parsed (fun s => ∃ s1, s = s1 ++ [p1.currentToken] ∧ Derives .Stmt s1) _ _).seq (ihCL _ _ h) ?_
          · exact ⟨_, by rw [h2], h1⟩
          · rintro _ _ ⟨s1, rfl, hs1⟩ ⟨s2, r, rb, rfl, hs2, hr, hrb⟩
            refine ⟨s1, p1.currentToken :: s2 ++ r, rb, by simp, hs1, ?_, hrb⟩
            refine Derives.compoundRestMore ?_ hs2 hr
            rcases h3.2 with h' | h'
            · exact Or.inl ⟨h3.1, h'⟩
            · exact Or.inr ⟨h3.1, h'⟩
        · simp only [Res.ok.injEq] at h
          subst h
          have hrb : Parsed (fun s => s = [p1.currentToken]) p1 p1.nextToken :=
            Parsed.next (by rw [h4.1]; decide) (fun h' => by rw [h4.1] at h'; cases h')
          refine hs.seq hrb ?_
          rintro s _ hs rfl
          exact ⟨s, [], _, by simp, hs, Derives.compoundRestNil, h4⟩
      · rename_i hneg; exact absurd h (hneg _)
    · -- parseIf
      simp only [parseIf] at h
      split at h
      · rename_i p1 hp1
        split at h
        · rename_i p2 hp2
          split at h
          · rename_i p3 hp3
            split at h
            · rename_i p4 hp4
              have hhead : Parsed (fun s => ∃ kif e kthen s1, s = kif :: e ++ kthen :: s1 ∧
                  kif.isKw "if" ∧ Derives .Expr e ∧ kthen.isKw "then" ∧ Derives .Stmt s1)
                  p p4 := by
                refine (((Parsed.ofMatch (Or.inl rfl) hp1).seq (hE _ _ hp2)
                  (fun _ _ h1 h2 => ?_)
  : Parsed (fun s => ∃ kif e, s = kif :: e ∧ kif.isKw "if" ∧ Derives .Expr e) _ _).seq (Parsed.ofMatch (Or.inl rfl) hp3)
                  (fun _ _ h1 h2 => ?_)
  : Parsed (fun s => ∃ kif e kthen, s = kif :: e ++ [kthen] ∧ kif.isKw "if" ∧ Derives .Expr e ∧ kthen.isKw "then") _ _).seq (ihS _ _ hp4) ?_
                · obtain ⟨t, rfl, ht⟩ := h1
                  exact ⟨t, _, rfl, ht, h2⟩
                · obtain ⟨kif, e, rfl, hk, he⟩ := h1
                  obtain ⟨t, rfl, ht⟩ := h2
                  exact ⟨kif, e, t, rfl, hk, he, ht⟩
                · rintro _ s1 ⟨kif, e, kthen, rfl, hk, he, ht⟩ hs1
                  exact ⟨kif, e, kthen, s1, by simp, hk, he, ht, hs1⟩
              split_ifs at h with h5
              · have helse : Parsed (fun s => s = [p4.currentToken]) p4 p4.nextToken :=
                  Parsed.next (by rw [h5.1]; decide) (fun h' => by rw [h5.1] at h'; cases h')
                refine (hhead.seq helse (fun _ _ h1 h2 => ?_)
  : Parsed (fun s => ∃ kif e kthen s1, s = kif :: e ++ kthen :: s1 ++ [p4.currentToken] ∧ kif.isKw "if" ∧ Derives .Expr e ∧ kthen.isKw "then" ∧ Derives .Stmt s1) _ _).seq (ihS _ _ h) ?_
                · obtain ⟨kif, e, kthen, s1, rfl, hk, he, ht, hs1⟩ := h1
                  exact ⟨kif, e, kthen, s1, by rw [h2], hk, he, ht, hs1⟩
                · rintro _ s2 ⟨kif, e, kthen, s1, rfl, hk, he, ht, hs1⟩ hs2
                  have := Derives.ifThenElse hk he ht hs1 h5 hs2
                  simpa using this
              · simp only [Res.ok.injEq] at h
                subst h
                refine hhead.mono ?_
                rintro _ ⟨kif, e, kthen, s1, rfl, hk, he, ht, hs1⟩
                exact Derives.ifThen hk he ht hs1
            · rename_i hneg; exact absurd h (hneg _)
          · rename_i hneg; exact absurd h (hneg _)
        · rename_i hneg; exact absurd h (hneg _)
      · rename_i hneg; exact absurd h (hneg _)
    · -- parseFor
      simp only [parseFor] at h
      split at h
      · rename_i p1 hp1
        split at h
        · rename_i p2 hp2
          split at h
          · rename_i p3 hp3
            split at h
            · rename_i p4 hp4
              split at h
              · rename_i p5 hp5
                refine (((((Parsed.ofMatch (Or.inl rfl) hp1).seq
                  (parseAssignment_sound _ _ _ hp2) (fun _ _ h1 h2 => ?_)
  : Parsed (fun s => ∃ kfor a, s = kfor :: a ∧ kfor.isKw "for" ∧ Derives .Assign a) _ _).seq
                  (Parsed.ofMatch (Or.inl rfl) hp3)
                  (fun _ _ h1 h2 => ?_)
  : Parsed (fun s => ∃ kfor a kto, s = kfor :: a ++ [kto] ∧ kfor.isKw "for" ∧ Derives .Assign a ∧ kto.isKw "to") _ _).seq (hE _ _ hp4)
                  (fun _ _ h1 h2 => ?_)
  : Parsed (fun s => ∃ kfor a kto e, s = kfor :: a ++ kto :: e ∧ kfor.isKw "for" ∧ Derives .Assign a ∧ kto.isKw "to" ∧ Derives .Expr e) _ _).seq (Parsed.ofMatch (Or.inl rfl) hp5)
                  (fun _ _ h1 h2 => ?_)
  : Parsed (fun s => ∃ kfor a kto e kdo, s = kfor :: a ++ kto :: e ++ [kdo] ∧ kfor.isKw "for" ∧ Derives .Assign a ∧ kto.isKw "to" ∧ Derives .Expr e ∧ kdo.isKw "do") _ _).seq (ihS _ _ h) ?_
                · obtain ⟨t, rfl, ht⟩ := h1
                  exact ⟨t, _, rfl, ht, h2⟩
                · obtain ⟨kfor, a, rfl, hk, ha⟩ := h1
                  obtain ⟨t, rfl, ht⟩ := h2
                  exact ⟨kfor, a, t, rfl, hk, ha, ht⟩
                · obtain ⟨kfor, a, kto, rfl, hk, ha, ht⟩ := h1
                  exact ⟨kfor, a, kto, _, by simp, hk, ha, ht, h2⟩
                · obtain ⟨kfor, a, kto, e, rfl, hk, ha, ht, he⟩ := h1
                  obtain ⟨t, rfl, hdo⟩ := h2
                  exact ⟨kfor, a, kto, e, t, by simp, hk, ha, ht, he, hdo⟩
                · rintro _ s ⟨kfor, a, kto, e, kdo, rfl, hk, ha, ht, he, hdo⟩ hs
                  have := Derives.forDo hk ha ht he hdo hs
                  simpa using this
              · rename_i hneg; exact absurd h (hneg _)
            · rename_i hneg; exact absurd h (hneg _)
          · rename_i hneg; exact absurd h (hneg _)
        · rename_i hneg; exact absurd h (hneg _)
      · rename_i hneg; exact absurd h (hneg _)
    · -- parseWhile
      simp only [parseWhile] at h
      split at h
      · rename_i p1 hp1
        split at h
        · rename_i p2 hp2
          split at h
          · rename_i p3 hp3
            refine (((Parsed.ofMatch (Or.inl rfl) hp1).seq (hE _ _ hp2)
              (fun _ _ h1 h2 => ?_)
  : Parsed (fun s => ∃ kw e, s = kw :: e ∧ kw.isKw "while" ∧ Derives .Expr e) _ _).seq (Parsed.ofMatch (Or.inl rfl) hp3)
              (fun _ _ h1 h2 => ?_)
  : Parsed (fun s => ∃ kw e kdo, s = kw :: e ++ [kdo] ∧ kw.isKw "while" ∧ Derives .Expr e ∧ kdo.isKw "do") _ _).seq (ihS _ _ h) ?_
            · obtain ⟨t, rfl, ht⟩ := h1
              exact ⟨t, _, rfl, ht, h2⟩
            · obtain ⟨kw, e, rfl, hk, he⟩ := h1
              obtain ⟨t, rfl, ht⟩ := h2
              exact ⟨kw, e, t, rfl, hk, he, ht⟩
            · rintro _ s ⟨kw, e, kdo, rfl, hk, he, hdo⟩ hs
              have := Derives.whileDo hk he hdo hs
              simpa using this
          · rename_i hneg; exact absurd h (hneg _)
        · rename_i hneg; exact absurd h (hneg _)
      · rename_i hneg; exact absurd h (hneg _)

end Syntax

theorem declaredNames_nil : declaredNames [] = [] := rfl

theorem declaredNames_cons (t : Token) (s : List Token) :
    declaredNames (t :: s) =
      if t.Typ = .Identifier then t.Lexeme :: declaredNames s else declaredNames s := by
  unfold declaredNames
  by_cases h : t.Typ = .Identifier <;> simp [List.filter_cons, h]

theorem declaredNames_append (s s' : List Token) :
    declaredNames (s ++ s') = declaredNames s ++ declaredNames s' := by
  simp [declaredNames]

theorem Declared.andThen {D1 D2 D : List Token → Prop} {p q r : Syntax} (h1 : Declared D1 p q)
    (h2 : Declared D2 q r) (hd : ∀ s s', D1 s → D2 s' → D (s ++ s')) : Declared D p r := by
  obtain ⟨s1, c1, v1, d1⟩ := h1
  obtain ⟨s2, c2, v2, d2⟩ := h2
  refine ⟨s1 ++ s2, c1.trans c2, ?_, hd _ _ d1 d2⟩
  rw [v2, v1, declaredNames_append]
  simp

/-- Moving over a current token that is not an identifier. -/
theorem Declared.skip {p : Syntax} (hne : p.currentToken.Typ ≠ .EOF)
    (hid : p.currentToken.Typ ≠ .Identifier) :
    Declared (fun s => s = [p.currentToken]) p p.nextToken := by
  obtain ⟨hc, hv⟩ := Syntax.nextToken_consumed p hne
  refine ⟨[p.currentToken], hc, ?_, rfl⟩
  rw [hv, declaredNames_cons, if_neg hid]
  rfl

namespace Syntax

theorem parseOperations_sound (fuel : Nat) (p q : Syntax)
    (h : parseOperations fuel p = .ok q) : Parsed StmtsRelaxed p q := by
  induction fuel generalizing p with
  | zero => simp [parseOperations] at h
  | succ fuel ih =>
    simp only [parseOperations] at h
    split_ifs at h with h1
    · simp only [Res.ok.injEq] at h
      subst h
      exact Parsed.empty _ StmtsRelaxed.nil
    · split at h
      · rename_i p1 hp1
        have hs := (operation_sound fuel).1 _ _ hp1
        split_ifs at h with h3 h4
        · have hsemi : Parsed (fun s => s = [p1.currentToken]) p1 p1.nextToken :=
            Parsed.next (by rw [h3.1]; decide) (fun h' => by rw [h3.1] at h'; cases h')
          refine (hs.seq hsemi (fun _ _ h1 h2 => ?_)
  : Parsed (fun s => ∃ s1, s = s1 ++ [p1.currentToken] ∧ Derives .Stmt s1) _ _).seq (ih _ h) ?_
          · exact ⟨_, by rw [h2], h1⟩
          · rintro _ ss ⟨s1, rfl, hs1⟩ hss
            have := StmtsRelaxed.more hs1 h3 hss
            simpa using this
        · simp only [Res.ok.injEq] at h
          subst h
          exact hs.mono fun _ => StmtsRelaxed.one
      · rename_i hneg; exact absurd h (hneg _)

/-- The step of `parseDeclaration` that records the current identifier and moves on. -/
theorem declare_next (p : Syntax) (h1 : p.currentToken.Typ = .Identifier) :
    Declared (fun s => s = [p.currentToken]) p
      (nextToken { p with vars := p.currentToken.Lexeme :: p.vars }) := by
  obtain ⟨⟨a, b, c⟩, _⟩ := nextToken_consumed p (by rw [h1]; decide)
  refine ⟨[p.currentToken], ⟨?_, ?_, ?_⟩, ?_, rfl⟩
  · simp only [nextToken]; split_ifs <;> rfl
  · simp only [nextToken] at b ⊢; split_ifs at b ⊢ <;> exact b
  · simp only [nextToken, rest] at c ⊢; split_ifs at c ⊢ <;> exact c
  · rw [declaredNames_cons, if_pos h1]
    simp only [nextToken]; split_ifs <;> rfl

theorem parseDeclaration_idents_sound (fuel : Nat) (p q : Syntax)
    (h : parseDeclaration.idents fuel p = .ok q) :
    Declared (fun s => ∃ ids colon, s = ids ++ [colon] ∧ Derives .Idents ids ∧
      colon.isDelim ":") p q := by
  induction fuel generalizing p with
  | zero => simp [parseDeclaration.idents] at h
  | succ fuel ih =>
    simp only [parseDeclaration.idents] at h
    split_ifs at h with h1 h2 h3 h4
    all_goals simp only [ne_eq, Decidable.not_not] at h1
    all_goals have hid := declare_next p h1
    · refine (hid.andThen (Declared.skip (by rw [h3.1]; decide) (by rw [h3.1]; decide))
        (fun _ _ h1 h2 => ?_)
  : Declared (fun s => ∃ comma, s = [p.currentToken, comma] ∧ comma.isDelim ",") _ _).andThen (ih _ h) ?_
      · exact ⟨_, by rw [h1, h2]; rfl, h3⟩
      · rintro _ _ ⟨comma, rfl, hcomma⟩ ⟨ids, colon, rfl, hids, hcolon⟩
        exact ⟨_ :: _ :: ids, colon, rfl, Derives.identsMore h1 hcomma hids, hcolon⟩
    · simp only [Res.ok.injEq] at h
      subst h
      refine hid.andThen (Declared.skip (by rw [h4.1]; decide) (by rw [h4.1]; decide)) ?_
      rintro _ _ rfl rfl
      exact ⟨[_], _, rfl, Derives.identsOne h1, h4⟩

theorem parseDeclaration_sound (fuel : Nat) (p q : Syntax)
    (h : parseDeclaration fuel p = .ok q) : Declared (Derives .Decl) p q := by
  simp only [parseDeclaration] at h
  split at h
  · rename_i p1 hp1
    split_ifs at h with h1 h2
    simp only [ne_eq, not_or, Decidable.not_not, not_and] at h1 h2
    simp only [Res.ok.injEq] at h
    subst h
    refine ((parseDeclaration_idents_sound _ _ _ hp1).andThen
      (Declared.skip (by rw [h1.1]; decide) (by rw [h1.1]; decide))
      (fun _ _ h1 h2 => ?_)
  : Declared (fun s => ∃ ids colon, s = ids ++ [colon, p1.currentToken] ∧ Derives .Idents ids ∧ colon.isDelim ":") _ _).andThen
      (Declared.skip (by rw [h2.1]; decide) (by rw [h2.1]; decide)) ?_
    · obtain ⟨ids, colon, rfl, hids, hcolon⟩ := h1
      exact ⟨ids, colon, by rw [h2]; simp, hids, hcolon⟩
    · rintro _ _ ⟨ids, colon, rfl, hids, hcolon⟩ rfl
      have hty : p1.currentToken.isTypeName := by
        have := h1.2
        simp only [Token.isTypeName, Token.isKw]
        by_cases a : p1.currentToken.Lexeme = "int"
        · exact Or.inl ⟨h1.1, a⟩
        · by_cases b : p1.currentToken.Lexeme = "float"
          · exact Or.inr (Or.inl ⟨h1.1, b⟩)
          · exact Or.inr (Or.inr ⟨h1.1, this a b⟩)
      have := Derives.decl hids hcolon hty h2
      simpa using this
  · rename_i hneg; exact absurd h (hneg _)

theorem ParseProgram_decls_sound (fuel : Nat) (p q : Syntax)
    (h : ParseProgram.decls fuel p = .ok q) : Declared (Derives .Decls) p q := by
  induction fuel generalizing p with
  | zero => simp [ParseProgram.decls] at h
  | succ fuel ih =>
    simp only [ParseProgram.decls] at h
    split at h
    · rename_i p1 hp1
      have hd := parseDeclaration_sound _ _ _ hp1
      split_ifs at h with h1
      · simp only [Res.ok.injEq] at h
        subst h
        obtain ⟨s, c, v, d⟩ := hd
        exact ⟨s, c, v, Derives.declsOne d⟩
      · exact hd.andThen (ih _ h) (fun _ _ => Derives.declsMore)
    · rename_i hneg; exact absurd h (hneg _)

end Syntax

namespace Syntax

/-- What a successful `ParseProgram` has consumed, whatever the bound on the depth. -/
theorem ParseProgram_run_sound (fuel : Nat) (p q : Syntax)
    (h : ParseProgram.run fuel p = .ok q) :
    ∃ (kp kv kb ke dot : Token) (decls stmts : List Token),
      p.Consumed (kp :: kv :: decls ++ kb :: stmts ++ [ke, dot]) q ∧
      kp.isKw "program" ∧ kv.isKw "var" ∧ Derives .Decls decls ∧ kb.isKw "begin" ∧
      StmtsRelaxed stmts ∧ ke.isKw "end" ∧ dot.isDelim "." ∧
      q.vars = (declaredNames decls).reverse ++ p.vars ∧ Used q.vars stmts := by
  simp only [ParseProgram.run] at h
  split at h
  · rename_i p1 hp1
    split at h
    · rename_i p2 hp2
      split at h
      · rename_i p3 hp3
        split at h
        · rename_i p4 hp4
          split at h
          · rename_i p5 hp5
            split at h
            · rename_i p6 hp6
              obtain ⟨kp, hkp1, hkp2, c1, v1⟩ := matchToken_ok (by decide) hp1
              obtain ⟨kv, hkv1, hkv2, c2, v2⟩ := matchToken_ok (by decide) hp2
              obtain ⟨decls, c3, v3, d3⟩ := ParseProgram_decls_sound _ _ _ hp3
              obtain ⟨kb, hkb1, hkb2, c4, v4⟩ := matchToken_ok (by decide) hp4
              obtain ⟨stmts, c5, v5, d5, u5⟩ := parseOperations_sound _ _ _ hp5
              obtain ⟨ke, hke1, hke2, c6, v6⟩ := matchToken_ok (by decide) hp6
              obtain ⟨dot, hdot1, hdot2, c7, v7⟩ := matchToken_ok (by decide) h
              refine ⟨kp, kv, kb, ke, dot, decls, stmts, ?_, ⟨hkp1, hkp2⟩, ⟨hkv1, hkv2⟩, d3,
                ⟨hkb1, hkb2⟩, d5, ⟨hke1, hke2⟩, ⟨hdot1, hdot2⟩, ?_, ?_⟩
              · have := (((((c1.trans c2).trans c3).trans c4).trans c5).trans c6).trans c7
                simpa using this
              · rw [v7, v6, v5, v4, v3, v2, v1]
              · rw [v7, v6, v5]; exact u5
            · rename_i hneg; exact absurd h (hneg _)
          · rename_i hneg; exact absurd h (hneg _)
        · rename_i hneg; exact absurd h (hneg _)
      · rename_i hneg; exact absurd h (hneg _)
    · rename_i hneg; exact absurd h (hneg _)
  · rename_i hneg; exact absurd h (hneg _)

theorem Consumed.take_of_fresh {ts s : List Token} {q : Syntax}
    (h : (Syntax.fresh ts).Consumed s q) : ts.take q.pos = s := by
  obtain ⟨_, b, c⟩ := h
  simp only [Syntax.fresh, rest, List.drop_zero, zero_add] at b c
  rw [b, c]
  simp

end Syntax

theorem Derives.minLength_le {N : NT} {s : List Token} (h : Derives N s) :
    minLength N ≤ s.length := by
  induction h <;> simp only [minLength, List.length_cons, List.length_append, List.length_nil,
    List.length_singleton] at * <;> omega

/-- C1, as stated, fails: `ParseProgram` accepts the nine tokens of
`program var x: int; begin end.` with final cursor 9, and they are not derivable from
`Program`, whose `Stmts` holds at least one statement. -/
theorem ParseProgram_sound_counterexample :
    Lexer unicode.latin1 "program var x: int; begin end.".toList = .tokens emptyBody ∧
    (Syntax.fresh emptyBody).ParseProgram = .ok ⟨emptyBody, 9, ["x"]⟩ ∧
    ¬ Derives .Program (emptyBody.take 9) := by
  refine ⟨by decide, by decide, fun h => ?_⟩
  have := h.minLength_le
  simp [minLength, emptyBody] at this

/-- C1, amended: when `ParseProgram` on a fresh parser state returns success with final
cursor `k`, the consumed tokens `ts[0..k)` are derivable from `Program` of the grammar of
section 4.2 in which the statement list between `begin` and `end` may be empty and may end
with a `;`. -/
theorem ParseProgram_sound (ts : List Token) (q : Syntax)
    (h : (Syntax.fresh ts).ParseProgram = .ok q) : ProgramRelaxed (ts.take q.pos) := by
  obtain ⟨kp, kv, kb, ke, dot, decls, stmts, c, h1, h2, h3, h4, h5, h6, h7, -, -⟩ :=
    Syntax.ParseProgram_run_sound _ _ _ h
  rw [c.take_of_fresh]
  exact ⟨kp, kv, kb, ke, dot, decls, stmts, rfl, h1, h2, h3, h4, h5, h6, h7⟩

/-- C1, amended, at the tokens of `program var x: int; begin end.`. -/
theorem ParseProgram_sound_witness : ProgramRelaxed (emptyBody.take 9) :=
  ParseProgram_sound emptyBody ⟨emptyBody, 9, ["x"]⟩ (by decide)

/-! ## Word operators and columns on the code (claims C5 and C9) -/

theorem analyze_of_tokens (U : UnicodeTables) (input : List Char) (ts : List Token) (r : Res)
    (h1 : Lexer U input = .tokens ts) (h2 : (Syntax.fresh ts).ParseProgram = r) :
    analyze U input = .parsed ts r := by
  simp only [analyze, h1, h2]

/-- C5 fails on the code: `Lexer` looks a word up in `keyWords` first, where `or` and `and`
stand too, so both become Keyword tokens, and the parser, which asks for Operator tokens,
stops at them with "';' or 'end' expected". -/
theorem analyze_or_and :
    analyze unicode.latin1 "program var x: int; begin x as x or x end.".toList =
      .parsed orProgram
        (.fail (.expectedSemicolonOrEnd ⟨.Keyword, "or", 1, 34⟩) ⟨orProgram, 10, ["x"]⟩) ∧
    analyze unicode.latin1 "program var x: int; begin x as x and x end.".toList =
      .parsed andProgram
        (.fail (.expectedSemicolonOrEnd ⟨.Keyword, "and", 1, 34⟩) ⟨andProgram, 10, ["x"]⟩) :=
  ⟨analyze_of_tokens _ _ _ _ (by decide) (by decide),
   analyze_of_tokens _ _ _ _ (by decide) (by decide)⟩

/-- C9 fails on the code: in `~x` the operator stands in column 1 and the identifier in
column 2, and `Lexer` reports column 2 for both. -/
theorem Lexer_column_after_tilde :
    Lexer unicode.latin1 ['~', 'x'] =
      .tokens [⟨.Operator, "~", 1, 2⟩, ⟨.Identifier, "x", 1, 2⟩] := by
  decide


/-! ## The parser does not look at lines and columns -/

namespace Syntax

theorem currentToken_erase (p : Syntax) : p.erase.currentToken = p.currentToken.erase := by
  unfold currentToken erase
  simp only [List.length_map]
  split_ifs with h
  · simp
  · rfl

theorem nextToken_erase (p : Syntax) : p.erase.nextToken = p.nextToken.erase := by
  unfold nextToken erase
  simp only [List.length_map]
  split_ifs <;> rfl

theorem vars_erase (p : Syntax) : p.erase.vars = p.vars := rfl

theorem matchToken_erase (p : Syntax) (ty : TokenType) (lx : String) :
    p.erase.matchToken ty lx = (p.matchToken ty lx).erase := by
  simp only [matchToken, currentToken_erase, nextToken_erase, Token.erase]
  split_ifs <;> rfl

theorem expression_erase (fuel : Nat) :
    (∀ p, parseExpression fuel (erase p) = (parseExpression fuel p).erase) ∧
    (∀ p, parseExpression.loop fuel (erase p) = (parseExpression.loop fuel p).erase) ∧
    (∀ p, parseOperand fuel (erase p) = (parseOperand fuel p).erase) ∧
    (∀ p, parseOperand.loop fuel (erase p) = (parseOperand.loop fuel p).erase) ∧
    (∀ p, parseTerm fuel (erase p) = (parseTerm fuel p).erase) ∧
    (∀ p, parseTerm.loop fuel (erase p) = (parseTerm.loop fuel p).erase) ∧
    (∀ p, parseFactor fuel (erase p) = (parseFactor fuel p).erase) := by
  induction fuel with
  | zero => exact ⟨fun _ => rfl, fun _ => rfl, fun _ => rfl, fun _ => rfl, fun _ => rfl,
      fun _ => rfl, fun _ => rfl⟩
  | succ fuel ih =>
    obtain ⟨ihE, ihEL, ihO, ihOL, ihT, ihTL, ihF⟩ := ih
    refine ⟨?_, ?_, ?_, ?_, ?_, ?_, ?_⟩ <;> intro p
    · simp only [parseExpression, ihO]
      cases parseOperand fuel p <;> simp [Res.erase, ihEL]
    · simp only [parseExpression.loop, currentToken_erase, nextToken_erase, Token.erase, ihO]
      split_ifs
      · cases parseOperand fuel p.nextToken <;> simp [Res.erase, ihEL]
      · rfl
    · simp only [parseOperand, ihT]
      cases parseTerm fuel p <;> simp [Res.erase, ihOL]
    · simp only [parseOperand.loop, currentToken_erase, nextToken_erase, Token.erase, ihT]
      split_ifs
      · cases parseTerm fuel p.nextToken <;> simp [Res.erase, ihOL]
      · rfl
    · simp only [parseTerm, ihF]
      cases parseFactor fuel p <;> simp [Res.erase, ihTL]
    · simp only [parseTerm.loop, currentToken_erase, nextToken_erase, Token.erase, ihF]
      split_ifs
      · cases parseFactor fuel p.nextToken <;> simp [Res.erase, ihTL]
      · rfl
    · simp only [parseFactor, currentToken_erase, nextToken_erase, Token.erase, ihF, ihE,
        vars_erase]
      split_ifs
      · rfl
      · cases parseExpression fuel p.nextToken <;> simp [Res.erase, matchToken_erase]
      all_goals rfl

end Syntax

namespace Syntax

theorem parseAssignment_erase (fuel : Nat) (p : Syntax) :
    parseAssignment fuel (erase p) = (parseAssignment fuel p).erase := by
  simp only [parseAssignment, currentToken_erase, nextToken_erase, Token.erase, vars_erase,
    matchToken_erase]
  split_ifs
  all_goals first
    | rfl
    | (cases p.nextToken.matchToken .Keyword "as" <;> simp [Res.erase, (expression_erase fuel).1])

theorem Syntaxead_idents_erase (fuel : Nat) (p : Syntax) :
    Syntaxead.idents fuel (erase p) = (Syntaxead.idents fuel p).erase := by
  induction fuel generalizing p with
  | zero => rfl
  | succ fuel ih =>
    simp only [Syntaxead.idents, currentToken_erase, nextToken_erase, Token.erase, vars_erase, ih]
    split_ifs <;> rfl

theorem Syntaxead_erase (fuel : Nat) (p : Syntax) :
    Syntaxead fuel (erase p) = (Syntaxead fuel p).erase := by
  simp only [Syntaxead, matchToken_erase]
  cases p.matchToken .Keyword "read" with
  | ok p1 =>
    simp only [Res.erase, matchToken_erase]
    cases p1.matchToken .Delimiter "(" <;> simp [Res.erase, Syntaxead_idents_erase]
  | fail e p1 => rfl
  | outOfFuel => rfl

theorem parseWrite_args_erase (fuel : Nat) (p : Syntax) :
    parseWrite.args fuel (erase p) = (parseWrite.args fuel p).erase := by
  induction fuel generalizing p with
  | zero => rfl
  | succ fuel ih =>
    simp only [parseWrite.args, (expression_erase fuel).1]
    cases parseExpression fuel p with
    | ok p1 =>
      simp only [Res.erase, currentToken_erase, nextToken_erase, Token.erase, ih]
      split_ifs <;> rfl
    | fail e p1 => rfl
    | outOfFuel => rfl

theorem parseWrite_erase (fuel : Nat) (p : Syntax) :
    parseWrite fuel (erase p) = (parseWrite fuel p).erase := by
  simp only [parseWrite, matchToken_erase]
  cases p.matchToken .Keyword "write" with
  | ok p1 =>
    simp only [Res.erase, matchToken_erase]
    cases p1.matchToken .Delimiter "(" <;> simp [Res.erase, parseWrite_args_erase]
  | fail e p1 => rfl
  | outOfFuel => rfl

theorem operation_erase (fuel : Nat) :
    (∀ p, parseOperation fuel (erase p) = (parseOperation fuel p).erase) ∧
    (∀ p, parseCompositeOperation fuel (erase p) = (parseCompositeOperation fuel p).erase) ∧
    (∀ p, parseCompositeOperation.loop fuel (erase p) =
      (parseCompositeOperation.loop fuel p).erase) ∧
    (∀ p, parseIf fuel (erase p) = (parseIf fuel p).erase) ∧
    (∀ p, parseFor fuel (erase p) = (parseFor fuel p).erase) ∧
    (∀ p, parseWhile fuel (erase p) = (parseWhile fuel p).erase) := by
  induction fuel with
  | zero => exact ⟨fun _ => rfl, fun _ => rfl, fun _ => rfl, fun _ => rfl, fun _ => rfl,
      fun _ => rfl⟩
  | succ fuel ih =>
    obtain ⟨ihS, ihC, ihCL, ihI, ihF, ihW⟩ := ih
    have hE := (expression_erase fuel).1
    refine ⟨?_, ?_, ?_, ?_, ?_, ?_⟩ <;> intro p
    · simp only [parseOperation, currentToken_erase, Token.erase, ihI, ihF, ihW, ihC,
        Syntaxead_erase, parseWrite_erase, parseAssignment_erase]
      split_ifs <;> rfl
    · simp only [parseCompositeOperation, matchToken_erase]
      cases p.matchToken .Delimiter "[" <;> simp [Res.erase, ihCL]
    · simp only [parseCompositeOperation.loop, ihS]
      cases parseOperation fuel p with
      | ok p1 =>
        simp only [Res.erase, currentToken_erase, nextToken_erase, Token.erase, ihCL]
        split_ifs <;> rfl
      | fail e p1 => rfl
      | outOfFuel => rfl
    · simp only [parseIf, matchToken_erase]
      cases p.matchToken .Keyword "if" with
      | ok p1 =>
        simp only [Res.erase, hE]
        cases parseExpression fuel p1 with
        | ok p2 =>
          simp only [Res.erase, matchToken_erase]
          cases p2.matchToken .Keyword "then" with
          | ok p3 =>
            simp only [Res.erase, ihS]
            cases parseOperation fuel p3 with
            | ok p4 =>
              simp only [Res.erase, currentToken_erase, nextToken_erase, Token.erase, ihS]
              split_ifs <;> rfl
            | fail e p4 => rfl
            | outOfFuel => rfl
          | fail e p3 => rfl
          | outOfFuel => rfl
        | fail e p2 => rfl
        | outOfFuel => rfl
      | fail e p1 => rfl
      | outOfFuel => rfl
    · simp only [parseFor, matchToken_erase]
      cases p.matchToken .Keyword "for" with
      | ok p1 =>
        simp only [Res.erase, parseAssignment_erase]
        cases parseAssignment fuel p1 with
        | ok p2 =>
          simp only [Res.erase, matchToken_erase]
          cases p2.matchToken .Keyword "to" with
          | ok p3 =>
            simp only [Res.erase, hE]
            cases parseExpression fuel p3 with
            | ok p4 =>
              simp only [Res.erase, matchToken_erase]
              cases p4.matchToken .Keyword "do" <;> simp [Res.erase, ihS]
            | fail e p4 => rfl
            | outOfFuel => rfl
          | fail e p3 => rfl
          | outOfFuel => rfl
        | fail e p2 => rfl
        | outOfFuel => rfl
      | fail e p1 => rfl
      | outOfFuel => rfl
    · simp only [parseWhile, matchToken_erase]
      cases p.matchToken .Keyword "while" with
      | ok p1 =>
        simp only [Res.erase, hE]
        cases parseExpression fuel p1 with
        | ok p2 =>
          simp only [Res.erase, matchToken_erase]
          cases p2.matchToken .Keyword "do" <;> simp [Res.erase, ihS]
        | fail e p2 => rfl
        | outOfFuel => rfl
      | fail e p1 => rfl
      | outOfFuel => rfl

theorem parseOperations_erase (fuel : Nat) (p : Syntax) :
    parseOperations fuel (erase p) = (parseOperations fuel p).erase := by
  induction fuel generalizing p with
  | zero => rfl
  | succ fuel ih =>
    simp only [parseOperations, currentToken_erase, Token.erase, (operation_erase fuel).1]
    split_ifs
    · rfl
    · cases parseOperation fuel p with
      | ok p1 =>
        simp only [Res.erase, currentToken_erase, nextToken_erase, Token.erase, ih]
        split_ifs <;> rfl
      | fail e p1 => rfl
      | outOfFuel => rfl

theorem parseDeclaration_idents_erase (fuel : Nat) (p : Syntax) :
    parseDeclaration.idents fuel (erase p) = (parseDeclaration.idents fuel p).erase := by
  induction fuel generalizing p with
  | zero => rfl
  | succ fuel ih =>
    have hv : ∀ (q : Syntax) (v : List String),
        ({ q.erase with vars := v } : Syntax) = ({ q with vars := v } : Syntax).erase :=
      fun _ _ => rfl
    simp only [parseDeclaration.idents, currentToken_erase, Token.erase, vars_erase, hv,
      nextToken_erase, ih]
    split_ifs <;> rfl

theorem parseDeclaration_erase (fuel : Nat) (p : Syntax) :
    parseDeclaration fuel (erase p) = (parseDeclaration fuel p).erase := by
  simp only [parseDeclaration, parseDeclaration_idents_erase]
  cases parseDeclaration.idents fuel p with
  | ok p1 =>
    simp only [Res.erase, currentToken_erase, nextToken_erase, Token.erase]
    split_ifs <;> rfl
  | fail e p1 => rfl
  | outOfFuel => rfl

theorem ParseProgram_decls_erase (fuel : Nat) (p : Syntax) :
    ParseProgram.decls fuel (erase p) = (ParseProgram.decls fuel p).erase := by
  induction fuel generalizing p with
  | zero => rfl
  | succ fuel ih =>
    simp only [ParseProgram.decls, parseDeclaration_erase]
    cases parseDeclaration fuel p with
    | ok p1 =>
      simp only [Res.erase, currentToken_erase, Token.erase, ih]
      split_ifs <;> rfl
    | fail e p1 => rfl
    | outOfFuel => rfl

theorem ParseProgram_run_erase (fuel : Nat) (p : Syntax) :
    ParseProgram.run fuel (erase p) = (ParseProgram.run fuel p).erase := by
  simp only [ParseProgram.run, matchToken_erase]
  cases p.matchToken .Keyword "program" with
  | ok p1 =>
    simp only [Res.erase, matchToken_erase]
    cases p1.matchToken .Keyword "var" with
    | ok p2 =>
      simp only [Res.erase, ParseProgram_decls_erase]
      cases ParseProgram.decls fuel p2 with
      | ok p3 =>
        simp only [Res.erase, matchToken_erase]
        cases p3.matchToken .Keyword "begin" with
        | ok p4 =>
          simp only [Res.erase, parseOperations_erase]
          cases parseOperations fuel p4 with
          | ok p5 =>
            simp only [Res.erase, matchToken_erase]
            cases p5.matchToken .Keyword "end" <;> simp [Res.erase, matchToken_erase]
          | fail e p5 => rfl
          | outOfFuel => rfl
        | fail e p4 => rfl
        | outOfFuel => rfl
      | fail e p3 => rfl
      | outOfFuel => rfl
    | fail e p2 => rfl
    | outOfFuel => rfl
  | fail e p1 => rfl
  | outOfFuel => rfl

/-- The result of `ParseProgram` on tokens without lines and columns is the result on the
tokens with its lines and columns forgotten. -/
theorem ParseProgram_erase (p : Syntax) : ParseProgram (erase p) = (ParseProgram p).erase := by
  unfold ParseProgram
  rw [ParseProgram_run_erase]
  simp [erase]

end Syntax

/-! ## The lexer decides nothing by lines and columns -/

theorem Lexer.skipComment_rest (rd : List Char) (l c l' c' : Int) :
    (Lexer.skipComment rd l c).map (fun r => r.1) =
      (Lexer.skipComment rd l' c').map (fun r => r.1) := by
  induction rd generalizing l c l' c' with
  | nil => rfl
  | cons ch rd ih =>
    simp only [Lexer.skipComment]
    split_ifs
    · rfl
    · exact ih _ _ _ _
    · exact ih _ _ _ _

theorem Lexer.iteration_sim (U : UnicodeTables) (v w : LexerVars) (h : v.Sim w) :
    (Lexer.iteration U v).Sim (Lexer.iteration U w) := by
  obtain ⟨t1, l1, c1, rd1, sb1, st1⟩ := v
  obtain ⟨t2, l2, c2, rd2, sb2, st2⟩ := w
  obtain ⟨hs, hsb, hrd, ht⟩ := h
  simp only at hs hsb hrd ht
  subst hs hsb hrd
  cases rd1 with
  | nil =>
    simp only [Lexer.iteration, LexerStep.Sim, Lexer.atEOF]
    cases st1 <;> simp only <;> (try split_ifs) <;>
      simp [LexResult.erase, LexError.erase, Token.erase, ht]
  | cons ch rd =>
    cases st1 with
    | H =>
      simp only [Lexer.iteration, Lexer.caseH]
      split_ifs
      all_goals try (simp [LexerStep.Sim, LexerVars.Sim, LexResult.erase, LexError.erase,
        Token.erase, ht]; done)
      have := Lexer.skipComment_rest rd l1 (c1 + runeSize ch) l2 (c2 + runeSize ch)
      cases h1 : Lexer.skipComment rd l1 (c1 + runeSize ch) with
      | none =>
        cases h2 : Lexer.skipComment rd l2 (c2 + runeSize ch) with
        | none => simp [LexerStep.Sim]
        | some r2 => rw [h1, h2] at this; simp at this
      | some r1 =>
        cases h2 : Lexer.skipComment rd l2 (c2 + runeSize ch) with
        | none => rw [h1, h2] at this; simp at this
        | some r2 =>
          rw [h1, h2] at this
          simp only [Option.map_some', Option.some.injEq] at this
          obtain ⟨rd1, l1', c1'⟩ := r1
          obtain ⟨rd2, l2', c2'⟩ := r2
          simp only at this
          simp [LexerStep.Sim, LexerVars.Sim, this, ht]
    | ID =>
      simp only [Lexer.iteration, Lexer.caseID]
      split_ifs <;>
        simp [LexerStep.Sim, LexerVars.Sim, LexResult.erase, LexError.erase, Token.erase, ht]
    | NUM =>
      simp only [Lexer.iteration, Lexer.caseNUM]
      split_ifs <;>
        simp [LexerStep.Sim, LexerVars.Sim, LexResult.erase, LexError.erase, Token.erase, ht]
    | OP =>
      simp only [Lexer.iteration, Lexer.caseOP]
      split_ifs
      · simp [LexerStep.Sim, LexerVars.Sim, LexResult.erase, LexError.erase, Token.erase, ht]
      · cases rd with
        | nil => simp [LexerStep.Sim, LexResult.erase, LexError.erase]
        | cons chNext rd =>
          simp only
          split_ifs <;>
            simp [LexerStep.Sim, LexerVars.Sim, LexResult.erase, LexError.erase, Token.erase, ht]

theorem Lexer.run_sim (U : UnicodeTables) (v w : LexerVars) (h : v.Sim w) :
    (Lexer.run U v).erase = (Lexer.run U w).erase := by
  induction v using Lexer.run_induction U generalizing w with
  | step v ih =>
    have hs := Lexer.iteration_sim U v w h
    cases h1 : Lexer.iteration U v with
    | next v' =>
      cases h2 : Lexer.iteration U w with
      | next w' =>
        rw [h1, h2] at hs
        rw [Lexer.run_next U v v' h1, Lexer.run_next U w w' h2]
        exact ih v' h1 w' hs
      | done r => rw [h1, h2] at hs; exact absurd hs id
    | done r =>
      cases h2 : Lexer.iteration U w with
      | next w' => rw [h1, h2] at hs; exact absurd hs id
      | done r' =>
        rw [h1, h2] at hs
        rw [Lexer.run_done U v r h1, Lexer.run_done U w r' h2]
        exact hs

/-! ## Comments (claim C10) -/

theorem Lexer.skipComment_append (rd more : List Char) (l c : Int) (rd' : List Char)
    (l' c' : Int) (h : Lexer.skipComment rd l c = some (rd', l', c')) :
    Lexer.skipComment (rd ++ more) l c = some (rd' ++ more, l', c') := by
  induction rd generalizing l c with
  | nil => simp [Lexer.skipComment] at h
  | cons ch rd ih =>
    simp only [Lexer.skipComment, List.cons_append] at h ⊢
    split_ifs at h ⊢
    · simp only [Option.some.injEq, Prod.mk.injEq] at h
      obtain ⟨rfl, rfl, rfl⟩ := h
      rfl
    · exact ih _ _ h
    · exact ih _ _ h

/-- An iteration that goes on does the same with more input behind. -/
theorem Lexer.iteration_append (U : UnicodeTables) (v v' : LexerVars) (more : List Char)
    (h : Lexer.iteration U v = .next v') :
    Lexer.iteration U (v.append more) = .next (v'.append more) := by
  obtain ⟨tokens, lineNum, colNum, bufReader, sb, state⟩ := v
  cases bufReader with
  | nil => simp [Lexer.iteration] at h
  | cons ch rd =>
    cases state with
    | H =>
      simp only [Lexer.iteration, Lexer.caseH, LexerVars.append, List.cons_append] at h ⊢
      split_ifs at h ⊢
      all_goals try (simp only [LexerStep.next.injEq] at h; subst h; rfl)
      split at h
      · simp at h
      · rename_i rd1 l1 c1 hsk
        simp only [LexerStep.next.injEq] at h
        subst h
        rw [Lexer.skipComment_append _ more _ _ _ _ _ hsk]
    | ID =>
      simp only [Lexer.iteration, Lexer.caseID, LexerVars.append, List.cons_append] at h ⊢
      split_ifs at h ⊢ <;> (simp only [LexerStep.next.injEq] at h; subst h; rfl)
    | NUM =>
      simp only [Lexer.iteration, Lexer.caseNUM, LexerVars.append, List.cons_append] at h ⊢
      split_ifs at h ⊢ <;> (simp only [LexerStep.next.injEq] at h; subst h; rfl)
    | OP =>
      simp only [Lexer.iteration, Lexer.caseOP, LexerVars.append, List.cons_append] at h ⊢
      split_ifs at h ⊢
      · simp only [LexerStep.next.injEq] at h; subst h; rfl
      · cases rd with
        | nil => simp at h
        | cons chNext rd =>
          simp only [List.cons_append] at h ⊢
          split_ifs at h ⊢ <;> (simp only [LexerStep.next.injEq] at h; subst h; rfl)

/-- Before the end of the input the loop is left only with an error. -/
theorem Lexer.iteration_done (U : UnicodeTables) (v : LexerVars) (r : LexResult)
    (hne : v.bufReader ≠ []) (h : Lexer.iteration U v = .done r) : ∃ e, r = .error e := by
  obtain ⟨tokens, lineNum, colNum, bufReader, sb, state⟩ := v
  cases bufReader with
  | nil => exact absurd rfl hne
  | cons ch rd =>
    cases state with
    | H =>
      simp only [Lexer.iteration, Lexer.caseH] at h
      split_ifs at h
      · split at h
        · simp only [LexerStep.done.injEq] at h; exact ⟨_, h.symm⟩
        · simp at h
      · simp only [LexerStep.done.injEq] at h; exact ⟨_, h.symm⟩
    | ID =>
      simp only [Lexer.iteration, Lexer.caseID] at h
      split_ifs at h
    | NUM =>
      simp only [Lexer.iteration, Lexer.caseNUM] at h
      split_ifs at h <;> (simp only [LexerStep.done.injEq] at h; exact ⟨_, h.symm⟩)
    | OP =>
      simp only [Lexer.iteration, Lexer.caseOP] at h
      split_ifs at h
      cases rd with
      | nil =>
        simp only [LexerStep.done.injEq] at h; exact ⟨_, h.symm⟩
      | cons chNext rd =>
        simp only at h
        split_ifs at h

/-- When the loop ends with tokens, it reaches the end of the input with values of the
variables from which it goes on in the same way when more input follows. -/
theorem Lexer.run_prefix (U : UnicodeTables) (v : LexerVars) (ts : List Token)
    (h : Lexer.run U v = .tokens ts) :
    ∃ w : LexerVars, w.bufReader = [] ∧ Lexer.atEOF w = .tokens ts ∧
      ∀ more, Lexer.run U (v.append more) = Lexer.run U (w.append more) := by
  induction v using Lexer.run_induction U with
  | step v ih =>
    by_cases hnil : v.bufReader = []
    · refine ⟨v, hnil, ?_, fun _ => rfl⟩
      rw [← Lexer.run_nil U v hnil]; exact h
    · cases hit : Lexer.iteration U v with
      | done r =>
        obtain ⟨e, rfl⟩ := Lexer.iteration_done U v r hnil hit
        rw [Lexer.run_done U v _ hit] at h
        cases h
      | next v' =>
        rw [Lexer.run_next U v v' hit] at h
        obtain ⟨w, hw1, hw2, hw3⟩ := ih v' hit h
        refine ⟨w, hw1, hw2, fun more => ?_⟩
        rw [Lexer.run_next U _ _ (Lexer.iteration_append U v v' more hit)]
        exact hw3 more

/-- After a lexeme is finished, a comment and a space leave the loop in states that differ
only in lines and columns. -/
theorem Lexer.run_comment_H (U : UnicodeTables) (c b : List Char) (hc : '}' ∉ c)
    (t1 t2 : List Token) (l1 k1 l2 k2 : Int) (sb : List Char)
    (ht : t1.map Token.erase = t2.map Token.erase) :
    (Lexer.run U ⟨t1, l1, k1, '{' :: (c ++ '}' :: b), sb, .H⟩).erase =
      (Lexer.run U ⟨t2, l2, k2, ' ' :: b, sb, .H⟩).erase := by
  have hskip : ∀ (l k : Int), ∃ l' k', Lexer.skipComment (c ++ '}' :: b) l k = some (b, l', k') := by
    induction c with
    | nil => intro l k; exact ⟨l, k, by simp [Lexer.skipComment]⟩
    | cons x c ih =>
      intro l k
      have hx : x ≠ '}' := fun h => hc (by simp [h])
      have hc' : '}' ∉ c := fun h => hc (List.mem_cons_of_mem _ h)
      simp only [List.cons_append, Lexer.skipComment, if_neg hx]
      split_ifs
      · exact ih hc' _ _
      · exact ih hc' _ _
  obtain ⟨l', k', hsk⟩ := hskip l1 (k1 + runeSize '{')
  have a1 : unicode.IsSpace U '{' = false := rfl
  have a2 : unicode.IsLetter U '{' = false := rfl
  have a3 : unicode.IsDigit U '{' = false := rfl
  have a4 : isDelimiter '{' = true := by decide
  have a5 : unicode.IsSpace U ' ' = true := rfl
  have e1 : Lexer.run U ⟨t1, l1, k1, '{' :: (c ++ '}' :: b), sb, .H⟩ =
      Lexer.run U ⟨t1, l', k', b, sb, .H⟩ :=
    Lexer.run_next U _ _ (by simp [Lexer.iteration, Lexer.caseH, a1, a2, a3, a4, hsk])
  have e2 : Lexer.run U ⟨t2, l2, k2, ' ' :: b, sb, .H⟩ =
      Lexer.run U ⟨t2, l2, k2 + runeSize ' ', b, sb, .H⟩ :=
    Lexer.run_next U _ _ (by simp [Lexer.iteration, Lexer.caseH, a5])
  rw [e1, e2]
  exact Lexer.run_sim U _ _ ⟨rfl, rfl, rfl, ht⟩

/-- C10: behind an input that `Lexer` accepts on its own, a comment without `}` inside and
a single space are the same to the two phases: the results of `Lexer` on the two inputs
agree up to lines and columns (both fail, with the same kind of error, or both give tokens
of the same kinds and lexemes), and on the two token lists `ParseProgram` gives results that
agree up to lines and columns. -/
theorem comment_transparent (U : UnicodeTables) (a c b : List Char) (ts : List Token)
    (ha : Lexer U a = .tokens ts) (hc : '}' ∉ c) :
    (Lexer U (a ++ '{' :: c ++ '}' :: b)).erase = (Lexer U (a ++ ' ' :: b)).erase ∧
    ∀ t1 t2, Lexer U (a ++ '{' :: c ++ '}' :: b) = .tokens t1 →
      Lexer U (a ++ ' ' :: b) = .tokens t2 →
      (Syntax.fresh t1).ParseProgram.erase = (Syntax.fresh t2).ParseProgram.erase := by
  have hlex : (Lexer U (a ++ '{' :: c ++ '}' :: b)).erase = (Lexer U (a ++ ' ' :: b)).erase := by
    rw [Lexer_eq_run] at ha
    obtain ⟨w, hw1, hw2, hw3⟩ := Lexer.run_prefix U _ ts ha
    obtain ⟨tokens, lineNum, colNum, bufReader, sb, state⟩ := w
    simp only at hw1
    subst hw1
    have h1 := hw3 ('{' :: (c ++ '}' :: b))
    have h2 := hw3 (' ' :: b)
    simp only [LexerVars.append, Lexer.init, List.nil_append] at h1 h2
    rw [Lexer_eq_run, Lexer_eq_run]
    simp only [Lexer.init, List.append_assoc, List.cons_append]
    rw [h1, h2]
    have a1 : unicode.IsLetter U '{' = false := rfl
    have a2 : unicode.IsDigit U '{' = false := rfl
    have a3 : unicode.IsLetter U ' ' = false := rfl
    have a4 : unicode.IsDigit U ' ' = false := rfl
    cases state with
    | H => exact Lexer.run_comment_H U c b hc _ _ _ _ _ _ _ rfl
    | ID =>
      have e1 : Lexer.run U ⟨tokens, lineNum, colNum, '{' :: (c ++ '}' :: b), sb, .ID⟩ =
          Lexer.run U ⟨tokens ++ [⟨if isKeyword (String.mk sb) then .Keyword
            else if isOperator (String.mk sb) then .Operator else .Identifier, String.mk sb,
            lineNum, colNum + runeSize '{' - (String.mk sb).length⟩], lineNum,
            colNum + runeSize '{' - runeSize '{', '{' :: (c ++ '}' :: b), [], .H⟩ :=
        Lexer.run_next U _ _ (by simp [Lexer.iteration, Lexer.caseID, a1, a2])
      have e2 : Lexer.run U ⟨tokens, lineNum, colNum, ' ' :: b, sb, .ID⟩ =
          Lexer.run U ⟨tokens ++ [⟨if isKeyword (String.mk sb) then .Keyword
            else if isOperator (String.mk sb) then .Operator else .Identifier, String.mk sb,
            lineNum, colNum + runeSize ' ' - (String.mk sb).length⟩], lineNum,
            colNum + runeSize ' ' - runeSize ' ', ' ' :: b, [], .H⟩ :=
        Lexer.run_next U _ _ (by simp [Lexer.iteration, Lexer.caseID, a3, a4])
      rw [e1, e2]
      exact Lexer.run_comment_H U c b hc _ _ _ _ _ _ _ (by simp [Token.erase])
    | NUM =>
      have hnum : isNumber (String.mk sb) = true := by
        simp only [Lexer.atEOF] at hw2
        split_ifs at hw2 with h
        exact h
      have e1 : Lexer.run U ⟨tokens, lineNum, colNum, '{' :: (c ++ '}' :: b), sb, .NUM⟩ =
          Lexer.run U ⟨tokens ++ [⟨.Number, String.mk sb,
            lineNum, colNum + runeSize '{' - (String.mk sb).length⟩], lineNum,
            colNum + runeSize '{' - runeSize '{', '{' :: (c ++ '}' :: b), [], .H⟩ :=
        Lexer.run_next U _ _ (by
          simp only [Lexer.iteration, Lexer.caseNUM]
          rw [if_neg (by simp only [a2]; decide), if_pos hnum, if_neg (by simp [a1, a2])])
      have e2 : Lexer.run U ⟨tokens, lineNum, colNum, ' ' :: b, sb, .NUM⟩ =
          Lexer.run U ⟨tokens ++ [⟨.Number, String.mk sb,
            lineNum, colNum + runeSize ' ' - (String.mk sb).length⟩], lineNum,
            colNum + runeSize ' ' - runeSize ' ', ' ' :: b, [], .H⟩ :=
        Lexer.run_next U _ _ (by
          simp only [Lexer.iteration, Lexer.caseNUM]
          rw [if_neg (by simp only [a4]; decide), if_pos hnum, if_neg (by simp [a3, a4])])
      rw [e1, e2]
      exact Lexer.run_comment_H U c b hc _ _ _ _ _ _ _ (by simp [Token.erase])
    | OP =>
      have hop : isOperator (String.mk sb) = true := by
        simp only [Lexer.atEOF] at hw2
        split_ifs at hw2 with h
        exact h
      have e1 : Lexer.run U ⟨tokens, lineNum, colNum, '{' :: (c ++ '}' :: b), sb, .OP⟩ =
          Lexer.run U ⟨tokens ++ [⟨.Operator, String.mk sb,
            lineNum, colNum + runeSize '{' - runeSize '{' + 1⟩], lineNum,
            colNum + runeSize '{' - runeSize '{', '{' :: (c ++ '}' :: b), [], .H⟩ :=
        Lexer.run_next U _ _ (by simp [Lexer.iteration, Lexer.caseOP, hop])
      have e2 : Lexer.run U ⟨tokens, lineNum, colNum, ' ' :: b, sb, .OP⟩ =
          Lexer.run U ⟨tokens ++ [⟨.Operator, String.mk sb,
            lineNum, colNum + runeSize ' ' - runeSize ' ' + 1⟩], lineNum,
            colNum + runeSize ' ' - runeSize ' ', ' ' :: b, [], .H⟩ :=
        Lexer.run_next U _ _ (by simp [Lexer.iteration, Lexer.caseOP, hop])
      rw [e1, e2]
      exact Lexer.run_comment_H U c b hc _ _ _ _ _ _ _ (by simp [Token.erase])
  refine ⟨hlex, fun t1 t2 h1 h2 => ?_⟩
  rw [h1, h2] at hlex
  simp only [LexResult.erase, LexResult.tokens.injEq] at hlex
  have e : ∀ t : List Token, (Syntax.fresh t).erase = Syntax.fresh (t.map Token.erase) :=
    fun _ => rfl
  rw [← Syntax.ParseProgram_erase, ← Syntax.ParseProgram_erase, e, e, hlex]

/-- C10 at `program var x: int; {note} begin x as 1 end.` and the same program with a space
in the place of the comment: the same kinds and lexemes, and both parse successfully. -/
theorem comment_transparent_witness :
    (Lexer unicode.latin1 ("program var x: int; ".toList ++ '{' :: "note".toList ++
        '}' :: " begin x as 1 end.".toList)).erase =
      (Lexer unicode.latin1 ("program var x: int; ".toList ++
        ' ' :: " begin x as 1 end.".toList)).erase ∧
    analyze unicode.latin1 "program var x: int; {note} begin x as 1 end.".toList =
      .parsed commentProgram (.ok ⟨commentProgram, 12, ["x"]⟩) ∧
    analyze unicode.latin1 "program var x: int;  begin x as 1 end.".toList =
      .parsed spaceProgram (.ok ⟨spaceProgram, 12, ["x"]⟩) :=
  ⟨(comment_transparent unicode.latin1 "program var x: int; ".toList "note".toList
      " begin x as 1 end.".toList (emptyBody.take 6) (by decide) (by decide)).1,
   analyze_of_tokens _ _ _ _ (by decide) (by decide),
   analyze_of_tokens _ _ _ _ (by decide) (by decide)⟩

/-! ## Completeness of the expression parsers -/

namespace Syntax

theorem advance_zero (p : Syntax) : p.advance 0 = p := rfl

theorem advance_advance (p : Syntax) (a b : Nat) : (p.advance a).advance b = p.advance (a + b) := by
  simp [advance, add_assoc]

theorem rest_advance {p : Syntax} {s r : List Token} (h : p.rest = s ++ r) :
    (p.advance s.length).rest = r := by
  simp only [rest, advance] at h ⊢
  rw [← List.drop_drop, h]
  simp

theorem nextToken_of_rest_cons {p : Syntax} {t : Token} {r : List Token} (h : p.rest = t :: r) :
    p.nextToken = p.advance 1 :=
  (nextToken_of_rest h).1

theorem rest_advance_one {p : Syntax} {t : Token} {r : List Token} (h : p.rest = t :: r) :
    (p.advance 1).rest = r :=
  @rest_advance p [t] r h

theorem matchToken_of_rest {p : Syntax} {t : Token} {r : List Token} {ty : TokenType}
    {lx : String} (h : p.rest = t :: r) (h1 : t.Typ = ty) (h2 : t.Lexeme = lx) :
    p.matchToken ty lx = .ok (p.advance 1) := by
  simp [matchToken, currentToken_of_rest h, h1, h2, nextToken_of_rest_cons h]

/-- The current token behind everything consumed is no operator that the loop looks for. -/
theorem currentToken_of_follow {p : Syntax} {rest : List Token} (h : p.rest = rest)
    (P : Token → Prop) (hP : ∀ t ∈ rest.head?, ¬ P t) (heof : ¬ P ⟨.EOF, "", 0, 0⟩) :
    ¬ P p.currentToken := by
  cases rest with
  | nil => rw [currentToken_of_rest_nil h]; exact heof
  | cons t r => rw [currentToken_of_rest h]; exact hP t (by simp)

end Syntax

theorem Token.isAddOp_not_isMulOp {t : Token} (h : t.isAddOp) : ¬ t.isMulOp := by
  simp only [Token.isAddOp, Token.isMulOp, Token.isOp] at h ⊢
  rcases h with h | h | h <;> simp [h.2]

theorem Token.isRelOp_not_isMulOp {t : Token} (h : t.isRelOp) : ¬ t.isMulOp := by
  simp only [Token.isRelOp, Token.isMulOp, Token.isOp] at h ⊢
  rcases h with h | h | h | h | h | h <;> simp [h.2]

theorem Token.isRelOp_not_isAddOp {t : Token} (h : t.isRelOp) : ¬ t.isAddOp := by
  simp only [Token.isRelOp, Token.isAddOp, Token.isOp] at h ⊢
  rcases h with h | h | h | h | h | h <;> simp [h.2]

theorem Token.not_isMulOp_of_Typ {t : Token} (h : t.Typ ≠ .Operator) : ¬ t.isMulOp := by
  simp only [Token.isMulOp, Token.isOp]
  tauto

theorem Token.not_isAddOp_of_Typ {t : Token} (h : t.Typ ≠ .Operator) : ¬ t.isAddOp := by
  simp only [Token.isAddOp, Token.isOp]
  tauto

theorem Token.not_isRelOp_of_Typ {t : Token} (h : t.Typ ≠ .Operator) : ¬ t.isRelOp := by
  simp only [Token.isRelOp, Token.isOp]
  tauto

theorem Follow.operand_exprRest {r rest : List Token} (hr : Derives .ExprRest r)
    (hf : Follow .Expr rest) : Follow .Operand (r ++ rest) := by
  cases hr with
  | exprRestNil => intro t ht; exact ⟨(hf t ht).1, (hf t ht).2.1⟩
  | exprRestMore hop _ _ =>
    intro t ht
    simp only [List.cons_append, List.append_assoc, List.head?_cons, Option.mem_def,
      Option.some.injEq] at ht
    subst ht
    exact ⟨Token.isRelOp_not_isMulOp hop, Token.isRelOp_not_isAddOp hop⟩

theorem Follow.term_operandRest {r rest : List Token} (hr : Derives .OperandRest r)
    (hf : Follow .Operand rest) : Follow .Term (r ++ rest) := by
  cases hr with
  | operandRestNil => intro t ht; exact (hf t ht).1
  | operandRestMore hop _ _ =>
    intro t ht
    simp only [List.cons_append, List.append_assoc, List.head?_cons, Option.mem_def,
      Option.some.injEq] at ht
    subst ht
    exact Token.isAddOp_not_isMulOp hop

/-- Completeness of the expression parsers: tokens derivable from an expression nonterminal
are accepted by its parser, which consumes exactly them. -/
theorem expression_complete {N : NT} {s : List Token} (h : Derives N s) : ExprComplete N s := by
  induction h
  case expr o r ho hr iho ihr =>
    intro parse hp p rest fuel hrest hused hfollow hfuel
    simp only [exprParser, Option.mem_def, Option.some.injEq] at hp
    subst hp
    obtain ⟨fuel, rfl⟩ : ∃ f, fuel = f + 1 := ⟨fuel - 1, by simp [exprFuel] at hfuel; omega⟩
    simp only [exprFuel, List.length_append] at hfuel
    rw [Used_append] at hused
    rw [List.append_assoc] at hrest
    have h1 := iho _ rfl p (r ++ rest) fuel hrest hused.1 (Follow.operand_exprRest hr hfollow)
      (by simp only [exprFuel]; omega)
    have h2 := ihr _ rfl (p.advance o.length) rest fuel (Syntax.rest_advance hrest) hused.2
      hfollow (by simp only [exprFuel]; omega)
    simp only [Syntax.parseExpression, h1, h2, Syntax.advance_advance, List.length_append]
  case exprRestNil =>
    intro parse hp p rest fuel hrest hused hfollow hfuel
    simp only [exprParser, Option.mem_def, Option.some.injEq] at hp
    subst hp
    obtain ⟨fuel, rfl⟩ : ∃ f, fuel = f + 1 := ⟨fuel - 1, by simp [exprFuel] at hfuel; omega⟩
    have hc := Syntax.currentToken_of_follow hrest Token.isRelOp (fun t ht => (hfollow t ht).2.2)
      (by simp [Token.isRelOp, Token.isOp])
    rw [← isRelationOperator_iff] at hc
    simp only [Syntax.parseExpression.loop, if_neg hc, List.length_nil, Syntax.advance_zero]
  case exprRestMore op o r hop ho hr iho ihr =>
    intro parse hp p rest fuel hrest hused hfollow hfuel
    simp only [exprParser, Option.mem_def, Option.some.injEq] at hp
    subst hp
    obtain ⟨fuel, rfl⟩ : ∃ f, fuel = f + 1 := ⟨fuel - 1, by simp [exprFuel] at hfuel; omega⟩
    simp only [exprFuel, List.length_append, List.length_cons] at hfuel
    rw [Used_append, Used_cons] at hused
    rw [List.append_assoc, List.cons_append] at hrest
    have hc : p.currentToken = op := Syntax.currentToken_of_rest hrest
    have hn := Syntax.nextToken_of_rest_cons hrest
    have hr1 := Syntax.rest_advance_one hrest
    have h1 := iho _ rfl (p.advance 1) (r ++ rest) fuel hr1 hused.1.2
      (Follow.operand_exprRest hr hfollow) (by simp only [exprFuel]; omega)
    have h2 := ihr _ rfl ((p.advance 1).advance o.length) rest fuel (Syntax.rest_advance hr1)
      hused.2 hfollow (by simp only [exprFuel]; omega)
    simp only [Syntax.advance_advance] at h1 h2
    simp only [Syntax.parseExpression.loop, hc, if_pos ((isRelationOperator_iff op).mpr hop), hn,
      h1, h2, List.length_append, List.length_cons]
    congr 2
    omega
  case operand t r ht hr iht ihr =>
    intro parse hp p rest fuel hrest hused hfollow hfuel
    simp only [exprParser, Option.mem_def, Option.some.injEq] at hp
    subst hp
    obtain ⟨fuel, rfl⟩ : ∃ f, fuel = f + 1 := ⟨fuel - 1, by simp [exprFuel] at hfuel; omega⟩
    simp only [exprFuel, List.length_append] at hfuel
    rw [Used_append] at hused
    rw [List.append_assoc] at hrest
    have h1 := iht _ rfl p (r ++ rest) fuel hrest hused.1 (Follow.term_operandRest hr hfollow)
      (by simp only [exprFuel]; omega)
    have h2 := ihr _ rfl (p.advance t.length) rest fuel (Syntax.rest_advance hrest) hused.2
      hfollow (by simp only [exprFuel]; omega)
    simp only [Syntax.parseOperand, h1, h2, Syntax.advance_advance, List.length_append]
  case operandRestNil =>
    intro parse hp p rest fuel hrest hused hfollow hfuel
    simp only [exprParser, Option.mem_def, Option.some.injEq] at hp
    subst hp
    obtain ⟨fuel, rfl⟩ : ∃ f, fuel = f + 1 := ⟨fuel - 1, by simp [exprFuel] at hfuel; omega⟩
    have hc := Syntax.currentToken_of_follow hrest Token.isAddOp (fun t ht => (hfollow t ht).2)
      (by simp [Token.isAddOp, Token.isOp])
    rw [← isAdditionOperator_iff] at hc
    simp only [Syntax.parseOperand.loop, if_neg hc, List.length_nil, Syntax.advance_zero]
  case operandRestMore op t r hop ht hr iht ihr =>
    intro parse hp p rest fuel hrest hused hfollow hfuel
    simp only [exprParser, Option.mem_def, Option.some.injEq] at hp
    subst hp
    obtain ⟨fuel, rfl⟩ : ∃ f, fuel = f + 1 := ⟨fuel - 1, by simp [exprFuel] at hfuel; omega⟩
    simp only [exprFuel, List.length_append, List.length_cons] at hfuel
    rw [Used_append, Used_cons] at hused
    rw [List.append_assoc, List.cons_append] at hrest
    have hc : p.currentToken = op := Syntax.currentToken_of_rest hrest
    have hn := Syntax.nextToken_of_rest_cons hrest
    have hr1 := Syntax.rest_advance_one hrest
    have h1 := iht _ rfl (p.advance 1) (r ++ rest) fuel hr1 hused.1.2
      (Follow.term_operandRest hr hfollow) (by simp only [exprFuel]; omega)
    have h2 := ihr _ rfl ((p.advance 1).advance t.length) rest fuel (Syntax.rest_advance hr1)
      hused.2 hfollow (by simp only [exprFuel]; omega)
    simp only [Syntax.advance_advance] at h1 h2
    simp only [Syntax.parseOperand.loop, hc, if_pos ((isAdditionOperator_iff op).mpr hop), hn,
      h1, h2, List.length_append, List.length_cons]
    congr 2
    omega
  case term f r hf hr ihf ihr =>
    intro parse hp p rest fuel hrest hused hfollow hfuel
    simp only [exprParser, Option.mem_def, Option.some.injEq] at hp
    subst hp
    obtain ⟨fuel, rfl⟩ : ∃ f, fuel = f + 1 := ⟨fuel - 1, by simp [exprFuel] at hfuel; omega⟩
    simp only [exprFuel, List.length_append] at hfuel
    rw [Used_append] at hused
    rw [List.append_assoc] at hrest
    have h1 := ihf _ rfl p (r ++ rest) fuel hrest hused.1 trivial
      (by simp only [exprFuel]; omega)
    have h2 := ihr _ rfl (p.advance f.length) rest fuel (Syntax.rest_advance hrest) hused.2
      hfollow (by simp only [exprFuel]; omega)
    simp only [Syntax.parseTerm, h1, h2, Syntax.advance_advance, List.length_append]
  case termRestNil =>
    intro parse hp p rest fuel hrest hused hfollow hfuel
    simp only [exprParser, Option.mem_def, Option.some.injEq] at hp
    subst hp
    obtain ⟨fuel, rfl⟩ : ∃ f, fuel = f + 1 := ⟨fuel - 1, by simp [exprFuel] at hfuel; omega⟩
    have hc := Syntax.currentToken_of_follow hrest Token.isMulOp (fun t ht => hfollow t ht)
      (by simp [Token.isMulOp, Token.isOp])
    rw [← isMultiplicationOperator_iff] at hc
    simp only [Syntax.parseTerm.loop, if_neg hc, List.length_nil, Syntax.advance_zero]
  case termRestMore op f r hop hf hr ihf ihr =>
    intro parse hp p rest fuel hrest hused hfollow hfuel
    simp only [exprParser, Option.mem_def, Option.some.injEq] at hp
    subst hp
    obtain ⟨fuel, rfl⟩ : ∃ f, fuel = f + 1 := ⟨fuel - 1, by simp [exprFuel] at hfuel; omega⟩
    simp only [exprFuel, List.length_append, List.length_cons] at hfuel
    rw [Used_append, Used_cons] at hused
    rw [List.append_assoc, List.cons_append] at hrest
    have hc : p.currentToken = op := Syntax.currentToken_of_rest hrest
    have hn := Syntax.nextToken_of_rest_cons hrest
    have hr1 := Syntax.rest_advance_one hrest
    have h1 := ihf _ rfl (p.advance 1) (r ++ rest) fuel hr1 hused.1.2 trivial
      (by simp only [exprFuel]; omega)
    have h2 := ihr _ rfl ((p.advance 1).advance f.length) rest fuel (Syntax.rest_advance hr1)
      hused.2 hfollow (by simp only [exprFuel]; omega)
    simp only [Syntax.advance_advance] at h1 h2
    simp only [Syntax.parseTerm.loop, hc, if_pos ((isMultiplicationOperator_iff op).mpr hop), hn,
      h1, h2, List.length_append, List.length_cons]
    congr 2
    omega
  case factorNot op f hop hf ihf =>
    intro parse hp p rest fuel hrest hused hfollow hfuel
    simp only [exprParser, Option.mem_def, Option.some.injEq] at hp
    subst hp
    obtain ⟨fuel, rfl⟩ : ∃ f, fuel = f + 1 := ⟨fuel - 1, by simp [exprFuel] at hfuel; omega⟩
    simp only [exprFuel, List.length_cons] at hfuel
    rw [Used_cons] at hused
    rw [List.cons_append] at hrest
    have hc : p.currentToken = op := Syntax.currentToken_of_rest hrest
    have hn := Syntax.nextToken_of_rest_cons hrest
    have hr1 := Syntax.rest_advance_one hrest
    have h1 := ihf _ rfl (p.advance 1) rest fuel hr1 hused.2 trivial
      (by simp only [exprFuel]; omega)
    simp only [Syntax.advance_advance] at h1
    have hop' : op.Typ = .Operator ∧ op.Lexeme = "~" := hop
    simp only [Syntax.parseFactor, hc, if_pos hop', hn, h1, List.length_cons]
    congr 2
    omega
  case factorParen lp rp e hlp he hrp ihe =>
    intro parse hp p rest fuel hrest hused hfollow hfuel
    simp only [exprParser, Option.mem_def, Option.some.injEq] at hp
    subst hp
    obtain ⟨fuel, rfl⟩ : ∃ f, fuel = f + 1 := ⟨fuel - 1, by simp [exprFuel] at hfuel; omega⟩
    simp only [exprFuel, List.length_cons, List.length_append, List.length_singleton] at hfuel
    rw [Used_append, Used_cons] at hused
    rw [List.append_assoc, List.cons_append] at hrest
    have hc : p.currentToken = lp := Syntax.currentToken_of_rest hrest
    have hn := Syntax.nextToken_of_rest_cons hrest
    have hr1 := Syntax.rest_advance_one hrest
    have hfol : Follow .Expr ([rp] ++ rest) := by
      intro t ht
      simp only [List.singleton_append, List.head?_cons, Option.mem_def, Option.some.injEq] at ht
      subst ht
      have : rp.Typ ≠ .Operator := by rw [hrp.1]; decide
      exact ⟨Token.not_isMulOp_of_Typ this, Token.not_isAddOp_of_Typ this,
        Token.not_isRelOp_of_Typ this⟩
    have h1 := ihe _ rfl (p.advance 1) ([rp] ++ rest) fuel hr1 hused.1.2 hfol
      (by simp only [exprFuel]; omega)
    have h2 := Syntax.matchToken_of_rest (Syntax.rest_advance hr1) hrp.1 hrp.2
    simp only [Syntax.advance_advance] at h1 h2
    have hne : ¬ (lp.Typ = .Operator ∧ lp.Lexeme = "~") := by rw [hlp.1]; simp
    have hlp' : lp.Typ = .Delimiter ∧ lp.Lexeme = "(" := hlp
    simp only [Syntax.parseFactor, hc, if_neg hne, if_pos hlp', hn, h1, h2, List.length_cons,
      List.length_append, List.length_singleton, List.length_nil]
    congr 2
    omega
  case factorIdent i hi =>
    intro parse hp p rest fuel hrest hused hfollow hfuel
    simp only [exprParser, Option.mem_def, Option.some.injEq] at hp
    subst hp
    obtain ⟨fuel, rfl⟩ : ∃ f, fuel = f + 1 := ⟨fuel - 1, by simp [exprFuel] at hfuel; omega⟩
    rw [Used_cons] at hused
    have hc : p.currentToken = i := Syntax.currentToken_of_rest hrest
    have hn := Syntax.nextToken_of_rest_cons hrest
    have hi' : i.Typ = .Identifier := hi
    simp [Syntax.parseFactor, hc, hi', hn, hused.1 hi]
  case factorNumber n hn' =>
    intro parse hp p rest fuel hrest hused hfollow hfuel
    simp only [exprParser, Option.mem_def, Option.some.injEq] at hp
    subst hp
    obtain ⟨fuel, rfl⟩ : ∃ f, fuel = f + 1 := ⟨fuel - 1, by simp [exprFuel] at hfuel; omega⟩
    have hc : p.currentToken = n := Syntax.currentToken_of_rest hrest
    have hn := Syntax.nextToken_of_rest_cons hrest
    have hi' : n.Typ = .Number := hn'
    simp [Syntax.parseFactor, hc, hi', hn]
  case factorTrue t ht =>
    intro parse hp p rest fuel hrest hused hfollow hfuel
    simp only [exprParser, Option.mem_def, Option.some.injEq] at hp
    subst hp
    obtain ⟨fuel, rfl⟩ : ∃ f, fuel = f + 1 := ⟨fuel - 1, by simp [exprFuel] at hfuel; omega⟩
    have hc : p.currentToken = t := Syntax.currentToken_of_rest hrest
    have hn := Syntax.nextToken_of_rest_cons hrest
    simp [Syntax.parseFactor, hc, ht.1, ht.2, hn]
  case factorFalse t ht =>
    intro parse hp p rest fuel hrest hused hfollow hfuel
    simp only [exprParser, Option.mem_def, Option.some.injEq] at hp
    subst hp
    obtain ⟨fuel, rfl⟩ : ∃ f, fuel = f + 1 := ⟨fuel - 1, by simp [exprFuel] at hfuel; omega⟩
    have hc : p.currentToken = t := Syntax.currentToken_of_rest hrest
    have hn := Syntax.nextToken_of_rest_cons hrest
    simp [Syntax.parseFactor, hc, ht.1, ht.2, hn]
  all_goals (intro parse hp; simp [exprParser] at hp)

namespace Syntax

theorem parseExpression_complete {e : List Token} (he : Derives .Expr e) (p : Syntax)
    (rest : List Token) (fuel : Nat) (hrest : p.rest = e ++ rest) (hused : Used p.vars e)
    (hfol : ∀ t ∈ rest.head?, t.Typ ≠ .Operator) (hfuel : 8 * e.length + 7 ≤ fuel) :
    parseExpression fuel p = .ok (p.advance e.length) :=
  expression_complete he _ rfl p rest fuel hrest hused
    (fun t ht => ⟨Token.not_isMulOp_of_Typ (hfol t ht), Token.not_isAddOp_of_Typ (hfol t ht),
      Token.not_isRelOp_of_Typ (hfol t ht)⟩) hfuel

theorem parseAssignment_complete {a : List Token} (ha : Derives .Assign a) (p : Syntax)
    (rest : List Token) (fuel : Nat) (hrest : p.rest = a ++ rest) (hused : Used p.vars a)
    (hfol : ∀ t ∈ rest.head?, t.Typ ≠ .Operator) (hfuel : 8 * a.length ≤ fuel) :
    parseAssignment fuel p = .ok (p.advance a.length) := by
  cases ha with
  | assign hi hkas he =>
    rename_i i kas e
    simp only [List.length_cons] at hfuel
    rw [Used_cons, Used_cons] at hused
    rw [List.cons_append, List.cons_append] at hrest
    have hc : p.currentToken = i := currentToken_of_rest hrest
    have hn := nextToken_of_rest_cons hrest
    have hr1 := rest_advance_one hrest
    have h1 := matchToken_of_rest hr1 hkas.1 hkas.2
    have h2 := parseExpression_complete he ((p.advance 1).advance 1) rest fuel
      (rest_advance_one hr1) hused.2.2 hfol (by omega)
    have hi' : i.Typ = .Identifier := hi
    simp only [advance_advance] at h1 h2
    simp only [parseAssignment, hc, hi', ne_eq, not_true_eq_false, if_false, hused.1 hi,
      hn, h1, h2, List.length_cons]
    congr 2
    omega

theorem Syntaxead_idents_complete {N : NT} {ids : List Token} (h : Derives N ids) :
    N = .Idents → ∀ (p : Syntax) (rp : Token) (rest : List Token) (fuel : Nat),
      p.rest = ids ++ rp :: rest → rp.isDelim ")" → Used p.vars ids → ids.length ≤ fuel →
      Syntaxead.idents fuel p = .ok (p.advance (ids.length + 1)) := by
  induction h <;> intro hN <;> first | cases hN | skip
  case identsOne i hi =>
    intro p rp rest fuel hrest hrp hused hfuel
    obtain ⟨fuel, rfl⟩ : ∃ f, fuel = f + 1 := ⟨fuel - 1, by simp at hfuel; omega⟩
    rw [Used_cons] at hused
    rw [List.singleton_append] at hrest
    have hc : p.currentToken = i := currentToken_of_rest hrest
    have hn := nextToken_of_rest_cons hrest
    have hr1 := rest_advance_one hrest
    have hc1 : (p.advance 1).currentToken = rp := currentToken_of_rest hr1
    have hn1 := nextToken_of_rest_cons hr1
    have hi' : i.Typ = .Identifier := hi
    have hne : ¬ (rp.Typ = .Delimiter ∧ rp.Lexeme = ",") := by rw [hrp.2]; simp
    have hrp' : rp.Typ = .Delimiter ∧ rp.Lexeme = ")" := hrp
    simp only [Syntaxead.idents, hc, hi', ne_eq, not_true_eq_false, if_false, hused.1 hi, hn,
      hc1, if_neg hne, if_pos hrp', hn1, advance_advance, List.length_singleton]
  case identsMore i comma ids hi hcomma hids ih =>
    intro p rp rest fuel hrest hrp hused hfuel
    obtain ⟨fuel, rfl⟩ : ∃ f, fuel = f + 1 := ⟨fuel - 1, by simp at hfuel; omega⟩
    simp only [List.length_cons] at hfuel
    rw [Used_cons, Used_cons] at hused
    rw [List.cons_append, List.cons_append] at hrest
    have hc : p.currentToken = i := currentToken_of_rest hrest
    have hn := nextToken_of_rest_cons hrest
    have hr1 := rest_advance_one hrest
    have hc1 : (p.advance 1).currentToken = comma := currentToken_of_rest hr1
    have hn1 := nextToken_of_rest_cons hr1
    have hr2 := rest_advance_one hr1
    have h1 := ih rfl ((p.advance 1).advance 1) rp rest fuel hr2 hrp hused.2.2 (by omega)
    have hi' : i.Typ = .Identifier := hi
    have hcomma' : comma.Typ = .Delimiter ∧ comma.Lexeme = "," := hcomma
    simp only [advance_advance] at h1 hn1
    simp only [Syntaxead.idents, hc, hi', ne_eq, not_true_eq_false, if_false, hused.1 hi, hn,
      hc1, if_pos hcomma', hn1, h1, List.length_cons]
    congr 2
    omega

theorem Syntaxead_complete {s : List Token} (hs : Derives .Read s) (p : Syntax)
    (rest : List Token) (fuel : Nat) (hrest : p.rest = s ++ rest) (hused : Used p.vars s)
    (hfuel : s.length ≤ fuel) : Syntaxead fuel p = .ok (p.advance s.length) := by
  cases hs with
  | read hkread hlp hids hrp =>
    rename_i kread lp rp ids
    simp only [List.length_cons, List.length_append, List.length_singleton, List.length_nil] at hfuel
    rw [Used_append, Used_cons, Used_cons] at hused
    rw [List.append_assoc, List.cons_append, List.cons_append, List.singleton_append] at hrest
    have h1 := matchToken_of_rest hrest hkread.1 hkread.2
    have hr1 := rest_advance_one hrest
    have h2 := matchToken_of_rest hr1 hlp.1 hlp.2
    have hr2 := rest_advance_one hr1
    have h3 := Syntaxead_idents_complete hids rfl ((p.advance 1).advance 1) rp rest fuel hr2 hrp
      hused.1.2.2 (by omega)
    simp only [advance_advance] at h2 h3
    simp only [Syntaxead, h1, h2, h3, List.length_cons, List.length_append,
      List.length_singleton, List.length_nil]
    congr 2
    omega

theorem parseWrite_args_complete {N : NT} {es : List Token} (h : Derives N es) :
    N = .Exprs → ∀ (p : Syntax) (rp : Token) (rest : List Token) (fuel : Nat),
      p.rest = es ++ rp :: rest → rp.isDelim ")" → Used p.vars es → 8 * es.length + 8 ≤ fuel →
      parseWrite.args fuel p = .ok (p.advance (es.length + 1)) := by
  induction h <;> intro hN <;> first | cases hN | skip
  case exprsOne e he _ =>
    intro p rp rest fuel hrest hrp hused hfuel
    obtain ⟨fuel, rfl⟩ : ∃ f, fuel = f + 1 := ⟨fuel - 1, by omega⟩
    have hfol : ∀ t ∈ (rp :: rest).head?, t.Typ ≠ .Operator := by
      intro t ht
      simp only [List.head?_cons, Option.mem_def, Option.some.injEq] at ht
      subst ht; rw [hrp.1]; decide
    have h1 := parseExpression_complete he p (rp :: rest) fuel hrest hused hfol (by omega)
    have hr1 := rest_advance hrest
    have hc1 : (p.advance e.length).currentToken = rp := currentToken_of_rest hr1
    have hn1 := nextToken_of_rest_cons hr1
    have hne : ¬ (rp.Typ = .Delimiter ∧ rp.Lexeme = ",") := by rw [hrp.2]; simp
    have hrp' : rp.Typ = .Delimiter ∧ rp.Lexeme = ")" := hrp
    simp only [parseWrite.args, h1, hc1, if_neg hne, if_pos hrp', hn1, advance_advance]
  case exprsMore e es comma he hcomma hes _ ih =>
    intro p rp rest fuel hrest hrp hused hfuel
    obtain ⟨fuel, rfl⟩ : ∃ f, fuel = f + 1 := ⟨fuel - 1, by omega⟩
    simp only [List.length_cons, List.length_append] at hfuel
    rw [Used_append, Used_cons] at hused
    rw [List.append_assoc, List.cons_append] at hrest
    have hfol : ∀ t ∈ (comma :: (es ++ rp :: rest)).head?, t.Typ ≠ .Operator := by
      intro t ht
      simp only [List.head?_cons, Option.mem_def, Option.some.injEq] at ht
      subst ht; rw [hcomma.1]; decide
    have h1 := parseExpression_complete he p _ fuel hrest hused.1 hfol (by omega)
    have hr1 := rest_advance hrest
    have hc1 : (p.advance e.length).currentToken = comma := currentToken_of_rest hr1
    have hn1 := nextToken_of_rest_cons hr1
    have hr2 := rest_advance_one hr1
    have h2 := ih rfl ((p.advance e.length).advance 1) rp rest fuel hr2 hrp hused.2.2 (by omega)
    have hcomma' : comma.Typ = .Delimiter ∧ comma.Lexeme = "," := hcomma
    simp only [advance_advance] at h2 hn1
    simp only [parseWrite.args, h1, hc1, if_pos hcomma', hn1, h2, List.length_cons,
      List.length_append]
    congr 2
    omega

theorem parseWrite_complete {s : List Token} (hs : Derives .Write s) (p : Syntax)
    (rest : List Token) (fuel : Nat) (hrest : p.rest = s ++ rest) (hused : Used p.vars s)
    (hfuel : 8 * s.length ≤ fuel) : parseWrite fuel p = .ok (p.advance s.length) := by
  cases hs with
  | write hkwrite hlp hes hrp =>
    rename_i kwrite lp rp es
    simp only [List.length_cons, List.length_append, List.length_singleton, List.length_nil] at hfuel
    rw [Used_append, Used_cons, Used_cons] at hused
    rw [List.append_assoc, List.cons_append, List.cons_append, List.singleton_append] at hrest
    have h1 := matchToken_of_rest hrest hkwrite.1 hkwrite.2
    have hr1 := rest_advance_one hrest
    have h2 := matchToken_of_rest hr1 hlp.1 hlp.2
    have hr2 := rest_advance_one hr1
    have h3 := parseWrite_args_complete hes rfl ((p.advance 1).advance 1) rp rest fuel hr2 hrp
      hused.1.2.2 (by omega)
    simp only [advance_advance] at h2 h3
    simp only [parseWrite, h1, h2, h3, List.length_cons, List.length_append,
      List.length_singleton, List.length_nil]
    congr 2
    omega

end Syntax

/-! ## The `else` of the nearest `if` -/

/-- An open statement takes an `else` with a statement behind it. -/
theorem Nearest.attach {k : NearestKind} {s1 : List Token} (h1 : Nearest k s1) :
    k = .stmt true → ∀ (kelse : Token) (s2 : List Token) (b2 : Bool), kelse.isKw "else" →
      Nearest (.stmt b2) s2 → ∃ b, Nearest (.stmt b) (s1 ++ kelse :: s2) := by
  induction h1 <;> intro hk <;> first | cases hk | skip
  case ifThen kif kthen e s b hkif he hkthen hs ih =>
    intro kelse s2 b2 hkelse hs2
    cases b with
    | false =>
      refine ⟨b2, ?_⟩
      have := Nearest.ifThenElse hkif he hkthen hs hkelse hs2
      simpa using this
    | true =>
      obtain ⟨b', hb'⟩ := ih rfl kelse s2 b2 hkelse hs2
      refine ⟨true, ?_⟩
      have := Nearest.ifThen hkif he hkthen hb'
      simpa using this
  case ifThenElse kif kthen kelse' e s s2' hkif he hkthen hs hkelse' hs2' _ ih2 =>
    intro kelse s2 b2 hkelse hs2
    obtain ⟨b', hb'⟩ := ih2 rfl kelse s2 b2 hkelse hs2
    refine ⟨b', ?_⟩
    have := Nearest.ifThenElse hkif he hkthen hs hkelse' hb'
    simpa using this
  case forDo kfor kto kdo a e s hkfor ha hkto he hkdo hs ih =>
    intro kelse s2 b2 hkelse hs2
    obtain ⟨b', hb'⟩ := ih rfl kelse s2 b2 hkelse hs2
    refine ⟨b', ?_⟩
    have := Nearest.forDo hkfor ha hkto he hkdo hb'
    simpa using this
  case whileDo kwhile kdo e s hkwhile he hkdo hs ih =>
    intro kelse s2 b2 hkelse hs2
    obtain ⟨b', hb'⟩ := ih rfl kelse s2 b2 hkelse hs2
    refine ⟨b', ?_⟩
    have := Nearest.whileDo hkwhile he hkdo hb'
    simpa using this

/-- Every derivable statement is derivable with each `else` bound to the nearest `if`. -/
theorem nearest_of_derives {N : NT} {s : List Token} (h : Derives N s) : NearestOf N s := by
  induction h
  case stmtIf s _ ih => exact ih
  case stmtFor s _ ih => exact ih
  case stmtWhile s _ ih => exact ih
  case stmtRead s hs _ => exact ⟨false, Nearest.read hs⟩
  case stmtWrite s hs _ => exact ⟨false, Nearest.write hs⟩
  case stmtCompound s _ ih => exact ih
  case stmtAssign s hs _ => exact ⟨false, Nearest.assign hs⟩
  case compound lb rb s r hlb _ _ hrb ihs ihr =>
    obtain ⟨b, hb⟩ := ihs
    exact ⟨false, Nearest.compound hlb hb ihr hrb⟩
  case compoundRestNil => exact Nearest.restNil
  case compoundRestMore sep s r hsep _ _ ihs ihr =>
    obtain ⟨b, hb⟩ := ihs
    exact Nearest.restMore hsep hb ihr
  case ifThen kif kthen e s hkif he hkthen _ _ ihs =>
    obtain ⟨b, hb⟩ := ihs
    exact ⟨true, Nearest.ifThen hkif he hkthen hb⟩
  case ifThenElse kif kthen kelse e s s2 hkif he hkthen _ hkelse _ _ ihs ihs2 =>
    obtain ⟨b, hb⟩ := ihs
    obtain ⟨b2, hb2⟩ := ihs2
    cases b with
    | false => exact ⟨b2, Nearest.ifThenElse hkif he hkthen hb hkelse hb2⟩
    | true =>
      obtain ⟨b', hb'⟩ := hb.attach rfl kelse s2 b2 hkelse hb2
      refine ⟨true, ?_⟩
      have := Nearest.ifThen hkif he hkthen hb'
      simpa using this
  case forDo kfor kto kdo a e s hkfor ha hkto he hkdo _ _ _ ihs =>
    obtain ⟨b, hb⟩ := ihs
    exact ⟨b, Nearest.forDo hkfor ha hkto he hkdo hb⟩
  case whileDo kwhile kdo e s hkwhile he hkdo _ _ ihs =>
    obtain ⟨b, hb⟩ := ihs
    exact ⟨b, Nearest.whileDo hkwhile he hkdo hb⟩
  all_goals trivial

/-! ## Completeness of the statement parsers -/

namespace Syntax

theorem operation_complete {k : NearestKind} {s : List Token} (h : Nearest k s) :
    OperationComplete k s := by
  induction h
  case assign s hs =>
    intro p rest fuel hrest hused hfol hfuel
    obtain ⟨fuel, rfl⟩ : ∃ f, fuel = f + 1 := ⟨fuel - 1, by omega⟩
    have h1 := parseAssignment_complete hs p rest fuel hrest hused (fun t ht => (hfol t ht).1)
      (by omega)
    cases hs with
    | assign hi hkas he =>
      rename_i i kas e
      have hc : p.currentToken = i := currentToken_of_rest hrest
      have hi' : i.Typ = .Identifier := hi
      simp only [parseOperation, hc, hi', h1]
      simp
  case read s hs =>
    intro p rest fuel hrest hused hfol hfuel
    obtain ⟨fuel, rfl⟩ : ∃ f, fuel = f + 1 := ⟨fuel - 1, by omega⟩
    have h1 := Syntaxead_complete hs p rest fuel hrest hused (by omega)
    cases hs with
    | read hkread hlp hids hrp =>
      rename_i kread lp rp ids
      have hc : p.currentToken = kread := currentToken_of_rest hrest
      simp only [parseOperation, hc, hkread.1, hkread.2, h1]
      simp
  case write s hs =>
    intro p rest fuel hrest hused hfol hfuel
    obtain ⟨fuel, rfl⟩ : ∃ f, fuel = f + 1 := ⟨fuel - 1, by omega⟩
    have h1 := parseWrite_complete hs p rest fuel hrest hused (by omega)
    cases hs with
    | write hkwrite hlp hes hrp =>
      rename_i kwrite lp rp es
      have hc : p.currentToken = kwrite := currentToken_of_rest hrest
      simp only [parseOperation, hc, hkwrite.1, hkwrite.2, h1]
      simp
  case compound lb rb s r b hlb hs hr hrb ihs ihr =>
    intro p rest fuel hrest hused hfol hfuel
    obtain ⟨fuel, rfl⟩ : ∃ f, fuel = f + 3 := ⟨fuel - 3, by omega⟩
    simp only [List.length_cons, List.length_append, List.length_singleton,
      List.length_nil] at hfuel
    rw [Used_append, Used_append, Used_cons] at hused
    rw [List.append_assoc, List.append_assoc, List.cons_append, List.singleton_append] at hrest
    have hc : p.currentToken = lb := currentToken_of_rest hrest
    have h1 := matchToken_of_rest hrest hlb.1 hlb.2
    have hr1 := rest_advance_one hrest
    have hfol1 : ∀ t ∈ (r ++ rb :: rest).head?,
        t.Typ ≠ .Operator ∧ (b = true → ¬ t.isKw "else") := by
      intro t ht
      cases hr with
      | restNil =>
        simp only [List.nil_append, List.head?_cons, Option.mem_def, Option.some.injEq] at ht
        subst ht
        exact ⟨by rw [hrb.1]; decide, fun _ h => by rw [Token.isKw, hrb.1] at h; simp at h⟩
      | @restMore sep s' r' b' hsep _ _ =>
        simp only [List.cons_append, List.append_assoc, List.head?_cons, Option.mem_def,
          Option.some.injEq] at ht
        subst ht
        have hty : sep.Typ = .Delimiter := by rcases hsep with h | h <;> exact h.1
        exact ⟨by rw [hty]; decide, fun _ h => by rw [Token.isKw, hty] at h; simp at h⟩
    have h2 := ihs (p.advance 1) (r ++ rb :: rest) fuel hr1 hused.1.1.2 hfol1 (by omega)
    have h3 := ihr (p.advance 1) ((p.advance 1).advance s.length) rb rest fuel h2
      (rest_advance hr1) hrb hused.1.2 (by omega)
    have hlb' : lb.Typ = .Delimiter ∧ lb.Lexeme = "[" := hlb
    simp only [advance_advance] at h3
    simp only [parseOperation, hc, hlb.1, hlb', parseCompositeOperation, h1, h3,
      List.length_cons, List.length_append, List.length_singleton, List.length_nil]
    simp only [reduceCtorEq, if_false, and_self, if_true]
    congr 2
    omega
  case restNil =>
    intro p0 p rb rest fuel h0 hrest hrb hused hfuel
    rw [List.nil_append] at hrest
    have hc : p.currentToken = rb := currentToken_of_rest hrest
    have hn := nextToken_of_rest_cons hrest
    have hne : ¬ (rb.Typ = .Delimiter ∧ (rb.Lexeme = ":" ∨ rb.Lexeme = ";")) := by
      rw [hrb.2]; simp
    have hrb' : rb.Typ = .Delimiter ∧ rb.Lexeme = "]" := hrb
    simp only [parseCompositeOperation.loop, h0, hc, if_neg hne, if_pos hrb', hn,
      List.length_nil, zero_add]
  case restMore sep s r b hsep hs hr ihs ihr =>
    intro p0 p rb rest fuel h0 hrest hrb hused hfuel
    obtain ⟨fuel, rfl⟩ : ∃ f, fuel = f + 1 := ⟨fuel - 1, by omega⟩
    simp only [List.length_cons, List.length_append] at hfuel
    rw [Used_append, Used_cons] at hused
    rw [List.append_assoc, List.cons_append] at hrest
    have hc : p.currentToken = sep := currentToken_of_rest hrest
    have hn := nextToken_of_rest_cons hrest
    have hr1 := rest_advance_one hrest
    have hsep' : sep.Typ = .Delimiter ∧ (sep.Lexeme = ":" ∨ sep.Lexeme = ";") := by
      rcases hsep with h | h
      · exact ⟨h.1, Or.inl h.2⟩
      · exact ⟨h.1, Or.inr h.2⟩
    have hfol1 : ∀ t ∈ (r ++ rb :: rest).head?,
        t.Typ ≠ .Operator ∧ (b = true → ¬ t.isKw "else") := by
      intro t ht
      cases hr with
      | restNil =>
        simp only [List.nil_append, List.head?_cons, Option.mem_def, Option.some.injEq] at ht
        subst ht
        exact ⟨by rw [hrb.1]; decide, fun _ h => by rw [Token.isKw, hrb.1] at h; simp at h⟩
      | @restMore sep2 s' r' b' hsep2 _ _ =>
        simp only [List.cons_append, List.append_assoc, List.head?_cons, Option.mem_def,
          Option.some.injEq] at ht
        subst ht
        have hty : sep2.Typ = .Delimiter := by rcases hsep2 with h | h <;> exact h.1
        exact ⟨by rw [hty]; decide, fun _ h => by rw [Token.isKw, hty] at h; simp at h⟩
    have h2 := ihs (p.advance 1) (r ++ rb :: rest) fuel hr1 hused.1.2 hfol1 (by omega)
    have h3 := ihr (p.advance 1) ((p.advance 1).advance s.length) rb rest fuel h2
      (rest_advance hr1) hrb hused.2 (by omega)
    simp only [advance_advance] at h3
    simp only [parseCompositeOperation.loop, h0, hc, if_pos hsep', hn, List.length_cons,
      List.length_append]
    show parseCompositeOperation.loop (fuel + 1) (p.advance 1) = _
    rw [h3]
    congr 2
    omega
  case ifThen kif kthen e s b hkif he hkthen hs ihs =>
    intro p rest fuel hrest hused hfol hfuel
    obtain ⟨fuel, rfl⟩ : ∃ f, fuel = f + 2 := ⟨fuel - 2, by omega⟩
    simp only [List.length_cons, List.length_append] at hfuel
    rw [Used_append, Used_cons, Used_cons] at hused
    rw [List.append_assoc, List.cons_append, List.cons_append] at hrest
    have hc : p.currentToken = kif := currentToken_of_rest hrest
    have h1 := matchToken_of_rest hrest hkif.1 hkif.2
    have hr1 := rest_advance_one hrest
    have hfolE : ∀ t ∈ (kthen :: (s ++ rest)).head?, t.Typ ≠ .Operator := by
      intro t ht
      simp only [List.head?_cons, Option.mem_def, Option.some.injEq] at ht
      subst ht; rw [hkthen.1]; decide
    have h2 := parseExpression_complete he (p.advance 1) _ fuel hr1 hused.1.2 hfolE (by omega)
    have hr2 := rest_advance hr1
    have h3 := matchToken_of_rest hr2 hkthen.1 hkthen.2
    have hr3 := rest_advance_one hr2
    have h4 := ihs _ rest fuel hr3 hused.2.2 (fun t ht => ⟨(hfol t ht).1, fun _ => (hfol t ht).2 rfl⟩)
      (by omega)
    have hr4 := rest_advance hr3
    have hc4 : ¬ ((((p.advance 1).advance e.length).advance 1).advance s.length).currentToken.isKw
        "else" :=
      currentToken_of_follow hr4 (fun t => t.isKw "else") (fun t ht => (hfol t ht).2 rfl)
        (by simp [Token.isKw])
    simp only [Token.isKw, advance_advance] at hc4
    simp only [advance_advance] at h2 h3 h4
    simp only [parseOperation, hc, hkif.1, hkif.2, parseIf, h1, h2, h3, h4, if_neg hc4,
      List.length_cons, List.length_append]
    simp only [if_true]
    congr 2
    omega
  case ifThenElse kif kthen kelse e s s2 b hkif he hkthen hs hkelse hs2 ihs ihs2 =>
    intro p rest fuel hrest hused hfol hfuel
    obtain ⟨fuel, rfl⟩ : ∃ f, fuel = f + 2 := ⟨fuel - 2, by omega⟩
    simp only [List.length_cons, List.length_append] at hfuel
    rw [Used_append, Used_append, Used_cons, Used_cons, Used_cons] at hused
    rw [List.append_assoc, List.append_assoc, List.cons_append, List.cons_append,
      List.cons_append] at hrest
    have hc : p.currentToken = kif := currentToken_of_rest hrest
    have h1 := matchToken_of_rest hrest hkif.1 hkif.2
    have hr1 := rest_advance_one hrest
    have hfolE : ∀ t ∈ (kthen :: (s ++ kelse :: (s2 ++ rest))).head?, t.Typ ≠ .Operator := by
      intro t ht
      simp only [List.head?_cons, Option.mem_def, Option.some.injEq] at ht
      subst ht; rw [hkthen.1]; decide
    have h2 := parseExpression_complete he (p.advance 1) _ fuel hr1 hused.1.1.2 hfolE (by omega)
    have hr2 := rest_advance hr1
    have h3 := matchToken_of_rest hr2 hkthen.1 hkthen.2
    have hr3 := rest_advance_one hr2
    have hfolS : ∀ t ∈ (kelse :: (s2 ++ rest)).head?,
        t.Typ ≠ .Operator ∧ (false = true → ¬ t.isKw "else") := by
      intro t ht
      simp only [List.head?_cons, Option.mem_def, Option.some.injEq] at ht
      subst ht
      exact ⟨by rw [hkelse.1]; decide, fun h => by cases h⟩
    have h4 := ihs _ _ fuel hr3 hused.1.2.2 hfolS (by omega)
    have hr4 := rest_advance hr3
    have hc4 := currentToken_of_rest hr4
    have hn4 := nextToken_of_rest_cons hr4
    have hr5 := rest_advance_one hr4
    have h5 := ihs2 _ rest fuel hr5 hused.2.2 hfol (by omega)
    have hkelse' : kelse.Typ = .Keyword ∧ kelse.Lexeme = "else" := hkelse
    simp only [advance_advance] at h2 h3 h4 hc4 hn4 h5
    simp only [parseOperation, hc, hkif.1, hkif.2, parseIf, h1, h2, h3, h4, hc4, if_pos hkelse',
      hn4, h5, List.length_cons, List.length_append, advance_advance]
    simp only [if_true]
    congr 2
    omega
  case forDo kfor kto kdo a e s b hkfor ha hkto he hkdo hs ihs =>
    intro p rest fuel hrest hused hfol hfuel
    obtain ⟨fuel, rfl⟩ : ∃ f, fuel = f + 2 := ⟨fuel - 2, by omega⟩
    simp only [List.length_cons, List.length_append] at hfuel
    rw [Used_append, Used_append, Used_cons, Used_cons, Used_cons] at hused
    rw [List.append_assoc, List.append_assoc, List.cons_append, List.cons_append,
      List.cons_append] at hrest
    have hc : p.currentToken = kfor := currentToken_of_rest hrest
    have h1 := matchToken_of_rest hrest hkfor.1 hkfor.2
    have hr1 := rest_advance_one hrest
    have hfolA : ∀ t ∈ (kto :: (e ++ kdo :: (s ++ rest))).head?, t.Typ ≠ .Operator := by
      intro t ht
      simp only [List.head?_cons, Option.mem_def, Option.some.injEq] at ht
      subst ht; rw [hkto.1]; decide
    have h2 := parseAssignment_complete ha (p.advance 1) _ fuel hr1 hused.1.1.2 hfolA (by omega)
    have hr2 := rest_advance hr1
    have h3 := matchToken_of_rest hr2 hkto.1 hkto.2
    have hr3 := rest_advance_one hr2
    have hfolE : ∀ t ∈ (kdo :: (s ++ rest)).head?, t.Typ ≠ .Operator := by
      intro t ht
      simp only [List.head?_cons, Option.mem_def, Option.some.injEq] at ht
      subst ht; rw [hkdo.1]; decide
    have h4 := parseExpression_complete he _ _ fuel hr3 hused.1.2.2 hfolE (by omega)
    have hr4 := rest_advance hr3
    have h5 := matchToken_of_rest hr4 hkdo.1 hkdo.2
    have hr5 := rest_advance_one hr4
    have h6 := ihs _ rest fuel hr5 hused.2.2 hfol (by omega)
    simp only [advance_advance] at h2 h3 h4 h5 h6
    simp only [parseOperation, hc, hkfor.1, hkfor.2, parseFor, h1, h2, h3, h4, h5, h6,
      List.length_cons, List.length_append]
    simp only [String.reduceEq, if_false, if_true]
    congr 2
    omega
  case whileDo kwhile kdo e s b hkwhile he hkdo hs ihs =>
    intro p rest fuel hrest hused hfol hfuel
    obtain ⟨fuel, rfl⟩ : ∃ f, fuel = f + 2 := ⟨fuel - 2, by omega⟩
    simp only [List.length_cons, List.length_append] at hfuel
    rw [Used_append, Used_cons, Used_cons] at hused
    rw [List.append_assoc, List.cons_append, List.cons_append] at hrest
    have hc : p.currentToken = kwhile := currentToken_of_rest hrest
    have h1 := matchToken_of_rest hrest hkwhile.1 hkwhile.2
    have hr1 := rest_advance_one hrest
    have hfolE : ∀ t ∈ (kdo :: (s ++ rest)).head?, t.Typ ≠ .Operator := by
      intro t ht
      simp only [List.head?_cons, Option.mem_def, Option.some.injEq] at ht
      subst ht; rw [hkdo.1]; decide
    have h2 := parseExpression_complete he (p.advance 1) _ fuel hr1 hused.1.2 hfolE (by omega)
    have hr2 := rest_advance hr1
    have h3 := matchToken_of_rest hr2 hkdo.1 hkdo.2
    have hr3 := rest_advance_one hr2
    have h4 := ihs _ rest fuel hr3 hused.2.2 hfol (by omega)
    simp only [advance_advance] at h2 h3 h4
    simp only [parseOperation, hc, hkwhile.1, hkwhile.2, parseWhile, h1, h2, h3, h4,
      List.length_cons, List.length_append]
    simp only [String.reduceEq, if_false, if_true]
    congr 2
    omega

end Syntax

theorem startsStmt_of_derives {N : NT} {s : List Token} (h : Derives N s) : StartsStmt N s := by
  induction h
  case stmtIf ih => exact ih
  case stmtFor ih => exact ih
  case stmtWhile ih => exact ih
  case stmtRead ih => exact ih
  case stmtWrite ih => exact ih
  case stmtCompound ih => exact ih
  case stmtAssign ih => exact ih
  case compound lb rb s r hlb _ _ _ _ _ =>
    exact ⟨lb, s ++ r ++ [rb], rfl, fun h => by rw [Token.isKw, hlb.1] at h; simp at h⟩
  case assign i kas e hi _ _ _ =>
    have hi' : i.Typ = .Identifier := hi
    exact ⟨i, _, rfl, fun h => by rw [Token.isKw, hi'] at h; simp at h⟩
  case ifThen kif kthen e s hkif _ _ _ _ _ =>
    exact ⟨kif, e ++ kthen :: s, rfl, fun h => by rw [Token.isKw, hkif.2] at h; simp at h⟩
  case ifThenElse kif kthen kelse e s s2 hkif _ _ _ _ _ _ _ _ =>
    exact ⟨kif, e ++ kthen :: s ++ kelse :: s2, rfl,
      fun h => by rw [Token.isKw, hkif.2] at h; simp at h⟩
  case forDo kfor kto kdo a e s hkfor _ _ _ _ _ _ _ _ =>
    exact ⟨kfor, a ++ kto :: e ++ kdo :: s, rfl,
      fun h => by rw [Token.isKw, hkfor.2] at h; simp at h⟩
  case whileDo kwhile kdo e s hkwhile _ _ _ _ _ =>
    exact ⟨kwhile, e ++ kdo :: s, rfl, fun h => by rw [Token.isKw, hkwhile.2] at h; simp at h⟩
  case read kread lp rp ids hkread _ _ _ _ =>
    exact ⟨kread, lp :: ids ++ [rp], rfl, fun h => by rw [Token.isKw, hkread.2] at h; simp at h⟩
  case write kwrite lp rp es hkwrite _ _ _ _ =>
    exact ⟨kwrite, lp :: es ++ [rp], rfl,
      fun h => by rw [Token.isKw, hkwrite.2] at h; simp at h⟩
  all_goals trivial

namespace Syntax

theorem parseOperations_complete {N : NT} {ss : List Token} (h : Derives N ss) :
    N = .Stmts → ∀ (p : Syntax) (ke : Token) (rest : List Token) (fuel : Nat),
      p.rest = ss ++ ke :: rest → ke.isKw "end" → Used p.vars ss → 8 * ss.length + 11 ≤ fuel →
      parseOperations fuel p = .ok (p.advance ss.length) := by
  induction h <;> intro hN <;> first | cases hN | skip
  case stmtsOne s hs _ =>
    intro p ke rest fuel hrest hke hused hfuel
    obtain ⟨fuel, rfl⟩ : ∃ f, fuel = f + 1 := ⟨fuel - 1, by omega⟩
    obtain ⟨t, r, rfl, ht⟩ := startsStmt_of_derives hs
    obtain ⟨b, hb⟩ := nearest_of_derives hs
    have hc : p.currentToken = t := currentToken_of_rest hrest
    have h1 := operation_complete hb p (ke :: rest) fuel hrest hused
      (fun t' ht' => by
        simp only [List.head?_cons, Option.mem_def, Option.some.injEq] at ht'
        subst ht'
        exact ⟨by rw [hke.1]; decide, fun _ h => by rw [Token.isKw, hke.2] at h; simp at h⟩)
      (by omega)
    have hr1 := rest_advance hrest
    have hc1 := currentToken_of_rest hr1
    have hne : ¬ (ke.Typ = .Delimiter ∧ ke.Lexeme = ";") := by rw [hke.1]; simp
    have hke' : ke.Typ = .Keyword ∧ ke.Lexeme = "end" := hke
    simp only [Token.isKw] at ht
    simp only [parseOperations, hc, if_neg ht, h1, hc1, if_neg hne, if_pos hke']
  case stmtsMore s ss semi hs hsemi hss _ ih =>
    intro p ke rest fuel hrest hke hused hfuel
    obtain ⟨fuel, rfl⟩ : ∃ f, fuel = f + 1 := ⟨fuel - 1, by omega⟩
    simp only [List.length_cons, List.length_append] at hfuel
    rw [Used_append, Used_cons] at hused
    rw [List.append_assoc, List.cons_append] at hrest
    obtain ⟨t, r, rfl, ht⟩ := startsStmt_of_derives hs
    obtain ⟨b, hb⟩ := nearest_of_derives hs
    have hc : p.currentToken = t := currentToken_of_rest hrest
    have h1 := operation_complete hb p _ fuel hrest hused.1
      (fun t' ht' => by
        simp only [List.head?_cons, Option.mem_def, Option.some.injEq] at ht'
        subst ht'
        exact ⟨by rw [hsemi.1]; decide, fun _ h => by rw [Token.isKw, hsemi.1] at h; simp at h⟩)
      (by simp only [List.length_cons] at hfuel ⊢; omega)
    have hr1 := rest_advance hrest
    have hc1 := currentToken_of_rest hr1
    have hn1 := nextToken_of_rest_cons hr1
    have hr2 := rest_advance_one hr1
    have h2 := ih rfl _ ke rest fuel hr2 hke hused.2.2 (by omega)
    have hsemi' : semi.Typ = .Delimiter ∧ semi.Lexeme = ";" := hsemi
    simp only [advance_advance] at hn1 h2
    simp only [Token.isKw] at ht
    simp only [parseOperations, hc, if_neg ht, h1, hc1, if_pos hsemi', hn1, h2]
    congr 2
    simp only [List.length_cons, List.length_append]
    omega

end Syntax

/-! ## Completeness of the declaration parsers -/

theorem inDecls_of_derives {N : NT} {s : List Token} (h : Derives N s) : InDecls N s := by
  induction h
  case declsOne d _ ih => exact ih
  case declsMore d ds _ _ ihd ihds =>
    obtain ⟨⟨t, r, rfl, ht⟩, hd⟩ := ihd
    refine ⟨⟨t, r ++ ds, rfl, ht⟩, fun x hx => ?_⟩
    rcases List.mem_append.mp hx with hx | hx
    · exact hd x hx
    · exact ihds.2 x hx
  case decl ids colon ty semi _ hcolon hty hsemi ih =>
    obtain ⟨⟨t, r, rfl, ht⟩, hd⟩ := ih
    refine ⟨⟨t, r ++ [colon, ty, semi], rfl, ht⟩, fun x hx => ?_⟩
    rcases List.mem_append.mp hx with hx | hx
    · exact hd x hx
    · simp only [List.mem_cons, List.mem_singleton, List.not_mem_nil, or_false] at hx
      rcases hx with rfl | rfl | rfl
      · intro h; rw [Token.isKw, hcolon.1] at h; simp at h
      · intro h
        rcases hty with h' | h' | h' <;> rw [Token.isKw, h'.2] at h <;> simp at h
      · intro h; rw [Token.isKw, hsemi.1] at h; simp at h
  case identsOne i hi =>
    have hi' : i.Typ = .Identifier := hi
    refine ⟨⟨i, [], rfl, hi⟩, fun x hx => ?_⟩
    simp only [List.mem_singleton] at hx
    subst hx
    intro h; rw [Token.isKw, hi'] at h; simp at h
  case identsMore i comma ids hi hcomma _ ih =>
    have hi' : i.Typ = .Identifier := hi
    refine ⟨⟨i, comma :: ids, rfl, hi⟩, fun x hx => ?_⟩
    simp only [List.mem_cons] at hx
    rcases hx with rfl | rfl | hx
    · intro h; rw [Token.isKw, hi'] at h; simp at h
    · intro h; rw [Token.isKw, hcomma.1] at h; simp at h
    · exact ih.2 x hx
  all_goals trivial

namespace Syntax

theorem parseDeclaration_idents_complete {N : NT} {ids : List Token} (h : Derives N ids) :
    N = .Idents → ∀ (p : Syntax) (colon : Token) (rest : List Token) (fuel : Nat),
      p.rest = ids ++ colon :: rest → colon.isDelim ":" →
      (∀ x ∈ declaredNames ids, x ∉ p.vars) → (declaredNames ids).Nodup → ids.length ≤ fuel →
      parseDeclaration.idents fuel p =
        .ok ⟨p.tokens, p.pos + (ids.length + 1), (declaredNames ids).reverse ++ p.vars⟩ := by
  induction h <;> intro hN <;> first | cases hN | skip
  case identsOne i hi =>
    intro p colon rest fuel hrest hcolon hfresh hnodup hfuel
    obtain ⟨fuel, rfl⟩ : ∃ f, fuel = f + 1 := ⟨fuel - 1, by simp at hfuel; omega⟩
    rw [List.singleton_append] at hrest
    have hi' : i.Typ = .Identifier := hi
    have hc : p.currentToken = i := currentToken_of_rest hrest
    have hnew : i.Lexeme ∉ p.vars := hfresh _ (by simp [declaredNames_cons, hi'])
    have hrestq : (⟨p.tokens, p.pos, i.Lexeme :: p.vars⟩ : Syntax).rest = i :: colon :: rest :=
      hrest
    have hn := nextToken_of_rest_cons hrestq
    have hr1 := rest_advance_one hrestq
    have hc1 := currentToken_of_rest hr1
    have hn1 := nextToken_of_rest_cons hr1
    have hne : ¬ (colon.Typ = .Delimiter ∧ colon.Lexeme = ",") := by rw [hcolon.2]; simp
    have hcolon' : colon.Typ = .Delimiter ∧ colon.Lexeme = ":" := hcolon
    simp only [parseDeclaration.idents, hc, hi', ne_eq, not_true_eq_false, if_false, hnew, hn,
      hc1, if_neg hne, if_pos hcolon', hn1]
    simp [advance, declaredNames_cons, hi', declaredNames_nil, add_assoc]
  case identsMore i comma ids hi hcomma hids ih =>
    intro p colon rest fuel hrest hcolon hfresh hnodup hfuel
    obtain ⟨fuel, rfl⟩ : ∃ f, fuel = f + 1 := ⟨fuel - 1, by simp at hfuel; omega⟩
    simp only [List.length_cons] at hfuel
    rw [List.cons_append, List.cons_append] at hrest
    have hi' : i.Typ = .Identifier := hi
    have hcomma1 : comma.Typ ≠ .Identifier := by rw [hcomma.1]; decide
    have hnames : declaredNames (i :: comma :: ids) = i.Lexeme :: declaredNames ids := by
      rw [declaredNames_cons, if_pos hi', declaredNames_cons, if_neg hcomma1]
    rw [hnames] at hfresh hnodup
    have hc : p.currentToken = i := currentToken_of_rest hrest
    have hnew : i.Lexeme ∉ p.vars := hfresh _ (by simp)
    have hrestq : (⟨p.tokens, p.pos, i.Lexeme :: p.vars⟩ : Syntax).rest =
        i :: comma :: (ids ++ colon :: rest) := hrest
    have hn := nextToken_of_rest_cons hrestq
    have hr1 := rest_advance_one hrestq
    have hc1 := currentToken_of_rest hr1
    have hn1 := nextToken_of_rest_cons hr1
    have hr2 := rest_advance_one hr1
    have hcomma' : comma.Typ = .Delimiter ∧ comma.Lexeme = "," := hcomma
    have h1 := ih rfl _ colon rest fuel hr2 hcolon
      (fun x hx => by
        have h2 := hfresh x (List.mem_cons_of_mem _ hx)
        have h3 : x ≠ i.Lexeme := fun h => by
          rw [h] at hx; exact (List.nodup_cons.mp hnodup).1 hx
        simp only [advance, List.mem_cons, not_or]
        exact ⟨h3, h2⟩)
      (List.nodup_cons.mp hnodup).2 (by omega)
    simp only [parseDeclaration.idents, hc, hi', ne_eq, not_true_eq_false, if_false, hnew, hn,
      hc1, if_pos hcomma', hn1, h1, hnames]
    simp [advance]
    omega

theorem parseDeclaration_complete {d : List Token} (hd : Derives .Decl d) (p : Syntax)
    (rest : List Token) (fuel : Nat) (hrest : p.rest = d ++ rest)
    (hfresh : ∀ x ∈ declaredNames d, x ∉ p.vars) (hnodup : (declaredNames d).Nodup)
    (hfuel : d.length ≤ fuel) :
    parseDeclaration fuel p =
      .ok ⟨p.tokens, p.pos + d.length, (declaredNames d).reverse ++ p.vars⟩ := by
  cases hd with
  | decl hids hcolon hty hsemi =>
    rename_i ids colon ty semi
    have hty1 : ty.Typ = .Keyword := by rcases hty with h | h | h <;> exact h.1
    have hnames : declaredNames (ids ++ [colon, ty, semi]) = declaredNames ids := by
      rw [declaredNames_append, declaredNames_cons, declaredNames_cons, declaredNames_cons,
        if_neg (by rw [hcolon.1]; decide), if_neg (by rw [hty1]; decide),
        if_neg (by rw [hsemi.1]; decide), declaredNames_nil, List.append_nil]
    rw [hnames] at hfresh hnodup ⊢
    simp only [List.length_append, List.length_cons, List.length_nil] at hfuel ⊢
    rw [List.append_assoc, List.cons_append, List.cons_append, List.singleton_append] at hrest
    have h1 := parseDeclaration_idents_complete hids rfl p colon _ fuel hrest hcolon hfresh
      hnodup (by omega)
    have hr1 : (⟨p.tokens, p.pos + (ids.length + 1), (declaredNames ids).reverse ++ p.vars⟩ :
        Syntax).rest = ty :: semi :: rest := by
      have := @rest_advance p (ids ++ [colon]) (ty :: semi :: rest) (by rw [hrest]; simp)
      simpa [Syntax.rest, advance] using this
    have hc1 := currentToken_of_rest hr1
    have hn1 := nextToken_of_rest_cons hr1
    have hr2 := rest_advance_one hr1
    have hc2 := currentToken_of_rest hr2
    have hn2 := nextToken_of_rest_cons hr2
    have hty2 : ¬ (ty.Typ ≠ .Keyword ∨
        (ty.Lexeme ≠ "int" ∧ ty.Lexeme ≠ "float" ∧ ty.Lexeme ≠ "bool")) := by
      rcases hty with h | h | h <;> simp [h.1, h.2]
    have hsemi2 : ¬ (semi.Typ ≠ .Delimiter ∨ semi.Lexeme ≠ ";") := by
      simp [hsemi.1, hsemi.2]
    simp only [parseDeclaration, h1, hc1, if_neg hty2, hn1, hc2, if_neg hsemi2, hn2]
    simp [advance, add_assoc]

end Syntax

/-! ## Completeness of `ParseProgram` -/

namespace Syntax

theorem ParseProgram_decls_complete {N : NT} {ds : List Token} (h : Derives N ds) :
    N = .Decls → ∀ (p : Syntax) (kb : Token) (rest : List Token) (fuel : Nat),
      p.rest = ds ++ kb :: rest → kb.isKw "begin" →
      (∀ x ∈ declaredNames ds, x ∉ p.vars) → (declaredNames ds).Nodup → ds.length + 1 ≤ fuel →
      ParseProgram.decls fuel p =
        .ok ⟨p.tokens, p.pos + ds.length, (declaredNames ds).reverse ++ p.vars⟩ := by
  induction h <;> intro hN <;> first | cases hN | skip
  case declsOne d hd _ =>
    intro p kb rest fuel hrest hkb hfresh hnodup hfuel
    obtain ⟨fuel, rfl⟩ : ∃ f, fuel = f + 1 := ⟨fuel - 1, by omega⟩
    have h1 := parseDeclaration_complete hd p (kb :: rest) fuel hrest hfresh hnodup (by omega)
    have hr1 : (⟨p.tokens, p.pos + d.length, (declaredNames d).reverse ++ p.vars⟩ :
        Syntax).rest = kb :: rest := by
      have := @rest_advance p d (kb :: rest) hrest
      simpa [Syntax.rest, advance] using this
    have hc1 := currentToken_of_rest hr1
    have hkb' : kb.Typ = .Keyword ∧ kb.Lexeme = "begin" := hkb
    simp only [ParseProgram.decls, h1, hc1, if_pos hkb']
  case declsMore d ds hd hds _ ih =>
    intro p kb rest fuel hrest hkb hfresh hnodup hfuel
    obtain ⟨fuel, rfl⟩ : ∃ f, fuel = f + 1 := ⟨fuel - 1, by omega⟩
    rw [List.append_assoc] at hrest
    rw [declaredNames_append] at hfresh hnodup
    have hlen : 1 ≤ d.length := by
      have := hd.minLength_le
      simp only [minLength] at this
      omega
    simp only [List.length_append] at hfuel
    have h1 := parseDeclaration_complete hd p (ds ++ kb :: rest) fuel hrest
      (fun x hx => hfresh x (List.mem_append_left _ hx)) (List.Nodup.of_append_left hnodup)
      (by omega)
    have hr1 : (⟨p.tokens, p.pos + d.length, (declaredNames d).reverse ++ p.vars⟩ :
        Syntax).rest = ds ++ kb :: rest := by
      have := @rest_advance p d (ds ++ kb :: rest) hrest
      simpa [Syntax.rest, advance] using this
    obtain ⟨⟨t, r, rfl, ht⟩, -⟩ := inDecls_of_derives hds
    have hc1 := currentToken_of_rest hr1
    have ht' : t.Typ = .Identifier := ht
    have hnb : ¬ (t.Typ = .Keyword ∧ t.Lexeme = "begin") := by rw [ht']; simp
    have h2 := ih rfl _ kb rest fuel hr1 hkb
      (fun x hx hmem => by
        rcases List.mem_append.mp hmem with hm | hm
        · exact (List.disjoint_of_nodup_append hnodup) (List.mem_reverse.mp hm) hx
        · exact hfresh x (List.mem_append_right _ hx) hm)
      (List.Nodup.of_append_right hnodup) (by omega)
    simp only [ParseProgram.decls, h1, hc1, if_neg hnb, h2]
    simp [List.length_append, add_assoc, List.reverse_append, declaredNames_append]

theorem ParseProgram_run_complete {kp kv kb ke dot : Token} {decls stmts : List Token}
    (hkp : kp.isKw "program") (hkv : kv.isKw "var") (hdecls : Derives .Decls decls)
    (hkb : kb.isKw "begin") (hstmts : Derives .Stmts stmts) (hke : ke.isKw "end")
    (hdot : dot.isDelim ".") (hnodup : (declaredNames decls).Nodup)
    (hused : Used (declaredNames decls) stmts) (fuel : Nat)
    (hfuel : 8 * (kp :: kv :: decls ++ kb :: stmts ++ [ke, dot]).length + 16 ≤ fuel) :
    ParseProgram.run fuel (Syntax.fresh (kp :: kv :: decls ++ kb :: stmts ++ [ke, dot])) =
      .ok ⟨kp :: kv :: decls ++ kb :: stmts ++ [ke, dot],
        (kp :: kv :: decls ++ kb :: stmts ++ [ke, dot]).length, (declaredNames decls).reverse⟩ := by
  generalize hts : kp :: kv :: decls ++ kb :: stmts ++ [ke, dot] = ts at hfuel ⊢
  have hlen : ts.length = decls.length + stmts.length + 5 := by
    rw [← hts]; simp only [List.length_cons, List.length_append, List.length_nil]; omega
  have hr0 : (Syntax.fresh ts).rest = kp :: kv :: (decls ++ kb :: (stmts ++ [ke, dot])) := by
    rw [← hts]; simp [Syntax.rest, Syntax.fresh]
  have m0 := matchToken_of_rest hr0 hkp.1 hkp.2
  have hr1 := rest_advance_one hr0
  have m1 := matchToken_of_rest hr1 hkv.1 hkv.2
  have hr2 := rest_advance_one hr1
  have d2 := ParseProgram_decls_complete hdecls rfl _ kb _ fuel hr2 hkb
    (fun x _ h => by simp [advance, Syntax.fresh] at h) hnodup (by omega)
  have hr3 := rest_advance hr2
  have hq : ((Syntax.fresh ts).advance 1).advance 1 = ⟨ts, 2, []⟩ := rfl
  rw [hq] at m1 d2 hr2 hr3
  simp only [List.append_nil] at d2
  have hr3' : (⟨ts, 2 + decls.length, (declaredNames decls).reverse⟩ : Syntax).rest =
      kb :: (stmts ++ [ke, dot]) := hr3
  have m3 := matchToken_of_rest hr3' hkb.1 hkb.2
  have hr4 := rest_advance_one hr3'
  have hused' : Used ((⟨ts, 2 + decls.length, (declaredNames decls).reverse⟩ : Syntax).advance
      1).vars stmts := fun t ht hid => List.mem_reverse.mpr (hused t ht hid)
  have o4 := parseOperations_complete hstmts rfl _ ke [dot] fuel hr4 hke hused' (by omega)
  have hr5 := rest_advance hr4
  have m5 := matchToken_of_rest hr5 hke.1 hke.2
  have hr6 := rest_advance_one hr5
  have m6 := matchToken_of_rest hr6 hdot.1 hdot.2
  simp only [ParseProgram.run, m0, m1, d2, m3, o4, m5, m6]
  simp only [advance, hlen, Res.ok.injEq, Syntax.mk.injEq, true_and, and_true]
  omega

end Syntax

/-! ## C2: completeness of the parser -/

theorem List.takeWhile_append_of_neg {α : Type} (p : α → Bool) (l r : List α) (b : α)
    (hl : ∀ x ∈ l, p x = true) (hb : p b = false) : (l ++ b :: r).takeWhile p = l := by
  induction l with
  | nil => simp [List.takeWhile, hb]
  | cons a l ih =>
    have ha := hl a (List.mem_cons_self _ _)
    simp [List.takeWhile_cons, ha, ih fun x hx => hl x (List.mem_cons_of_mem _ hx)]

theorem List.dropWhile_append_of_neg {α : Type} (p : α → Bool) (l r : List α) (b : α)
    (hl : ∀ x ∈ l, p x = true) (hb : p b = false) : (l ++ b :: r).dropWhile p = b :: r := by
  induction l with
  | nil => simp [List.dropWhile, hb]
  | cons a l ih =>
    have ha := hl a (List.mem_cons_self _ _)
    simp [List.dropWhile_cons, ha, ih fun x hx => hl x (List.mem_cons_of_mem _ hx)]

/-- The sections of a program are the ones its derivation names: the declarations hold no
keyword `begin`. -/
theorem sections_of_program {kp kv kb : Token} {decls rest : List Token}
    (hkp : kp.isKw "program") (hkv : kv.isKw "var") (hdecls : Derives .Decls decls)
    (hkb : kb.isKw "begin") :
    declSection (kp :: kv :: decls ++ kb :: rest) = kp :: kv :: decls ∧
    bodySection (kp :: kv :: decls ++ kb :: rest) = kb :: rest := by
  have hpre : ∀ x ∈ kp :: kv :: decls,
      decide (¬ (x.Typ = .Keyword ∧ x.Lexeme = "begin")) = true := by
    intro x hx
    simp only [List.mem_cons] at hx
    rcases hx with rfl | rfl | hx
    · simp [hkp.2]
    · simp [hkv.2]
    · have := (inDecls_of_derives hdecls).2 x hx
      exact decide_eq_true this
  have hb : decide (¬ (kb.Typ = .Keyword ∧ kb.Lexeme = "begin")) = false := by
    simp [hkb.1, hkb.2]
  exact ⟨List.takeWhile_append_of_neg _ (kp :: kv :: decls) rest kb hpre hb,
    List.dropWhile_append_of_neg _ (kp :: kv :: decls) rest kb hpre hb⟩

/-- C2: a token list derivable from `Program` of the grammar of section 4.2 in which no name
is declared twice and every identifier after `begin` is declared is accepted: `ParseProgram`
on the fresh parser state returns success with the cursor at `len(ts)`, the symbol table
holding the declared names. -/
theorem ParseProgram_complete (ts : List Token) (h : Derives .Program ts)
    (hdup : (declaredNames (declSection ts)).Nodup)
    (huse : Used (declaredNames (declSection ts)) (bodySection ts)) :
    (Syntax.fresh ts).ParseProgram =
      .ok ⟨ts, ts.length, (declaredNames (declSection ts)).reverse⟩ := by
  cases h with
  | program hkp hkv hdecls hkb hstmts hke hdot =>
    rename_i kp kv kb ke dot decls stmts
    have hsec := @sections_of_program kp kv kb decls (stmts ++ [ke, dot]) hkp hkv hdecls hkb
    have hts : kp :: kv :: decls ++ kb :: stmts ++ [ke, dot] =
        kp :: kv :: decls ++ kb :: (stmts ++ [ke, dot]) := by simp
    rw [hts] at hdup huse ⊢
    rw [hsec.1] at hdup huse ⊢
    rw [hsec.2] at huse
    have hnames : declaredNames (kp :: kv :: decls) = declaredNames decls := by
      rw [declaredNames_cons, declaredNames_cons, if_neg (by rw [hkp.1]; decide),
        if_neg (by rw [hkv.1]; decide)]
    rw [hnames] at hdup huse ⊢
    rw [← hts]
    exact Syntax.ParseProgram_run_complete hkp hkv hdecls hkb hstmts hke hdot hdup
      (fun t ht => huse t (List.mem_cons_of_mem _ (List.mem_append_left _ ht))) _ (le_refl _)

/-- C2 at `program var x, y: int; begin read(x); y as x plus 1 end.`: the lexer gives the
21 tokens, they are derivable from `Program`, and the parser accepts them with the cursor
at 21. -/
theorem ParseProgram_complete_witness :
    Lexer unicode.latin1 "program var x, y: int; begin read(x); y as x plus 1 end.".toList =
      .tokens readPlus ∧
    Derives .Program readPlus ∧
    (Syntax.fresh readPlus).ParseProgram = .ok ⟨readPlus, 21, ["y", "x"]⟩ :=
  have hids : Derives .Idents
      [⟨.Identifier, "x", 1, 13⟩, ⟨.Delimiter, ",", 1, 14⟩, ⟨.Identifier, "y", 1, 16⟩] :=
    .identsMore rfl ⟨rfl, rfl⟩ (.identsOne rfl)
  have hdecl : Derives .Decl
      ([⟨.Identifier, "x", 1, 13⟩, ⟨.Delimiter, ",", 1, 14⟩, ⟨.Identifier, "y", 1, 16⟩] ++
        [⟨.Delimiter, ":", 1, 17⟩, ⟨.Keyword, "int", 1, 19⟩, ⟨.Delimiter, ";", 1, 22⟩]) :=
    .decl hids ⟨rfl, rfl⟩ (Or.inl ⟨rfl, rfl⟩) ⟨rfl, rfl⟩
  have hread : Derives .Read
      (⟨.Keyword, "read", 1, 30⟩ :: ⟨.Delimiter, "(", 1, 34⟩ :: [⟨.Identifier, "x", 1, 35⟩] ++
        [⟨.Delimiter, ")", 1, 36⟩]) :=
    .read ⟨rfl, rfl⟩ ⟨rfl, rfl⟩ (.identsOne rfl) ⟨rfl, rfl⟩
  have hx : Derives .Term ([⟨.Identifier, "x", 1, 44⟩] ++ []) :=
    .term (.factorIdent rfl) .termRestNil
  have hone : Derives .Term ([⟨.Number, "1", 1, 51⟩] ++ []) :=
    .term (.factorNumber rfl) .termRestNil
  have hplus : Derives .OperandRest
      (⟨.Operator, "plus", 1, 46⟩ :: ([⟨.Number, "1", 1, 51⟩] ++ []) ++ []) :=
    .operandRestMore (Or.inl ⟨rfl, rfl⟩) hone .operandRestNil
  have hexpr : Derives .Expr
      (([⟨.Identifier, "x", 1, 44⟩] ++ []) ++
        (⟨.Operator, "plus", 1, 46⟩ :: ([⟨.Number, "1", 1, 51⟩] ++ []) ++ []) ++ []) :=
    .expr (.operand hx hplus) .exprRestNil
  have hassign : Derives .Assign
      [⟨.Identifier, "y", 1, 39⟩, ⟨.Keyword, "as", 1, 41⟩, ⟨.Identifier, "x", 1, 44⟩,
        ⟨.Operator, "plus", 1, 46⟩, ⟨.Number, "1", 1, 51⟩] :=
    .assign rfl ⟨rfl, rfl⟩ hexpr
  have hstmts : Derives .Stmts
      ((⟨.Keyword, "read", 1, 30⟩ :: ⟨.Delimiter, "(", 1, 34⟩ :: [⟨.Identifier, "x", 1, 35⟩] ++
          [⟨.Delimiter, ")", 1, 36⟩]) ++ ⟨.Delimiter, ";", 1, 37⟩ ::
        [⟨.Identifier, "y", 1, 39⟩, ⟨.Keyword, "as", 1, 41⟩, ⟨.Identifier, "x", 1, 44⟩,
          ⟨.Operator, "plus", 1, 46⟩, ⟨.Number, "1", 1, 51⟩]) :=
    .stmtsMore (.stmtRead hread) ⟨rfl, rfl⟩ (.stmtsOne (.stmtAssign hassign))
  have hd : Derives .Program readPlus :=
    (.program ⟨rfl, rfl⟩ ⟨rfl, rfl⟩ (.declsOne hdecl) ⟨rfl, rfl⟩ hstmts ⟨rfl, rfl⟩ ⟨rfl, rfl⟩ :
      Derives .Program (⟨.Keyword, "program", 1, 1⟩ :: ⟨.Keyword, "var", 1, 9⟩ ::
        ([⟨.Identifier, "x", 1, 13⟩, ⟨.Delimiter, ",", 1, 14⟩, ⟨.Identifier, "y", 1, 16⟩] ++
          [⟨.Delimiter, ":", 1, 17⟩, ⟨.Keyword, "int", 1, 19⟩, ⟨.Delimiter, ";", 1, 22⟩]) ++
        ⟨.Keyword, "begin", 1, 24⟩ ::
        ((⟨.Keyword, "read", 1, 30⟩ :: ⟨.Delimiter, "(", 1, 34⟩ ::
            [⟨.Identifier, "x", 1, 35⟩] ++ [⟨.Delimiter, ")", 1, 36⟩]) ++
          ⟨.Delimiter, ";", 1, 37⟩ ::
          [⟨.Identifier, "y", 1, 39⟩, ⟨.Keyword, "as", 1, 41⟩, ⟨.Identifier, "x", 1, 44⟩,
            ⟨.Operator, "plus", 1, 46⟩, ⟨.Number, "1", 1, 51⟩]) ++
        [⟨.Keyword, "end", 1, 53⟩, ⟨.Delimiter, ".", 1, 56⟩]))
  ⟨by decide, hd, ParseProgram_complete readPlus hd (by decide) (by unfold Used; decide)⟩

/-! ## Duplicate declarations (claim C3) -/

theorem DeclPrefix.head_isIdent {pre : List Token} (h : DeclPrefix pre) (dup : Token)
    (post : List Token) (hdup : dup.isIdent) :
    ∃ t r, pre ++ dup :: post = t :: r ∧ t.isIdent := by
  induction h with
  | idents hics =>
    cases hics with
    | nil => exact ⟨dup, post, rfl, hdup⟩
    | cons hi _ _ => exact ⟨_, _, rfl, hi⟩
  | decl hd _ _ =>
    obtain ⟨⟨t, r, rfl, ht⟩, -⟩ := inDecls_of_derives hd
    exact ⟨t, _, rfl, ht⟩

namespace Syntax

theorem parseDeclaration_idents_duplicate {ics : List Token} (h : IdentCommas ics) :
    ∀ (p : Syntax) (dup : Token) (post : List Token) (fuel : Nat),
      p.rest = ics ++ dup :: post → dup.isIdent →
      (∀ x ∈ declaredNames ics, x ∉ p.vars) → (declaredNames ics).Nodup →
      dup.Lexeme ∈ (declaredNames ics).reverse ++ p.vars → ics.length + 1 ≤ fuel →
      parseDeclaration.idents fuel p =
        .fail (.alreadyDeclared dup.Lexeme dup.LineNum dup.ColNum)
          ⟨p.tokens, p.pos + ics.length, (declaredNames ics).reverse ++ p.vars⟩ := by
  induction h with
  | nil =>
    intro p dup post fuel hrest hdup hfresh hnodup hmem hfuel
    obtain ⟨fuel, rfl⟩ : ∃ f, fuel = f + 1 := ⟨fuel - 1, by omega⟩
    have hc : p.currentToken = dup := currentToken_of_rest hrest
    have hdup' : dup.Typ = .Identifier := hdup
    have hmem' : dup.Lexeme ∈ p.vars := by simpa [declaredNames_nil] using hmem
    simp [parseDeclaration.idents, hc, hdup', hmem', declaredNames_nil]
  | @cons i comma ics hi hcomma _ ih =>
    intro p dup post fuel hrest hdup hfresh hnodup hmem hfuel
    obtain ⟨fuel, rfl⟩ : ∃ f, fuel = f + 1 := ⟨fuel - 1, by omega⟩
    simp only [List.length_cons] at hfuel
    rw [List.cons_append, List.cons_append] at hrest
    have hi' : i.Typ = .Identifier := hi
    have hcomma1 : comma.Typ ≠ .Identifier := by rw [hcomma.1]; decide
    have hnames : declaredNames (i :: comma :: ics) = i.Lexeme :: declaredNames ics := by
      rw [declaredNames_cons, if_pos hi', declaredNames_cons, if_neg hcomma1]
    rw [hnames] at hfresh hnodup hmem
    have hc : p.currentToken = i := currentToken_of_rest hrest
    have hnew : i.Lexeme ∉ p.vars := hfresh _ (by simp)
    have hrestq : (⟨p.tokens, p.pos, i.Lexeme :: p.vars⟩ : Syntax).rest =
        i :: comma :: (ics ++ dup :: post) := hrest
    have hn := nextToken_of_rest_cons hrestq
    have hr1 := rest_advance_one hrestq
    have hc1 := currentToken_of_rest hr1
    have hn1 := nextToken_of_rest_cons hr1
    have hr2 := rest_advance_one hr1
    have hcomma' : comma.Typ = .Delimiter ∧ comma.Lexeme = "," := hcomma
    have h1 := ih _ dup post fuel hr2 hdup
      (fun x hx => by
        have h2 := hfresh x (List.mem_cons_of_mem _ hx)
        have h3 : x ≠ i.Lexeme := fun h => by
          rw [h] at hx; exact (List.nodup_cons.mp hnodup).1 hx
        simp only [advance, List.mem_cons, not_or]
        exact ⟨h3, h2⟩)
      (List.nodup_cons.mp hnodup).2
      (by simpa [advance, List.reverse_cons, List.append_assoc] using hmem) (by omega)
    simp only [parseDeclaration.idents, hc, hi', ne_eq, not_true_eq_false, if_false, hnew, hn,
      hc1, if_pos hcomma', hn1, h1, hnames]
    simp [advance]
    omega

theorem ParseProgram_decls_duplicate {pre : List Token} (h : DeclPrefix pre) :
    ∀ (p : Syntax) (dup : Token) (post : List Token) (fuel : Nat),
      p.rest = pre ++ dup :: post → dup.isIdent →
      (∀ x ∈ declaredNames pre, x ∉ p.vars) → (declaredNames pre).Nodup →
      dup.Lexeme ∈ (declaredNames pre).reverse ++ p.vars → pre.length + 2 ≤ fuel →
      ParseProgram.decls fuel p =
        .fail (.alreadyDeclared dup.Lexeme dup.LineNum dup.ColNum)
          ⟨p.tokens, p.pos + pre.length, (declaredNames pre).reverse ++ p.vars⟩ := by
  induction h with
  | idents hics =>
    intro p dup post fuel hrest hdup hfresh hnodup hmem hfuel
    obtain ⟨fuel, rfl⟩ : ∃ f, fuel = f + 1 := ⟨fuel - 1, by omega⟩
    have h1 := parseDeclaration_idents_duplicate hics p dup post fuel hrest hdup hfresh hnodup
      hmem (by omega)
    simp only [ParseProgram.decls, parseDeclaration, h1]
  | @decl d pre hd hpre ih =>
    intro p dup post fuel hrest hdup hfresh hnodup hmem hfuel
    obtain ⟨fuel, rfl⟩ : ∃ f, fuel = f + 1 := ⟨fuel - 1, by omega⟩
    rw [List.append_assoc] at hrest
    rw [declaredNames_append] at hfresh hnodup hmem
    simp only [List.length_append] at hfuel
    have hlen : 1 ≤ d.length := by
      have := hd.minLength_le
      simp only [minLength] at this
      omega
    have h1 := parseDeclaration_complete hd p (pre ++ dup :: post) fuel hrest
      (fun x hx => hfresh x (List.mem_append_left _ hx)) (List.Nodup.of_append_left hnodup)
      (by omega)
    have hr1 : (⟨p.tokens, p.pos + d.length, (declaredNames d).reverse ++ p.vars⟩ :
        Syntax).rest = pre ++ dup :: post := by
      have := @rest_advance p d (pre ++ dup :: post) hrest
      simpa [Syntax.rest, advance] using this
    obtain ⟨t, r, htr, ht⟩ := hpre.head_isIdent dup post hdup
    rw [htr] at hr1
    have hc1 := currentToken_of_rest hr1
    rw [← htr] at hr1
    have ht' : t.Typ = .Identifier := ht
    have hnb : ¬ (t.Typ = .Keyword ∧ t.Lexeme = "begin") := by rw [ht']; simp
    have h2 := ih _ dup post fuel hr1 hdup
      (fun x hx hmem => by
        rcases List.mem_append.mp hmem with hm | hm
        · exact (List.disjoint_of_nodup_append hnodup) (List.mem_reverse.mp hm) hx
        · exact hfresh x (List.mem_append_right _ hx) hm)
      (List.Nodup.of_append_right hnodup)
      (by simpa [List.reverse_append, List.append_assoc] using hmem) (by omega)
    simp only [ParseProgram.decls, h1, hc1, if_neg hnb, h2]
    simp [List.length_append, add_assoc, List.reverse_append, declaredNames_append]

end Syntax

/-- C3: at an Identifier token whose lexeme is in the symbol table, the loop of
`parseDeclaration`, `parseDeclaration` and the declaration loop of `ParseProgram` fail with
the duplicate-declaration error that carries the token's lexeme, line and column, the
cursor left on the token; and `ParseProgram` on a fresh state, when the declaration section
brings it to an Identifier token `dup` with a name declared in front of it, fails with that
error for `dup`, the cursor on `dup` and the symbol table holding the names in front. -/
theorem duplicate_declaration :
    (∀ (fuel : Nat) (p : Syntax), p.currentToken.Typ = .Identifier →
      p.currentToken.Lexeme ∈ p.vars →
      Syntax.parseDeclaration.idents (fuel + 1) p = .fail (.alreadyDeclared
        p.currentToken.Lexeme p.currentToken.LineNum p.currentToken.ColNum) p ∧
      Syntax.parseDeclaration (fuel + 1) p = .fail (.alreadyDeclared
        p.currentToken.Lexeme p.currentToken.LineNum p.currentToken.ColNum) p ∧
      Syntax.ParseProgram.decls (fuel + 2) p = .fail (.alreadyDeclared
        p.currentToken.Lexeme p.currentToken.LineNum p.currentToken.ColNum) p) ∧
    (∀ (kp kv dup : Token) (pre post : List Token), kp.isKw "program" → kv.isKw "var" →
      DeclPrefix pre → (declaredNames pre).Nodup → dup.isIdent →
      dup.Lexeme ∈ declaredNames pre →
      (Syntax.fresh (kp :: kv :: pre ++ dup :: post)).ParseProgram =
        .fail (.alreadyDeclared dup.Lexeme dup.LineNum dup.ColNum)
          ⟨kp :: kv :: pre ++ dup :: post, 2 + pre.length, (declaredNames pre).reverse⟩) := by
  constructor
  · intro fuel p h1 h2
    have e1 : Syntax.parseDeclaration.idents (fuel + 1) p = .fail (.alreadyDeclared
        p.currentToken.Lexeme p.currentToken.LineNum p.currentToken.ColNum) p := by
      simp [Syntax.parseDeclaration.idents, h1, h2]
    have e2 : Syntax.parseDeclaration (fuel + 1) p = .fail (.alreadyDeclared
        p.currentToken.Lexeme p.currentToken.LineNum p.currentToken.ColNum) p := by
      simp only [Syntax.parseDeclaration, e1]
    refine ⟨e1, e2, ?_⟩
    simp only [Syntax.ParseProgram.decls, e2]
  · intro kp kv dup pre post hkp hkv hpre hnodup hdup hmem
    generalize hts : kp :: kv :: pre ++ dup :: post = ts
    have hr0 : (Syntax.fresh ts).rest = kp :: kv :: (pre ++ dup :: post) := by
      rw [← hts]; simp [Syntax.rest, Syntax.fresh]
    have m0 := Syntax.matchToken_of_rest hr0 hkp.1 hkp.2
    have hr1 := Syntax.rest_advance_one hr0
    have m1 := Syntax.matchToken_of_rest hr1 hkv.1 hkv.2
    have hr2 := Syntax.rest_advance_one hr1
    have hq : ((Syntax.fresh ts).advance 1).advance 1 = ⟨ts, 2, []⟩ := rfl
    rw [hq] at m1 hr2
    have d2 := Syntax.ParseProgram_decls_duplicate hpre _ dup post (8 * ts.length + 16) hr2
      hdup (fun x _ h => by simp at h) hnodup (by simpa using hmem)
      (by rw [← hts]; simp only [List.length_cons, List.length_append]; omega)
    simp only [List.append_nil] at d2
    have hlen : (Syntax.fresh ts).tokens.length = ts.length := rfl
    simp only [Syntax.ParseProgram, Syntax.ParseProgram.run, m0, m1, hlen, d2]

/-- C3 at `program var x: int; x: int; begin end.`: the two phases end with the
duplicate-declaration error for `x` at line 1, column 21, the cursor on that token. -/
theorem duplicate_declaration_witness :
    analyze unicode.latin1 "program var x: int; x: int; begin end.".toList =
      .parsed declaredTwice
        (.fail (.alreadyDeclared "x" 1 21) ⟨declaredTwice, 6, ["x"]⟩) :=
  have hpre : DeclPrefix ([⟨.Identifier, "x", 1, 13⟩] ++
      [⟨.Delimiter, ":", 1, 14⟩, ⟨.Keyword, "int", 1, 16⟩, ⟨.Delimiter, ";", 1, 19⟩] ++ []) :=
    .decl (.decl (.identsOne rfl) ⟨rfl, rfl⟩ (Or.inl ⟨rfl, rfl⟩) ⟨rfl, rfl⟩) (.idents .nil)
  analyze_of_tokens _ _ _ _ (by decide)
    (duplicate_declaration.2 ⟨.Keyword, "program", 1, 1⟩ ⟨.Keyword, "var", 1, 9⟩
      ⟨.Identifier, "x", 1, 21⟩ _
      [⟨.Delimiter, ":", 1, 22⟩, ⟨.Keyword, "int", 1, 24⟩, ⟨.Delimiter, ";", 1, 27⟩,
        ⟨.Keyword, "begin", 1, 29⟩, ⟨.Keyword, "end", 1, 35⟩, ⟨.Delimiter, ".", 1, 38⟩]
      ⟨rfl, rfl⟩ ⟨rfl, rfl⟩ hpre (by decide) rfl (by decide))

/-! ## Unterminated comments (claim C11) -/

theorem Lexer.skipComment_none (s : List Char) (hs : '}' ∉ s) (l k : Int) :
    Lexer.skipComment s l k = none := by
  induction s generalizing l k with
  | nil => rfl
  | cons x s ih =>
    have hx : x ≠ '}' := fun h => hs (by simp [h])
    have hs' : '}' ∉ s := fun h => hs (List.mem_cons_of_mem _ h)
    simp only [Lexer.skipComment, if_neg hx]
    split_ifs
    · exact ih hs' _ _
    · exact ih hs' _ _

/-- With no lexeme under construction, a `{` that no `}` follows ends the loop. -/
theorem Lexer.run_open_comment_H (U : UnicodeTables) (s : List Char) (hs : '}' ∉ s)
    (t : List Token) (l k : Int) (sb : List Char) :
    Lexer.run U ⟨t, l, k, '{' :: s, sb, .H⟩ = .error .unterminatedComment := by
  have a1 : unicode.IsSpace U '{' = false := rfl
  have a2 : unicode.IsLetter U '{' = false := rfl
  have a3 : unicode.IsDigit U '{' = false := rfl
  have a4 : isDelimiter '{' = true := by decide
  exact Lexer.run_done U _ _ (by
    simp [Lexer.iteration, Lexer.caseH, a1, a2, a3, a4, Lexer.skipComment_none s hs])

/-- C11: behind an input that `Lexer` accepts on its own, a `{` that no `}` follows makes
`Lexer` fail, with the error "malformed comment: expected `}`". -/
theorem unterminated_comment (U : UnicodeTables) (a s : List Char) (ts : List Token)
    (ha : Lexer U a = .tokens ts) (hs : '}' ∉ s) :
    Lexer U (a ++ '{' :: s) = .error .unterminatedComment := by
  rw [Lexer_eq_run] at ha
  obtain ⟨w, hw1, hw2, hw3⟩ := Lexer.run_prefix U _ ts ha
  obtain ⟨tokens, lineNum, colNum, bufReader, sb, state⟩ := w
  simp only at hw1
  subst hw1
  have h1 := hw3 ('{' :: s)
  simp only [LexerVars.append, Lexer.init, List.nil_append] at h1
  rw [Lexer_eq_run]
  simp only [Lexer.init]
  rw [h1]
  have a1 : unicode.IsLetter U '{' = false := rfl
  have a2 : unicode.IsDigit U '{' = false := rfl
  cases state with
  | H => exact Lexer.run_open_comment_H U s hs _ _ _ _
  | ID =>
    have e1 : Lexer.run U ⟨tokens, lineNum, colNum, '{' :: s, sb, .ID⟩ =
        Lexer.run U ⟨tokens ++ [⟨if isKeyword (String.mk sb) then .Keyword
          else if isOperator (String.mk sb) then .Operator else .Identifier, String.mk sb,
          lineNum, colNum + runeSize '{' - (String.mk sb).length⟩], lineNum,
          colNum + runeSize '{' - runeSize '{', '{' :: s, [], .H⟩ :=
      Lexer.run_next U _ _ (by simp [Lexer.iteration, Lexer.caseID, a1, a2])
    rw [e1]
    exact Lexer.run_open_comment_H U s hs _ _ _ _
  | NUM =>
    have hnum : isNumber (String.mk sb) = true := by
      simp only [Lexer.atEOF] at hw2
      split_ifs at hw2 with h
      exact h
    have e1 : Lexer.run U ⟨tokens, lineNum, colNum, '{' :: s, sb, .NUM⟩ =
        Lexer.run U ⟨tokens ++ [⟨.Number, String.mk sb,
          lineNum, colNum + runeSize '{' - (String.mk sb).length⟩], lineNum,
          colNum + runeSize '{' - runeSize '{', '{' :: s, [], .H⟩ :=
      Lexer.run_next U _ _ (by
        simp only [Lexer.iteration, Lexer.caseNUM]
        rw [if_neg (by simp only [a2]; decide), if_pos hnum, if_neg (by simp [a1, a2])])
    rw [e1]
    exact Lexer.run_open_comment_H U s hs _ _ _ _
  | OP =>
    have hop : isOperator (String.mk sb) = true := by
      simp only [Lexer.atEOF] at hw2
      split_ifs at hw2 with h
      exact h
    have e1 : Lexer.run U ⟨tokens, lineNum, colNum, '{' :: s, sb, .OP⟩ =
        Lexer.run U ⟨tokens ++ [⟨.Operator, String.mk sb,
          lineNum, colNum + runeSize '{' - runeSize '{' + 1⟩], lineNum,
          colNum + runeSize '{' - runeSize '{', '{' :: s, [], .H⟩ :=
      Lexer.run_next U _ _ (by simp [Lexer.iteration, Lexer.caseOP, hop])
    rw [e1]
    exact Lexer.run_open_comment_H U s hs _ _ _ _

/-- C11 at `begin x {note`: the input `begin x ` gives two tokens, and with the open comment
behind it `Lexer` fails with the comment error. -/
theorem unterminated_comment_witness :
    Lexer unicode.latin1 "begin x ".toList =
      .tokens [⟨.Keyword, "begin", 1, 1⟩, ⟨.Identifier, "x", 1, 7⟩] ∧
    Lexer unicode.latin1 ("begin x ".toList ++ '{' :: "note".toList) =
      .error .unterminatedComment :=
  ⟨by decide, unterminated_comment unicode.latin1 "begin x ".toList "note".toList
    [⟨.Keyword, "begin", 1, 1⟩, ⟨.Identifier, "x", 1, 7⟩] (by decide) (by decide)⟩

/-! ## Columns of unknown characters (claim C12) -/

/-- C12 fails on the code: `Lexer` advances the column by the width of a rune in bytes, so a
rune outside ASCII moves it by more than one. `§` (U+00A7) alone, in column 1, is reported
in column 2, and `#` behind a no-break space (U+00A0), in column 2, is reported in column 3.
On ASCII input the report is exact: in `" \n #"` the `#` is reported in line 2, column 2. -/
theorem Lexer_unknown_character_column :
    Lexer unicode.latin1 [Char.ofNat 167] =
      .error (.unknownCharacter (Char.ofNat 167) 1 2) ∧
    Lexer unicode.latin1 [Char.ofNat 160, '#'] = .error (.unknownCharacter '#' 1 3) ∧
    Lexer unicode.latin1 [' ', '\n', ' ', '#'] = .error (.unknownCharacter '#' 2 2) := by
  refine ⟨by decide, by decide, by decide⟩

/-! ## A program that is accepted (claim C15) -/

/-- C15: on `program var x: int; begin x as 1; write(x) end.` the lexer gives 17 tokens and
`ParseProgram` on them, from the fresh state, returns success with the cursor behind the
last token. -/
theorem analyze_assign_write :
    analyze unicode.latin1 "program var x: int; begin x as 1; write(x) end.".toList =
      .parsed assignWrite (.ok ⟨assignWrite, 17, ["x"]⟩) ∧
    assignWrite.length = 17 :=
  ⟨analyze_of_tokens _ _ _ _ (by decide) (by decide), rfl⟩

/-! ## Tokens behind the final `.` (claim C13) -/

namespace Syntax

theorem parseOperations_complete_relaxed {ss : List Token} (h : StmtsRelaxed ss) :
    ∀ (p : Syntax) (ke : Token) (rest : List Token) (fuel : Nat),
      p.rest = ss ++ ke :: rest → ke.isKw "end" → Used p.vars ss → 8 * ss.length + 11 ≤ fuel →
      parseOperations fuel p = .ok (p.advance ss.length) := by
  induction h with
  | nil =>
    intro p ke rest fuel hrest hke hused hfuel
    obtain ⟨fuel, rfl⟩ : ∃ f, fuel = f + 1 := ⟨fuel - 1, by omega⟩
    have hc : p.currentToken = ke := currentToken_of_rest hrest
    have hke' : ke.Typ = .Keyword ∧ ke.Lexeme = "end" := hke
    simp only [parseOperations, hc, if_pos hke']
    rfl
  | @one s hs =>
    intro p ke rest fuel hrest hke hused hfuel
    obtain ⟨fuel, rfl⟩ : ∃ f, fuel = f + 1 := ⟨fuel - 1, by omega⟩
    obtain ⟨t, r, rfl, ht⟩ := startsStmt_of_derives hs
    obtain ⟨b, hb⟩ := nearest_of_derives hs
    have hc : p.currentToken = t := currentToken_of_rest hrest
    have h1 := operation_complete hb p (ke :: rest) fuel hrest hused
      (fun t' ht' => by
        simp only [List.head?_cons, Option.mem_def, Option.some.injEq] at ht'
        subst ht'
        exact ⟨by rw [hke.1]; decide, fun _ h => by rw [Token.isKw, hke.2] at h; simp at h⟩)
      (by omega)
    have hr1 := rest_advance hrest
    have hc1 := currentToken_of_rest hr1
    have hne : ¬ (ke.Typ = .Delimiter ∧ ke.Lexeme = ";") := by rw [hke.1]; simp
    have hke' : ke.Typ = .Keyword ∧ ke.Lexeme = "end" := hke
    simp only [Token.isKw] at ht
    simp only [parseOperations, hc, if_neg ht, h1, hc1, if_neg hne, if_pos hke']
  | @more s ss semi hs hsemi hss ih =>
    intro p ke rest fuel hrest hke hused hfuel
    obtain ⟨fuel, rfl⟩ : ∃ f, fuel = f + 1 := ⟨fuel - 1, by omega⟩
    simp only [List.length_cons, List.length_append] at hfuel
    rw [Used_append, Used_cons] at hused
    rw [List.append_assoc, List.cons_append] at hrest
    obtain ⟨t, r, rfl, ht⟩ := startsStmt_of_derives hs
    obtain ⟨b, hb⟩ := nearest_of_derives hs
    have hc : p.currentToken = t := currentToken_of_rest hrest
    have h1 := operation_complete hb p _ fuel hrest hused.1
      (fun t' ht' => by
        simp only [List.head?_cons, Option.mem_def, Option.some.injEq] at ht'
        subst ht'
        exact ⟨by rw [hsemi.1]; decide, fun _ h => by rw [Token.isKw, hsemi.1] at h; simp at h⟩)
      (by simp only [List.length_cons] at hfuel ⊢; omega)
    have hr1 := rest_advance hrest
    have hc1 := currentToken_of_rest hr1
    have hn1 := nextToken_of_rest_cons hr1
    have hr2 := rest_advance_one hr1
    have h2 := ih _ ke rest fuel hr2 hke hused.2.2 (by omega)
    have hsemi' : semi.Typ = .Delimiter ∧ semi.Lexeme = ";" := hsemi
    simp only [advance_advance] at hn1 h2
    simp only [Token.isKw] at ht
    simp only [parseOperations, hc, if_neg ht, h1, hc1, if_pos hsemi', hn1, h2]
    congr 2
    simp only [List.length_cons, List.length_append]
    omega

theorem parseDeclaration_idents_nodup (fuel : Nat) (p q : Syntax)
    (h : parseDeclaration.idents fuel p = .ok q) (hn : p.vars.Nodup) : q.vars.Nodup := by
  induction fuel generalizing p with
  | zero => simp [parseDeclaration.idents] at h
  | succ fuel ih =>
    simp only [parseDeclaration.idents] at h
    split_ifs at h with h1 h2 h3 h4
    · have hn' : (p.currentToken.Lexeme :: p.vars).Nodup := List.nodup_cons.mpr ⟨h2, hn⟩
      refine ih _ h ?_
      simp only [nextToken]
      split_ifs <;> (try split_ifs) <;> exact hn'
    · simp only [Res.ok.injEq] at h
      subst h
      have hn' : (p.currentToken.Lexeme :: p.vars).Nodup := List.nodup_cons.mpr ⟨h2, hn⟩
      simp only [nextToken]
      split_ifs <;> (try split_ifs) <;> exact hn'

theorem parseDeclaration_nodup (fuel : Nat) (p q : Syntax)
    (h : parseDeclaration fuel p = .ok q) (hn : p.vars.Nodup) : q.vars.Nodup := by
  simp only [parseDeclaration] at h
  split at h
  · rename_i p1 hp1
    have h1 := parseDeclaration_idents_nodup _ _ _ hp1 hn
    split_ifs at h
    simp only [Res.ok.injEq] at h
    subst h
    simp only [nextToken]
    split_ifs <;> (try split_ifs) <;> exact h1
  · rename_i hneg; exact absurd h (hneg _)

theorem ParseProgram_decls_nodup (fuel : Nat) (p q : Syntax)
    (h : ParseProgram.decls fuel p = .ok q) (hn : p.vars.Nodup) : q.vars.Nodup := by
  induction fuel generalizing p with
  | zero => simp [ParseProgram.decls] at h
  | succ fuel ih =>
    simp only [ParseProgram.decls] at h
    split at h
    · rename_i p1 hp1
      have h1 := parseDeclaration_nodup _ _ _ hp1 hn
      split_ifs at h
      · simp only [Res.ok.injEq] at h
        subst h
        exact h1
      · exact ih _ h h1
    · rename_i hneg; exact absurd h (hneg _)

theorem ParseProgram_run_nodup (fuel : Nat) (p q : Syntax)
    (h : ParseProgram.run fuel p = .ok q) (hn : p.vars.Nodup) : q.vars.Nodup := by
  simp only [ParseProgram.run] at h
  split at h
  · rename_i p1 hp1
    split at h
    · rename_i p2 hp2
      split at h
      · rename_i p3 hp3
        split at h
        · rename_i p4 hp4
          split at h
          · rename_i p5 hp5
            split at h
            · rename_i p6 hp6
              obtain ⟨-, -, -, -, v1⟩ := matchToken_ok (by decide) hp1
              obtain ⟨-, -, -, -, v2⟩ := matchToken_ok (by decide) hp2
              have v3 := ParseProgram_decls_nodup _ _ _ hp3 (by rw [v2, v1]; exact hn)
              obtain ⟨-, -, -, -, v4⟩ := matchToken_ok (by decide) hp4
              obtain ⟨-, -, v5, -, -⟩ := parseOperations_sound _ _ _ hp5
              obtain ⟨-, -, -, -, v6⟩ := matchToken_ok (by decide) hp6
              obtain ⟨-, -, -, -, v7⟩ := matchToken_ok (by decide) h
              rw [v7, v6, v5, v4]
              exact v3
            · rename_i hneg; exact absurd h (hneg _)
          · rename_i hneg; exact absurd h (hneg _)
        · rename_i hneg; exact absurd h (hneg _)
      · rename_i hneg; exact absurd h (hneg _)
    · rename_i hneg; exact absurd h (hneg _)
  · rename_i hneg; exact absurd h (hneg _)

/-- What `ParseProgram` accepts is accepted with any tokens behind it. -/
theorem ParseProgram_run_complete_relaxed {kp kv kb ke dot : Token} {decls stmts : List Token}
    (hkp : kp.isKw "program") (hkv : kv.isKw "var") (hdecls : Derives .Decls decls)
    (hkb : kb.isKw "begin") (hstmts : StmtsRelaxed stmts) (hke : ke.isKw "end")
    (hdot : dot.isDelim ".") (hnodup : (declaredNames decls).Nodup)
    (hused : Used (declaredNames decls) stmts) (extra : List Token) (fuel : Nat)
    (hfuel : 8 * (kp :: kv :: decls ++ kb :: stmts ++ [ke, dot]).length + 16 ≤ fuel) :
    ParseProgram.run fuel
        (Syntax.fresh ((kp :: kv :: decls ++ kb :: stmts ++ [ke, dot]) ++ extra)) =
      .ok ⟨(kp :: kv :: decls ++ kb :: stmts ++ [ke, dot]) ++ extra,
        (kp :: kv :: decls ++ kb :: stmts ++ [ke, dot]).length, (declaredNames decls).reverse⟩ := by
  have hlen : (kp :: kv :: decls ++ kb :: stmts ++ [ke, dot]).length =
      decls.length + stmts.length + 5 := by
    simp only [List.length_cons, List.length_append, List.length_nil]; omega
  rw [hlen] at hfuel ⊢
  generalize hts : (kp :: kv :: decls ++ kb :: stmts ++ [ke, dot]) ++ extra = ts
  have hr0 : (Syntax.fresh ts).rest =
      kp :: kv :: (decls ++ kb :: (stmts ++ ke :: dot :: extra)) := by
    rw [← hts]; simp [Syntax.rest, Syntax.fresh]
  have m0 := matchToken_of_rest hr0 hkp.1 hkp.2
  have hr1 := rest_advance_one hr0
  have m1 := matchToken_of_rest hr1 hkv.1 hkv.2
  have hr2 := rest_advance_one hr1
  have d2 := ParseProgram_decls_complete hdecls rfl _ kb _ fuel hr2 hkb
    (fun x _ h => by simp [advance, Syntax.fresh] at h) hnodup (by omega)
  have hr3 := rest_advance hr2
  have hq : ((Syntax.fresh ts).advance 1).advance 1 = ⟨ts, 2, []⟩ := rfl
  rw [hq] at m1 d2 hr2 hr3
  simp only [List.append_nil] at d2
  have hr3' : (⟨ts, 2 + decls.length, (declaredNames decls).reverse⟩ : Syntax).rest =
      kb :: (stmts ++ ke :: dot :: extra) := hr3
  have m3 := matchToken_of_rest hr3' hkb.1 hkb.2
  have hr4 := rest_advance_one hr3'
  have hused' : Used ((⟨ts, 2 + decls.length, (declaredNames decls).reverse⟩ : Syntax).advance
      1).vars stmts := fun t ht hid => List.mem_reverse.mpr (hused t ht hid)
  have o4 := parseOperations_complete_relaxed hstmts _ ke (dot :: extra) fuel hr4 hke hused'
    (by omega)
  have hr5 := rest_advance hr4
  have m5 := matchToken_of_rest hr5 hke.1 hke.2
  have hr6 := rest_advance_one hr5
  have m6 := matchToken_of_rest hr6 hdot.1 hdot.2
  simp only [ParseProgram.run, m0, m1, d2, m3, o4, m5, m6]
  simp only [advance, Res.ok.injEq, Syntax.mk.injEq, true_and, and_true]
  omega

end Syntax

/-- C13: when `ParseProgram` on a fresh state succeeds with final cursor `k`, then
`1 ≤ k ≤ len(ts)`, the token `ts[k-1]` is the Delimiter `.`, and on every token list that
agrees with `ts` on the first `k` tokens `ParseProgram` succeeds with the same final cursor
and the same declared names. -/
theorem trailing_tokens_ignored (ts : List Token) (q : Syntax)
    (h : (Syntax.fresh ts).ParseProgram = .ok q) :
    0 < q.pos ∧ q.pos ≤ ts.length ∧
    (∃ dot, ts[q.pos - 1]? = some dot ∧ dot.Typ = .Delimiter ∧ dot.Lexeme = ".") ∧
    ∀ ts2 : List Token, ts2.take q.pos = ts.take q.pos →
      (Syntax.fresh ts2).ParseProgram = .ok ⟨ts2, q.pos, q.vars⟩ := by
  have hn := Syntax.ParseProgram_run_nodup _ _ _ h List.nodup_nil
  obtain ⟨kp, kv, kb, ke, dot, decls, stmts, c, h1, h2, h3, h4, h5, h6, h7, hv, hu⟩ :=
    Syntax.ParseProgram_run_sound _ _ _ h
  have htake := c.take_of_fresh
  obtain ⟨-, hpos, hrest⟩ := c
  simp only [Syntax.fresh, Syntax.rest, List.drop_zero, zero_add] at hpos hrest hv
  simp only [List.append_nil] at hv
  have hlen : (kp :: kv :: decls ++ kb :: stmts ++ [ke, dot]).length =
      decls.length + stmts.length + 5 := by
    simp only [List.length_cons, List.length_append, List.length_nil]; omega
  rw [hlen] at hpos
  generalize List.drop q.pos q.tokens = tl at hrest
  refine ⟨by omega, ?_, ⟨dot, ?_, h7.1, h7.2⟩, ?_⟩
  · have := congrArg List.length hrest
    rw [List.length_append, hlen] at this
    omega
  · rw [hrest, hpos]
    have e : kp :: kv :: decls ++ kb :: stmts ++ [ke, dot] ++ tl =
        (kp :: kv :: decls ++ kb :: stmts ++ [ke]) ++ dot :: tl := by
      simp
    rw [e, List.getElem?_append_right (by
      simp only [List.length_cons, List.length_append, List.length_nil]; omega)]
    have e2 : decls.length + stmts.length + 5 - 1 -
        (kp :: kv :: decls ++ kb :: stmts ++ [ke]).length = 0 := by
      simp only [List.length_cons, List.length_append, List.length_nil]; omega
    rw [e2]
    simp
  · intro ts2 h2'
    rw [htake] at h2'
    have e : ts2 = (kp :: kv :: decls ++ kb :: stmts ++ [ke, dot]) ++ ts2.drop q.pos := by
      conv_lhs => rw [← List.take_append_drop q.pos ts2, h2']
    have hnd : (declaredNames decls).Nodup := by
      rw [hv] at hn
      exact List.nodup_reverse.mp hn
    have hused : Used (declaredNames decls) stmts := by
      intro t ht hid
      have := hu t ht hid
      rw [hv] at this
      exact List.mem_reverse.mp this
    have := Syntax.ParseProgram_run_complete_relaxed h1 h2 h3 h4 h5 h6 h7 hnd hused
      (ts2.drop q.pos) (8 * ts2.length + 16) (by
        have := congrArg List.length e
        rw [List.length_append] at this
        omega)
    rw [← e, hlen] at this
    rw [Syntax.ParseProgram]
    simp only [Syntax.fresh] at this ⊢
    rw [this, hpos, hv]

/-- C13 at `program var x: int; begin end.`: accepted with cursor 9, token 8 is the `.`,
and with the token `x` added behind the `.` the parser ends in the same way. -/
theorem trailing_tokens_ignored_witness :
    (Syntax.fresh emptyBody).ParseProgram = .ok ⟨emptyBody, 9, ["x"]⟩ ∧
    emptyBody[8]? = some ⟨.Delimiter, ".", 1, 30⟩ ∧
    (Syntax.fresh (emptyBody ++ [⟨.Identifier, "x", 1, 32⟩])).ParseProgram =
      .ok ⟨emptyBody ++ [⟨.Identifier, "x", 1, 32⟩], 9, ["x"]⟩ :=
  ⟨by decide, rfl,
   (trailing_tokens_ignored emptyBody ⟨emptyBody, 9, ["x"]⟩ (by decide)).2.2.2
     (emptyBody ++ [⟨.Identifier, "x", 1, 32⟩]) (by decide)⟩

/-! ## Nested compound statements (claim C16) -/

/-- C16: when `parseOperation` at the start of `s ++ ["]"]` succeeds with the cursor at
`len(s)`, then at the start of `["["] ++ s ++ ["]"]` it succeeds with the cursor at
`len(s) + 2`, whenever the bound on the depth of calls is at least `8 * (len(s) + 2) + 10`:
the bracketed statement is consumed as one statement. -/
theorem nested_compound (s : List Token) (V : List String) (lb rb : Token)
    (hlb : lb.isDelim "[") (hrb : rb.isDelim "]") (fuel : Nat) (q : Syntax)
    (h : Syntax.parseOperation fuel ⟨s ++ [rb], 0, V⟩ = .ok q) (hq : q.pos = s.length)
    (fuel' : Nat) (hfuel : 8 * (s.length + 2) + 10 ≤ fuel') :
    Syntax.parseOperation fuel' ⟨lb :: s ++ [rb], 0, V⟩ =
      .ok ⟨lb :: s ++ [rb], s.length + 2, V⟩ := by
  obtain ⟨s', ⟨-, hpos, hrest⟩, -, hd, hu⟩ := (Syntax.operation_sound fuel).1 _ _ h
  simp only [Syntax.rest, List.drop_zero] at hrest
  have hlen : s'.length = s.length := by simp only at hpos; omega
  have hs : s' = s := (List.append_inj hrest hlen.symm).1.symm
  subst hs
  have hc : Derives .Stmt (lb :: s' ++ [] ++ [rb]) :=
    .stmtCompound (.compound hlb hd .compoundRestNil hrb)
  obtain ⟨b, hb⟩ := nearest_of_derives hc
  have hused : Used V (lb :: s' ++ [] ++ [rb]) := by
    intro t ht hid
    simp only [List.append_nil, List.cons_append, List.mem_cons, List.mem_append,
      List.mem_singleton, List.not_mem_nil, or_false] at ht
    rcases ht with rfl | ht | rfl
    · rw [hlb.1] at hid; cases hid
    · exact hu t ht hid
    · rw [hrb.1] at hid; cases hid
  have := Syntax.operation_complete hb ⟨lb :: s' ++ [rb], 0, V⟩ [] fuel'
    (by simp [Syntax.rest]) hused (fun t ht => by simp at ht)
    (by simp only [List.length_cons, List.length_append, List.length_nil]; omega)
  rw [this]
  simp [Syntax.advance]

/-- C16 at `[ x as 1 ; [ x as 2 ] ]` with `x` declared: the inner `[ x as 2 ]` is consumed
as one statement, by the step from `x as 2 ]`; `parseOperation` consumes the 11 tokens, and
inside, `parseCompositeOperation` at the inner `[` consumes the five tokens up to the
first `]`. -/
theorem nested_compound_witness :
    Lexer unicode.latin1 "[ x as 1 ; [ x as 2 ] ]".toList = .tokens nestedCompound ∧
    Syntax.parseOperation 50
        ⟨⟨.Delimiter, "[", 1, 12⟩ ::
          [⟨.Identifier, "x", 1, 14⟩, ⟨.Keyword, "as", 1, 16⟩, ⟨.Number, "2", 1, 19⟩] ++
          [⟨.Delimiter, "]", 1, 21⟩], 0, ["x"]⟩ =
      .ok ⟨⟨.Delimiter, "[", 1, 12⟩ ::
          [⟨.Identifier, "x", 1, 14⟩, ⟨.Keyword, "as", 1, 16⟩, ⟨.Number, "2", 1, 19⟩] ++
          [⟨.Delimiter, "]", 1, 21⟩], 3 + 2, ["x"]⟩ ∧
    Syntax.parseOperation 98 ⟨nestedCompound, 0, ["x"]⟩ = .ok ⟨nestedCompound, 11, ["x"]⟩ ∧
    Syntax.parseCompositeOperation 97 ⟨nestedCompound, 0, ["x"]⟩ =
      .ok ⟨nestedCompound, 11, ["x"]⟩ ∧
    Syntax.parseCompositeOperation 90 ⟨nestedCompound, 5, ["x"]⟩ =
      .ok ⟨nestedCompound, 10, ["x"]⟩ :=
  ⟨by decide,
   nested_compound
    [⟨.Identifier, "x", 1, 14⟩, ⟨.Keyword, "as", 1, 16⟩, ⟨.Number, "2", 1, 19⟩] ["x"]
    ⟨.Delimiter, "[", 1, 12⟩ ⟨.Delimiter, "]", 1, 21⟩ ⟨rfl, rfl⟩ ⟨rfl, rfl⟩ 10
    ⟨[⟨.Identifier, "x", 1, 14⟩, ⟨.Keyword, "as", 1, 16⟩, ⟨.Number, "2", 1, 19⟩] ++
      [⟨.Delimiter, "]", 1, 21⟩], 3, ["x"]⟩ (by decide) rfl 50 (by decide),
   by decide, by decide, by decide⟩

/-! ## The symbol table and the cursor across calls (claims C19 and C20) -/

theorem Syntax.Frame.frame_refl (p : Syntax) : p.Frame p :=
  ⟨rfl, rfl, le_refl _, le_max_left _ _⟩

theorem Syntax.Frame.frame_trans {a b c : Syntax} (h1 : a.Frame b) (h2 : b.Frame c) : a.Frame c := by
  obtain ⟨t1, v1, p1, b1⟩ := h1
  obtain ⟨t2, v2, p2, b2⟩ := h2
  refine ⟨by rw [t2, t1], by rw [v2, v1], by omega, ?_⟩
  rw [t1] at b2
  omega

theorem Syntax.Frame.nextToken (p : Syntax) : p.Frame p.nextToken := by
  unfold Syntax.nextToken
  split_ifs with h
  · exact ⟨rfl, rfl, by simp, by simp; omega⟩
  · exact Syntax.Frame.frame_refl p

theorem Syntax.Frame.grows {p q : Syntax} (h : p.Frame q) : p.Grows q :=
  ⟨h.1, ⟨[], by simp [h.2.1]⟩, h.2.2.1, h.2.2.2⟩

theorem Syntax.Grows.grows_trans {a b c : Syntax} (h1 : a.Grows b) (h2 : b.Grows c) : a.Grows c := by
  obtain ⟨t1, ⟨l1, v1⟩, p1, b1⟩ := h1
  obtain ⟨t2, ⟨l2, v2⟩, p2, b2⟩ := h2
  refine ⟨by rw [t2, t1], ⟨l2 ++ l1, by rw [v2, v1, List.append_assoc]⟩, by omega, ?_⟩
  rw [t1] at b2
  omega

theorem Res.Keeps.ok {R : Syntax → Syntax → Prop} {p q : Syntax} (h : R p q) :
    Res.Keeps R p (.ok q) := by
  intro q' hq
  simp only [Res.state, Option.some.injEq] at hq
  exact hq ▸ h

theorem Res.Keeps.fail {R : Syntax → Syntax → Prop} {p q : Syntax} (e : SyntaxError)
    (h : R p q) : Res.Keeps R p (.fail e q) := by
  intro q' hq
  simp only [Res.state, Option.some.injEq] at hq
  exact hq ▸ h

theorem Res.Keeps.outOfFuel {R : Syntax → Syntax → Prop} {p : Syntax} :
    Res.Keeps R p .outOfFuel := by
  intro q' hq
  simp [Res.state] at hq

theorem Res.Keeps.step {R : Syntax → Syntax → Prop}
    (htrans : ∀ a b c, R a b → R b c → R a c) {p p1 : Syntax} {r : Res} (h1 : R p p1)
    (h2 : Res.Keeps R p1 r) : Res.Keeps R p r :=
  fun q hq => htrans _ _ _ h1 (h2 q hq)

/-- Sequential composition: the caller goes on after a successful call and returns the
error of a failed one. -/
theorem Res.Keeps.bind {R : Syntax → Syntax → Prop}
    (htrans : ∀ a b c, R a b → R b c → R a c) {p : Syntax} {r1 : Res} {k : Syntax → Res} :
    Res.Keeps R p r1 → (∀ p1, R p p1 → Res.Keeps R p1 (k p1)) →
    Res.Keeps R p (match r1 with
      | .ok p1 => k p1
      | r => r) := by
  intro h1 h2
  cases r1 with
  | ok p1 =>
    have := h1 p1 rfl
    exact Res.Keeps.step htrans this (h2 p1 this)
  | fail e p1 => exact h1
  | outOfFuel => exact h1

namespace Syntax

theorem Frame.frame_matchToken (p : Syntax) (ty : TokenType) (lx : String) :
    Res.Keeps Frame p (p.matchToken ty lx) := by
  unfold Syntax.matchToken
  simp only
  split_ifs
  · exact Res.Keeps.ok (Frame.nextToken p)
  · exact Res.Keeps.fail _ (Frame.frame_refl p)

theorem expression_frame (fuel : Nat) :
    (∀ p, Res.Keeps Frame p (parseExpression fuel p)) ∧
    (∀ p, Res.Keeps Frame p (parseExpression.loop fuel p)) ∧
    (∀ p, Res.Keeps Frame p (parseOperand fuel p)) ∧
    (∀ p, Res.Keeps Frame p (parseOperand.loop fuel p)) ∧
    (∀ p, Res.Keeps Frame p (parseTerm fuel p)) ∧
    (∀ p, Res.Keeps Frame p (parseTerm.loop fuel p)) ∧
    (∀ p, Res.Keeps Frame p (parseFactor fuel p)) := by
  have tr : ∀ a b c : Syntax, a.Frame b → b.Frame c → a.Frame c := fun _ _ _ => Frame.frame_trans
  induction fuel with
  | zero =>
    refine ⟨?_, ?_, ?_, ?_, ?_, ?_, ?_⟩ <;> intro p <;> exact Res.Keeps.outOfFuel
  | succ fuel ih =>
    obtain ⟨ihE, ihEL, ihO, ihOL, ihT, ihTL, ihF⟩ := ih
    refine ⟨?_, ?_, ?_, ?_, ?_, ?_, ?_⟩ <;> intro p
    · simp only [parseExpression]
      exact Res.Keeps.bind tr (ihO p) (fun p1 _ => ihEL p1)
    · simp only [parseExpression.loop]
      split_ifs
      · exact Res.Keeps.step tr (Frame.nextToken p)
          (Res.Keeps.bind tr (ihO _) (fun p1 _ => ihEL p1))
      · exact Res.Keeps.ok (Frame.frame_refl p)
    · simp only [parseOperand]
      exact Res.Keeps.bind tr (ihT p) (fun p1 _ => ihOL p1)
    · simp only [parseOperand.loop]
      split_ifs
      · exact Res.Keeps.step tr (Frame.nextToken p)
          (Res.Keeps.bind tr (ihT _) (fun p1 _ => ihOL p1))
      · exact Res.Keeps.ok (Frame.frame_refl p)
    · simp only [parseTerm]
      exact Res.Keeps.bind tr (ihF p) (fun p1 _ => ihTL p1)
    · simp only [parseTerm.loop]
      split_ifs
      · exact Res.Keeps.step tr (Frame.nextToken p)
          (Res.Keeps.bind tr (ihF _) (fun p1 _ => ihTL p1))
      · exact Res.Keeps.ok (Frame.frame_refl p)
    · simp only [parseFactor]
      split_ifs
      · exact Res.Keeps.step tr (Frame.nextToken p) (ihF _)
      · exact Res.Keeps.step tr (Frame.nextToken p)
          (Res.Keeps.bind tr (ihE _) (fun p1 _ => Frame.frame_matchToken p1 _ _))
      · exact Res.Keeps.ok (Frame.nextToken p)
      · exact Res.Keeps.fail _ (Frame.frame_refl p)
      · exact Res.Keeps.ok (Frame.nextToken p)
      · exact Res.Keeps.ok (Frame.nextToken p)
      · exact Res.Keeps.fail _ (Frame.frame_refl p)

end Syntax

namespace Syntax

theorem parseAssignment_frame (fuel : Nat) (p : Syntax) :
    Res.Keeps Frame p (parseAssignment fuel p) := by
  have tr : ∀ a b c : Syntax, a.Frame b → b.Frame c → a.Frame c := fun _ _ _ => Frame.frame_trans
  simp only [parseAssignment]
  split_ifs
  · exact Res.Keeps.fail _ (Frame.frame_refl p)
  · exact Res.Keeps.step tr (Frame.nextToken p)
      (Res.Keeps.bind tr (Frame.frame_matchToken _ _ _) (fun p1 _ => (expression_frame fuel).1 p1))
  · exact Res.Keeps.fail _ (Frame.frame_refl p)

theorem Syntaxead_idents_frame (fuel : Nat) (p : Syntax) :
    Res.Keeps Frame p (Syntaxead.idents fuel p) := by
  have tr : ∀ a b c : Syntax, a.Frame b → b.Frame c → a.Frame c := fun _ _ _ => Frame.frame_trans
  induction fuel generalizing p with
  | zero => exact Res.Keeps.outOfFuel
  | succ fuel ih =>
    simp only [Syntaxead.idents]
    split_ifs
    · exact Res.Keeps.fail _ (Frame.frame_refl p)
    · exact Res.Keeps.step tr ((Frame.nextToken p).frame_trans (Frame.nextToken _)) (ih _)
    · exact Res.Keeps.ok ((Frame.nextToken p).frame_trans (Frame.nextToken _))
    · exact Res.Keeps.fail _ (Frame.nextToken p)
    · exact Res.Keeps.fail _ (Frame.frame_refl p)

theorem Syntaxead_frame (fuel : Nat) (p : Syntax) :
    Res.Keeps Frame p (Syntaxead fuel p) := by
  have tr : ∀ a b c : Syntax, a.Frame b → b.Frame c → a.Frame c := fun _ _ _ => Frame.frame_trans
  simp only [Syntaxead]
  exact Res.Keeps.bind tr (Frame.frame_matchToken _ _ _) (fun p1 _ =>
    Res.Keeps.bind tr (Frame.frame_matchToken _ _ _) (fun p2 _ => Syntaxead_idents_frame fuel p2))

theorem parseWrite_args_frame (fuel : Nat) (p : Syntax) :
    Res.Keeps Frame p (parseWrite.args fuel p) := by
  have tr : ∀ a b c : Syntax, a.Frame b → b.Frame c → a.Frame c := fun _ _ _ => Frame.frame_trans
  induction fuel generalizing p with
  | zero => exact Res.Keeps.outOfFuel
  | succ fuel ih =>
    simp only [parseWrite.args]
    refine Res.Keeps.bind tr ((expression_frame fuel).1 p) (fun p1 _ => ?_)
    split_ifs
    · exact Res.Keeps.step tr (Frame.nextToken p1) (ih _)
    · exact Res.Keeps.ok (Frame.nextToken p1)
    · exact Res.Keeps.fail _ (Frame.frame_refl p1)

theorem parseWrite_frame (fuel : Nat) (p : Syntax) :
    Res.Keeps Frame p (parseWrite fuel p) := by
  have tr : ∀ a b c : Syntax, a.Frame b → b.Frame c → a.Frame c := fun _ _ _ => Frame.frame_trans
  simp only [parseWrite]
  exact Res.Keeps.bind tr (Frame.frame_matchToken _ _ _) (fun p1 _ =>
    Res.Keeps.bind tr (Frame.frame_matchToken _ _ _) (fun p2 _ => parseWrite_args_frame fuel p2))

theorem operation_frame (fuel : Nat) :
    (∀ p, Res.Keeps Frame p (parseOperation fuel p)) ∧
    (∀ p, Res.Keeps Frame p (parseCompositeOperation fuel p)) ∧
    (∀ p, Res.Keeps Frame p (parseCompositeOperation.loop fuel p)) ∧
    (∀ p, Res.Keeps Frame p (parseIf fuel p)) ∧
    (∀ p, Res.Keeps Frame p (parseFor fuel p)) ∧
    (∀ p, Res.Keeps Frame p (parseWhile fuel p)) := by
  have tr : ∀ a b c : Syntax, a.Frame b → b.Frame c → a.Frame c := fun _ _ _ => Frame.frame_trans
  induction fuel with
  | zero =>
    refine ⟨?_, ?_, ?_, ?_, ?_, ?_⟩ <;> intro p <;> exact Res.Keeps.outOfFuel
  | succ fuel ih =>
    obtain ⟨ihS, ihC, ihCL, ihI, ihF, ihW⟩ := ih
    have hE := (expression_frame fuel).1
    refine ⟨?_, ?_, ?_, ?_, ?_, ?_⟩ <;> intro p
    · simp only [parseOperation]
      split_ifs
      · exact ihI p
      · exact ihF p
      · exact ihW p
      · exact Syntaxead_frame fuel p
      · exact parseWrite_frame fuel p
      · exact ihC p
      · exact Res.Keeps.fail _ (Frame.frame_refl p)
      · exact parseAssignment_frame fuel p
      · exact ihC p
      · exact Res.Keeps.fail _ (Frame.frame_refl p)
    · simp only [parseCompositeOperation]
      exact Res.Keeps.bind tr (Frame.frame_matchToken _ _ _) (fun p1 _ => ihCL p1)
    · simp only [parseCompositeOperation.loop]
      refine Res.Keeps.bind tr (ihS p) (fun p1 _ => ?_)
      split_ifs
      · exact Res.Keeps.step tr (Frame.nextToken p1) (ihCL _)
      · exact Res.Keeps.ok (Frame.nextToken p1)
      · exact Res.Keeps.fail _ (Frame.frame_refl p1)
    · simp only [parseIf]
      refine Res.Keeps.bind tr (Frame.frame_matchToken _ _ _) (fun p1 _ =>
        Res.Keeps.bind tr (hE p1) (fun p2 _ =>
          Res.Keeps.bind tr (Frame.frame_matchToken _ _ _) (fun p3 _ =>
            Res.Keeps.bind tr (ihS p3) (fun p4 _ => ?_))))
      split_ifs
      · exact Res.Keeps.step tr (Frame.nextToken p4) (ihS _)
      · exact Res.Keeps.ok (Frame.frame_refl p4)
    · simp only [parseFor]
      exact Res.Keeps.bind tr (Frame.frame_matchToken _ _ _) (fun p1 _ =>
        Res.Keeps.bind tr (parseAssignment_frame fuel p1) (fun p2 _ =>
          Res.Keeps.bind tr (Frame.frame_matchToken _ _ _) (fun p3 _ =>
            Res.Keeps.bind tr (hE p3) (fun p4 _ =>
              Res.Keeps.bind tr (Frame.frame_matchToken _ _ _) (fun p5 _ => ihS p5)))))
    · simp only [parseWhile]
      exact Res.Keeps.bind tr (Frame.frame_matchToken _ _ _) (fun p1 _ =>
        Res.Keeps.bind tr (hE p1) (fun p2 _ =>
          Res.Keeps.bind tr (Frame.frame_matchToken _ _ _) (fun p3 _ => ihS p3)))

theorem parseOperations_frame (fuel : Nat) (p : Syntax) :
    Res.Keeps Frame p (parseOperations fuel p) := by
  have tr : ∀ a b c : Syntax, a.Frame b → b.Frame c → a.Frame c := fun _ _ _ => Frame.frame_trans
  induction fuel generalizing p with
  | zero => exact Res.Keeps.outOfFuel
  | succ fuel ih =>
    simp only [parseOperations]
    split_ifs
    · exact Res.Keeps.ok (Frame.frame_refl p)
    · refine Res.Keeps.bind tr ((operation_frame fuel).1 p) (fun p1 _ => ?_)
      split_ifs
      · exact Res.Keeps.step tr (Frame.nextToken p1) (ih _)
      · exact Res.Keeps.ok (Frame.frame_refl p1)
      · exact Res.Keeps.fail _ (Frame.frame_refl p1)

theorem Grows.declare (p : Syntax) (x : String) :
    p.Grows ({ p with vars := x :: p.vars } : Syntax).nextToken := by
  have h1 : p.Grows ({ p with vars := x :: p.vars } : Syntax) :=
    ⟨rfl, ⟨[x], rfl⟩, le_refl _, le_max_left _ _⟩
  exact h1.grows_trans (Frame.nextToken _).grows

theorem parseDeclaration_idents_grows (fuel : Nat) (p : Syntax) :
    Res.Keeps Grows p (parseDeclaration.idents fuel p) := by
  have tr : ∀ a b c : Syntax, a.Grows b → b.Grows c → a.Grows c := fun _ _ _ => Grows.grows_trans
  induction fuel generalizing p with
  | zero => exact Res.Keeps.outOfFuel
  | succ fuel ih =>
    simp only [parseDeclaration.idents]
    split_ifs
    · exact Res.Keeps.fail _ (Frame.frame_refl p).grows
    · exact Res.Keeps.fail _ (Frame.frame_refl p).grows
    · exact Res.Keeps.step tr ((Grows.declare p _).grows_trans (Frame.nextToken _).grows) (ih _)
    · exact Res.Keeps.ok ((Grows.declare p _).grows_trans (Frame.nextToken _).grows)
    · exact Res.Keeps.fail _ (Grows.declare p _)

theorem parseDeclaration_grows (fuel : Nat) (p : Syntax) :
    Res.Keeps Grows p (parseDeclaration fuel p) := by
  have tr : ∀ a b c : Syntax, a.Grows b → b.Grows c → a.Grows c := fun _ _ _ => Grows.grows_trans
  simp only [parseDeclaration]
  refine Res.Keeps.bind tr (parseDeclaration_idents_grows fuel p) (fun p1 _ => ?_)
  split_ifs
  · exact Res.Keeps.fail _ (Frame.frame_refl p1).grows
  · exact Res.Keeps.fail _ (Frame.nextToken p1).grows
  · exact Res.Keeps.ok ((Frame.nextToken p1).frame_trans (Frame.nextToken _)).grows

theorem ParseProgram_decls_grows (fuel : Nat) (p : Syntax) :
    Res.Keeps Grows p (ParseProgram.decls fuel p) := by
  have tr : ∀ a b c : Syntax, a.Grows b → b.Grows c → a.Grows c := fun _ _ _ => Grows.grows_trans
  induction fuel generalizing p with
  | zero => exact Res.Keeps.outOfFuel
  | succ fuel ih =>
    simp only [ParseProgram.decls]
    refine Res.Keeps.bind tr (parseDeclaration_grows fuel p) (fun p1 _ => ?_)
    split_ifs
    · exact Res.Keeps.ok (Frame.frame_refl p1).grows
    · exact ih p1

theorem Grows.grows_matchToken (p : Syntax) (ty : TokenType) (lx : String) :
    Res.Keeps Grows p (p.matchToken ty lx) :=
  fun q hq => (Frame.frame_matchToken p ty lx q hq).grows

theorem ParseProgram_run_grows (fuel : Nat) (p : Syntax) :
    Res.Keeps Grows p (ParseProgram.run fuel p) := by
  have tr : ∀ a b c : Syntax, a.Grows b → b.Grows c → a.Grows c := fun _ _ _ => Grows.grows_trans
  simp only [ParseProgram.run]
  exact Res.Keeps.bind tr (Grows.grows_matchToken _ _ _) (fun p1 _ =>
    Res.Keeps.bind tr (Grows.grows_matchToken _ _ _) (fun p2 _ =>
      Res.Keeps.bind tr (ParseProgram_decls_grows fuel p2) (fun p3 _ =>
        Res.Keeps.bind tr (Grows.grows_matchToken _ _ _) (fun p4 _ =>
          Res.Keeps.bind tr (fun q hq => (parseOperations_frame fuel p4 q hq).grows)
            (fun p5 _ =>
              Res.Keeps.bind tr (Grows.grows_matchToken _ _ _)
                (fun p6 _ => Grows.grows_matchToken p6 _ _))))))

end Syntax

theorem Syntax.KeepsVars.from_frame {f : Syntax → Res}
    (h : ∀ p, Res.Keeps Syntax.Frame p (f p)) : Syntax.KeepsVars f :=
  fun p q hq => (h p q hq).2.1

theorem Syntax.CursorInvariant.of_grows {f : Syntax → Res}
    (h : ∀ p, Res.Keeps Syntax.Grows p (f p)) : Syntax.CursorInvariant f := by
  intro p q hp hq
  obtain ⟨t, -, h1, h2⟩ := h p q hq
  rw [t]
  exact ⟨h1, by omega, rfl⟩

theorem Syntax.CursorInvariant.of_frame {f : Syntax → Res}
    (h : ∀ p, Res.Keeps Syntax.Frame p (f p)) : Syntax.CursorInvariant f :=
  Syntax.CursorInvariant.of_grows fun p q hq => (h p q hq).grows

/-- C19: the operations on statements and expressions and `matchToken` leave the declared
names as they were, on success and on failure; after `parseDeclaration` the declared names
are the ones before with names added in front, none removed. -/
theorem symbol_table_frame (fuel : Nat) :
    Syntax.KeepsVars (Syntax.parseOperations fuel) ∧
    Syntax.KeepsVars (Syntax.parseOperation fuel) ∧
    Syntax.KeepsVars (Syntax.parseCompositeOperation fuel) ∧
    Syntax.KeepsVars (Syntax.parseAssignment fuel) ∧
    Syntax.KeepsVars (Syntax.parseIf fuel) ∧
    Syntax.KeepsVars (Syntax.parseFor fuel) ∧
    Syntax.KeepsVars (Syntax.parseWhile fuel) ∧
    Syntax.KeepsVars (Syntax.Syntaxead fuel) ∧
    Syntax.KeepsVars (Syntax.parseWrite fuel) ∧
    Syntax.KeepsVars (Syntax.parseExpression fuel) ∧
    Syntax.KeepsVars (Syntax.parseOperand fuel) ∧
    Syntax.KeepsVars (Syntax.parseTerm fuel) ∧
    Syntax.KeepsVars (Syntax.parseFactor fuel) ∧
    (∀ ty lx, Syntax.KeepsVars fun p => p.matchToken ty lx) ∧
    (∀ p q, (Syntax.parseDeclaration fuel p).state = some q →
      ∃ added, q.vars = added ++ p.vars) := by
  obtain ⟨hS, hC, -, hI, hF, hW⟩ := Syntax.operation_frame fuel
  obtain ⟨hE, -, hO, -, hT, -, hFa⟩ := Syntax.expression_frame fuel
  exact ⟨.from_frame (Syntax.parseOperations_frame fuel), .from_frame hS, .from_frame hC,
    .from_frame (Syntax.parseAssignment_frame fuel), .from_frame hI, .from_frame hF, .from_frame hW,
    .from_frame (Syntax.Syntaxead_frame fuel), .from_frame (Syntax.parseWrite_frame fuel),
    .from_frame hE, .from_frame hO, .from_frame hT, .from_frame hFa,
    fun ty lx => .from_frame fun p => Syntax.Frame.frame_matchToken p ty lx,
    fun p q hq => (Syntax.parseDeclaration_grows fuel p q hq).2.1⟩

/-- C19 on the tokens of `program var x: int; begin y as 1 end.`: `parseOperations` at the
token behind `begin` fails at the undeclared `y` and the declared names are as before;
`parseDeclaration` at the token behind `var` adds `x`. -/
theorem symbol_table_frame_witness :
    (Syntax.parseOperations 50 ⟨undeclaredY, 7, ["x"]⟩).state =
      some ⟨undeclaredY, 7, ["x"]⟩ ∧
    (⟨undeclaredY, 7, ["x"]⟩ : Syntax).vars = (⟨undeclaredY, 7, ["x"]⟩ : Syntax).vars ∧
    (Syntax.parseDeclaration 50 ⟨undeclaredY, 2, []⟩).state = some ⟨undeclaredY, 6, ["x"]⟩ ∧
    ∃ added, (⟨undeclaredY, 6, ["x"]⟩ : Syntax).vars =
      added ++ (⟨undeclaredY, 2, []⟩ : Syntax).vars :=
  ⟨by decide,
   (symbol_table_frame 50).1 ⟨undeclaredY, 7, ["x"]⟩ ⟨undeclaredY, 7, ["x"]⟩ (by decide),
   by decide,
   (symbol_table_frame 50).2.2.2.2.2.2.2.2.2.2.2.2.2.2 ⟨undeclaredY, 2, []⟩
     ⟨undeclaredY, 6, ["x"]⟩ (by decide)⟩

/-- C20: `nextToken`, `matchToken`, `ParseProgram` and every `parse` method, started with
the cursor within `0 .. len(tokens)`, leave the cursor at or behind where it was and within
`0 .. len(tokens)`, and leave the token list as it was, on success and on failure. -/
theorem cursor_invariant (fuel : Nat) :
    Syntax.CursorInvariant (fun p => .ok p.nextToken) ∧
    (∀ ty lx, Syntax.CursorInvariant fun p => p.matchToken ty lx) ∧
    Syntax.CursorInvariant Syntax.ParseProgram ∧
    Syntax.CursorInvariant (Syntax.parseDeclaration fuel) ∧
    Syntax.CursorInvariant (Syntax.parseOperations fuel) ∧
    Syntax.CursorInvariant (Syntax.parseOperation fuel) ∧
    Syntax.CursorInvariant (Syntax.parseCompositeOperation fuel) ∧
    Syntax.CursorInvariant (Syntax.parseAssignment fuel) ∧
    Syntax.CursorInvariant (Syntax.parseIf fuel) ∧
    Syntax.CursorInvariant (Syntax.parseFor fuel) ∧
    Syntax.CursorInvariant (Syntax.parseWhile fuel) ∧
    Syntax.CursorInvariant (Syntax.Syntaxead fuel) ∧
    Syntax.CursorInvariant (Syntax.parseWrite fuel) ∧
    Syntax.CursorInvariant (Syntax.parseExpression fuel) ∧
    Syntax.CursorInvariant (Syntax.parseOperand fuel) ∧
    Syntax.CursorInvariant (Syntax.parseTerm fuel) ∧
    Syntax.CursorInvariant (Syntax.parseFactor fuel) := by
  obtain ⟨hS, hC, -, hI, hF, hW⟩ := Syntax.operation_frame fuel
  obtain ⟨hE, -, hO, -, hT, -, hFa⟩ := Syntax.expression_frame fuel
  exact ⟨.of_frame fun p => Res.Keeps.ok (Syntax.Frame.nextToken p),
    fun ty lx => .of_frame fun p => Syntax.Frame.frame_matchToken p ty lx,
    .of_grows fun p => Syntax.ParseProgram_run_grows _ p,
    .of_grows (Syntax.parseDeclaration_grows fuel),
    .of_frame (Syntax.parseOperations_frame fuel), .of_frame hS, .of_frame hC,
    .of_frame (Syntax.parseAssignment_frame fuel), .of_frame hI, .of_frame hF, .of_frame hW,
    .of_frame (Syntax.Syntaxead_frame fuel), .of_frame (Syntax.parseWrite_frame fuel),
    .of_frame hE, .of_frame hO, .of_frame hT, .of_frame hFa⟩

/-- C20 on the tokens of `program var x: int; begin y as 1 end.`: `ParseProgram` fails at the
undeclared `y` with the cursor at 7 of 12, and `nextToken` at the end of the tokens leaves
the cursor at 12. -/
theorem cursor_invariant_witness :
    (Syntax.fresh undeclaredY).ParseProgram.state = some ⟨undeclaredY, 7, ["x"]⟩ ∧
    ((Syntax.fresh undeclaredY).pos ≤ (⟨undeclaredY, 7, ["x"]⟩ : Syntax).pos ∧
      (⟨undeclaredY, 7, ["x"]⟩ : Syntax).pos ≤ (⟨undeclaredY, 7, ["x"]⟩ : Syntax).tokens.length ∧
      (⟨undeclaredY, 7, ["x"]⟩ : Syntax).tokens = (Syntax.fresh undeclaredY).tokens) ∧
    (⟨undeclaredY, 12, []⟩ : Syntax).nextToken = ⟨undeclaredY, 12, []⟩ :=
  ⟨by decide,
   (cursor_invariant 0).2.2.1 (Syntax.fresh undeclaredY) ⟨undeclaredY, 7, ["x"]⟩ (by decide)
     (by decide),
   by decide⟩

/-! ## Tokens and input (claims C14, C17 and C18) -/

theorem newlines_nil : newlines [] = 0 := rfl

theorem newlines_append (a b : List Char) : newlines (a ++ b) = newlines a + newlines b := by
  simp [newlines, List.count_append]

theorem newlines_cons (c : Char) (s : List Char) :
    newlines (c :: s) = (if c = '\n' then 1 else 0) + newlines s := by
  simp only [newlines, List.count_cons]
  split_ifs with h1 h2 h2
  · push_cast; ring
  · exact absurd (by simpa using h1) h2
  · exact absurd (by simpa using h2) h1
  · simp

theorem newlines_eq_zero (s : List Char) (h : ∀ x ∈ s, x ≠ '\n') : newlines s = 0 := by
  induction s with
  | nil => rfl
  | cons c s ih =>
    rw [newlines_cons, if_neg (h c (List.mem_cons_self _ _)),
      ih fun x hx => h x (List.mem_cons_of_mem _ hx)]
    rfl

theorem Gap.append {U : UnicodeTables} {a b : List Char} (ha : Gap U a) (hb : Gap U b) :
    Gap U (a ++ b) := by
  induction ha with
  | nil => exact hb
  | space hc _ ih => exact Gap.space hc ih
  | @comment c g hc _ ih =>
    have e : '{' :: (c ++ '}' :: g) ++ b = '{' :: (c ++ '}' :: (g ++ b)) := by simp
    rw [e]
    exact Gap.comment hc ih

theorem Lexer.skipComment_spec (rd : List Char) (l k : Int) (rd' : List Char) (l' k' : Int)
    (h : Lexer.skipComment rd l k = some (rd', l', k')) :
    ∃ cm, rd = cm ++ '}' :: rd' ∧ '}' ∉ cm ∧ l' = l + newlines cm := by
  induction rd generalizing l k with
  | nil => simp [Lexer.skipComment] at h
  | cons ch rd ih =>
    simp only [Lexer.skipComment] at h
    split_ifs at h with h1 h2
    · simp only [Option.some.injEq, Prod.mk.injEq] at h
      obtain ⟨rfl, rfl, -⟩ := h
      exact ⟨[], by simp [h1], by simp, by simp [newlines_nil]⟩
    · obtain ⟨cm, e, hn, hl⟩ := ih _ _ h
      refine ⟨ch :: cm, by simp [e], ?_, ?_⟩
      · simp only [List.mem_cons, not_or]
        exact ⟨fun h => h1 h.symm, hn⟩
      · rw [hl, newlines_cons, if_pos h2]; ring
    · obtain ⟨cm, e, hn, hl⟩ := ih _ _ h
      refine ⟨ch :: cm, by simp [e], ?_, ?_⟩
      · simp only [List.mem_cons, not_or]
        exact ⟨fun h => h1 h.symm, hn⟩
      · rw [hl, newlines_cons, if_neg h2]; ring

theorem isKeyword_iff (s : String) : isKeyword s = true ↔ s ∈ keyWords := by
  simp [isKeyword, List.any_eq_true]

theorem isOperator_iff (s : String) : isOperator s = true ↔ s ∈ operators := by
  simp [isOperator, List.any_eq_true]

theorem isOperator_singleton (c : Char) (h : isOperator (String.singleton c) = true) :
    c = '~' := by
  rw [isOperator_iff] at h
  have e : ∀ s : String, String.singleton c = s → [c] = s.data := fun s h => by rw [← h]; rfl
  simp only [operators, List.mem_cons, List.mem_singleton, List.not_mem_nil, or_false] at h
  rcases h with h | h | h | h | h | h | h | h | h | h | h | h | h <;> have := e _ h <;>
    simp at this
  exact this

theorem unicode.not_space_newline_free (U : UnicodeTables) (c : Char)
    (h : unicode.IsSpace U c = false) : c ≠ '\n' := by
  intro hc
  have e : unicode.IsSpace U '\n' = true := rfl
  rw [hc, e] at h
  cases h

theorem Scanned.snoc {U : UnicodeTables} {pre g : List Char} {tokens : List Token} {t : Token}
    (hcont : ∀ rest ts, Scanned U (1 + newlines pre) rest ts →
      Scanned U 1 (pre ++ rest) (tokens ++ ts))
    (hg : Gap U g) (ht : Lexical U t) (hl : t.LineNum = 1 + newlines (pre ++ g)) :
    ∀ rest ts, Scanned U (1 + newlines (pre ++ g ++ t.Lexeme.data)) rest ts →
      Scanned U 1 (pre ++ g ++ t.Lexeme.data ++ rest) ((tokens ++ [t]) ++ ts) := by
  intro rest ts h
  have h1 : Scanned U (1 + newlines pre) (g ++ t.Lexeme.data ++ rest) (t :: ts) := by
    refine Scanned.cons hg ht (by rw [hl, newlines_append]; ring) ?_
    have e : 1 + newlines pre + newlines (g ++ t.Lexeme.data) =
        1 + newlines (pre ++ g ++ t.Lexeme.data) := by
      simp only [newlines_append]; ring
    rw [e]
    exact h
  have := hcont _ _ h1
  simpa [List.append_assoc] using this

theorem unicode.IsLetter_newline_free (U : UnicodeTables) (c : Char)
    (h : unicode.IsLetter U c = true) : c ≠ '\n' :=
  unicode.not_space_newline_free U c (unicode.IsLetter_not_IsSpace U c h)

theorem unicode.IsDigit_newline_free (U : UnicodeTables) (c : Char)
    (h : unicode.IsDigit U c = true) : c ≠ '\n' :=
  unicode.not_space_newline_free U c (unicode.IsDigit_not_IsSpace U c h)

/-- The token that `Lexer` makes of a word fits its lexeme. -/
theorem Lexical.word (U : UnicodeTables) (c : Char) (rest : List Char) (l k : Int)
    (hc : unicode.IsLetter U c = true)
    (hrest : ∀ x ∈ rest, unicode.IsLetter U x = true ∨ unicode.IsDigit U x = true) :
    Lexical U ⟨if isKeyword (String.mk (c :: rest)) then .Keyword
      else if isOperator (String.mk (c :: rest)) then .Operator else .Identifier,
      String.mk (c :: rest), l, k⟩ := by
  unfold Lexical
  split_ifs with h1 h2
  · exact (isKeyword_iff _).mp h1
  · exact (isOperator_iff _).mp h2
  · exact ⟨⟨c, rest, rfl, hc, hrest⟩, fun h => h1 ((isKeyword_iff _).mpr h),
      fun h => h2 ((isOperator_iff _).mpr h)⟩

theorem Lexer.Pending.newline_free (U : UnicodeTables) (st : LexerState) (sb : List Char)
    (h : Lexer.Pending U st sb) : newlines sb = 0 := by
  apply newlines_eq_zero
  intro x hx
  cases st with
  | H => rw [show sb = [] from h] at hx; cases hx
  | ID =>
    obtain ⟨c, rest, rfl, hc, hrest⟩ := h
    rcases List.mem_cons.mp hx with rfl | hx
    · exact unicode.IsLetter_newline_free U _ hc
    · rcases hrest x hx with h | h
      · exact unicode.IsLetter_newline_free U _ h
      · exact unicode.IsDigit_newline_free U _ h
  | NUM => exact h.2 x hx
  | OP =>
    rw [show sb = ['~'] from h] at hx
    simp only [List.mem_singleton] at hx
    rw [hx]; decide

/-- An iteration of the loop that goes on keeps what holds of the variables. -/
theorem Lexer.iteration_inv (U : UnicodeTables) (input : List Char) (v v' : LexerVars)
    (hv : Lexer.Inv U input v) (h : Lexer.iteration U v = .next v') : Lexer.Inv U input v' := by
  obtain ⟨tokens, lineNum, colNum, bufReader, sb, state⟩ := v
  obtain ⟨pre, g, hin, hcont, hg, hl, hp⟩ := hv
  simp only at hin hcont hl hp
  have hnl := Lexer.Pending.newline_free U state sb hp
  cases bufReader with
  | nil => simp [Lexer.iteration] at h
  | cons ch rd =>
    cases state with
    | H =>
      have hsb : sb = [] := hp
      subst hsb
      simp only [Lexer.iteration, Lexer.caseH] at h
      split_ifs at h with h1 h2 h3 h4 h5 h6 h7
      · -- newline
        simp only [LexerStep.next.injEq] at h; subst h
        refine ⟨pre, g ++ [ch], by simp [hin], hcont, hg.append (.space h1 .nil), ?_, rfl⟩
        simp only [hl, newlines_append, newlines_cons, if_pos h2, newlines_nil]; ring
      · -- other whitespace
        simp only [LexerStep.next.injEq] at h; subst h
        refine ⟨pre, g ++ [ch], by simp [hin], hcont, hg.append (.space h1 .nil), ?_, rfl⟩
        simp only [hl, newlines_append, newlines_cons, if_neg h2, newlines_nil]; ring
      · -- letter
        simp only [LexerStep.next.injEq] at h; subst h
        exact ⟨pre, g, by simp [hin], hcont, hg, hl, ⟨ch, [], rfl, h3, by simp⟩⟩
      · -- digit
        simp only [LexerStep.next.injEq] at h; subst h
        refine ⟨pre, g, by simp [hin], hcont, hg, hl, ⟨ch, [], rfl, h4⟩, ?_⟩
        intro x hx
        simp only [List.nil_append, List.mem_singleton] at hx
        rw [hx]
        exact unicode.IsDigit_newline_free U _ h4
      · -- comment
        split at h
        · simp at h
        · rename_i rd1 l1 c1 hsk
          simp only [LexerStep.next.injEq] at h; subst h
          obtain ⟨cm, e, hn, hl'⟩ := Lexer.skipComment_spec _ _ _ _ _ _ hsk
          refine ⟨pre, g ++ '{' :: (cm ++ '}' :: []), ?_, hcont,
            hg.append (.comment hn .nil), ?_, rfl⟩
          · simp [hin, h6, e]
          · simp only [hl', hl, newlines_append, newlines_cons, newlines_nil]
            simp
            ring
      · -- delimiter
        simp only [LexerStep.next.injEq] at h; subst h
        have hne : ch ≠ '\n' := unicode.not_space_newline_free U ch (by simpa using h1)
        have ht : Lexical U ⟨.Delimiter, String.singleton ch, lineNum,
            colNum + runeSize ch⟩ := ⟨ch, rfl, h5, h6⟩
        have := Scanned.snoc hcont hg ht hl
        refine ⟨pre ++ g ++ [ch], [], by simp [hin], this, .nil, ?_, rfl⟩
        simp only [hl, newlines_append, newlines_cons, if_neg hne, newlines_nil]; ring
      · -- operator rune
        simp only [LexerStep.next.injEq] at h; subst h
        have := isOperator_singleton ch h7
        subst this
        exact ⟨pre, g, by simp [hin], hcont, hg, hl, rfl⟩
    | ID =>
      obtain ⟨c, rest, rfl, hc, hrest⟩ := hp
      simp only [Lexer.iteration, Lexer.caseID] at h
      by_cases h1 : unicode.IsLetter U ch = true ∨ unicode.IsDigit U ch = true
      · rw [if_pos h1] at h
        simp only [LexerStep.next.injEq] at h; subst h
        refine ⟨pre, g, by simp [hin], hcont, hg, hl, ⟨c, rest ++ [ch], rfl, hc, ?_⟩⟩
        intro x hx
        rcases List.mem_append.mp hx with hx | hx
        · exact hrest x hx
        · simp only [List.mem_singleton] at hx
          rw [hx]
          exact h1
      · rw [if_neg h1] at h
        simp only [LexerStep.next.injEq] at h; subst h
        have ht := Lexical.word U c rest lineNum
          (colNum + runeSize ch - (String.mk (c :: rest)).length) hc hrest
        have := Scanned.snoc hcont hg ht hl
        refine ⟨pre ++ g ++ (c :: rest), [], by simp [hin], this, .nil, ?_, rfl⟩
        simp only [hl, newlines_append, hnl, newlines_nil]; ring
    | NUM =>
      obtain ⟨⟨d, rest, rfl, hd⟩, hfree⟩ := hp
      simp only [Lexer.iteration, Lexer.caseNUM] at h
      split_ifs at h with h1 h2 h3
      · simp only [LexerStep.next.injEq] at h; subst h
        refine ⟨pre, g, by simp [hin], hcont, hg, hl, ⟨d, rest ++ [ch], rfl, hd⟩, ?_⟩
        intro x hx
        rcases List.mem_append.mp hx with hx | hx
        · exact hfree x hx
        · simp only [List.mem_singleton] at hx
          subst hx
          intro hx
          subst hx
          revert h1
          have e : unicode.IsDigit U '\n' = false := rfl
          rw [e]
          decide
      · simp only [LexerStep.next.injEq] at h; subst h
        have ht : Lexical U ⟨.Number, String.mk (d :: rest), lineNum,
            colNum + runeSize ch - (String.mk (d :: rest)).length⟩ :=
          ⟨⟨d, rest, rfl, hd⟩, h2⟩
        have := Scanned.snoc hcont hg ht hl
        refine ⟨pre ++ g ++ (d :: rest), [], by simp [hin], this, .nil, ?_, rfl⟩
        simp only [hl, newlines_append, hnl, newlines_nil]; ring
    | OP =>
      have hsb : sb = ['~'] := hp
      subst hsb
      have hop : isOperator (String.mk ['~']) = true := by decide
      simp only [Lexer.iteration, Lexer.caseOP, hop, if_true, LexerStep.next.injEq] at h
      subst h
      have ht : Lexical U ⟨.Operator, String.mk ['~'], lineNum,
          colNum + runeSize ch - runeSize ch + 1⟩ := by
        show String.mk ['~'] ∈ operators
        decide
      have := Scanned.snoc hcont hg ht hl
      refine ⟨pre ++ g ++ ['~'], [], by simp [hin], this, .nil, ?_, rfl⟩
      simp only [hl, newlines_append, hnl, newlines_nil]; ring

/-- When the loop ends with tokens, the input is scanned by them. -/
theorem Lexer.iteration_done_inv (U : UnicodeTables) (input : List Char) (v : LexerVars)
    (ts : List Token) (hv : Lexer.Inv U input v) (h : Lexer.iteration U v = .done (.tokens ts)) :
    Scanned U 1 input ts := by
  by_cases hne : v.bufReader = []
  · obtain ⟨tokens, lineNum, colNum, bufReader, sb, state⟩ := v
    obtain ⟨pre, g, hin, hcont, hg, hl, hp⟩ := hv
    simp only at hin hcont hl hp hne
    subst hne
    simp only [Lexer.iteration, LexerStep.done.injEq] at h
    rw [List.append_nil] at hin
    cases state with
    | H =>
      have hsb : sb = [] := hp
      subst hsb
      simp only [Lexer.atEOF, LexResult.tokens.injEq] at h
      subst h
      have := hcont g [] (.nil hg)
      simpa [hin] using this
    | ID =>
      obtain ⟨c, rest, rfl, hc, hrest⟩ := hp
      have ht := Lexical.word U c rest lineNum
        (colNum - (String.mk (c :: rest)).length + 1) hc hrest
      have := Scanned.snoc hcont hg ht hl [] [] (.nil .nil)
      simp only [Lexer.atEOF] at h
      by_cases h1 : isKeyword (String.mk (c :: rest)) = true
      · rw [if_pos h1] at h this
        simp only [LexResult.tokens.injEq] at h
        subst h
        simpa [hin] using this
      · rw [if_neg h1] at h this
        by_cases h2 : isOperator (String.mk (c :: rest)) = true
        · rw [if_pos h2] at h this
          simp only [LexResult.tokens.injEq] at h
          subst h
          simpa [hin] using this
        · rw [if_neg h2] at h this
          simp only [LexResult.tokens.injEq] at h
          subst h
          simpa [hin] using this
    | NUM =>
      obtain ⟨⟨d, rest, rfl, hd⟩, hfree⟩ := hp
      simp only [Lexer.atEOF] at h
      split_ifs at h with h1
      simp only [LexResult.tokens.injEq] at h
      subst h
      have ht : Lexical U ⟨.Number, String.mk (d :: rest), lineNum,
          colNum - (String.mk (d :: rest)).length + 1⟩ := ⟨⟨d, rest, rfl, hd⟩, h1⟩
      have := Scanned.snoc hcont hg ht hl [] [] (.nil .nil)
      simpa [hin] using this
    | OP =>
      have hsb : sb = ['~'] := hp
      subst hsb
      have hop : isOperator (String.mk ['~']) = true := by decide
      simp only [Lexer.atEOF, hop, if_true, LexResult.tokens.injEq] at h
      subst h
      have ht : Lexical U ⟨.Operator, String.mk ['~'], lineNum, colNum⟩ := by
        show String.mk ['~'] ∈ operators
        decide
      have := Scanned.snoc hcont hg ht hl [] [] (.nil .nil)
      simpa [hin] using this
  · obtain ⟨e, he⟩ := Lexer.iteration_done U v _ hne h
    cases he

theorem Lexer.run_scanned (U : UnicodeTables) (input : List Char) (ts : List Token)
    (v : LexerVars) (hv : Lexer.Inv U input v) (h : Lexer.run U v = .tokens ts) :
    Scanned U 1 input ts := by
  induction v using Lexer.run_induction U with
  | step v ih =>
    cases hit : Lexer.iteration U v with
    | done r =>
      rw [Lexer.run_done U v r hit] at h
      subst h
      exact Lexer.iteration_done_inv U input v ts hv hit
    | next v' =>
      rw [Lexer.run_next U v v' hit] at h
      exact ih v' hit (Lexer.iteration_inv U input v v' hv hit) h

/-- The tokens that `Lexer` returns scan its input. -/
theorem Lexer_scanned (U : UnicodeTables) (input : List Char) (ts : List Token)
    (h : Lexer U input = .tokens ts) : Scanned U 1 input ts := by
  rw [Lexer_eq_run] at h
  refine Lexer.run_scanned U input ts (Lexer.init input)
    ⟨[], [], by simp [Lexer.init], ?_, .nil, ?_, rfl⟩ h
  · intro rest ts h
    simpa [Lexer.init, newlines_nil] using h
  · simp [Lexer.init, newlines_nil]

theorem Scanned.lexical {U : UnicodeTables} {n : Int} {input : List Char} {ts : List Token}
    (h : Scanned U n input ts) : ∀ t ∈ ts, Lexical U t := by
  induction h with
  | nil _ => intro t ht; cases ht
  | cons _ ht _ _ ih =>
    intro t' ht'
    rcases List.mem_cons.mp ht' with rfl | ht'
    · exact ht
    · exact ih t' ht'

theorem Scanned.line {U : UnicodeTables} {n : Int} {input : List Char} {ts : List Token}
    (h : Scanned U n input ts) :
    ∀ t ∈ ts, ∃ a b, input = a ++ t.Lexeme.data ++ b ∧ t.LineNum = n + newlines a := by
  induction h with
  | nil _ => intro t ht; cases ht
  | @cons n g rest t ts _ _ hl _ ih =>
    intro t' ht'
    rcases List.mem_cons.mp ht' with rfl | ht'
    · exact ⟨g, rest, rfl, hl⟩
    · obtain ⟨a, b, e, hl'⟩ := ih t' ht'
      refine ⟨g ++ t.Lexeme.data ++ a, b, by simp [e], ?_⟩
      rw [hl']
      simp only [newlines_append]
      ring

/-- C14: every token that `Lexer` returns has a kind that fits its lexeme: a Keyword's
lexeme is in `keyWords`, an Operator's in `operators`, a Delimiter's is one delimiter rune
other than `{`, a Number's starts with a digit and is accepted by `isNumber`, an
Identifier's is a word of letters and digits that starts with a letter and is in neither
list; no token has the kind EOF. -/
theorem Lexer_token_kinds (U : UnicodeTables) (input : List Char) (ts : List Token)
    (h : Lexer U input = .tokens ts) : ∀ t ∈ ts, Lexical U t :=
  (Lexer_scanned U input ts h).lexical

/-- C14 on the three lines `x {a`, `b}` and ` as 12;`: the four tokens fit their lexemes. -/
theorem Lexer_token_kinds_witness :
    Lexer unicode.latin1 "x \x7ba\nb\x7d\n as 12;".toList = .tokens threeLines ∧
    ∀ t ∈ threeLines, Lexical unicode.latin1 t :=
  ⟨by decide, Lexer_token_kinds unicode.latin1 "x \x7ba\nb\x7d\n as 12;".toList threeLines
    (by decide)⟩

/-- C18: the tokens that `Lexer` returns scan the input from line 1: the input is the
lexemes in order, each behind a gap of whitespace and comments, and the line of every token
is 1 plus the number of newlines in front of its lexeme, those in comments and the one that
ends the lexeme in front included. In particular every token's lexeme stands in the input
behind as many newlines as its line says. -/
theorem Lexer_line_numbers (U : UnicodeTables) (input : List Char) (ts : List Token)
    (h : Lexer U input = .tokens ts) :
    Scanned U 1 input ts ∧
    ∀ t ∈ ts, ∃ a b, input = a ++ t.Lexeme.data ++ b ∧ t.LineNum = 1 + newlines a :=
  ⟨Lexer_scanned U input ts h, (Lexer_scanned U input ts h).line⟩

/-- C18 on the three lines `x {a`, `b}` and ` as 12;`: `x` is in line 1 and the other three
tokens in line 3, behind the newline in the comment and the one behind it. -/
theorem Lexer_line_numbers_witness :
    Lexer unicode.latin1 "x \x7ba\nb\x7d\n as 12;".toList = .tokens threeLines ∧
    threeLines.map (fun t => t.LineNum) = [1, 3, 3, 3] ∧
    Scanned unicode.latin1 1 "x \x7ba\nb\x7d\n as 12;".toList threeLines :=
  ⟨by decide, rfl, (Lexer_line_numbers unicode.latin1 "x \x7ba\nb\x7d\n as 12;".toList threeLines
    (by decide)).1⟩

/-! ### The lexemes are the input without whitespace and comments -/

theorem strip_comment (U : UnicodeTables) (c y : List Char) (hc : '}' ∉ c) :
    strip U true (c ++ '}' :: y) = strip U false y := by
  induction c with
  | nil => simp [strip]
  | cons x c ih =>
    have hx : x ≠ '}' := fun h => hc (by simp [h])
    have hc' : '}' ∉ c := fun h => hc (List.mem_cons_of_mem _ h)
    simp only [List.cons_append, strip, if_neg hx]
    exact ih hc'

theorem strip_gap {U : UnicodeTables} {g : List Char} (hg : Gap U g) (x : List Char) :
    strip U false (g ++ x) = strip U false x := by
  induction hg with
  | nil => rfl
  | @space c g hc _ ih =>
    have hne : c ≠ '{' := by
      intro h
      have e : unicode.IsSpace U '{' = false := rfl
      rw [h, e] at hc
      cases hc
    simp only [List.cons_append, strip, if_neg hne, hc, if_true]
    exact ih
  | @comment c g hc _ ih =>
    have e : '{' :: (c ++ '}' :: g) ++ x = '{' :: (c ++ '}' :: (g ++ x)) := by simp
    rw [e]
    simp only [strip, if_true]
    rw [strip_comment U c _ hc]
    exact ih

theorem strip_plain (U : UnicodeTables) (l x : List Char)
    (hl : ∀ c ∈ l, c ≠ '{' ∧ unicode.IsSpace U c = false) :
    strip U false (l ++ x) = l ++ strip U false x := by
  induction l with
  | nil => rfl
  | cons c l ih =>
    obtain ⟨h1, h2⟩ := hl c (List.mem_cons_self _ _)
    simp only [List.cons_append, strip, if_neg h1, h2, Bool.false_eq_true, if_false]
    exact congrArg (List.cons c) (ih fun c hc => hl c (List.mem_cons_of_mem _ hc))

theorem unicode.plain_of_ascii (U : UnicodeTables) (c : Char)
    (h : 33 ≤ c.toNat ∧ c.toNat ≤ 126 ∧ c.toNat ≠ 123) :
    c ≠ '{' ∧ unicode.IsSpace U c = false := by
  constructor
  · intro hc
    rw [hc] at h
    exact h.2.2 rfl
  · unfold unicode.IsSpace
    rw [if_pos (by omega)]
    simp only [decide_eq_false_iff_not]
    omega

theorem unicode.plain_of_letter_or_digit (U : UnicodeTables) (c : Char)
    (h : unicode.IsLetter U c = true ∨ unicode.IsDigit U c = true) :
    c ≠ '{' ∧ unicode.IsSpace U c = false := by
  have e1 : unicode.IsLetter U '{' = false := rfl
  have e2 : unicode.IsDigit U '{' = false := rfl
  rcases h with h | h
  · exact ⟨(fun hc => by rw [hc, e1] at h; cases h), unicode.IsLetter_not_IsSpace U c h⟩
  · exact ⟨(fun hc => by rw [hc, e2] at h; cases h), unicode.IsDigit_not_IsSpace U c h⟩

theorem isDelimiter_ascii (c : Char) (h : isDelimiter c = true) :
    33 ≤ c.toNat ∧ c.toNat ≤ 126 := by
  have e : ∀ s : String, String.singleton c = s → [c] = s.data := fun s h => by rw [← h]; rfl
  simp only [isDelimiter, delimiters, List.any_eq_true, decide_eq_true_eq, List.mem_cons,
    List.mem_singleton, List.not_mem_nil, or_false] at h
  obtain ⟨d, hd, hcd⟩ := h
  have := e d hcd
  rcases hd with rfl | rfl | rfl | rfl | rfl | rfl | rfl | rfl | rfl | rfl | rfl <;>
    simp at this <;> rw [this] <;> decide

theorem Lexical.plain {U : UnicodeTables} {t : Token} (h : Lexical U t) :
    ∀ c ∈ t.Lexeme.data, c ≠ '{' ∧ unicode.IsSpace U c = false := by
  intro c hc
  unfold Lexical at h
  split at h
  · have key : ∀ s ∈ keyWords, ∀ x ∈ s.data, 33 ≤ x.toNat ∧ x.toNat ≤ 126 ∧ x.toNat ≠ 123 := by
      decide
    exact unicode.plain_of_ascii U c (key _ h c hc)
  · have key : ∀ s ∈ operators, ∀ x ∈ s.data, 33 ≤ x.toNat ∧ x.toNat ≤ 126 ∧ x.toNat ≠ 123 := by
      decide
    exact unicode.plain_of_ascii U c (key _ h c hc)
  · obtain ⟨d, hd, hdel, hne⟩ := h
    rw [hd] at hc
    have hcd : c = d := by simpa [String.singleton] using hc
    subst hcd
    have := isDelimiter_ascii c hdel
    refine unicode.plain_of_ascii U c ⟨this.1, this.2, fun h123 => hne ?_⟩
    exact Char.eq_of_toNat_eq _ _ h123
  · have := isNumber_runes t.Lexeme h.2 c hc
    simp only [Char.le_iff_toNat_le] at this
    have n1 : 'a'.toNat = 97 := rfl
    have n2 : 'f'.toNat = 102 := rfl
    have n3 : 'A'.toNat = 65 := rfl
    have n4 : 'F'.toNat = 70 := rfl
    rw [n1, n2, n3, n4] at this
    apply unicode.plain_of_ascii
    rcases this with h | rfl | rfl | rfl | rfl | rfl | rfl | rfl | rfl | h | h
    · omega
    all_goals first | decide | omega
  · obtain ⟨⟨x, rest, hx, hl, hrest⟩, -, -⟩ := h
    rw [hx] at hc
    rcases List.mem_cons.mp hc with rfl | hc
    · exact unicode.plain_of_letter_or_digit U _ (Or.inl hl)
    · exact unicode.plain_of_letter_or_digit U _ (hrest c hc)
  · exact absurd h id

theorem Scanned.lexemes {U : UnicodeTables} {n : Int} {input : List Char} {ts : List Token}
    (h : Scanned U n input ts) : lexemes ts = strip U false input := by
  induction h with
  | nil hg =>
    have := strip_gap hg []
    rw [List.append_nil] at this
    rw [this]
    rfl
  | cons hg ht _ _ ih =>
    rw [List.append_assoc, strip_gap hg, strip_plain U _ _ ht.plain, ← ih]
    rfl

/-- C17: the lexemes of the tokens that `Lexer` returns, one behind the other, are the input
without its whitespace and its comments (each `{` met outside a comment through the next
`}`): no rune is lost, doubled or moved. -/
theorem Lexer_source_order (U : UnicodeTables) (input : List Char) (ts : List Token)
    (h : Lexer U input = .tokens ts) : lexemes ts = strip U false input :=
  (Lexer_scanned U input ts h).lexemes

/-- C17 on the three lines `x {a`, `b}` and ` as 12;`: the lexemes of the four tokens are
`xas12;`, the input without the comment, the spaces and the newlines. -/
theorem Lexer_source_order_witness :
    Lexer unicode.latin1 "x \x7ba\nb\x7d\n as 12;".toList = .tokens threeLines ∧
    lexemes threeLines = "xas12;".toList ∧
    strip unicode.latin1 false "x \x7ba\nb\x7d\n as 12;".toList = "xas12;".toList :=
  ⟨by decide, by decide,
   (Lexer_source_order unicode.latin1 "x \x7ba\nb\x7d\n as 12;".toList threeLines
     (by decide)).symm.trans (by decide)⟩

/-! ## State OP holds `~` (claim C22) -/

theorem Lexer.init_inv (U : UnicodeTables) (input : List Char) :
    Lexer.Inv U input (Lexer.init input) := by
  refine ⟨[], [], by simp [Lexer.init], ?_, .nil, ?_, rfl⟩
  · intro rest ts h
    simpa [Lexer.init, newlines_nil] using h
  · simp [Lexer.init, newlines_nil]

theorem Lexer.Reachable.inv {U : UnicodeTables} {input : List Char} {v : LexerVars}
    (h : Lexer.Reachable U input v) : Lexer.Inv U input v := by
  induction h with
  | init => exact Lexer.init_inv U input
  | step _ hit ih => exact Lexer.iteration_inv U input _ _ ih hit

/-- No iteration from values that satisfy the invariant ends with the error "unknown
operator". -/
theorem Lexer.iteration_known (U : UnicodeTables) (input : List Char) (v : LexerVars)
    (hv : Lexer.Inv U input v) (lx : String) (l c : Int) :
    Lexer.iteration U v ≠ .done (.error (.unknownOperator lx l c)) := by
  obtain ⟨tokens, lineNum, colNum, bufReader, sb, state⟩ := v
  obtain ⟨pre, g, -, -, -, -, hp⟩ := hv
  simp only at hp
  have hop : isOperator (String.mk ['~']) = true := by decide
  intro h
  cases bufReader with
  | nil =>
    simp only [Lexer.iteration, Lexer.atEOF, LexerStep.done.injEq] at h
    cases state with
    | H => simp at h
    | ID => simp only at h; split_ifs at h
    | NUM => simp only at h; split_ifs at h; simp at h
    | OP =>
      have hsb : sb = ['~'] := hp
      subst hsb
      simp [hop] at h
  | cons ch rd =>
    cases state with
    | H =>
      simp only [Lexer.iteration, Lexer.caseH] at h
      split_ifs at h
      all_goals first
        | (simp at h)
        | (split at h <;> simp at h)
    | ID =>
      simp only [Lexer.iteration, Lexer.caseID] at h
      split_ifs at h
    | NUM =>
      simp only [Lexer.iteration, Lexer.caseNUM] at h
      split_ifs at h <;> simp at h
    | OP =>
      have hsb : sb = ['~'] := hp
      subst hsb
      simp [Lexer.iteration, Lexer.caseOP, hop] at h

theorem Lexer.run_known (U : UnicodeTables) (input : List Char) (v : LexerVars)
    (hv : Lexer.Inv U input v) (lx : String) (l c : Int) :
    Lexer.run U v ≠ .error (.unknownOperator lx l c) := by
  induction v using Lexer.run_induction U with
  | step v ih =>
    cases hit : Lexer.iteration U v with
    | done r =>
      rw [Lexer.run_done U v r hit]
      intro h
      rw [h] at hit
      exact Lexer.iteration_known U input v hv lx l c hit
    | next v' =>
      rw [Lexer.run_next U v v' hit]
      exact ih v' hit (Lexer.iteration_inv U input v v' hv hit)

/-- C22: on every input, whenever the loop of `Lexer` is in state OP the builder holds
exactly `~`, which is an operator; so an iteration in state OP takes the first branch (the
token `~`, the rune read given back) and never the one that reads a second rune; `Lexer`
never returns the error "unknown operator"; and the lexeme of every Operator token is `~`
or starts with a letter. -/
theorem operator_candidate (U : UnicodeTables) (input : List Char) :
    (∀ v, Lexer.Reachable U input v → v.state = .OP →
      v.sb = ['~'] ∧ isOperator (String.mk v.sb) = true) ∧
    (∀ v ch rd, Lexer.Reachable U input v → v.state = .OP → v.bufReader = ch :: rd →
      Lexer.iteration U v = .next ⟨v.tokens ++ [⟨.Operator, "~", v.lineNum,
        v.colNum + runeSize ch - runeSize ch + 1⟩], v.lineNum,
        v.colNum + runeSize ch - runeSize ch, ch :: rd, [], .H⟩) ∧
    (∀ lx l c, Lexer U input ≠ .error (.unknownOperator lx l c)) ∧
    (∀ ts, Lexer U input = .tokens ts → ∀ t ∈ ts, t.Typ = .Operator →
      t.Lexeme = "~" ∨ ∃ c rest, t.Lexeme.data = c :: rest ∧ unicode.IsLetter U c = true) := by
  have hop : isOperator (String.mk ['~']) = true := by decide
  have hsb : ∀ v, Lexer.Reachable U input v → v.state = .OP → v.sb = ['~'] := by
    intro v hv hst
    obtain ⟨pre, g, -, -, -, -, hp⟩ := hv.inv
    rw [hst] at hp
    exact hp
  refine ⟨fun v hv hst => ⟨hsb v hv hst, by rw [hsb v hv hst]; exact hop⟩, ?_, ?_, ?_⟩
  · intro v ch rd hv hst hrd
    have h1 := hsb v hv hst
    obtain ⟨tokens, lineNum, colNum, bufReader, sb, state⟩ := v
    simp only at hst hrd h1
    subst hst hrd h1
    simp only [Lexer.iteration, Lexer.caseOP, hop, if_true]
  · intro lx l c
    rw [Lexer_eq_run]
    exact Lexer.run_known U input _ (Lexer.init_inv U input) lx l c
  · intro ts h t ht hty
    have hl := (Lexer_scanned U input ts h).lexical t ht
    unfold Lexical at hl
    rw [hty] at hl
    simp only at hl
    simp only [operators, List.mem_cons, List.mem_singleton, List.not_mem_nil, or_false] at hl
    rcases hl with h | h | h | h | h | h | h | h | h | h | h | h | h <;>
      first
        | (left; exact h)
        | (right; rw [h]; exact ⟨_, _, rfl, rfl⟩)

/-- C22 on `~x`: behind the `~` the loop is in state OP with `~` in the builder; the next
iteration makes the token and gives the `x` back; the result is two tokens. -/
theorem operator_candidate_witness :
    (⟨[], 1, 1, ['x'], ['~'], .OP⟩ : LexerVars).sb = ['~'] ∧
    Lexer.iteration unicode.latin1 ⟨[], 1, 1, ['x'], ['~'], .OP⟩ =
      .next ⟨[⟨.Operator, "~", 1, 2⟩], 1, 1, ['x'], [], .H⟩ ∧
    Lexer unicode.latin1 ['~', 'x'] =
      .tokens [⟨.Operator, "~", 1, 2⟩, ⟨.Identifier, "x", 1, 2⟩] :=
  ⟨((operator_candidate unicode.latin1 ['~', 'x']).1 ⟨[], 1, 1, ['x'], ['~'], .OP⟩
      (.step .init (by decide)) rfl).1,
   by decide, by decide⟩

/-! ## A result does not depend on the bound on the depth of calls -/

theorem Res.StableTo.same (r : Res) : Res.StableTo r r := fun _ => rfl

theorem Res.StableTo.ofOutOfFuel (r : Res) : Res.StableTo .outOfFuel r :=
  fun h => absurd rfl h

theorem Res.StableTo.chain {r1 r2 : Res} {k1 k2 : Syntax → Res} :
    Res.StableTo r1 r2 → (∀ p1, Res.StableTo (k1 p1) (k2 p1)) →
    Res.StableTo
      (match r1 with
        | .ok p1 => k1 p1
        | r => r)
      (match r2 with
        | .ok p1 => k2 p1
        | r => r) := by
  intro h1 h2 hne
  cases r1 with
  | ok p1 =>
    rw [h1 (by simp)]
    exact h2 p1 hne
  | fail e p1 => rw [h1 (by simp)]
  | outOfFuel => exact absurd rfl hne

namespace Syntax

theorem expression_stable (n : Nat) :
    (∀ p, Res.StableTo (parseExpression n p) (parseExpression (n + 1) p)) ∧
    (∀ p, Res.StableTo (parseExpression.loop n p) (parseExpression.loop (n + 1) p)) ∧
    (∀ p, Res.StableTo (parseOperand n p) (parseOperand (n + 1) p)) ∧
    (∀ p, Res.StableTo (parseOperand.loop n p) (parseOperand.loop (n + 1) p)) ∧
    (∀ p, Res.StableTo (parseTerm n p) (parseTerm (n + 1) p)) ∧
    (∀ p, Res.StableTo (parseTerm.loop n p) (parseTerm.loop (n + 1) p)) ∧
    (∀ p, Res.StableTo (parseFactor n p) (parseFactor (n + 1) p)) := by
  induction n with
  | zero =>
    refine ⟨?_, ?_, ?_, ?_, ?_, ?_, ?_⟩ <;> intro p <;> exact Res.StableTo.ofOutOfFuel _
  | succ n ih =>
    obtain ⟨ihE, ihEL, ihO, ihOL, ihT, ihTL, ihF⟩ := ih
    refine ⟨?_, ?_, ?_, ?_, ?_, ?_, ?_⟩ <;> intro p
    · simp only [parseExpression]
      exact Res.StableTo.chain (ihO p) ihEL
    · rw [parseExpression.loop, parseExpression.loop]
      try dsimp only
      split_ifs
      · exact Res.StableTo.chain (ihO _) ihEL
      · exact Res.StableTo.same _
    · simp only [parseOperand]
      exact Res.StableTo.chain (ihT p) ihOL
    · rw [parseOperand.loop, parseOperand.loop]
      try dsimp only
      split_ifs
      · exact Res.StableTo.chain (ihT _) ihOL
      · exact Res.StableTo.same _
    · simp only [parseTerm]
      exact Res.StableTo.chain (ihF p) ihTL
    · rw [parseTerm.loop, parseTerm.loop]
      try dsimp only
      split_ifs
      · exact Res.StableTo.chain (ihF _) ihTL
      · exact Res.StableTo.same _
    · rw [parseFactor, parseFactor]
      try dsimp only
      split_ifs
      · exact ihF _
      · exact Res.StableTo.chain (ihE _) (fun _ => Res.StableTo.same _)
      all_goals exact Res.StableTo.same _

theorem parseAssignment_stable (n : Nat) (p : Syntax) :
    Res.StableTo (parseAssignment n p) (parseAssignment (n + 1) p) := by
  simp only [parseAssignment]
  try dsimp only
  split_ifs
  · exact Res.StableTo.same _
  · exact Res.StableTo.chain (Res.StableTo.same _) (expression_stable n).1
  · exact Res.StableTo.same _

theorem Syntaxead_idents_stable (n : Nat) (p : Syntax) :
    Res.StableTo (Syntaxead.idents n p) (Syntaxead.idents (n + 1) p) := by
  induction n generalizing p with
  | zero => exact Res.StableTo.ofOutOfFuel _
  | succ n ih =>
    rw [Syntaxead.idents, Syntaxead.idents]
    try dsimp only
    split_ifs
    · exact Res.StableTo.same _
    · exact ih _
    all_goals exact Res.StableTo.same _

theorem Syntaxead_stable (n : Nat) (p : Syntax) :
    Res.StableTo (Syntaxead n p) (Syntaxead (n + 1) p) := by
  simp only [Syntaxead]
  exact Res.StableTo.chain (Res.StableTo.same _) (fun p1 =>
    Res.StableTo.chain (Res.StableTo.same _) (Syntaxead_idents_stable n))

theorem parseWrite_args_stable (n : Nat) (p : Syntax) :
    Res.StableTo (parseWrite.args n p) (parseWrite.args (n + 1) p) := by
  induction n generalizing p with
  | zero => exact Res.StableTo.ofOutOfFuel _
  | succ n ih =>
    rw [parseWrite.args, parseWrite.args]
    refine Res.StableTo.chain ((expression_stable n).1 p) (fun p1 => ?_)
    try dsimp only
    split_ifs
    · exact ih _
    all_goals exact Res.StableTo.same _

theorem parseWrite_stable (n : Nat) (p : Syntax) :
    Res.StableTo (parseWrite n p) (parseWrite (n + 1) p) := by
  simp only [parseWrite]
  exact Res.StableTo.chain (Res.StableTo.same _) (fun p1 =>
    Res.StableTo.chain (Res.StableTo.same _) (parseWrite_args_stable n))

theorem operation_stable (n : Nat) :
    (∀ p, Res.StableTo (parseOperation n p) (parseOperation (n + 1) p)) ∧
    (∀ p, Res.StableTo (parseCompositeOperation n p) (parseCompositeOperation (n + 1) p)) ∧
    (∀ p, Res.StableTo (parseCompositeOperation.loop n p)
      (parseCompositeOperation.loop (n + 1) p)) ∧
    (∀ p, Res.StableTo (parseIf n p) (parseIf (n + 1) p)) ∧
    (∀ p, Res.StableTo (parseFor n p) (parseFor (n + 1) p)) ∧
    (∀ p, Res.StableTo (parseWhile n p) (parseWhile (n + 1) p)) := by
  induction n with
  | zero =>
    refine ⟨?_, ?_, ?_, ?_, ?_, ?_⟩ <;> intro p <;> exact Res.StableTo.ofOutOfFuel _
  | succ n ih =>
    obtain ⟨ihS, ihC, ihCL, ihI, ihF, ihW⟩ := ih
    have hE := (expression_stable n).1
    refine ⟨?_, ?_, ?_, ?_, ?_, ?_⟩ <;> intro p
    · simp only [parseOperation]
      try dsimp only
      split_ifs
      · exact ihI p
      · exact ihF p
      · exact ihW p
      · exact Syntaxead_stable n p
      · exact parseWrite_stable n p
      · exact ihC p
      · exact Res.StableTo.same _
      · exact parseAssignment_stable n p
      · exact ihC p
      · exact Res.StableTo.same _
    · simp only [parseCompositeOperation]
      exact Res.StableTo.chain (Res.StableTo.same _) ihCL
    · rw [parseCompositeOperation.loop, parseCompositeOperation.loop]
      refine Res.StableTo.chain (ihS p) (fun p1 => ?_)
      try dsimp only
      split_ifs
      · exact ihCL _
      all_goals exact Res.StableTo.same _
    · simp only [parseIf]
      refine Res.StableTo.chain (Res.StableTo.same _) (fun p1 =>
        Res.StableTo.chain (hE p1) (fun p2 =>
          Res.StableTo.chain (Res.StableTo.same _) (fun p3 =>
            Res.StableTo.chain (ihS p3) (fun p4 => ?_))))
      try dsimp only
      split_ifs
      · exact ihS _
      · exact Res.StableTo.same _
    · simp only [parseFor]
      exact Res.StableTo.chain (Res.StableTo.same _) (fun p1 =>
        Res.StableTo.chain (parseAssignment_stable n p1) (fun p2 =>
          Res.StableTo.chain (Res.StableTo.same _) (fun p3 =>
            Res.StableTo.chain (hE p3) (fun p4 =>
              Res.StableTo.chain (Res.StableTo.same _) ihS))))
    · simp only [parseWhile]
      exact Res.StableTo.chain (Res.StableTo.same _) (fun p1 =>
        Res.StableTo.chain (hE p1) (fun p2 =>
          Res.StableTo.chain (Res.StableTo.same _) ihS))

theorem parseOperations_stable (n : Nat) (p : Syntax) :
    Res.StableTo (parseOperations n p) (parseOperations (n + 1) p) := by
  induction n generalizing p with
  | zero => exact Res.StableTo.ofOutOfFuel _
  | succ n ih =>
    rw [parseOperations, parseOperations]
    try dsimp only
    split_ifs
    · exact Res.StableTo.same _
    · refine Res.StableTo.chain ((operation_stable n).1 p) (fun p1 => ?_)
      try dsimp only
      split_ifs
      · exact ih _
      all_goals exact Res.StableTo.same _

theorem parseDeclaration_idents_stable (n : Nat) (p : Syntax) :
    Res.StableTo (parseDeclaration.idents n p) (parseDeclaration.idents (n + 1) p) := by
  induction n generalizing p with
  | zero => exact Res.StableTo.ofOutOfFuel _
  | succ n ih =>
    rw [parseDeclaration.idents, parseDeclaration.idents]
    try dsimp only
    split_ifs
    · exact Res.StableTo.same _
    · exact Res.StableTo.same _
    · exact ih _
    all_goals exact Res.StableTo.same _

theorem parseDeclaration_stable (n : Nat) (p : Syntax) :
    Res.StableTo (parseDeclaration n p) (parseDeclaration (n + 1) p) := by
  simp only [parseDeclaration]
  exact Res.StableTo.chain (parseDeclaration_idents_stable n p)
    (fun p1 => Res.StableTo.same _)

theorem ParseProgram_decls_stable (n : Nat) (p : Syntax) :
    Res.StableTo (ParseProgram.decls n p) (ParseProgram.decls (n + 1) p) := by
  induction n generalizing p with
  | zero => exact Res.StableTo.ofOutOfFuel _
  | succ n ih =>
    rw [ParseProgram.decls, ParseProgram.decls]
    refine Res.StableTo.chain (parseDeclaration_stable n p) (fun p1 => ?_)
    try dsimp only
    split_ifs
    · exact Res.StableTo.same _
    · exact ih _

theorem ParseProgram_run_stable (n : Nat) (p : Syntax) :
    Res.StableTo (ParseProgram.run n p) (ParseProgram.run (n + 1) p) := by
  simp only [ParseProgram.run]
  exact Res.StableTo.chain (Res.StableTo.same _) (fun p1 =>
    Res.StableTo.chain (Res.StableTo.same _) (fun p2 =>
      Res.StableTo.chain (ParseProgram_decls_stable n p2) (fun p3 =>
        Res.StableTo.chain (Res.StableTo.same _) (fun p4 =>
          Res.StableTo.chain (parseOperations_stable n p4) (fun p5 =>
            Res.StableTo.chain (Res.StableTo.same _)
              (fun p6 => Res.StableTo.same _))))))

/-- Raising the bound on the depth of calls does not change a result. -/
theorem ParseProgram_run_stable_le (n m : Nat) (p : Syntax) (h : n ≤ m)
    (hne : ParseProgram.run n p ≠ .outOfFuel) : ParseProgram.run m p = ParseProgram.run n p := by
  induction m with
  | zero =>
    have : n = 0 := by omega
    rw [this]
  | succ m ih =>
    by_cases hm : n = m + 1
    · rw [hm]
    · have h1 := ih (by omega)
      rw [← h1]
      exact ParseProgram_run_stable m p (by rw [h1]; exact hne)

end Syntax

/-! ## The bound on the depth of calls is never reached -/

theorem Res.total_bind {r1 : Res} {k : Syntax → Res} :
    r1 ≠ .outOfFuel → (∀ p1, r1 = .ok p1 → k p1 ≠ .outOfFuel) →
    (match r1 with
      | .ok p1 => k p1
      | r => r) ≠ .outOfFuel := by
  intro h1 h2
  cases r1 with
  | ok p1 => exact h2 p1 rfl
  | fail e p1 => simp
  | outOfFuel => exact absurd rfl h1

namespace Syntax

theorem remaining_of_frame {p q : Syntax} (h : p.Frame q) : q.remaining ≤ p.remaining := by
  obtain ⟨t, -, h1, -⟩ := h
  simp only [remaining, t]
  omega

theorem remaining_of_grows {p q : Syntax} (h : p.Grows q) : q.remaining ≤ p.remaining := by
  obtain ⟨t, -, h1, -⟩ := h
  simp only [remaining, t]
  omega

theorem currentToken_real {p : Syntax} (h : p.currentToken.Typ ≠ .EOF) :
    p.pos < p.tokens.length := by
  by_contra hlt
  simp only [currentToken, dif_neg hlt] at h
  exact h rfl

theorem remaining_nextToken {p : Syntax} (h : p.currentToken.Typ ≠ .EOF) :
    p.nextToken.remaining + 1 = p.remaining ∧ p.nextToken.pos = p.pos + 1 := by
  have hlt := currentToken_real h
  unfold remaining nextToken
  rw [if_pos hlt]
  exact ⟨by simp only; omega, rfl⟩

theorem remaining_nextToken_le (p : Syntax) : p.nextToken.remaining ≤ p.remaining :=
  remaining_of_frame (Frame.nextToken p)

theorem remaining_matchToken {p q : Syntax} {ty : TokenType} {lx : String} (hty : ty ≠ .EOF)
    (h : p.matchToken ty lx = .ok q) : q.remaining + 1 = p.remaining ∧ q.pos = p.pos + 1 := by
  simp only [matchToken] at h
  split_ifs at h with hc
  simp only [Res.ok.injEq] at h
  subst h
  exact remaining_nextToken (by rw [hc.1]; exact hty)

theorem matchToken_total (p : Syntax) (ty : TokenType) (lx : String) :
    p.matchToken ty lx ≠ .outOfFuel := by
  simp only [matchToken]
  split_ifs <;> simp

theorem expression_total (n : Nat) :
    (∀ p, 8 * p.remaining + 4 ≤ n → parseExpression n p ≠ .outOfFuel) ∧
    (∀ p, 8 * p.remaining + 1 ≤ n → parseExpression.loop n p ≠ .outOfFuel) ∧
    (∀ p, 8 * p.remaining + 3 ≤ n → parseOperand n p ≠ .outOfFuel) ∧
    (∀ p, 8 * p.remaining + 1 ≤ n → parseOperand.loop n p ≠ .outOfFuel) ∧
    (∀ p, 8 * p.remaining + 2 ≤ n → parseTerm n p ≠ .outOfFuel) ∧
    (∀ p, 8 * p.remaining + 1 ≤ n → parseTerm.loop n p ≠ .outOfFuel) ∧
    (∀ p, 8 * p.remaining + 1 ≤ n → parseFactor n p ≠ .outOfFuel) := by
  induction n with
  | zero =>
    refine ⟨?_, ?_, ?_, ?_, ?_, ?_, ?_⟩ <;> intro p h <;> omega
  | succ n ih =>
    obtain ⟨ihE, ihEL, ihO, ihOL, ihT, ihTL, ihF⟩ := ih
    obtain ⟨fE, fEL, fO, fOL, fT, fTL, fF⟩ := expression_frame n
    refine ⟨?_, ?_, ?_, ?_, ?_, ?_, ?_⟩ <;> intro p hb
    · rw [parseExpression]
      refine Res.total_bind (ihO p (by omega)) (fun p1 h1 => ihEL p1 ?_)
      have := remaining_of_frame (fO p p1 (by rw [h1]; rfl))
      omega
    · rw [parseExpression.loop]
      try dsimp only
      split_ifs with hc
      · have hr := (@remaining_nextToken p (by rw [hc.1]; decide)).1
        refine Res.total_bind (ihO _ (by omega)) (fun p1 h1 => ihEL p1 ?_)
        have := remaining_of_frame (fO _ p1 (by rw [h1]; rfl))
        omega
      · simp
    · rw [parseOperand]
      refine Res.total_bind (ihT p (by omega)) (fun p1 h1 => ihOL p1 ?_)
      have := remaining_of_frame (fT p p1 (by rw [h1]; rfl))
      omega
    · rw [parseOperand.loop]
      try dsimp only
      split_ifs with hc
      · have hr := (@remaining_nextToken p (by rw [hc.1]; decide)).1
        refine Res.total_bind (ihT _ (by omega)) (fun p1 h1 => ihOL p1 ?_)
        have := remaining_of_frame (fT _ p1 (by rw [h1]; rfl))
        omega
      · simp
    · rw [parseTerm]
      refine Res.total_bind (ihF p (by omega)) (fun p1 h1 => ihTL p1 ?_)
      have := remaining_of_frame (fF p p1 (by rw [h1]; rfl))
      omega
    · rw [parseTerm.loop]
      try dsimp only
      split_ifs with hc
      · have hr := (@remaining_nextToken p (by rw [hc.1]; decide)).1
        refine Res.total_bind (ihF _ (by omega)) (fun p1 h1 => ihTL p1 ?_)
        have := remaining_of_frame (fF _ p1 (by rw [h1]; rfl))
        omega
      · simp
    · rw [parseFactor]
      try dsimp only
      split_ifs with h1 h2
      · have hr := (@remaining_nextToken p (by rw [h1.1]; decide)).1
        exact ihF _ (by omega)
      · have hr := (@remaining_nextToken p (by rw [h2.1]; decide)).1
        exact Res.total_bind (ihE _ (by omega)) (fun p1 _ => matchToken_total _ _ _)
      all_goals simp

end Syntax

namespace Syntax

theorem Consumed.remaining_eq {p q : Syntax} {s : List Token} (h : p.Consumed s q) :
    q.remaining + s.length = p.remaining := by
  obtain ⟨t, hpos, hrest⟩ := h
  have := congrArg List.length hrest
  simp only [rest, List.length_drop, List.length_append, t] at this
  simp only [remaining, t]
  omega

theorem parseAssignment_total (n : Nat) (p : Syntax) (hb : 8 * p.remaining + 1 ≤ n) :
    parseAssignment n p ≠ .outOfFuel := by
  simp only [parseAssignment]
  split_ifs with h1 h2
  · simp
  · have hid : p.currentToken.Typ = .Identifier := by simpa using h1
    have hr := (@remaining_nextToken p (by rw [hid]; decide)).1
    refine Res.total_bind (matchToken_total _ _ _) (fun p1 hp1 => ?_)
    have := (remaining_matchToken (by decide) hp1).1
    exact (expression_total n).1 p1 (by omega)
  · simp

theorem Syntaxead_idents_total (n : Nat) (p : Syntax) (hb : 8 * p.remaining + 1 ≤ n) :
    Syntaxead.idents n p ≠ .outOfFuel := by
  induction n generalizing p with
  | zero => omega
  | succ n ih =>
    rw [Syntaxead.idents]
    try dsimp only
    split_ifs with h1 h2 h3 h4
    · simp
    · have hid : p.currentToken.Typ = .Identifier := by simpa using h1
      have hr := (@remaining_nextToken p (by rw [hid]; decide)).1
      have hr2 := remaining_nextToken_le p.nextToken
      exact ih _ (by omega)
    · simp
    · simp
    · simp

theorem Syntaxead_total (n : Nat) (p : Syntax) (hb : 8 * p.remaining + 1 ≤ n) :
    Syntaxead n p ≠ .outOfFuel := by
  simp only [Syntaxead]
  refine Res.total_bind (matchToken_total _ _ _) (fun p1 hp1 =>
    Res.total_bind (matchToken_total _ _ _) (fun p2 hp2 => ?_))
  have h1 := (remaining_matchToken (by decide) hp1).1
  have h2 := (remaining_matchToken (by decide) hp2).1
  exact Syntaxead_idents_total n p2 (by omega)

theorem parseWrite_args_total (n : Nat) (p : Syntax) (hb : 8 * p.remaining + 5 ≤ n) :
    parseWrite.args n p ≠ .outOfFuel := by
  induction n generalizing p with
  | zero => omega
  | succ n ih =>
    rw [parseWrite.args]
    refine Res.total_bind ((expression_total n).1 p (by omega)) (fun p1 hp1 => ?_)
    have hf := remaining_of_frame ((expression_frame n).1 p p1 (by rw [hp1]; rfl))
    try dsimp only
    split_ifs with h1 h2
    · have hr := (@remaining_nextToken p1 (by rw [h1.1]; decide)).1
      exact ih _ (by omega)
    · simp
    · simp

theorem parseWrite_total (n : Nat) (p : Syntax) (hb : 8 * p.remaining + 1 ≤ n) :
    parseWrite n p ≠ .outOfFuel := by
  simp only [parseWrite]
  refine Res.total_bind (matchToken_total _ _ _) (fun p1 hp1 =>
    Res.total_bind (matchToken_total _ _ _) (fun p2 hp2 => ?_))
  have h1 := (remaining_matchToken (by decide) hp1).1
  have h2 := (remaining_matchToken (by decide) hp2).1
  exact parseWrite_args_total n p2 (by omega)

theorem operation_total (n : Nat) :
    (∀ p, 8 * p.remaining + 2 ≤ n → parseOperation n p ≠ .outOfFuel) ∧
    (∀ p, 8 * p.remaining + 1 ≤ n → parseCompositeOperation n p ≠ .outOfFuel) ∧
    (∀ p, 8 * p.remaining + 3 ≤ n → parseCompositeOperation.loop n p ≠ .outOfFuel) ∧
    (∀ p, 8 * p.remaining + 1 ≤ n → parseIf n p ≠ .outOfFuel) ∧
    (∀ p, 8 * p.remaining + 1 ≤ n → parseFor n p ≠ .outOfFuel) ∧
    (∀ p, 8 * p.remaining + 1 ≤ n → parseWhile n p ≠ .outOfFuel) := by
  induction n with
  | zero =>
    refine ⟨?_, ?_, ?_, ?_, ?_, ?_⟩ <;> intro p h <;> omega
  | succ n ih =>
    obtain ⟨ihS, ihC, ihCL, ihI, ihF, ihW⟩ := ih
    obtain ⟨fS, -, -, -, -, -⟩ := operation_frame n
    have hE := (expression_total n).1
    have fE := (expression_frame n).1
    refine ⟨?_, ?_, ?_, ?_, ?_, ?_⟩ <;> intro p hb
    · rw [parseOperation]
      try dsimp only
      split_ifs
      · exact ihI p (by omega)
      · exact ihF p (by omega)
      · exact ihW p (by omega)
      · exact Syntaxead_total n p (by omega)
      · exact parseWrite_total n p (by omega)
      · exact ihC p (by omega)
      · simp
      · exact parseAssignment_total n p (by omega)
      · exact ihC p (by omega)
      · simp
    · rw [parseCompositeOperation]
      refine Res.total_bind (matchToken_total _ _ _) (fun p1 hp1 => ?_)
      have h1 := (remaining_matchToken (by decide) hp1).1
      exact ihCL p1 (by omega)
    · rw [parseCompositeOperation.loop]
      refine Res.total_bind (ihS p (by omega)) (fun p1 hp1 => ?_)
      have hf := remaining_of_frame (fS p p1 (by rw [hp1]; rfl))
      try dsimp only
      split_ifs with h1 h2
      · have hr := (@remaining_nextToken p1 (by rw [h1.1]; decide)).1
        exact ihCL _ (by omega)
      · simp
      · simp
    · rw [parseIf]
      refine Res.total_bind (matchToken_total _ _ _) (fun p1 hp1 => ?_)
      have h1 := (remaining_matchToken (by decide) hp1).1
      refine Res.total_bind (hE p1 (by omega)) (fun p2 hp2 => ?_)
      have h2 := remaining_of_frame (fE p1 p2 (by rw [hp2]; rfl))
      refine Res.total_bind (matchToken_total _ _ _) (fun p3 hp3 => ?_)
      have h3 := (remaining_matchToken (by decide) hp3).1
      refine Res.total_bind (ihS p3 (by omega)) (fun p4 hp4 => ?_)
      have h4 := remaining_of_frame (fS p3 p4 (by rw [hp4]; rfl))
      try dsimp only
      split_ifs with hc
      · have hr := remaining_nextToken_le p4
        exact ihS _ (by omega)
      · simp
    · rw [parseFor]
      refine Res.total_bind (matchToken_total _ _ _) (fun p1 hp1 => ?_)
      have h1 := (remaining_matchToken (by decide) hp1).1
      refine Res.total_bind (parseAssignment_total n p1 (by omega)) (fun p2 hp2 => ?_)
      have h2 := remaining_of_frame (parseAssignment_frame n p1 p2 (by rw [hp2]; rfl))
      refine Res.total_bind (matchToken_total _ _ _) (fun p3 hp3 => ?_)
      have h3 := (remaining_matchToken (by decide) hp3).1
      refine Res.total_bind (hE p3 (by omega)) (fun p4 hp4 => ?_)
      have h4 := remaining_of_frame (fE p3 p4 (by rw [hp4]; rfl))
      refine Res.total_bind (matchToken_total _ _ _) (fun p5 hp5 => ?_)
      have h5 := (remaining_matchToken (by decide) hp5).1
      exact ihS p5 (by omega)
    · rw [parseWhile]
      refine Res.total_bind (matchToken_total _ _ _) (fun p1 hp1 => ?_)
      have h1 := (remaining_matchToken (by decide) hp1).1
      refine Res.total_bind (hE p1 (by omega)) (fun p2 hp2 => ?_)
      have h2 := remaining_of_frame (fE p1 p2 (by rw [hp2]; rfl))
      refine Res.total_bind (matchToken_total _ _ _) (fun p3 hp3 => ?_)
      have h3 := (remaining_matchToken (by decide) hp3).1
      exact ihS p3 (by omega)

theorem parseOperations_total (n : Nat) (p : Syntax) (hb : 8 * p.remaining + 3 ≤ n) :
    parseOperations n p ≠ .outOfFuel := by
  induction n generalizing p with
  | zero => omega
  | succ n ih =>
    rw [parseOperations]
    try dsimp only
    split_ifs with h0
    · simp
    · refine Res.total_bind ((operation_total n).1 p (by omega)) (fun p1 hp1 => ?_)
      have hf := remaining_of_frame ((operation_frame n).1 p p1 (by rw [hp1]; rfl))
      try dsimp only
      split_ifs with h1 h2
      · have hr := (@remaining_nextToken p1 (by rw [h1.1]; decide)).1
        exact ih _ (by omega)
      · simp
      · simp

theorem parseDeclaration_idents_total (n : Nat) (p : Syntax) (hb : 8 * p.remaining + 1 ≤ n) :
    parseDeclaration.idents n p ≠ .outOfFuel := by
  induction n generalizing p with
  | zero => omega
  | succ n ih =>
    rw [parseDeclaration.idents]
    try dsimp only
    split_ifs with h1 h2 h3 h4
    · simp
    · simp
    · have hid : p.currentToken.Typ = .Identifier := by simpa using h1
      have hr := remaining_of_grows (Grows.declare p p.currentToken.Lexeme)
      have hr2 := (@remaining_nextToken
        ({ p with vars := p.currentToken.Lexeme :: p.vars } : Syntax).nextToken
        (by rw [h3.1]; decide)).1
      exact ih _ (by omega)
    · simp
    · simp

theorem parseDeclaration_total (n : Nat) (p : Syntax) (hb : 8 * p.remaining + 1 ≤ n) :
    parseDeclaration n p ≠ .outOfFuel := by
  simp only [parseDeclaration]
  refine Res.total_bind (parseDeclaration_idents_total n p hb) (fun p1 _ => ?_)
  split_ifs <;> simp

theorem ParseProgram_decls_total (n : Nat) (p : Syntax) (hb : 8 * p.remaining + 2 ≤ n) :
    ParseProgram.decls n p ≠ .outOfFuel := by
  induction n generalizing p with
  | zero => omega
  | succ n ih =>
    rw [ParseProgram.decls]
    refine Res.total_bind (parseDeclaration_total n p (by omega)) (fun p1 hp1 => ?_)
    obtain ⟨s, c, -, hd⟩ := parseDeclaration_sound _ _ _ hp1
    have hlen := hd.minLength_le
    have hr := c.remaining_eq
    simp only [minLength] at hlen
    try dsimp only
    split_ifs
    · simp
    · exact ih p1 (by omega)

theorem ParseProgram_run_total (n : Nat) (p : Syntax) (hb : 8 * p.remaining + 3 ≤ n) :
    ParseProgram.run n p ≠ .outOfFuel := by
  simp only [ParseProgram.run]
  refine Res.total_bind (matchToken_total _ _ _) (fun p1 hp1 => ?_)
  have h1 := (remaining_matchToken (by decide) hp1).1
  refine Res.total_bind (matchToken_total _ _ _) (fun p2 hp2 => ?_)
  have h2 := (remaining_matchToken (by decide) hp2).1
  refine Res.total_bind (ParseProgram_decls_total n p2 (by omega)) (fun p3 hp3 => ?_)
  have h3 := remaining_of_grows (ParseProgram_decls_grows n p2 p3 (by rw [hp3]; rfl))
  refine Res.total_bind (matchToken_total _ _ _) (fun p4 hp4 => ?_)
  have h4 := (remaining_matchToken (by decide) hp4).1
  refine Res.total_bind (parseOperations_total n p4 (by omega)) (fun p5 hp5 => ?_)
  exact Res.total_bind (matchToken_total _ _ _) (fun p6 _ => matchToken_total _ _ _)

end Syntax

/-! ## The parser ends (claim C21) -/

theorem Parsed.advances_cursor {N : NT} {p q : Syntax} (hN : 1 ≤ minLength N)
    (h : Parsed (Derives N) p q) : p.pos < q.pos := by
  obtain ⟨s, ⟨-, hpos, -⟩, -, hd, -⟩ := h
  have := hd.minLength_le
  omega

theorem Declared.moves_on {N : NT} {p q : Syntax} (hN : 1 ≤ minLength N)
    (h : Declared (Derives N) p q) : p.pos < q.pos := by
  obtain ⟨s, ⟨-, hpos, -⟩, -, hd⟩ := h
  have := hd.minLength_le
  omega

/-- C21: `ParseProgram` returns on every token list and from every state, with success or
with one error, and a larger bound on the depth of calls gives the same result; every
`parse` method returns when the bound is at least eight for each token at and behind the
cursor, and five, so that along nested calls the cursor moves on within every eight; every
`parse` method except `parseOperations`, which accepts an empty list, leaves the cursor
strictly behind where it was when it succeeds, so every iteration of a loop that calls one
does; `nextToken` at a token moves the cursor by one; and `parseFactor` at `~` and at `(`
calls `parseFactor` and `parseExpression` with the cursor moved by one. -/
theorem parser_terminates :
    (∀ p : Syntax, (∃ q, p.ParseProgram = .ok q) ∨ ∃ e q, p.ParseProgram = .fail e q) ∧
    (∀ (p : Syntax) (fuel : Nat), 8 * p.tokens.length + 16 ≤ fuel →
      Syntax.ParseProgram.run fuel p = p.ParseProgram) ∧
    (Syntax.Terminates Syntax.parseDeclaration ∧ Syntax.Terminates Syntax.parseOperations ∧
      Syntax.Terminates Syntax.parseOperation ∧
      Syntax.Terminates Syntax.parseCompositeOperation ∧
      Syntax.Terminates Syntax.parseAssignment ∧ Syntax.Terminates Syntax.parseIf ∧
      Syntax.Terminates Syntax.parseFor ∧ Syntax.Terminates Syntax.parseWhile ∧
      Syntax.Terminates Syntax.Syntaxead ∧ Syntax.Terminates Syntax.parseWrite ∧
      Syntax.Terminates Syntax.parseExpression ∧ Syntax.Terminates Syntax.parseOperand ∧
      Syntax.Terminates Syntax.parseTerm ∧ Syntax.Terminates Syntax.parseFactor) ∧
    (∀ fuel, Syntax.Advances (Syntax.parseDeclaration fuel) ∧
      Syntax.Advances (Syntax.parseOperation fuel) ∧
      Syntax.Advances (Syntax.parseCompositeOperation fuel) ∧
      Syntax.Advances (Syntax.parseAssignment fuel) ∧ Syntax.Advances (Syntax.parseIf fuel) ∧
      Syntax.Advances (Syntax.parseFor fuel) ∧ Syntax.Advances (Syntax.parseWhile fuel) ∧
      Syntax.Advances (Syntax.Syntaxead fuel) ∧ Syntax.Advances (Syntax.parseWrite fuel) ∧
      Syntax.Advances (Syntax.parseExpression fuel) ∧
      Syntax.Advances (Syntax.parseOperand fuel) ∧ Syntax.Advances (Syntax.parseTerm fuel) ∧
      Syntax.Advances (Syntax.parseFactor fuel)) ∧
    (∀ p : Syntax, p.currentToken.Typ ≠ .EOF → p.nextToken.pos = p.pos + 1) ∧
    (∀ (fuel : Nat) (p : Syntax), p.currentToken.Typ = .Operator →
      p.currentToken.Lexeme = "~" →
      Syntax.parseFactor (fuel + 1) p = Syntax.parseFactor fuel p.nextToken ∧
      p.nextToken.pos = p.pos + 1) ∧
    (∀ (fuel : Nat) (p : Syntax), p.currentToken.Typ = .Delimiter →
      p.currentToken.Lexeme = "(" →
      Syntax.parseFactor (fuel + 1) p =
        (match Syntax.parseExpression fuel p.nextToken with
          | .ok p1 => p1.matchToken .Delimiter ")"
          | r => r) ∧
      p.nextToken.pos = p.pos + 1) := by
  have hrun : ∀ p : Syntax, p.ParseProgram ≠ .outOfFuel := fun p =>
    Syntax.ParseProgram_run_total _ p (by
      have : p.remaining ≤ p.tokens.length := Nat.sub_le _ _
      omega)
  refine ⟨?_, ?_, ?_, ?_, ?_, ?_, ?_⟩
  · intro p
    cases h : p.ParseProgram with
    | ok q => exact Or.inl ⟨q, rfl⟩
    | fail e q => exact Or.inr ⟨e, q, rfl⟩
    | outOfFuel => exact absurd h (hrun p)
  · intro p fuel hf
    exact Syntax.ParseProgram_run_stable_le _ fuel p hf (hrun p)
  · refine ⟨?_, ?_, ?_, ?_, ?_, ?_, ?_, ?_, ?_, ?_, ?_, ?_, ?_, ?_⟩ <;> intro fuel p hb
    · exact Syntax.parseDeclaration_total fuel p (by omega)
    · exact Syntax.parseOperations_total fuel p (by omega)
    · exact (Syntax.operation_total fuel).1 p (by omega)
    · exact (Syntax.operation_total fuel).2.1 p (by omega)
    · exact Syntax.parseAssignment_total fuel p (by omega)
    · exact (Syntax.operation_total fuel).2.2.2.1 p (by omega)
    · exact (Syntax.operation_total fuel).2.2.2.2.1 p (by omega)
    · exact (Syntax.operation_total fuel).2.2.2.2.2 p (by omega)
    · exact Syntax.Syntaxead_total fuel p (by omega)
    · exact Syntax.parseWrite_total fuel p (by omega)
    · exact (Syntax.expression_total fuel).1 p (by omega)
    · exact (Syntax.expression_total fuel).2.2.1 p (by omega)
    · exact (Syntax.expression_total fuel).2.2.2.2.1 p (by omega)
    · exact (Syntax.expression_total fuel).2.2.2.2.2.2 p (by omega)
  · intro fuel
    obtain ⟨sS, sC, -, sI, sF, sW⟩ := Syntax.operation_sound fuel
    obtain ⟨sE, -, sO, -, sT, -, sFa⟩ := Syntax.expression_sound fuel
    refine ⟨?_, ?_, ?_, ?_, ?_, ?_, ?_, ?_, ?_, ?_, ?_, ?_, ?_⟩ <;> intro p q h
    · exact Declared.moves_on (by decide) (Syntax.parseDeclaration_sound _ _ _ h)
    · exact Parsed.advances_cursor (by decide) (sS _ _ h)
    · exact Parsed.advances_cursor (by decide) (sC _ _ h)
    · exact Parsed.advances_cursor (by decide) (Syntax.parseAssignment_sound _ _ _ h)
    · exact Parsed.advances_cursor (by decide) (sI _ _ h)
    · exact Parsed.advances_cursor (by decide) (sF _ _ h)
    · exact Parsed.advances_cursor (by decide) (sW _ _ h)
    · exact Parsed.advances_cursor (by decide) (Syntax.Syntaxead_sound _ _ _ h)
    · exact Parsed.advances_cursor (by decide) (Syntax.parseWrite_sound _ _ _ h)
    · exact Parsed.advances_cursor (by decide) (sE _ _ h)
    · exact Parsed.advances_cursor (by decide) (sO _ _ h)
    · exact Parsed.advances_cursor (by decide) (sT _ _ h)
    · exact Parsed.advances_cursor (by decide) (sFa _ _ h)
  · intro p h
    exact (Syntax.remaining_nextToken h).2
  · intro fuel p h1 h2
    refine ⟨?_, (Syntax.remaining_nextToken (by rw [h1]; decide)).2⟩
    rw [Syntax.parseFactor]
    simp only [h1, h2, and_self, if_true]
  · intro fuel p h1 h2
    refine ⟨?_, (Syntax.remaining_nextToken (by rw [h1]; decide)).2⟩
    rw [Syntax.parseFactor]
    simp only [h1, h2, and_self, if_true, reduceCtorEq, false_and, if_false]
    try (cases Syntax.parseExpression fuel p.nextToken <;> rfl)

/-- C21 on the empty token list and on the tokens of `program var x`, which end inside a
declaration: `ParseProgram` returns the error of `matchToken` and the error "',' or ':'
expected" at the end of the tokens, and with a larger bound on the depth of calls the
result is the same. -/
theorem parser_terminates_witness :
    (Syntax.fresh []).ParseProgram =
      .fail (.expected .Keyword "program" ⟨.EOF, "", 0, 0⟩) ⟨[], 0, []⟩ ∧
    (Syntax.fresh cutShort).ParseProgram =
      .fail (.expectedCommaOrColon ⟨.EOF, "", 0, 0⟩) ⟨cutShort, 3, ["x"]⟩ ∧
    Lexer unicode.latin1 "program var x".toList = .tokens cutShort ∧
    Syntax.ParseProgram.run 1000 (Syntax.fresh cutShort) = (Syntax.fresh cutShort).ParseProgram :=
  ⟨by decide, by decide, by decide,
   parser_terminates.2.1 (Syntax.fresh cutShort) 1000 (by decide)⟩

/-! ## Undeclared variables (claim C4) -/

namespace Syntax

/-- A method that does not get a state back from a call it makes returns what the call
returned: the callee's error with the callee's state (`return err` behind every call site). -/
theorem Calls.propagate {m m2 : Method} {n n2 : Nat} {p p2 : Syntax}
    (h : Calls m n p m2 n2 p2) (r : Res) (hr : m2.run n2 p2 = r) (hnot : ∀ q, r ≠ .ok q) :
    m.run n p = r := by
  rcases r with q | ⟨e, q⟩ | _
  · exact absurd rfl (hnot q)
  · cases h <;> simp only [Method.run] at hr ⊢ <;>
      simp_all [ParseProgram.run, parseOperations, parseOperation, parseCompositeOperation,
        parseCompositeOperation.loop, parseIf, parseFor, parseWhile, Syntaxead,
        Syntaxead.idents, parseWrite, parseWrite.args, parseAssignment, parseExpression,
        parseExpression.loop, parseOperand, parseOperand.loop, parseTerm, parseTerm.loop,
        parseFactor]
  · cases h <;> simp only [Method.run] at hr ⊢ <;>
      simp_all [ParseProgram.run, parseOperations, parseOperation, parseCompositeOperation,
        parseCompositeOperation.loop, parseIf, parseFor, parseWhile, Syntaxead,
        Syntaxead.idents, parseWrite, parseWrite.args, parseAssignment, parseExpression,
        parseExpression.loop, parseOperand, parseOperand.loop, parseTerm, parseTerm.loop,
        parseFactor]

/-- The callee works on the token list of the caller. -/
theorem Calls.keeps_tokens {m m2 : Method} {n n2 : Nat} {p p2 : Syntax}
    (h : Calls m n p m2 n2 p2) : p2.tokens = p.tokens := by
  have M : ∀ {a b : Syntax} {ty : TokenType} {lx : String},
      a.matchToken ty lx = .ok b → b.tokens = a.tokens :=
    fun {a b ty lx} h => (Frame.frame_matchToken a ty lx b (by rw [h]; rfl)).1
  have N : ∀ a : Syntax, a.nextToken.tokens = a.tokens := fun a => (Frame.nextToken a).1
  have D : ∀ {k : Nat} {a b : Syntax}, ParseProgram.decls k a = .ok b → b.tokens = a.tokens :=
    fun {k a b} h => (ParseProgram_decls_grows k a b (by rw [h]; rfl)).1
  have O : ∀ {k : Nat} {a b : Syntax}, parseOperation k a = .ok b → b.tokens = a.tokens :=
    fun {k a b} h => ((operation_frame k).1 a b (by rw [h]; rfl)).1
  have A : ∀ {k : Nat} {a b : Syntax}, parseAssignment k a = .ok b → b.tokens = a.tokens :=
    fun {k a b} h => (parseAssignment_frame k a b (by rw [h]; rfl)).1
  have E : ∀ {k : Nat} {a b : Syntax}, parseExpression k a = .ok b → b.tokens = a.tokens :=
    fun {k a b} h => ((expression_frame k).1 a b (by rw [h]; rfl)).1
  have R : ∀ {k : Nat} {a b : Syntax}, parseOperand k a = .ok b → b.tokens = a.tokens :=
    fun {k a b} h => ((expression_frame k).2.2.1 a b (by rw [h]; rfl)).1
  have T : ∀ {k : Nat} {a b : Syntax}, parseTerm k a = .ok b → b.tokens = a.tokens :=
    fun {k a b} h => ((expression_frame k).2.2.2.2.1 a b (by rw [h]; rfl)).1
  have F : ∀ {k : Nat} {a b : Syntax}, parseFactor k a = .ok b → b.tokens = a.tokens :=
    fun {k a b} h => ((expression_frame k).2.2.2.2.2.2 a b (by rw [h]; rfl)).1
  cases h with
  | program h1 h2 h3 h4 => exact (M h4).trans ((D h3).trans ((M h2).trans (M h1)))
  | operations _ => rfl
  | operationsNext _ h _ => exact (N _).trans (O h)
  | operationIf _ _ => rfl
  | operationFor _ _ => rfl
  | operationWhile _ _ => rfl
  | operationRead _ _ => rfl
  | operationWrite _ _ => rfl
  | operationBegin _ _ => rfl
  | operationAssign _ => rfl
  | operationBracket _ _ => rfl
  | composite h1 => exact M h1
  | compositeStmt => rfl
  | compositeNext h _ => exact (N _).trans (O h)
  | assign _ _ h => exact (M h).trans (N _)
  | ifCond h1 => exact M h1
  | ifThen h1 h2 h3 => exact (M h3).trans ((E h2).trans (M h1))
  | ifElse h1 h2 h3 h4 _ => exact (N _).trans ((O h4).trans ((M h3).trans ((E h2).trans (M h1))))
  | forInit h1 => exact M h1
  | forLimit h1 h2 h3 => exact (M h3).trans ((A h2).trans (M h1))
  | forBody h1 h2 h3 h4 h5 =>
    exact (M h5).trans ((E h4).trans ((M h3).trans ((A h2).trans (M h1))))
  | whileCond h1 => exact M h1
  | whileBody h1 h2 h3 => exact (M h3).trans ((E h2).trans (M h1))
  | read h1 h2 => exact (M h2).trans (M h1)
  | readNext _ _ _ => exact (N _).trans (N _)
  | write h1 h2 => exact (M h2).trans (M h1)
  | writeArg => rfl
  | writeNext h _ => exact (N _).trans (E h)
  | expression => rfl
  | expressionRest h => exact R h
  | expressionLoop _ => exact N _
  | expressionNext _ h => exact (R h).trans (N _)
  | operand => rfl
  | operandRest h => exact T h
  | operandLoop _ => exact N _
  | operandNext _ h => exact (T h).trans (N _)
  | term => rfl
  | termRest h => exact F h
  | termLoop _ => exact N _
  | termNext _ h => exact (F h).trans (N _)
  | factorNot _ => exact N _
  | factorParen _ => exact N _

/-- Every call made in the course of `ParseProgram` works on the token list given to it. -/
theorem Reached.tokens_eq {ts : List Token} {m : Method} {n : Nat} {p : Syntax}
    (h : Reached ts m n p) : p.tokens = ts := by
  induction h with
  | start => rfl
  | call _ hc ih => exact hc.keeps_tokens.trans ih

/-- What a call made in the course of `ParseProgram` returns, if it is not a state, is what
`ParseProgram` returns. -/
theorem Reached.error_returned {ts : List Token} {m : Method} {n : Nat} {p : Syntax}
    (h : Reached ts m n p) (r : Res) (hr : m.run n p = r) (hnot : ∀ q, r ≠ .ok q) :
    (Syntax.fresh ts).ParseProgram = r := by
  induction h with
  | start => exact hr
  | call _ hc ih => exact ih (hc.propagate r hr hnot)

/-- `ParseProgram` on the fresh state does not run out of its bound. -/
theorem ParseProgram_fresh_total (ts : List Token) :
    (Syntax.fresh ts).ParseProgram ≠ .outOfFuel :=
  ParseProgram_run_total _ _ (by simp only [remaining, Syntax.fresh]; omega)

/-- A check of an undeclared identifier that `ParseProgram` gets to ends `ParseProgram` with
the error of the check. -/
theorem Reached.undeclared {ts : List Token} {m : Method} {n : Nat} {p : Syntax}
    (h : Reached ts m n p)
    (hm : m = .parseAssignment ∨ m = .SyntaxeadIdents ∨ m = .parseFactor)
    (h1 : p.currentToken.Typ = .Identifier) (h2 : p.currentToken.Lexeme ∉ p.vars) :
    (Syntax.fresh ts).ParseProgram = .fail (.undeclaredVariable p.currentToken.Lexeme
      p.currentToken.LineNum p.currentToken.ColNum) p := by
  have ne : ∀ (e : SyntaxError) (a q : Syntax), Res.fail e a ≠ .ok q := fun _ _ _ h => by cases h
  have no : ∀ q : Syntax, Res.outOfFuel ≠ .ok q := fun _ h => by cases h
  rcases hm with rfl | rfl | rfl
  · exact h.error_returned _ (by simp [Method.run, parseAssignment, h1, h2]) (ne _ _)
  · cases n with
    | zero =>
      exact absurd (h.error_returned .outOfFuel (by simp [Method.run, Syntaxead.idents]) no)
        (ParseProgram_fresh_total ts)
    | succ n =>
      exact h.error_returned _ (by simp [Method.run, Syntaxead.idents, h1, h2]) (ne _ _)
  · cases n with
    | zero =>
      exact absurd (h.error_returned .outOfFuel (by simp [Method.run, parseFactor]) no)
        (ParseProgram_fresh_total ts)
    | succ n =>
      exact h.error_returned _ (by simp [Method.run, parseFactor, h1, h2]) (ne _ _)

/-- The current token, when it is an identifier, is the token of the list at the cursor. -/
theorem currentToken_of_identifier (p : Syntax) (h : p.currentToken.Typ = .Identifier) :
    p.tokens[p.pos]? = some p.currentToken := by
  by_cases hlt : p.pos < p.tokens.length
  · simp [currentToken, hlt, List.getElem?_eq_getElem hlt]
  · simp [currentToken, hlt] at h

end Syntax

/-- C4: for every token list, when a call of `parseAssignment`, an iteration of the loop of
`Syntaxead` or a call of `parseFactor` made in the course of `ParseProgram` finds an
Identifier token whose lexeme is not in the symbol table, then that token is the token of
the list at the cursor and `ParseProgram` fails with the undeclared-variable error that
carries the token's lexeme, line and column, the cursor left on the token; each of the three
checks by itself fails so in every state; and after a successful `ParseProgram` every
Identifier token consumed between `begin` and `end` has a lexeme that the declaration section
declares. -/
theorem undeclared_variable :
    (∀ (ts : List Token) (m : Method) (n : Nat) (p : Syntax), Syntax.Reached ts m n p →
      m = .parseAssignment ∨ m = .SyntaxeadIdents ∨ m = .parseFactor →
      p.currentToken.Typ = .Identifier → p.currentToken.Lexeme ∉ p.vars →
      p.tokens = ts ∧ ts[p.pos]? = some p.currentToken ∧
      (Syntax.fresh ts).ParseProgram = .fail (.undeclaredVariable p.currentToken.Lexeme
        p.currentToken.LineNum p.currentToken.ColNum) p) ∧
    (∀ (fuel : Nat) (p : Syntax), p.currentToken.Typ = .Identifier →
      p.currentToken.Lexeme ∉ p.vars →
      Syntax.parseAssignment fuel p = .fail (.undeclaredVariable p.currentToken.Lexeme
        p.currentToken.LineNum p.currentToken.ColNum) p ∧
      Syntax.Syntaxead.idents (fuel + 1) p = .fail (.undeclaredVariable p.currentToken.Lexeme
        p.currentToken.LineNum p.currentToken.ColNum) p ∧
      Syntax.parseFactor (fuel + 1) p = .fail (.undeclaredVariable p.currentToken.Lexeme
        p.currentToken.LineNum p.currentToken.ColNum) p) ∧
    (∀ (ts : List Token) (q : Syntax), (Syntax.fresh ts).ParseProgram = .ok q →
      ∃ (kp kv kb ke dot : Token) (decls stmts : List Token),
        ts.take q.pos = kp :: kv :: decls ++ kb :: stmts ++ [ke, dot] ∧
        Derives .Decls decls ∧ kb.isKw "begin" ∧ ke.isKw "end" ∧
        ∀ t ∈ stmts, t.Typ = .Identifier → t.Lexeme ∈ declaredNames decls) := by
  refine ⟨?_, ?_, ?_⟩
  · intro ts m n p h hm h1 h2
    have ht := h.tokens_eq
    refine ⟨ht, ?_, h.undeclared hm h1 h2⟩
    rw [← ht]
    exact Syntax.currentToken_of_identifier p h1
  · intro fuel p h1 h2
    refine ⟨?_, ?_, ?_⟩
    · simp [Syntax.parseAssignment, h1, h2]
    · simp [Syntax.Syntaxead.idents, h1, h2]
    · simp [Syntax.parseFactor, h1, h2]
  · intro ts q h
    obtain ⟨kp, kv, kb, ke, dot, decls, stmts, c, -, -, h3, h4, -, h6, -, hv, hu⟩ :=
      Syntax.ParseProgram_run_sound _ _ _ h
    refine ⟨kp, kv, kb, ke, dot, decls, stmts, c.take_of_fresh, h3, h4, h6, ?_⟩
    intro t ht hid
    have := hu t ht hid
    rw [hv] at this
    simpa [Syntax.fresh] using this

/-- C4 at `program var x: int; begin y as 1 end.`: `ParseProgram` calls `parseOperations`,
that calls `parseOperation`, that calls `parseAssignment` at the token `y`, which is not
declared; so `ParseProgram` fails with the undeclared-variable error for `y` at line 1,
column 27, and so do the two phases on the text. -/
theorem undeclared_variable_witness :
    Syntax.Reached undeclaredY .parseAssignment 110 ⟨undeclaredY, 7, ["x"]⟩ ∧
    (Syntax.fresh undeclaredY).ParseProgram =
      .fail (.undeclaredVariable "y" 1 27) ⟨undeclaredY, 7, ["x"]⟩ ∧
    analyze unicode.latin1 "program var x: int; begin y as 1 end.".toList =
      .parsed undeclaredY (.fail (.undeclaredVariable "y" 1 27) ⟨undeclaredY, 7, ["x"]⟩) :=
  have reached : Syntax.Reached undeclaredY .parseAssignment 110 ⟨undeclaredY, 7, ["x"]⟩ :=
    .call (.call (.call
      (Syntax.Reached.start : Syntax.Reached undeclaredY .ParseProgram 112
        (Syntax.fresh undeclaredY))
      (.program
        (by decide : (Syntax.fresh undeclaredY).matchToken .Keyword "program" =
          .ok ⟨undeclaredY, 1, []⟩)
        (by decide : Syntax.matchToken ⟨undeclaredY, 1, []⟩ .Keyword "var" =
          .ok ⟨undeclaredY, 2, []⟩)
        (by decide : Syntax.ParseProgram.decls 112 ⟨undeclaredY, 2, []⟩ =
          .ok ⟨undeclaredY, 6, ["x"]⟩)
        (by decide : Syntax.matchToken ⟨undeclaredY, 6, ["x"]⟩ .Keyword "begin" =
          .ok ⟨undeclaredY, 7, ["x"]⟩)))
      (.operations (by decide)))
      (.operationAssign (by decide))
  have failed := (undeclared_variable.1 undeclaredY .parseAssignment 110
    ⟨undeclaredY, 7, ["x"]⟩ reached (Or.inl rfl) (by decide) (by decide)).2.2
  ⟨reached, failed, analyze_of_tokens _ _ _ _ (by decide) failed⟩
